import Mathlib

/-!
# EasySAT: a shallow embedding of the CDCL solver

The definitions below transcribe `heap.hpp`, `EasySAT.hpp` and `EasySAT.cpp`.
C++ vectors are lists, raw per-variable arrays are total functions on the
variable index, machine `int`s are unbounded integers (no claim below depends
on overflow) and `double`s are rationals.  Reads outside a vector, which are
undefined behaviour in the source, return a default value; every theorem
carries the hypotheses that keep the accesses it depends on in range.
Loops are structural recursions on a counter that bounds their iterations.
-/

namespace EasySAT

/-! ## heap.hpp -/

/-- The macro `left(x) = (x << 1 | 1)`. -/
def left (x : Nat) : Nat := 2 * x + 1

/-- The macro `right(x) = ((x + 1) << 1)`. -/
def right (x : Nat) : Nat := (x + 1) * 2

/-- The macro `father(x) = ((x - 1) >> 1)`, only ever dereferenced for `x > 0`. -/
def father (x : Nat) : Nat := (x - 1) / 2

/-- The class `Heap<Comp>`: the vector `heap` of variables and the position map
`pos` (`-1` marks an absent variable).  The comparator member `lt` is passed to
the operations as an argument, since it reads the mutable activity array. -/
structure Heap where
  heap : List Nat
  pos : List Int
deriving DecidableEq

/-- The comparator `GreaterActivity`: `activity[a] > activity[b]`. -/
def GreaterActivity {α : Type} [LinearOrder α] (activity : Nat → α) (a b : Nat) : Bool :=
  decide (activity b < activity a)

namespace Heap

/-- The loop of `Heap::up` followed by its final two writes.  The hole `v`
strictly decreases, so `fuel = v` iterations are enough: once the counter is
spent `v` is `0` and the source loop stops on its `v &&` test. -/
def upLoop (lt : Nat → Nat → Bool) (x : Nat) : Nat → Nat → Heap → Heap
  | 0, v, h => ⟨h.heap.set v x, h.pos.set x (v : Int)⟩
  | fuel + 1, v, h =>
    let p := father v
    if v ≠ 0 ∧ lt x (h.heap.getD p 0) = true then
      upLoop lt x fuel p ⟨h.heap.set v (h.heap.getD p 0), h.pos.set (h.heap.getD p 0) (v : Int)⟩
    else ⟨h.heap.set v x, h.pos.set x (v : Int)⟩

/-- The method `Heap::up(v)`. -/
def up (lt : Nat → Nat → Bool) (h : Heap) (v : Nat) : Heap :=
  upLoop lt (h.heap.getD v 0) v v h

/-- The loop of `Heap::down` followed by its final two writes.  The hole `v`
strictly increases and the loop stops once `left(v)` leaves the vector, so
`heap.size()` iterations are enough. -/
def downLoop (lt : Nat → Nat → Bool) (x : Nat) : Nat → Nat → Heap → Heap
  | 0, v, h => ⟨h.heap.set v x, h.pos.set x (v : Int)⟩
  | fuel + 1, v, h =>
    if left v < h.heap.length then
      let child :=
        if right v < h.heap.length ∧ lt (h.heap.getD (right v) 0) (h.heap.getD (left v) 0) = true
        then right v else left v
      if lt (h.heap.getD child 0) x = true then
        downLoop lt x fuel child
          ⟨h.heap.set v (h.heap.getD child 0), h.pos.set (h.heap.getD child 0) (v : Int)⟩
      else ⟨h.heap.set v x, h.pos.set x (v : Int)⟩
    else ⟨h.heap.set v x, h.pos.set x (v : Int)⟩

/-- The method `Heap::down(v)`. -/
def down (lt : Nat → Nat → Bool) (h : Heap) (v : Nat) : Heap :=
  downLoop lt (h.heap.getD v 0) h.heap.length v h

/-- The method `Heap::empty()`. -/
def empty (h : Heap) : Bool := h.heap.length == 0

/-- The method `Heap::inHeap(n)`. -/
def inHeap (h : Heap) (n : Nat) : Bool := decide (n < h.pos.length) && decide (0 ≤ h.pos.getD n 0)

/-- The method `Heap::update(x)`. -/
def update (lt : Nat → Nat → Bool) (h : Heap) (x : Nat) : Heap :=
  up lt h (h.pos.getD x 0).toNat

/-- The method `Heap::insert(x)`. -/
def insert (lt : Nat → Nat → Bool) (h : Heap) (x : Nat) : Heap :=
  let pos1 := if h.pos.length < x + 1 then h.pos ++ List.replicate (x + 1 - h.pos.length) (-1) else h.pos
  let pos2 := pos1.set x (h.heap.length : Int)
  let heap2 := h.heap ++ [x]
  up lt ⟨heap2, pos2⟩ (pos2.getD x 0).toNat

/-- The method `Heap::pop()`: the returned variable and the heap left behind. -/
def pop (lt : Nat → Nat → Bool) (h : Heap) : Nat × Heap :=
  let x := h.heap.getD 0 0
  let heap1 := h.heap.set 0 (h.heap.getD (h.heap.length - 1) 0)
  let pos1 := (h.pos.set (heap1.getD 0 0) 0).set x (-1)
  let heap2 := heap1.dropLast
  (x, if heap2.length > 1 then down lt ⟨heap2, pos1⟩ 0 else ⟨heap2, pos1⟩)

end Heap

end EasySAT

namespace EasySAT

namespace Heap

/-- The position map and the heap vector describe the same set of variables:
slot `i` holds a variable whose recorded position is `i`, and every variable
with a recorded position sits in that slot. -/
def PosOK (h : Heap) : Prop :=
  (∀ i, i < h.heap.length →
      h.heap.getD i 0 < h.pos.length ∧ h.pos.getD (h.heap.getD i 0) 0 = (i : Int)) ∧
  (∀ n, n < h.pos.length → 0 ≤ h.pos.getD n 0 →
      ∃ i, i < h.heap.length ∧ h.heap.getD i 0 = n)

/-- Max-heap order on activities: no slot holds more activity than its father. -/
def Ordered {α : Type} [LinearOrder α] (act : Nat → α) (h : Heap) : Prop :=
  ∀ i, 0 < i → i < h.heap.length → act (h.heap.getD i 0) ≤ act (h.heap.getD (father i) 0)

/-- A valid heap for the activity array `act`. -/
def Valid {α : Type} [LinearOrder α] (act : Nat → α) (h : Heap) : Prop :=
  PosOK h ∧ Ordered act h

/-- State of a sift loop: variable `x` is held aside while slot `v` is a hole.
Every other slot agrees with the position map, and membership of every
variable other than `x` is as in the heap `h0` the loop started from. -/
structure HoleInv (h0 : Heap) (x v : Nat) (h : Heap) : Prop where
  hv : v < h.heap.length
  hx : x < h.pos.length
  fwd : ∀ i, i < h.heap.length → i ≠ v →
    h.heap.getD i 0 < h.pos.length ∧ h.pos.getD (h.heap.getD i 0) 0 = (i : Int) ∧
      h.heap.getD i 0 ≠ x
  bwd : ∀ n, n < h.pos.length → n ≠ x → 0 ≤ h.pos.getD n 0 →
    ∃ i, i < h.heap.length ∧ i ≠ v ∧ h.heap.getD i 0 = n
  lenHeap : h.heap.length = h0.heap.length
  lenPos : h.pos.length = h0.pos.length
  same : ∀ n, n ≠ x → (0 ≤ h.pos.getD n 0 ↔ 0 ≤ h0.pos.getD n 0)

/-- Order facts kept by the loop of `up`: every father/child pair not touching
the hole is in order, and the children of the hole are below both `x` and the
hole's father. -/
structure UpOrd {α : Type} [LinearOrder α] (act : Nat → α) (x v : Nat) (h : Heap) : Prop where
  par : ∀ i, 0 < i → i < h.heap.length → i ≠ v → father i ≠ v →
    act (h.heap.getD i 0) ≤ act (h.heap.getD (father i) 0)
  chi : ∀ i, 0 < i → i < h.heap.length → father i = v →
    act (h.heap.getD i 0) ≤ act x ∧
      (v ≠ 0 → act (h.heap.getD i 0) ≤ act (h.heap.getD (father v) 0))

/-- Order facts kept by the loop of `down`: every father/child pair not touching
the hole is in order, `x` is below the hole's father, and so are the hole's
children. -/
structure DownOrd {α : Type} [LinearOrder α] (act : Nat → α) (x v : Nat) (h : Heap) : Prop where
  par : ∀ i, 0 < i → i < h.heap.length → i ≠ v → father i ≠ v →
    act (h.heap.getD i 0) ≤ act (h.heap.getD (father i) 0)
  top : v ≠ 0 → act x ≤ act (h.heap.getD (father v) 0)
  gc : v ≠ 0 → ∀ i, 0 < i → i < h.heap.length → father i = v →
    act (h.heap.getD i 0) ≤ act (h.heap.getD (father v) 0)

/-- What a sift loop guarantees about the heap it returns, relative to the
heap `h0` it started from and the variable `x` it was moving. -/
def SiftPost {α : Type} [LinearOrder α] (act : Nat → α) (h0 : Heap) (x : Nat) (h1 : Heap) : Prop :=
  Valid act h1 ∧ h1.heap.length = h0.heap.length ∧ h1.pos.length = h0.pos.length ∧
    (∀ n, n ≠ x → (0 ≤ h1.pos.getD n 0 ↔ 0 ≤ h0.pos.getD n 0)) ∧ 0 ≤ h1.pos.getD x 0

/-- Heaps built from the empty heap by `insert` of an absent variable, `pop`
from a non-empty heap, and `update(v)` of a member `v` called right after the
activity of `v` was raised (the activities of the other members unchanged).
The index is the activity array current at that point. -/
inductive Built {α : Type} [LinearOrder α] : (Nat → α) → Heap → Prop where
  | empty (act : Nat → α) : Built act ⟨[], []⟩
  | insert {act : Nat → α} {h : Heap} (x : Nat) :
      Built act h → inHeap h x = false → Built act (insert (GreaterActivity act) h x)
  | pop {act : Nat → α} {h : Heap} :
      Built act h → h.heap ≠ [] → Built act (pop (GreaterActivity act) h).2
  | update {act : Nat → α} {h : Heap} (act2 : Nat → α) (v : Nat) :
      Built act h → inHeap h v = true → act v ≤ act2 v →
      (∀ w, inHeap h w = true → w ≠ v → act2 w = act w) →
      Built act2 (update (GreaterActivity act2) h v)

/-- Sample activities: variable 2 has 9, variable 3 has 7, all others 5. -/
def exampleAct (n : Nat) : Nat := if n = 2 then 9 else if n = 3 then 7 else 5

/-- Sample heap: variables 1, 2, 3 inserted in turn into the empty heap. -/
def exampleHeap : Heap :=
  insert (GreaterActivity exampleAct)
    (insert (GreaterActivity exampleAct) (insert (GreaterActivity exampleAct) ⟨[], []⟩ 1) 2) 3

end Heap

end EasySAT

namespace EasySAT

/-! ## EasySAT.hpp -/

/-- The class `Clause`: the LBD score and the literals. -/
structure Clause where
  lbd : Int
  lit : List Int
deriving DecidableEq

instance : Inhabited Clause := ⟨⟨0, []⟩⟩

/-- The class `Watcher`: a clause index and a blocker literal. -/
structure Watcher where
  idx_clause : Nat
  blocker : Int
deriving DecidableEq

instance : Inhabited Watcher := ⟨⟨0, 0⟩⟩

/-- The class `Solver`.  The per-variable arrays (`value`, `reason`, `level`,
`mark`, `local_best`, `saved`, `activity`) are functions of the variable, the
array `watches` is a function of the literal (the macro `watch(id)` hides the
offset `vars + id`), and `lbd_queue` is a function of the slot. -/
structure Solver where
  learnt : List Int
  trail : List Int
  pos_in_trail : List Nat
  reduce_map : List Int
  clause_DB : List Clause
  watches : Int → List Watcher
  vars : Int
  clauses : Int
  origin_clauses : Nat
  conflicts : Nat
  restarts : Nat
  rephases : Nat
  reduces : Nat
  rephase_limit : Nat
  reduce_limit : Nat
  threshold : Int
  propagated : Nat
  time_stamp : Nat
  lbd_queue : Nat → Int
  lbd_queue_size : Nat
  lbd_queue_pos : Nat
  fast_lbd_sum : ℚ
  slow_lbd_sum : ℚ
  value : Nat → Int
  reason : Nat → Int
  level : Nat → Nat
  mark : Nat → Nat
  local_best : Nat → Int
  saved : Nat → Int
  activity : Nat → ℚ
  var_inc : ℚ
  vsids : Heap

/-- The vector method `resize(n, d)`: truncate, or pad with `d`. -/
def resize {α : Type} (l : List α) (n : Nat) (d : α) : List α :=
  l.take n ++ List.replicate (n - l.length) d

/-- The macro `value(lit) = (lit > 0 ? value[lit] : -value[-lit])`. -/
def litValue (value : Nat → Int) (lit : Int) : Int :=
  if lit > 0 then value lit.toNat else - value (-lit).toNat

/-- The sign of a literal, as the source computes it: `lit > 0 ? 1 : -1`. -/
def litSign (lit : Int) : Int := if lit > 0 then 1 else -1

namespace Solver

/-- A default-constructed `Solver`: empty vectors; the fields the constructor
leaves uninitialised are given the value zero. -/
def init : Solver :=
  { learnt := [], trail := [], pos_in_trail := [], reduce_map := [], clause_DB := [],
    watches := fun _ => [], vars := 0, clauses := 0, origin_clauses := 0, conflicts := 0,
    restarts := 0, rephases := 0, reduces := 0, rephase_limit := 0, reduce_limit := 0,
    threshold := 0, propagated := 0, time_stamp := 0, lbd_queue := fun _ => 0,
    lbd_queue_size := 0, lbd_queue_pos := 0, fast_lbd_sum := 0, slow_lbd_sum := 0,
    value := fun _ => 0, reason := fun _ => 0, level := fun _ => 0, mark := fun _ => 0,
    local_best := fun _ => 0, saved := fun _ => 0, activity := fun _ => 0, var_inc := 0,
    vsids := ⟨[], []⟩ }

/-! ## EasySAT.cpp -/

/-- The method `Solver::add_clause(c)`: the new clause index and the new state. -/
def add_clause (s : Solver) (c : List Int) : Nat × Solver :=
  let id := s.clause_DB.length
  let w1 := Function.update s.watches (-(c.getD 0 0))
    (s.watches (-(c.getD 0 0)) ++ [⟨id, c.getD 1 0⟩])
  let w2 := Function.update w1 (-(c.getD 1 0)) (w1 (-(c.getD 1 0)) ++ [⟨id, c.getD 0 0⟩])
  (id, { s with clause_DB := s.clause_DB ++ [⟨0, c⟩], watches := w2 })

/-- The loop `for (i = 1; i <= vars; i++) ..., vsids.insert(i)` of
`alloc_memory`, run for `n` more variables starting at `i`; all activities
are zero there. -/
def allocLoop (lt : Nat → Nat → Bool) : Nat → Nat → Heap → Heap
  | 0, _, h => h
  | n + 1, i, h => allocLoop lt n (i + 1) (Heap.insert lt h i)

/-- The method `Solver::alloc_memory()`. -/
def alloc_memory (s : Solver) : Solver :=
  { s with
    value := fun _ => 0, reason := fun _ => 0, level := fun _ => 0, mark := fun _ => 0,
    local_best := fun _ => 0, saved := fun _ => 0, activity := fun _ => 0,
    watches := fun _ => [],
    conflicts := 0, time_stamp := 0, propagated := 0, restarts := 0, rephases := 0,
    reduces := 0, threshold := 0,
    fast_lbd_sum := 0, lbd_queue_size := 0, lbd_queue_pos := 0, slow_lbd_sum := 0,
    var_inc := 1, rephase_limit := 1024, reduce_limit := 8192,
    vsids := allocLoop (GreaterActivity (fun _ => (0 : ℚ))) s.vars.toNat 1 s.vsids }

/-- The method `Solver::bump_var(var, coeff)`. -/
def bump_var (s : Solver) (var : Nat) (coeff : ℚ) : Solver :=
  let act1 := Function.update s.activity var (s.activity var + s.var_inc * coeff)
  let s1 : Solver :=
    if act1 var > 10 ^ 100 then
      { s with
        activity := fun i => if 1 ≤ (i : Int) ∧ (i : Int) ≤ s.vars then act1 i * (1 / 10 ^ 100)
          else act1 i,
        var_inc := s.var_inc * (1 / 10 ^ 100) }
    else { s with activity := act1 }
  if s1.vsids.inHeap var then
    { s1 with vsids := Heap.update (GreaterActivity s1.activity) s1.vsids var }
  else s1

/-- The method `Solver::assign(lit, l, cref)`. -/
def assign (s : Solver) (lit : Int) (l : Nat) (cref : Int) : Solver :=
  { s with
    value := Function.update s.value lit.natAbs (litSign lit),
    level := Function.update s.level lit.natAbs l,
    reason := Function.update s.reason lit.natAbs cref,
    trail := s.trail ++ [lit] }

/-- The scan `for (k = 2; k < sz && value(c[k]) == -1; k++);` of `propagate`,
from position `k`; `fuel` bounds the remaining steps. -/
def findWatch (value : Nat → Int) (lits : List Int) : Nat → Nat → Nat
  | 0, k => k
  | fuel + 1, k =>
    if k < lits.length ∧ litValue value (lits.getD k 0) = -1 then findWatch value lits fuel (k + 1)
    else k

/-- The loop `while (i < size) ws[j++] = ws[i++];` of `propagate`, run for
`n = size - i` steps: the watch list and the final `j`. -/
def copyTail : Nat → Nat → Nat → List Watcher → List Watcher × Nat
  | 0, _, j, ws => (ws, j)
  | n + 1, i, j, ws => copyTail n (i + 1) (j + 1) (ws.set j (ws.getD i default))

/-- Write the watch list of literal `p`. -/
def setWatch (s : Solver) (p : Int) (ws : List Watcher) : Solver :=
  { s with watches := Function.update s.watches p ws }

/-- Write clause `cref` of the database. -/
def setClause (s : Solver) (cref : Nat) (c : Clause) : Solver :=
  { s with clause_DB := s.clause_DB.set cref c }

/-- The statement `if (c[0] == -p) c[0] = c[1], c[1] = -p;` of `propagate`. -/
def swapWatched (c : Clause) (p : Int) : Clause :=
  if c.lit.getD 0 0 = -p then { c with lit := (c.lit.set 0 (c.lit.getD 1 0)).set 1 (-p) }
  else c

/-- The statement `c[1] = c[k], c[k] = -p;` of `propagate`. -/
def moveWatch (c : Clause) (k : Nat) (p : Int) : Clause :=
  { c with lit := (c.lit.set 1 (c.lit.getD k 0)).set k (-p) }

/-- How one iteration of the watch loop of `propagate` ends: it goes on with a
new write index `j`, or `propagate` returns the index of a conflicting
clause. -/
inductive WatchStep where
  | next (j : Nat) (s : Solver)
  | conflict (cref : Nat) (s : Solver)

/-- The body of the loop `for (i = j = 0; i < size; )` of `propagate` over the
watch list of the trail literal `p`, at read index `i` and write index `j`,
with `n = size - i - 1` watchers behind the current one. -/
def watchStep (p : Int) (n i j : Nat) (s : Solver) : WatchStep :=
  let ws := s.watches p
  let blocker := (ws.getD i default).blocker
  if litValue s.value blocker = 1 then
    WatchStep.next (j + 1) (setWatch s p (ws.set j (ws.getD i default)))
  else
    let cref := (ws.getD i default).idx_clause
    let c1 := swapWatched (s.clause_DB.getD cref default) p
    let s1 := setClause s cref c1
    let w : Watcher := ⟨cref, c1.lit.getD 0 0⟩
    if litValue s1.value (c1.lit.getD 0 0) = 1 then
      WatchStep.next (j + 1) (setWatch s1 p ((s1.watches p).set j w))
    else
      let k := findWatch s1.value c1.lit c1.lit.length 2
      if k < c1.lit.length then
        let c2 := moveWatch c1 k p
        let s2 := setClause s1 cref c2
        let q := -(c2.lit.getD 1 0)
        WatchStep.next j (setWatch s2 q (s2.watches q ++ [w]))
      else
        let s2 := setWatch s1 p ((s1.watches p).set j w)
        if litValue s2.value (c1.lit.getD 0 0) = -1 then
          let r := copyTail n (i + 1) (j + 1) (s2.watches p)
          WatchStep.conflict cref (setWatch s2 p (resize r.1 r.2 default))
        else
          WatchStep.next (j + 1) (assign s2 (c1.lit.getD 0 0) (s2.level p.natAbs) (cref : Int))

/-- The loop `for (i = j = 0; i < size; )` of `propagate` over the watch list
of the trail literal `p`, run for `n = size - i` more watchers, followed by
`ws.resize(j)`.  Returns the index of a conflicting clause, if one was met. -/
def propagateWatches (p : Int) : Nat → Nat → Nat → Solver → Option Nat × Solver
  | 0, _, j, s => (none, setWatch s p (resize (s.watches p) j default))
  | n + 1, i, j, s =>
    match watchStep p n i j s with
    | WatchStep.next j2 s2 => propagateWatches p n (i + 1) j2 s2
    | WatchStep.conflict cref s2 => (some cref, s2)

/-- The method `Solver::propagate()`: the loop `while (propagated <
trail.size())`, run for at most `fuel` trail literals.  The result is `none`
when the fuel runs out first, and otherwise the returned value (`-1` or the
index of the conflicting clause) with the new state. -/
def propagate : Nat → Solver → Option (Int × Solver)
  | 0, s => if s.propagated < s.trail.length then none else some (-1, s)
  | fuel + 1, s =>
    if s.propagated < s.trail.length then
      let p := s.trail.getD s.propagated 0
      let s1 := { s with propagated := s.propagated + 1 }
      match propagateWatches p (s1.watches p).length 0 0 s1 with
      | (some cref, s2) => some ((cref : Int), s2)
      | (none, s2) => propagate fuel s2
    else some (-1, s)

/-- The body of the loop of `backtrack` for the trail literal `lit`: clear the
value, save the phase, and put the variable back into the heap if absent. -/
def unassign (s : Solver) (lit : Int) : Solver :=
  let s1 : Solver :=
    { s with
      value := Function.update s.value lit.natAbs 0,
      saved := Function.update s.saved lit.natAbs (litSign lit) }
  if s1.vsids.inHeap lit.natAbs then s1
  else { s1 with vsids := Heap.insert (GreaterActivity s1.activity) s1.vsids lit.natAbs }

/-- The loop of `backtrack`, for the trail indices `bound + n - 1` down to
`bound`. -/
def backtrackLoop (bound : Nat) : Nat → Solver → Solver
  | 0, s => s
  | n + 1, s => backtrackLoop bound n (unassign s (s.trail.getD (bound + n) 0))

/-- The method `Solver::backtrack(backtrackLevel)`. -/
def backtrack (s : Solver) (backtrackLevel : Nat) : Solver :=
  if s.pos_in_trail.length ≤ backtrackLevel then s
  else
    let bound := s.pos_in_trail.getD backtrackLevel 0
    let s1 := backtrackLoop bound (s.trail.length - bound) s
    { s1 with
      propagated := bound,
      trail := resize s1.trail bound 0,
      pos_in_trail := resize s1.pos_in_trail backtrackLevel 0 }

/-- The loop `while (next == -1 || value(next) != 0)` of `decide`: `some next`
when it ends with an unassigned variable, `none` when the heap is found empty
(the source returns 10).  Each iteration pops one variable, so `fuel` counts
the variables still in the heap; the outer `Option` is `none` when the fuel
runs out. -/
def decideLoop : Nat → Int → Solver → Option (Option Int × Solver)
  | fuel, next, s =>
    if next = -1 ∨ litValue s.value next ≠ 0 then
      if s.vsids.empty then some (none, s)
      else
        match fuel with
        | 0 => none
        | fuel + 1 =>
          let r := Heap.pop (GreaterActivity s.activity) s.vsids
          decideLoop fuel (r.1 : Int) { s with vsids := r.2 }
    else some (some next, s)

/-- The method `Solver::decide()`: the returned code (0 or 10) and the new
state. -/
def decide (s : Solver) : Option (Int × Solver) :=
  match decideLoop s.vsids.heap.length (-1) s with
  | none => none
  | some (none, s1) => some (10, s1)
  | some (some next, s1) =>
    let s2 := { s1 with pos_in_trail := s1.pos_in_trail ++ [s1.trail.length] }
    let next2 := if s2.saved next.toNat ≠ 0 then next * s2.saved next.toNat else next
    some (0, assign s2 next2 s2.pos_in_trail.length (-1))

end Solver

end EasySAT

namespace EasySAT

namespace Solver

/-- The `else` branch of the first loop of `reduce`: clause `i` is kept and
moved down to index `new_size`. -/
def reduceKeep (s : Solver) (i new_size : Nat) : Solver :=
  { s with
    clause_DB :=
      if new_size ≠ i then s.clause_DB.set new_size (s.clause_DB.getD i default)
      else s.clause_DB,
    reduce_map := s.reduce_map.set i (new_size : Int) }

/-- The first loop of `reduce`, for the clause indices `i, i + 1, ...`
(`n` of them).  `coins` is the stream of values returned by `rand()`; a value
is consumed only when the test `clause_DB[i].lbd >= 5` holds.  Returns the new
state, the final `new_size` and the rest of the stream. -/
def reduceLoop : Nat → Nat → Nat → (Nat → Nat) → Solver → Solver × Nat × (Nat → Nat)
  | 0, _, new_size, coins, s => (s, new_size, coins)
  | n + 1, i, new_size, coins, s =>
    if (s.clause_DB.getD i default).lbd ≥ 5 then
      if coins 0 % 2 = 0 then
        reduceLoop n (i + 1) new_size (fun t => coins (t + 1))
          { s with reduce_map := s.reduce_map.set i (-1) }
      else reduceLoop n (i + 1) (new_size + 1) (fun t => coins (t + 1)) (reduceKeep s i new_size)
    else reduceLoop n (i + 1) (new_size + 1) coins (reduceKeep s i new_size)

/-- The inner loop of the watch update of `reduce` over one watch list, for
the positions `i, i + 1, ...` (`n` of them): the list and the final `new_sz`. -/
def remapLoop (origin_clauses : Nat) (reduce_map : List Int) :
    Nat → Nat → Nat → List Watcher → List Watcher × Nat
  | 0, _, new_sz, ws => (ws, new_sz)
  | n + 1, i, new_sz, ws =>
    let old_idx := (ws.getD i default).idx_clause
    let new_idx : Int := if old_idx < origin_clauses then (old_idx : Int) else reduce_map.getD old_idx 0
    if new_idx ≠ -1 then
      let ws1 := ws.set i { ws.getD i default with idx_clause := new_idx.toNat }
      let ws2 := if new_sz ≠ i then ws1.set new_sz (ws1.getD i default) else ws1
      remapLoop origin_clauses reduce_map n (i + 1) (new_sz + 1) ws2
    else remapLoop origin_clauses reduce_map n (i + 1) new_sz ws

/-- The method `Solver::reduce()`, with the stream `coins` of values returned by
`rand()`; also returns the rest of the stream. -/
def reduce (s : Solver) (coins : Nat → Nat) : Solver × (Nat → Nat) :=
  let s1 := backtrack s 0
  let s2 : Solver := { s1 with reduces := 0, reduce_limit := s1.reduce_limit + 512 }
  let old_size := s2.clause_DB.length
  let s3 : Solver := { s2 with reduce_map := resize s2.reduce_map old_size 0 }
  let r := reduceLoop (old_size - s3.origin_clauses) s3.origin_clauses s3.origin_clauses coins s3
  let s4 : Solver := { r.1 with clause_DB := resize r.1.clause_DB r.2.1 ⟨0, []⟩ }
  ({ s4 with
      watches := fun v =>
        if v ≠ 0 ∧ -s4.vars ≤ v ∧ v ≤ s4.vars then
          let m := remapLoop s4.origin_clauses s4.reduce_map (s4.watches v).length 0 0 (s4.watches v)
          resize m.1 m.2 default
        else s4.watches v },
    r.2.2)

/-- The method `Solver::restart()`, with the stream `coins` of values returned
by `rand()`; also returns the rest of the stream. -/
def restart (s : Solver) (coins : Nat → Nat) : Solver × (Nat → Nat) :=
  let s1 : Solver := { s with fast_lbd_sum := 0, lbd_queue_size := 0, lbd_queue_pos := 0 }
  let s2 := backtrack s1 0
  let phase_rand : Int := ((coins 0 % 100 : Nat) : Int)
  let isVar (i : Nat) : Prop := 1 ≤ (i : Int) ∧ (i : Int) ≤ s2.vars
  if phase_rand - 60 < 0 then
    ({ s2 with saved := fun i => if isVar i then s2.local_best i else s2.saved i },
      fun t => coins (t + 1))
  else if phase_rand - 60 - 5 < 0 then
    ({ s2 with saved := fun i => if isVar i then - s2.local_best i else s2.saved i },
      fun t => coins (t + 1))
  else if phase_rand - 60 - 5 - 20 < 0 then
    ({ s2 with saved := fun i => if isVar i then (if coins i % 2 ≠ 0 then 1 else -1) else s2.saved i },
      fun t => coins (t + 1 + s2.vars.toNat))
  else (s2, fun t => coins (t + 1))

/-- The method `Solver::rephase()`; the product `threshold * 0.9` is truncated
towards zero on assignment to the `int` field. -/
def rephase (s : Solver) : Solver :=
  { s with
    rephases := 0,
    threshold := Int.tdiv (s.threshold * 9) 10,
    rephase_limit := s.rephase_limit + 8192 }

end Solver

/-! ## The parser -/

/-- The character under the pointer: the file is followed by `'\0'`. -/
def cur (p : List Char) : Char := p.headD (Char.ofNat 0)

/-- The function `read_whitespace`. -/
def read_whitespace : List Char → List Char
  | [] => []
  | c :: cs =>
    if (9 ≤ c.toNat ∧ c.toNat ≤ 13) ∨ c.toNat = 32 then read_whitespace cs else c :: cs

/-- The function `read_until_new_line`; `none` stands for `exit(1)`. -/
def read_until_new_line : List Char → Option (List Char)
  | [] => none
  | c :: cs =>
    if c = '\n' then some cs
    else if c.toNat = 0 then none
    else read_until_new_line cs

/-- The digit loop of `read_int`.  The number is accumulated in an unbounded
integer; the source accumulates it in a 32-bit `int`, so the two agree on the
numerals below `2^31`. -/
def read_digits : Int → List Char → Int × List Char
  | i, [] => (i, [])
  | i, c :: cs =>
    if 48 ≤ c.toNat ∧ c.toNat ≤ 57 then read_digits (i * 10 + (c.toNat : Int) - 48) cs
    else (i, c :: cs)

/-- The function `read_int`: the new pointer and the integer read. -/
def read_int (p : List Char) : List Char × Int :=
  let p1 := read_whitespace p
  let sym := decide (cur p1 ≠ '-')
  let p2 := if cur p1 = '-' then p1.tail else p1
  let r := read_digits 0 p2
  (r.2, if sym then r.1 else -r.1)

/-- How a call of `parse` ends: the process exits with a status, or the call
returns a code (0 or 20) in some solver state. -/
inductive ParseResult where
  | exit (status : Nat)
  | ret (code : Int) (s : Solver)

namespace Solver

/-- The end of `parse`: record `origin_clauses` and run `propagate` (with
`pfuel` iterations allowed). -/
def parseFinish (pfuel : Nat) (s : Solver) : Option ParseResult :=
  match propagate pfuel { s with origin_clauses := s.clause_DB.length } with
  | none => none
  | some (r, s1) => some (ParseResult.ret (if r = -1 then 0 else 20) s1)

/-- The loop `while (*p != '\0')` of `parse`, at most `fuel` iterations, with
the pending clause `buffer`.  `none` when a fuel runs out. -/
def parseLoop (pfuel : Nat) : Nat → List Char → List Int → Solver → Option ParseResult
  | 0, _, _, _ => none
  | fuel + 1, p, buffer, s =>
    if (cur p).toNat = 0 then parseFinish pfuel s
    else
      let p := read_whitespace p
      if (cur p).toNat = 0 then parseFinish pfuel s
      else if cur p = 'c' then
        match read_until_new_line p with
        | none => some (ParseResult.exit 1)
        | some p1 => parseLoop pfuel fuel p1 buffer s
      else if cur p = 'p' then
        if p.getD 1 (Char.ofNat 0) = ' ' ∧ p.getD 2 (Char.ofNat 0) = 'c' ∧
            p.getD 3 (Char.ofNat 0) = 'n' ∧ p.getD 4 (Char.ofNat 0) = 'f' then
          let r1 := read_int (p.drop 5)
          let r2 := read_int r1.1
          parseLoop pfuel fuel r2.1 buffer (alloc_memory { s with vars := r1.2, clauses := r2.2 })
        else some (ParseResult.exit 2)
      else
        let r := read_int p
        if (cur r.1).toNat = 0 ∧ r.2 ≠ 0 then some (ParseResult.exit 1)
        else if r.2 = 0 then
          if buffer.length = 0 then some (ParseResult.ret 20 s)
          else if buffer.length = 1 ∧ litValue s.value (buffer.getD 0 0) = -1 then
            some (ParseResult.ret 20 s)
          else if buffer.length = 1 ∧ litValue s.value (buffer.getD 0 0) = 0 then
            parseLoop pfuel fuel r.1 [] (assign s (buffer.getD 0 0) 0 (-1))
          else if buffer.length > 1 then
            parseLoop pfuel fuel r.1 [] (add_clause s buffer).2
          else parseLoop pfuel fuel r.1 [] s
        else parseLoop pfuel fuel r.1 (buffer ++ [r.2]) s

/-- The method `Solver::parse`, on the content `data` of the file, from a
default-constructed solver. -/
def parse (fuel : Nat) (data : List Char) : Option ParseResult :=
  parseLoop fuel fuel data [] init

end Solver

end EasySAT

namespace EasySAT

/-- The code returned by `parse`, when it returned. -/
def ParseResult.returned : ParseResult → Option Int
  | ParseResult.exit _ => none
  | ParseResult.ret code _ => some code

/-- The exit status, when `parse` terminated the process. -/
def ParseResult.exited : ParseResult → Option Nat
  | ParseResult.exit status => some status
  | ParseResult.ret _ _ => none

/-- The clause database left by `parse`, when it returned. -/
def ParseResult.clauses : ParseResult → List (List Int)
  | ParseResult.exit _ => []
  | ParseResult.ret _ s => s.clause_DB.map Clause.lit

/-- A character that starts no DIMACS token: not white space, not the end of
the file, not `c`, not `p`, not a sign and not a digit. -/
def BadChar (c : Char) : Prop :=
  ¬ ((9 ≤ c.toNat ∧ c.toNat ≤ 13) ∨ c.toNat = 32) ∧ c.toNat ≠ 0 ∧ c ≠ 'c' ∧ c ≠ 'p' ∧
    c ≠ '-' ∧ ¬ (48 ≤ c.toNat ∧ c.toNat ≤ 57)

instance (c : Char) : Decidable (BadChar c) := by unfold BadChar; infer_instance

/-- Input with the letter `x` where the first literal is expected. -/
def badCharInput : List Char := "p cnf 2 1\nx 2 0\n".toList

/-- Input whose last clause `-1` is followed by a newline and the end of the
file, without its terminating `0`. -/
def unterminatedInput : List Char := "p cnf 1 2\n1 0\n-1\n".toList

end EasySAT

namespace EasySAT

namespace Solver

/-- The index `v` is a variable of the solver: `1 ≤ v ≤ vars`. -/
def IsVar (s : Solver) (v : Nat) : Prop := 1 ≤ v ∧ (v : Int) ≤ s.vars

/-- Typing of the decision heap and of the saved phases: the heap holds
variables only, and every saved phase is a sign or zero. -/
def HeapTyped (s : Solver) : Prop :=
  (∀ v, s.vsids.inHeap v = true → IsVar s v) ∧
  (∀ v, IsVar s v → s.saved v = 0 ∨ s.saved v = 1 ∨ s.saved v = -1)

/-- Heap completeness: every unassigned variable is in the heap. -/
def HeapComplete (s : Solver) : Prop :=
  ∀ v, IsVar s v → s.value v = 0 → s.vsids.inHeap v = true

/-- The literal `decide` assigns for variable `v`: the sign `saved[v]` when it
is nonzero, the positive literal otherwise. -/
def decisionLit (s : Solver) (v : Nat) : Int :=
  if s.saved v = 0 then (v : Int) else if s.saved v > 0 then (v : Int) else -(v : Int)

/-- A sample state with three variables: variable 1 is true at level 0, the
heap holds all three variables, and the saved phase of variable 2 is `-1`. -/
def exampleState : Solver :=
  { init with
    vars := 3, trail := [1], propagated := 1,
    value := fun v => if v = 1 then 1 else 0,
    reason := fun _ => -1,
    saved := fun v => if v = 2 then -1 else 0,
    activity := fun v => if v = 2 then 9 else if v = 3 then 7 else 5,
    vsids := ⟨[2, 1, 3], [-1, 1, 0, 2]⟩ }

end Solver

end EasySAT

namespace EasySAT

namespace Solver

/-- Trail consistency: the literal at position `i` of the trail is true, and
the level of its variable is the number of entries of the decision-level table
that are at most `i`. -/
def TrailConsistent (s : Solver) : Prop :=
  ∀ i, i < s.trail.length →
    s.value (s.trail.getD i 0).natAbs = litSign (s.trail.getD i 0) ∧
    s.level (s.trail.getD i 0).natAbs = s.pos_in_trail.countP (fun b => Nat.ble b i)

/-- The decision-level table lists trail positions in nondecreasing order. -/
def TableSorted (s : Solver) : Prop :=
  (∀ i j, i ≤ j → j < s.pos_in_trail.length →
    s.pos_in_trail.getD i 0 ≤ s.pos_in_trail.getD j 0) ∧
  (∀ i, i < s.pos_in_trail.length → s.pos_in_trail.getD i 0 ≤ s.trail.length)

/-- The effect claimed for `backtrack(L)`. -/
def BacktrackClaim (s : Solver) (L : Nat) : Prop :=
  (s.pos_in_trail.length ≤ L → backtrack s L = s) ∧
  (L < s.pos_in_trail.length →
    (backtrack s L).trail = s.trail.take (s.pos_in_trail.getD L 0) ∧
    (backtrack s L).trail.length = s.pos_in_trail.getD L 0 ∧
    (backtrack s L).propagated = s.pos_in_trail.getD L 0 ∧
    (backtrack s L).pos_in_trail = s.pos_in_trail.take L ∧
    (backtrack s L).pos_in_trail.length = L ∧
    (∀ i, i < s.trail.length →
      (s.pos_in_trail.getD L 0 ≤ i ↔ L < s.level (s.trail.getD i 0).natAbs)) ∧
    (∀ i, s.pos_in_trail.getD L 0 ≤ i → i < s.trail.length →
      (backtrack s L).value (s.trail.getD i 0).natAbs = 0 ∧
      (backtrack s L).saved (s.trail.getD i 0).natAbs = litSign (s.trail.getD i 0) ∧
      (backtrack s L).vsids.inHeap (s.trail.getD i 0).natAbs = true) ∧
    (∀ i, i < s.pos_in_trail.getD L 0 → i < s.trail.length →
      (backtrack s L).value (s.trail.getD i 0).natAbs = s.value (s.trail.getD i 0).natAbs ∧
      (backtrack s L).level (s.trail.getD i 0).natAbs = s.level (s.trail.getD i 0).natAbs ∧
      (backtrack s L).reason (s.trail.getD i 0).natAbs = s.reason (s.trail.getD i 0).natAbs))

/-- A state whose decision-level table is out of order: both trail literals
are at level 1, the table is `[2, 0]`. -/
def unsortedState : Solver :=
  { init with
    vars := 2, trail := [1, 2], pos_in_trail := [2, 0], propagated := 2,
    value := fun v => if v = 1 ∨ v = 2 then 1 else 0,
    level := fun v => if v = 1 ∨ v = 2 then 1 else 0,
    reason := fun _ => -1 }

/-- A state whose decision-level table points past the end of the trail. -/
def overrunState : Solver :=
  { init with vars := 2, trail := [], pos_in_trail := [3], propagated := 0 }

/-- A state with two decision levels: `1` at level 0, `-2, 3` at level 1 and
`4` at level 2; variable 4 is not in the heap. -/
def twoLevelState : Solver :=
  { init with
    vars := 4, trail := [1, -2, 3, 4], pos_in_trail := [1, 3], propagated := 4,
    value := fun v => if v = 2 then -1 else if v = 1 ∨ v = 3 ∨ v = 4 then 1 else 0,
    level := fun v => if v = 2 ∨ v = 3 then 1 else if v = 4 then 2 else 0,
    reason := fun _ => -1,
    vsids := ⟨[1, 2, 3], [-1, 0, 1, 2, -1]⟩ }

end Solver

end EasySAT

namespace EasySAT

namespace Solver

/-- The learnt clauses that survive a reduction, in the words of the
specification: a learnt clause with LBD at least 5 is deleted when the coin
drawn for it is even and kept otherwise; a learnt clause with LBD below 5 is
kept and draws no coin.  The clauses keep their order. -/
def survivors : (Nat → Nat) → List Clause → List Clause
  | _, [] => []
  | coins, c :: cs =>
    if c.lbd ≥ 5 then
      if coins 0 % 2 = 0 then survivors (fun t => coins (t + 1)) cs
      else c :: survivors (fun t => coins (t + 1)) cs
    else c :: survivors coins cs

/-- The effect claimed for `reduce` on the clause store: the original clauses
stay at their indices, and the store becomes the originals followed by the
surviving learnt clauses, which are a subsequence of the learnt clauses that
contains every learnt clause of LBD below 5. -/
def ReduceClaim (s : Solver) (coins : Nat → Nat) : Prop :=
  (∀ i, i < s.origin_clauses →
    (reduce s coins).1.clause_DB.getD i default = s.clause_DB.getD i default) ∧
  (reduce s coins).1.clause_DB =
    s.clause_DB.take s.origin_clauses ++ survivors coins (s.clause_DB.drop s.origin_clauses) ∧
  (survivors coins (s.clause_DB.drop s.origin_clauses)).Sublist
    (s.clause_DB.drop s.origin_clauses) ∧
  (survivors coins (s.clause_DB.drop s.origin_clauses)).filter (fun c => Decidable.decide (c.lbd < 5)) =
    (s.clause_DB.drop s.origin_clauses).filter (fun c => Decidable.decide (c.lbd < 5))

/-- A state that counts one original clause while its store is empty. -/
def miscountState : Solver := { init with origin_clauses := 1 }

/-- A state with one original clause and three learnt clauses of LBD 2, 7
and 6. -/
def learntState : Solver :=
  { init with
    vars := 3, origin_clauses := 1,
    clause_DB := [⟨0, [1, 2]⟩, ⟨2, [-1, 3]⟩, ⟨7, [1, -2, 3]⟩, ⟨6, [-1, -3]⟩] }

/-- A stream of coins: even, odd, even, odd, ... -/
def exampleCoins (t : Nat) : Nat := t

end Solver

end EasySAT

namespace EasySAT

namespace Solver

/-- The number of watchers of a list that refer to clause `cref`. -/
def countIdx (cref : Nat) (ws : List Watcher) : Nat :=
  ws.countP (fun w => Decidable.decide (w.idx_clause = cref))

/-- The number of watched positions (0 and 1) of clause `c` that hold the
negation of the literal `q`. -/
def npos (c : Clause) (q : Int) : Nat :=
  (if c.lit.getD 0 0 = -q then 1 else 0) + (if c.lit.getD 1 0 = -q then 1 else 0)

/-- Every watcher stored in the watch list of a literal `q` refers to a clause
of the database that has `-q` at position 0 or 1. -/
def WatchRef (s : Solver) : Prop :=
  ∀ q w, w ∈ s.watches q →
    w.idx_clause < s.clause_DB.length ∧
    ((s.clause_DB.getD w.idx_clause default).lit.getD 0 0 = -q ∨
      (s.clause_DB.getD w.idx_clause default).lit.getD 1 0 = -q)

/-- Every clause is watched at most once per watched position: the watch list
of `q` holds no more watchers of a clause than the clause has watched
positions holding `-q`. -/
def WatchCount (s : Solver) : Prop :=
  ∀ q cref, countIdx cref (s.watches q) ≤ npos (s.clause_DB.getD cref default) q

/-- Every trail literal is true. -/
def TrailTrue (s : Solver) : Prop := ∀ l, l ∈ s.trail → litValue s.value l = 1

/-- Typing of literals and clauses: the literals of the trail and of the
clauses are nonzero, and every stored clause has at least two literals. -/
def LitsTyped (s : Solver) : Prop :=
  (∀ l, l ∈ s.trail → l ≠ 0) ∧
  (∀ cref, cref < s.clause_DB.length →
    2 ≤ (s.clause_DB.getD cref default).lit.length ∧
    ∀ k, k < (s.clause_DB.getD cref default).lit.length →
      (s.clause_DB.getD cref default).lit.getD k 0 ≠ 0)

/-- Every literal of clause `cref` is false. -/
def AllFalse (s : Solver) (cref : Nat) : Prop :=
  ∀ k, k < (s.clause_DB.getD cref default).lit.length →
    litValue s.value ((s.clause_DB.getD cref default).lit.getD k 0) = -1

/-- The effect claimed for a conflict return of `propagate`: the value
returned is a valid clause index and the clause is falsified. -/
def ConflictClaim (s : Solver) : Prop :=
  ∀ (fuel : Nat) (r : Int) (s2 : Solver), propagate fuel s = some (r, s2) → r ≠ -1 →
    ∃ cref : Nat, r = (cref : Int) ∧ cref < s2.clause_DB.length ∧ AllFalse s2 cref

/-- A state in which the watch list of literal `1` holds two watchers of the
same clause `[2, -1, 3]`; literal `-2` and literal `1` are on the trail, and
`1` is still to be propagated. -/
def doubleWatchState : Solver :=
  { init with
    vars := 3, trail := [-2, 1], propagated := 1,
    value := fun v => if v = 1 then 1 else if v = 2 then -1 else 0,
    reason := fun _ => -1,
    clause_DB := [⟨0, [2, -1, 3]⟩],
    watches := fun q => if q = 1 then [⟨0, 2⟩, ⟨0, 2⟩] else [] }

/-- A state in which the clauses `[-1, 2]` and `[-1, -2]` are watched and the
literal `1` on the trail is still to be propagated. -/
def conflictState : Solver :=
  { init with
    vars := 2, trail := [1], propagated := 0,
    value := fun v => if v = 1 then 1 else 0,
    reason := fun _ => -1,
    clause_DB := [⟨0, [-1, 2]⟩, ⟨0, [-1, -2]⟩],
    watches := fun q =>
      if q = 1 then [⟨0, 2⟩, ⟨1, -2⟩] else if q = -2 then [⟨0, -1⟩]
      else if q = 2 then [⟨1, -1⟩] else [] }

end Solver

end EasySAT

namespace EasySAT

namespace Solver

/-- State of the watch loop of `propagate` for the trail literal `p`, at read
index `i` and write index `j` with `n` watchers still to read: `p` is a true
nonzero literal, the trail literals are true, literals and clauses are typed,
and no clause has more watchers — among the kept and the unread watchers of
`p`, and in the list of any other literal — than watched positions holding the
negated literal. -/
structure PropInv (p : Int) (i j n : Nat) (s : Solver) : Prop where
  hp0 : p ≠ 0
  hpt : litValue s.value p = 1
  trailTrue : TrailTrue s
  typed : LitsTyped s
  hji : j ≤ i
  hlen : i + n = (s.watches p).length
  cntP : ∀ cref, countIdx cref ((s.watches p).take j) + countIdx cref ((s.watches p).drop i) ≤
    npos (s.clause_DB.getD cref default) p
  cntQ : ∀ q, q ≠ p → ∀ cref, countIdx cref (s.watches q) ≤ npos (s.clause_DB.getD cref default) q

end Solver

end EasySAT

namespace EasySAT

namespace Solver

/-- The state hypotheses under which a conflict return of `propagate` is
proved right: watcher multiplicities, true trail literals, typed literals. -/
def PropReady (s : Solver) : Prop := WatchCount s ∧ TrailTrue s ∧ LitsTyped s

/-- What one iteration of the watch loop guarantees. -/
def StepPost (p : Int) (i n : Nat) : WatchStep → Prop
  | WatchStep.next j2 s2 => PropInv p (i + 1) j2 n s2
  | WatchStep.conflict cref s2 => cref < s2.clause_DB.length ∧ AllFalse s2 cref

/-- What the watch loop guarantees. -/
def WatchesPost : Option Nat × Solver → Prop
  | (none, s2) => PropReady s2
  | (some cref, s2) => cref < s2.clause_DB.length ∧ AllFalse s2 cref

end Solver

end EasySAT

namespace EasySAT

namespace Solver

/-- The statement `mark[v] = t`. -/
def setMark (s : Solver) (v t : Nat) : Solver :=
  { s with mark := Function.update s.mark v t }

/-- The body of the loop over the literals of a clause in `analyze`, for the
literal `lit`; the state carries the solver, the vector `bump` and the counter
`should_visit_ct`. -/
def analyzeLit (highestLevel : Nat) (st : Solver × List Nat × Int) (lit : Int) :
    Solver × List Nat × Int :=
  if st.1.mark lit.natAbs ≠ st.1.time_stamp ∧ st.1.level lit.natAbs > 0 then
    let s1 := bump_var st.1 lit.natAbs (1 / 2)
    let s2 := setMark s1 lit.natAbs s1.time_stamp
    if s2.level lit.natAbs ≥ highestLevel then (s2, st.2.1 ++ [lit.natAbs], st.2.2 + 1)
    else ({ s2 with learnt := s2.learnt ++ [lit] }, st.2.1 ++ [lit.natAbs], st.2.2)
  else st

/-- The loop `for (i = (resolve_lit == 0 ? 0 : 1); i < c.lit.size(); i++)` of
`analyze` over the clause `conflict`. -/
def analyzeClause (highestLevel : Nat) (s : Solver) (conflict : Nat) (resolve_lit : Int)
    (bump : List Nat) (ct : Int) : Solver × List Nat × Int :=
  ((s.clause_DB.getD conflict default).lit.drop (if resolve_lit = 0 then 0 else 1)).foldl
    (analyzeLit highestLevel) (s, bump, ct)

/-- The backward scan of the trail in `analyze`, its two nested loops
together: from index `n - 1` downwards, the first trail literal whose variable
carries the current time stamp and whose level is not below `highestLevel`.
Returns the literal and its index (the value of `index + 1` in the source);
`none` when the scan would run below index 0. -/
def findResolve (s : Solver) (highestLevel : Nat) : Nat → Option (Int × Nat)
  | 0 => none
  | n + 1 =>
    if s.mark (s.trail.getD n 0).natAbs = s.time_stamp ∧
        ¬ (s.level (s.trail.getD n 0).natAbs < highestLevel) then
      some (s.trail.getD n 0, n)
    else findResolve s highestLevel n

/-- The outer `do ... while (should_visit_ct > 0)` loop of `analyze`.  `n` is
`index + 1`.  Each round moves the trail index down, so `fuel` rounds with
`fuel > n` are enough; the result is `none` when the fuel runs out or when the
source would read outside the trail or the clause database.  Returns the last
`resolve_lit`, the vector `bump` and the state. -/
def analyzeLoop (highestLevel : Nat) :
    Nat → Int → Int → Nat → Int → List Nat → Solver → Option (Int × List Nat × Solver)
  | 0, _, _, _, _, _, _ => none
  | fuel + 1, conflict, resolve_lit, n, ct, bump, s =>
    if conflict < 0 ∨ s.clause_DB.length ≤ conflict.toNat then none
    else
      match findResolve (analyzeClause highestLevel s conflict.toNat resolve_lit bump ct).1
          highestLevel n with
      | none => none
      | some (lit, n2) =>
        if (analyzeClause highestLevel s conflict.toNat resolve_lit bump ct).2.2 - 1 > 0 then
          analyzeLoop highestLevel fuel
            ((analyzeClause highestLevel s conflict.toNat resolve_lit bump ct).1.reason lit.natAbs)
            lit n2 ((analyzeClause highestLevel s conflict.toNat resolve_lit bump ct).2.2 - 1)
            (analyzeClause highestLevel s conflict.toNat resolve_lit bump ct).2.1
            (setMark (analyzeClause highestLevel s conflict.toNat resolve_lit bump ct).1
              lit.natAbs 0)
        else
          some (lit, (analyzeClause highestLevel s conflict.toNat resolve_lit bump ct).2.1,
            setMark (analyzeClause highestLevel s conflict.toNat resolve_lit bump ct).1
              lit.natAbs 0)

/-- The body of the LBD loop of `analyze` for one learnt literal. -/
def lbdStep (st : Solver × Int) (lit : Int) : Solver × Int :=
  if st.1.level lit.natAbs ≠ 0 ∧ st.1.mark (st.1.level lit.natAbs) ≠ st.1.time_stamp then
    (setMark st.1 (st.1.level lit.natAbs) st.1.time_stamp, st.2 + 1)
  else st

/-- The update of the LBD queue and of the two LBD sums in `analyze`. -/
def pushLbd (s : Solver) (lbd : Int) : Solver :=
  let s1 : Solver :=
    if s.lbd_queue_size < 50 then { s with lbd_queue_size := s.lbd_queue_size + 1 }
    else { s with fast_lbd_sum := s.fast_lbd_sum - (s.lbd_queue s.lbd_queue_pos : ℚ) }
  let s2 : Solver :=
    { s1 with
      fast_lbd_sum := s1.fast_lbd_sum + (lbd : ℚ),
      lbd_queue := Function.update s1.lbd_queue s1.lbd_queue_pos lbd,
      lbd_queue_pos := s1.lbd_queue_pos + 1 }
  let s3 : Solver := if s2.lbd_queue_pos = 50 then { s2 with lbd_queue_pos := 0 } else s2
  { s3 with slow_lbd_sum := s3.slow_lbd_sum + (if lbd > 50 then 50 else (lbd : ℚ)) }

/-- The body of the loop that looks for the learnt literal of greatest level,
for index `i`. -/
def maxIdStep (s : Solver) (max_id i : Nat) : Nat :=
  if s.level (s.learnt.getD i 0).natAbs > s.level (s.learnt.getD max_id 0).natAbs then i
  else max_id

/-- The index `max_id` computed by the loop `for (i = 2; i < learnt.size();
i++)` of `analyze`. -/
def maxId (s : Solver) : Nat := ((List.range s.learnt.length).drop 2).foldl (maxIdStep s) 1

/-- The choice of the backtrack level in `analyze`: the level, and the state
with the chosen literal swapped into `learnt[1]`. -/
def chooseLevel (s : Solver) : Nat × Solver :=
  if s.learnt.length = 1 then (0, s)
  else
    (s.level (s.learnt.getD (maxId s) 0).natAbs,
      { s with
        learnt := (s.learnt.set (maxId s) (s.learnt.getD 1 0)).set 1 (s.learnt.getD (maxId s) 0) })

/-- The body of the final bump loop of `analyze` for one variable. -/
def bumpStep (backtrackLevel : Nat) (s : Solver) (v : Nat) : Solver :=
  if (s.level v : Int) ≥ (backtrackLevel : Int) - 1 then bump_var s v 1 else s

/-- The statements `++time_stamp; learnt.clear();` that open `analyze`. -/
def startAnalyze (s : Solver) : Solver := { s with time_stamp := s.time_stamp + 1, learnt := [] }

/-- The statements `learnt[0] = -resolve_lit; ++time_stamp` after the
resolution loop of `analyze`. -/
def closeLearnt (s : Solver) (resolve_lit : Int) : Solver :=
  { s with learnt := s.learnt.set 0 (-resolve_lit), time_stamp := s.time_stamp + 1 }

/-- The part of `analyze` behind the resolution loop: the LBD, the LBD queue,
the backtrack level and the final bumps.  Returns the backtrack level, the LBD
and the state. -/
def finishAnalyze (s : Solver) (resolve_lit : Int) (bump : List Nat) : Nat × Int × Solver :=
  ((chooseLevel (pushLbd ((closeLearnt s resolve_lit).learnt.foldl lbdStep
      (closeLearnt s resolve_lit, 0)).1
    ((closeLearnt s resolve_lit).learnt.foldl lbdStep (closeLearnt s resolve_lit, 0)).2)).1,
   ((closeLearnt s resolve_lit).learnt.foldl lbdStep (closeLearnt s resolve_lit, 0)).2,
   bump.foldl (bumpStep (chooseLevel (pushLbd ((closeLearnt s resolve_lit).learnt.foldl lbdStep
      (closeLearnt s resolve_lit, 0)).1
    ((closeLearnt s resolve_lit).learnt.foldl lbdStep (closeLearnt s resolve_lit, 0)).2)).1)
    (chooseLevel (pushLbd ((closeLearnt s resolve_lit).learnt.foldl lbdStep
      (closeLearnt s resolve_lit, 0)).1
    ((closeLearnt s resolve_lit).learnt.foldl lbdStep (closeLearnt s resolve_lit, 0)).2)).2)

/-- The level `highestLevel` read by `analyze` from the first literal of the
conflicting clause. -/
def conflictLevel (s : Solver) (conflict : Nat) : Nat :=
  s.level ((s.clause_DB.getD conflict default).lit.getD 0 0).natAbs

/-- The method `Solver::analyze(conflict, backtrackLevel, lbd)`: the returned
code (0 or 20), the two output parameters and the new state; `none` when the
source would read outside the trail or the clause database. -/
def analyze (s : Solver) (conflict : Nat) : Option (Int × Nat × Int × Solver) :=
  if conflictLevel s conflict = 0 then some (20, 0, 0, startAnalyze s)
  else
    match analyzeLoop (conflictLevel s conflict) (s.trail.length + 1) (conflict : Int) 0
        s.trail.length 0 [] { startAnalyze s with learnt := [0] } with
    | none => none
    | some (resolve_lit, bump, s3) =>
      some (0, (finishAnalyze s3 resolve_lit bump).1, (finishAnalyze s3 resolve_lit bump).2.1,
        (finishAnalyze s3 resolve_lit bump).2.2)

/-- How one round of the loop of `solve` ends: `solve` returns a code, or the
loop goes on. -/
inductive StepResult where
  | done (code : Int) (s : Solver)
  | next (s : Solver) (coins : Nat → Nat)

/-- The statement `clause_DB[cref].lbd = lbd` of `solve`. -/
def setLbd (s : Solver) (cref : Nat) (lbd : Int) : Solver :=
  { s with clause_DB := s.clause_DB.set cref { s.clause_DB.getD cref default with lbd := lbd } }

/-- The conflict branch of `solve` after a successful `analyze`: backtrack,
install the learnt clause, assign its first literal, update the counters and
the local-best phase. -/
def learnAndAssign (s : Solver) (backtrackLevel : Nat) (lbd : Int) : Solver :=
  let s3 := backtrack s backtrackLevel
  let s4 : Solver :=
    if s3.learnt.length = 1 then assign s3 (s3.learnt.getD 0 0) 0 (-1)
    else
      let r := add_clause s3 s3.learnt
      assign (setLbd r.2 r.1 lbd) (s3.learnt.getD 0 0) backtrackLevel (r.1 : Int)
  let s5 : Solver :=
    { s4 with
      var_inc := s4.var_inc * (1 / (4 / 5)),
      restarts := s4.restarts + 1, conflicts := s4.conflicts + 1,
      rephases := s4.rephases + 1, reduces := s4.reduces + 1 }
  if (s5.trail.length : Int) > s5.threshold then
    { s5 with
      threshold := (s5.trail.length : Int),
      local_best := fun i =>
        if 1 ≤ (i : Int) ∧ (i : Int) ≤ s5.vars then s5.value i else s5.local_best i }
  else s5

/-- One round of the loop `while (!res)` of `solve`, with `pfuel` the fuel of
`propagate` and `coins` the stream of values of `rand()`. -/
def solveStep (pfuel : Nat) (coins : Nat → Nat) (s : Solver) : Option StepResult :=
  match propagate pfuel s with
  | none => none
  | some (cref, s1) =>
    if cref ≠ -1 then
      match analyze s1 cref.toNat with
      | none => none
      | some (res, backtrackLevel, lbd, s2) =>
        if res = 20 then some (StepResult.done 20 s2)
        else some (StepResult.next (learnAndAssign s2 backtrackLevel lbd) coins)
    else if s1.reduces ≥ s1.reduce_limit then
      some (StepResult.next (reduce s1 coins).1 (reduce s1 coins).2)
    else if s1.lbd_queue_size = 50 ∧
        (4 / 5 : ℚ) * s1.fast_lbd_sum / (s1.lbd_queue_size : ℚ) >
          s1.slow_lbd_sum / (s1.conflicts : ℚ) then
      some (StepResult.next (restart s1 coins).1 (restart s1 coins).2)
    else if s1.rephases ≥ s1.rephase_limit then some (StepResult.next (rephase s1) coins)
    else
      match decide s1 with
      | none => none
      | some (res, s2) =>
        if res ≠ 0 then some (StepResult.done res s2) else some (StepResult.next s2 coins)

/-- The method `Solver::solve()`: at most `fuel` rounds of its loop. -/
def solve (pfuel : Nat) : Nat → (Nat → Nat) → Solver → Option (Int × Solver)
  | 0, _, _ => none
  | fuel + 1, coins, s =>
    match solveStep pfuel coins s with
    | none => none
    | some (StepResult.done code s2) => some (code, s2)
    | some (StepResult.next s2 coins2) => solve pfuel fuel coins2 s2

end Solver

end EasySAT

namespace EasySAT

namespace Solver

/-- Literal `x` of clause `cref`. -/
def litAt (s : Solver) (cref x : Nat) : Int := (s.clause_DB.getD cref default).lit.getD x 0

/-- The watch lists `wf` fit the clause database `db`: every watcher refers
to a stored clause and carries one of its literals as blocker, and every
stored clause has in the list of `q` exactly one watcher per watched position
holding `-q`. -/
def WatchOK (wf : Int → List Watcher) (db : List Clause) : Prop :=
  (∀ q w, w ∈ wf q →
    w.idx_clause < db.length ∧ w.blocker ∈ (db.getD w.idx_clause default).lit) ∧
  (∀ q cref, cref < db.length → countIdx cref (wf q) = npos (db.getD cref default) q)

/-- The invariants of the assignment, the trail, the decision-level table and
the watched literals, relative to a frontier `f`: the trail literals before
position `f` have been propagated.

* `typed`, `valRange`: literals are nonzero, clauses have two literals or more,
  values are signs or zero;
* `cons`, `onTrail`, `nodup`: trail consistency; the assigned variables are
  those of the trail, each once;
* `sorted`, `tableLe`, `fLe`: the table is nondecreasing and bounded by the
  frontier, which is bounded by `propagated` and the trail length;
* `sound`: a false watched literal whose negation lies before the frontier
  comes with a true literal of the clause at the same level or below. -/
structure Core (f : Nat) (s : Solver) : Prop where
  typed : LitsTyped s
  valRange : ∀ v, s.value v = 0 ∨ s.value v = 1 ∨ s.value v = -1
  cons : TrailConsistent s
  onTrail : ∀ v, s.value v ≠ 0 → ∃ i, i < s.trail.length ∧ (s.trail.getD i 0).natAbs = v
  nodup : ∀ i k, i < s.trail.length → k < s.trail.length →
    (s.trail.getD i 0).natAbs = (s.trail.getD k 0).natAbs → i = k
  sorted : ∀ a b, a ≤ b → b < s.pos_in_trail.length →
    s.pos_in_trail.getD a 0 ≤ s.pos_in_trail.getD b 0
  tableLe : ∀ a, a < s.pos_in_trail.length → s.pos_in_trail.getD a 0 ≤ f
  fLe : f ≤ s.propagated ∧ s.propagated ≤ s.trail.length
  sound : ∀ cref x, cref < s.clause_DB.length → x < 2 →
    litValue s.value (litAt s cref x) = -1 → -(litAt s cref x) ∈ s.trail.take f →
    ∃ m, m ∈ (s.clause_DB.getD cref default).lit ∧ litValue s.value m = 1 ∧
      s.level m.natAbs ≤ s.level (litAt s cref x).natAbs

/-- The invariant at the head of the loop of `solve` and of the loop of
`propagate`: everything before `propagated` has been propagated, and the watch
lists fit the clause database. -/
def Steady (s : Solver) : Prop := Core s.propagated s ∧ WatchOK s.watches s.clause_DB

/-- The invariant after `propagate` returned a conflict: the literal at
position `propagated - 1` was being propagated. -/
def Stopped (s : Solver) : Prop :=
  1 ≤ s.propagated ∧ Core (s.propagated - 1) s ∧ WatchOK s.watches s.clause_DB

/-- State of the watch loop of `propagate` for the trail literal `p`, which
sits at position `propagated - 1`: the watchers kept so far followed by those
still to read fit the clause database, and every kept watcher refers to a
clause with a true literal. -/
structure Inner (p : Int) (i j n : Nat) (s : Solver) : Prop where
  hprop : 1 ≤ s.propagated
  hp : s.trail.getD (s.propagated - 1) 0 = p
  core : Core (s.propagated - 1) s
  hji : j ≤ i
  hlen : i + n = (s.watches p).length
  wok : WatchOK (Function.update s.watches p ((s.watches p).take j ++ (s.watches p).drop i))
    s.clause_DB
  kept : ∀ w, w ∈ (s.watches p).take j →
    ∃ m, m ∈ (s.clause_DB.getD w.idx_clause default).lit ∧ litValue s.value m = 1

/-- What one iteration of the watch loop guarantees. -/
def InnerPost (p : Int) (i n : Nat) : WatchStep → Prop
  | WatchStep.next j2 s2 => Inner p (i + 1) j2 n s2
  | WatchStep.conflict cref s2 => Stopped s2 ∧ cref < s2.clause_DB.length ∧ AllFalse s2 cref

/-- What the watch loop guarantees. -/
def LoopPost : Option Nat × Solver → Prop
  | (none, s2) => Steady s2
  | (some cref, s2) => Stopped s2 ∧ cref < s2.clause_DB.length ∧ AllFalse s2 cref

/-- What `propagate` guarantees. -/
def PropagatePost (r : Int) (s2 : Solver) : Prop :=
  (r = -1 → Steady s2 ∧ s2.propagated = s2.trail.length) ∧
  (r ≠ -1 → ∃ cref : Nat, r = (cref : Int) ∧ Stopped s2 ∧ cref < s2.clause_DB.length ∧
    AllFalse s2 cref)

/-- Clause `cref` is falsified: all its literals are false. -/
def Falsified (s : Solver) (cref : Nat) : Prop :=
  ∀ k, k < (s.clause_DB.getD cref default).lit.length → litValue s.value (litAt s cref k) = -1

/-- Clause `cref` is unit: exactly one of its literal positions is unassigned
and all the others hold false literals. -/
def IsUnit (s : Solver) (cref : Nat) : Prop :=
  ∃ k, k < (s.clause_DB.getD cref default).lit.length ∧ litValue s.value (litAt s cref k) = 0 ∧
    ∀ m, m < (s.clause_DB.getD cref default).lit.length → m ≠ k →
      litValue s.value (litAt s cref m) = -1

/-- No stored clause is falsified and no stored clause is unit. -/
def Quiet (s : Solver) : Prop :=
  ∀ cref, cref < s.clause_DB.length → ¬ Falsified s cref ∧ ¬ IsUnit s cref

end Solver

end EasySAT

namespace EasySAT

namespace Solver

/-- The clause database `db2` holds the clauses of `db` up to the order of the
literals inside each clause: the same number of clauses, and at each index the
same LBD and the same multiset of literals. -/
def SameClauses (db db2 : List Clause) : Prop :=
  db2.length = db.length ∧
  ∀ cref, cref < db.length →
    (db2.getD cref default).lbd = (db.getD cref default).lbd ∧
    List.Perm (db2.getD cref default).lit (db.getD cref default).lit

/-- The state hypotheses on which `propagate` keeps the watch lists right:
the watch lists fit the clause database, the trail literals are true, and
literals and clauses are typed. -/
def WReady (s : Solver) : Prop := WatchOK s.watches s.clause_DB ∧ TrailTrue s ∧ LitsTyped s

/-- State of the watch loop of `propagate` for the true trail literal `p`, at
read index `i` and write index `j` with `n` watchers still to read: the
watchers kept so far together with those still to read, and the lists of the
other literals, fit the clause database. -/
structure WInv (p : Int) (i j n : Nat) (s : Solver) : Prop where
  hp0 : p ≠ 0
  hpt : litValue s.value p = 1
  trailTrue : TrailTrue s
  typed : LitsTyped s
  hji : j ≤ i
  hlen : i + n = (s.watches p).length
  refP : ∀ w, w ∈ (s.watches p).take j ++ (s.watches p).drop i →
    w.idx_clause < s.clause_DB.length ∧ w.blocker ∈ (s.clause_DB.getD w.idx_clause default).lit
  refQ : ∀ q, q ≠ p → ∀ w, w ∈ s.watches q →
    w.idx_clause < s.clause_DB.length ∧ w.blocker ∈ (s.clause_DB.getD w.idx_clause default).lit
  cntP : ∀ cref, cref < s.clause_DB.length →
    countIdx cref ((s.watches p).take j) + countIdx cref ((s.watches p).drop i) =
      npos (s.clause_DB.getD cref default) p
  cntQ : ∀ q, q ≠ p → ∀ cref, cref < s.clause_DB.length →
    countIdx cref (s.watches q) = npos (s.clause_DB.getD cref default) q

/-- What one iteration of the watch loop for the literal `p` does to the
clause database: the clause `cref` of the watcher read, which holds `-p` at a
watched position, is replaced by a permutation of itself with the same LBD;
it is left as it is when its first literal is true; and a literal at a
watched position afterwards was at a watched position before or is not
false. -/
structure StepFrame (p : Int) (s s2 : Solver) (cref : Nat) : Prop where
  hcref : cref < s.clause_DB.length
  hdb : s2.clause_DB = s.clause_DB.set cref (s2.clause_DB.getD cref default)
  hperm : List.Perm (s2.clause_DB.getD cref default).lit (s.clause_DB.getD cref default).lit
  hlbd : (s2.clause_DB.getD cref default).lbd = (s.clause_DB.getD cref default).lbd
  hnegp : litAt s cref 0 = -p ∨ litAt s cref 1 = -p
  hsame : s2.clause_DB.getD cref default = s.clause_DB.getD cref default ∨
    litValue s.value (litAt s cref 0) ≠ 1
  hwatched : ∀ x, x < 2 →
    (∃ y, y < 2 ∧ litAt s2 cref x = litAt s cref y) ∨ litValue s.value (litAt s2 cref x) ≠ -1

/-- The iteration kept a watcher of clause `cref` at the write index `j`: the
clause holds a true literal, and nothing but the clause and the watch list of
`p` changed. -/
def KeepStep (p : Int) (j : Nat) (s s2 : Solver) (cref : Nat) : Prop :=
  s2 = { s with clause_DB := s2.clause_DB, watches := s2.watches } ∧
  (∃ w : Watcher, w.idx_clause = cref ∧ s2.watches p = (s.watches p).set j w) ∧
  ∃ m, m ∈ (s2.clause_DB.getD cref default).lit ∧ litValue s.value m = 1

/-- The iteration moved the watch of the clause to another literal: the
watch list of `p` is untouched, and nothing but the clause and the watch list
of the new watched literal changed. -/
def MoveStep (p : Int) (s s2 : Solver) : Prop :=
  s2 = { s with clause_DB := s2.clause_DB, watches := s2.watches } ∧
  s2.watches p = s.watches p

/-- The iteration found clause `cref` unit: its first literal was unassigned
and is assigned at the level of `p` with reason `cref`, all its other literals
are false, and a watcher of the clause is kept at the write index `j`. -/
def UnitStep (p : Int) (j : Nat) (s s2 : Solver) (cref : Nat) : Prop :=
  s2 = assign { s with clause_DB := s2.clause_DB, watches := s2.watches } (litAt s2 cref 0)
    (s.level p.natAbs) (cref : Int) ∧
  (∃ w : Watcher, w.idx_clause = cref ∧ s2.watches p = (s.watches p).set j w) ∧
  litValue s.value (litAt s2 cref 0) ≠ 1 ∧ litValue s.value (litAt s2 cref 0) ≠ -1 ∧
  litAt s2 cref 1 = -p ∧
  ∀ k, 1 ≤ k → k < (s2.clause_DB.getD cref default).lit.length →
    litValue s.value (litAt s2 cref k) = -1

/-- What one iteration of the watch loop guarantees. -/
def WPost (p : Int) (i j n : Nat) (s : Solver) : WatchStep → Prop
  | WatchStep.next j2 s2 =>
    WInv p (i + 1) j2 n s2 ∧ ∃ cref, StepFrame p s s2 cref ∧
      ((j2 = j + 1 ∧ KeepStep p j s s2 cref) ∨ (j2 = j ∧ MoveStep p s s2) ∨
        (j2 = j + 1 ∧ UnitStep p j s s2 cref))
  | WatchStep.conflict cref s2 =>
    WReady s2 ∧ StepFrame p s s2 cref ∧
      s2 = { s with clause_DB := s2.clause_DB, watches := s2.watches } ∧ AllFalse s2 cref

end Solver

end EasySAT

namespace EasySAT

namespace Solver

/-- The effect claimed for `propagate` on the clause database: whenever it
returns, the database holds the same number of clauses, each with the same
LBD and the same multiset of literals as before. -/
def PermuteClaim (s : Solver) : Prop :=
  ∀ (fuel : Nat) (r : Int) (s2 : Solver), propagate fuel s = some (r, s2) →
    SameClauses s.clause_DB s2.clause_DB

/-- A state in which the watch list of the trail literal `1` holds a watcher
of the clause `[2, 3, 4]`, which does not contain `-1`. -/
def strayWatchState : Solver :=
  { init with
    vars := 4, trail := [1], propagated := 0,
    value := fun v => if v = 1 then 1 else 0,
    reason := fun _ => -1,
    clause_DB := [⟨0, [2, 3, 4]⟩],
    watches := fun q => if q = 1 then [⟨0, 2⟩] else [] }

end Solver

end EasySAT

namespace EasySAT

namespace Solver

/-- The state `s2` with the fields written by `bump_var` (the activities, the
increment and the heap) taken from `s`. -/
def keepHeuristic (s2 s : Solver) : Solver :=
  { s2 with activity := s.activity, var_inc := s.var_inc, vsids := s.vsids }

/-- The state `s2` differs from `s` at most in the activities, the increment
and the heap. -/
def HFrame (s s2 : Solver) : Prop := keepHeuristic s2 s = s

/-- The state `s2` with the fields written by `analyze` (the learnt clause,
the time stamp and the marks, the activities and the heap, the LBD queue and
sums) taken from `s`. -/
def keepSearch (s2 s : Solver) : Solver :=
  { s2 with
    learnt := s.learnt, time_stamp := s.time_stamp, mark := s.mark,
    activity := s.activity, var_inc := s.var_inc, vsids := s.vsids,
    lbd_queue := s.lbd_queue, lbd_queue_size := s.lbd_queue_size,
    lbd_queue_pos := s.lbd_queue_pos, fast_lbd_sum := s.fast_lbd_sum,
    slow_lbd_sum := s.slow_lbd_sum }

/-- The state `s2` differs from `s` at most in the fields written by
`analyze`. -/
def AFrame (s s2 : Solver) : Prop := keepSearch s2 s = s

/-- The decision levels greater than 0 of the variables of the literals
`lits`. -/
def levelsOf (s : Solver) (lits : List Int) : Finset Nat :=
  ((lits.map (fun l => s.level l.natAbs)).filter (fun l => Decidable.decide (l ≠ 0))).toFinset

/-- The mark array holds only what earlier analyses left there: zero, or a
time stamp not above the current one. -/
def MarksOld (s : Solver) : Prop := ∀ v, s.mark v ≤ s.time_stamp

/-- The effect claimed for the LBD output of `analyze`: when it returns 0, the
LBD is the number of distinct decision levels greater than 0 among the
variables of the learnt clause it leaves in `learnt`. -/
def LbdClaim (s : Solver) (conflict : Nat) : Prop :=
  ∀ (bt : Nat) (lbd : Int) (s2 : Solver), analyze s conflict = some (0, bt, lbd, s2) →
    lbd = ((levelsOf s2 s2.learnt).card : Int)

/-- A state after a conflict at decision level 1: the decision `1` implied `2`
by clause 0, and clause 1 is falsified. -/
def analysisState : Solver :=
  { init with
    vars := 2, trail := [1, 2], pos_in_trail := [0], propagated := 1,
    value := fun v => if v = 1 ∨ v = 2 then 1 else 0,
    level := fun v => if v = 1 ∨ v = 2 then 1 else 0,
    reason := fun v => if v = 2 then 0 else -1,
    clause_DB := [⟨0, [2, -1]⟩, ⟨0, [-2, -1]⟩],
    watches := fun q =>
      if q = 1 then [⟨0, 2⟩, ⟨1, -2⟩] else if q = -2 then [⟨0, -1⟩]
      else if q = 2 then [⟨1, -1⟩] else [],
    var_inc := 1 }

end Solver

end EasySAT

namespace EasySAT

namespace Solver

/-- The new index that the watch update of `reduce` computes for the clause
index `old_idx`: `old_idx < origin_clauses ? old_idx : reduce_map[old_idx]`. -/
def newIdx (origin_clauses : Nat) (reduce_map : List Int) (old_idx : Nat) : Int :=
  if old_idx < origin_clauses then (old_idx : Int) else reduce_map.getD old_idx 0

/-- What the watch update of `reduce` does with one watcher: it is dropped
when the new index is `-1`, and re-indexed otherwise. -/
def remapWatcher (origin_clauses : Nat) (reduce_map : List Int) (w : Watcher) : Option Watcher :=
  if newIdx origin_clauses reduce_map w.idx_clause ≠ -1 then
    some { w with idx_clause := (newIdx origin_clauses reduce_map w.idx_clause).toNat }
  else none

/-- The state `s2` differs from `s` at most in the clause database and in
`reduce_map`. -/
def RFrame (s s2 : Solver) : Prop :=
  { s2 with clause_DB := s.clause_DB, reduce_map := s.reduce_map } = s

/-- What the compaction loop of `reduce`, started at index `i` with
`new_size = ns` on the database `db`, leaves in the database `db2`, in the map
`map2` and in `new_size = ns2`: the entries of the map before `i` and the
clauses before `ns` are untouched; a clause from `i` on is mapped to `-1` or
to an index from `ns` on that holds it; every index from `ns` up to `ns2` is
the image of a clause; and the map is increasing on the kept clauses. -/
structure Compacted (db : List Clause) (map : List Int) (i ns : Nat) (db2 : List Clause)
    (map2 : List Int) (ns2 : Nat) : Prop where
  hmaplen : map2.length = map.length
  hdblen : db2.length = db.length
  hns : ns ≤ ns2
  hns2 : ns2 ≤ db.length
  hbefore : ∀ x, x < i → map2.getD x 0 = map.getD x 0
  hlow : ∀ y, y < ns → db2.getD y default = db.getD y default
  hkept : ∀ x, i ≤ x → x < db.length → map2.getD x 0 = -1 ∨
    ∃ nx : Nat, map2.getD x 0 = (nx : Int) ∧ ns ≤ nx ∧ nx < ns2 ∧
      db2.getD nx default = db.getD x default
  hsurj : ∀ nx, ns ≤ nx → nx < ns2 → ∃ x, i ≤ x ∧ x < db.length ∧ map2.getD x 0 = (nx : Int)
  hmono : ∀ x y, i ≤ x → x < y → y < db.length → map2.getD x 0 ≠ -1 → map2.getD y 0 ≠ -1 →
    map2.getD x 0 < map2.getD y 0

end Solver

end EasySAT

namespace EasySAT

namespace Solver

/-- The watch invariant in the words of the specification: for every stored
clause, a watcher of the clause is stored in the watch list of the negation of
its literal at position 0 and in that of the negation of its literal at
position 1, and in no other watch list; and no watcher refers to an index
outside the clause database. -/
def WatchMember (s : Solver) : Prop :=
  (∀ cref, cref < s.clause_DB.length →
    (∃ w, w ∈ s.watches (-(litAt s cref 0)) ∧ w.idx_clause = cref) ∧
    (∃ w, w ∈ s.watches (-(litAt s cref 1)) ∧ w.idx_clause = cref) ∧
    ∀ q w, w ∈ s.watches q → w.idx_clause = cref →
      q = -(litAt s cref 0) ∨ q = -(litAt s cref 1)) ∧
  (∀ q w, w ∈ s.watches q → w.idx_clause < s.clause_DB.length)

/-- The preservation claimed for `propagate`, for the watch invariant in the
words of the specification. -/
def MemberKept (s : Solver) : Prop :=
  ∀ (fuel : Nat) (r : Int) (s2 : Solver), propagate fuel s = some (r, s2) → WatchMember s2

/-- Only the watch lists of the literals of the variables `1..vars` hold
watchers: these are the lists that `reduce` updates. -/
def WatchRange (s : Solver) : Prop :=
  ∀ q, ¬ (q ≠ 0 ∧ -s.vars ≤ q ∧ q ≤ s.vars) → s.watches q = []

/-- The watch invariant, with one watcher per watched position, is
established by `add_clause` and preserved by `propagate` and by `reduce`, and
it gives the invariant in the words of the specification. -/
def WatchKeep (s : Solver) : Prop :=
  (∀ c : List Int, 2 ≤ c.length →
    WatchOK (add_clause s c).2.watches (add_clause s c).2.clause_DB) ∧
  (TrailTrue s → LitsTyped s →
    ∀ (fuel : Nat) (r : Int) (s2 : Solver), propagate fuel s = some (r, s2) →
      WatchOK s2.watches s2.clause_DB) ∧
  (s.origin_clauses ≤ s.clause_DB.length → WatchRange s →
    ∀ coins : Nat → Nat, WatchOK (reduce s coins).1.watches (reduce s coins).1.clause_DB) ∧
  WatchMember s

/-- A state in which the watch list of the trail literal `1` holds two
watchers of the clause `[2, -1, 3]`, and the watch list of `-2` holds one. -/
def twinWatchState : Solver :=
  { init with
    vars := 3, trail := [1], propagated := 0,
    value := fun v => if v = 1 then 1 else 0,
    reason := fun _ => -1,
    clause_DB := [⟨0, [2, -1, 3]⟩],
    watches := fun q => if q = 1 then [⟨0, 2⟩, ⟨0, 2⟩] else if q = -2 then [⟨0, -1⟩] else [] }

end Solver

end EasySAT

namespace EasySAT

namespace Heap

/-- What a sift loop guarantees about the heap it returns, whatever the
comparator: the position map is consistent, the sizes are those of the heap
`h0` it started from, and the registered variables are those of `h0` together
with the variable `x` it was moving. -/
def PosPost (h0 : Heap) (x : Nat) (h1 : Heap) : Prop :=
  PosOK h1 ∧ h1.heap.length = h0.heap.length ∧ h1.pos.length = h0.pos.length ∧
    (∀ n, n ≠ x → (0 ≤ h1.pos.getD n 0 ↔ 0 ≤ h0.pos.getD n 0)) ∧ 0 ≤ h1.pos.getD x 0

end Heap

namespace Solver

/-- Values, saved phases and local-best phases are signs or zero. -/
def PhaseTyped (s : Solver) : Prop :=
  (∀ v, s.value v = 0 ∨ s.value v = 1 ∨ s.value v = -1) ∧
  (∀ v, s.saved v = 0 ∨ s.saved v = 1 ∨ s.saved v = -1) ∧
  (∀ v, s.local_best v = 0 ∨ s.local_best v = 1 ∨ s.local_best v = -1)

/-- The invariant of the decision heap: its position map is consistent, every
unassigned variable is registered, and values and phases are signs or zero. -/
def HeapInv (s : Solver) : Prop := Heap.PosOK s.vsids ∧ HeapComplete s ∧ PhaseTyped s

/-- The state `s2` comes from `s` by assignments of unassigned or assigned
variables only, as far as the heap is concerned: the heap, the number of
variables and the phases are those of `s`, and a variable either keeps its
value or is assigned. -/
def Grows (s s2 : Solver) : Prop :=
  s2.vsids = s.vsids ∧ s2.vars = s.vars ∧ s2.saved = s.saved ∧ s2.local_best = s.local_best ∧
  ∀ v, s2.value v = s.value v ∨ s2.value v = 1 ∨ s2.value v = -1

/-- If the position map of the heap of `s` is consistent, so is that of `s2`,
and the heap of `s2` registers the same variables. -/
def HeapSame (s s2 : Solver) : Prop :=
  Heap.PosOK s.vsids → Heap.PosOK s2.vsids ∧ ∀ n, s2.vsids.inHeap n = s.vsids.inHeap n

end Solver

end EasySAT

namespace EasySAT

namespace Solver

/-- The states reachable from `alloc_memory`, called on a solver whose heap is
empty, by the operations of the driver in any order and with any arguments:
`assign`, `add_clause`, `propagate`, `analyze`, `backtrack`, `decide`,
`restart`, `reduce`, `rephase`, and the conflict branch of `solve`. -/
inductive HeapReach : Solver → Prop where
  | alloc (s0 : Solver) : s0.vsids = ⟨[], []⟩ → HeapReach (alloc_memory s0)
  | assigned {s : Solver} (lit : Int) (l : Nat) (cref : Int) :
      HeapReach s → HeapReach (assign s lit l cref)
  | added {s : Solver} (c : List Int) : HeapReach s → HeapReach (add_clause s c).2
  | propagated {s : Solver} (fuel : Nat) (r : Int) (s2 : Solver) :
      HeapReach s → propagate fuel s = some (r, s2) → HeapReach s2
  | analyzed {s : Solver} (conflict : Nat) (res : Int) (bt : Nat) (lbd : Int) (s2 : Solver) :
      HeapReach s → analyze s conflict = some (res, bt, lbd, s2) → HeapReach s2
  | backtracked {s : Solver} (L : Nat) : HeapReach s → HeapReach (backtrack s L)
  | decided {s : Solver} (r : Int) (s2 : Solver) :
      HeapReach s → decide s = some (r, s2) → HeapReach s2
  | restarted {s : Solver} (coins : Nat → Nat) : HeapReach s → HeapReach (restart s coins).1
  | reduced {s : Solver} (coins : Nat → Nat) : HeapReach s → HeapReach (reduce s coins).1
  | rephased {s : Solver} : HeapReach s → HeapReach (rephase s)
  | learnt {s : Solver} (bt : Nat) (lbd : Int) : HeapReach s → HeapReach (learnAndAssign s bt lbd)

/-- Heap completeness as claimed: every unassigned variable `1..vars` is
registered in the heap, and `decide` returns 10 only when every variable is
assigned. -/
def HeapClaim (s : Solver) : Prop :=
  HeapComplete s ∧
  ∀ s2 : Solver, decide s = some (10, s2) → ∀ v, IsVar s v → s.value v ≠ 0

/-- A solver with two variables right after `alloc_memory`. -/
def freshState : Solver := alloc_memory { init with vars := 2 }

end Solver

end EasySAT

namespace EasySAT

namespace Solver

/-- The state `s2` differs from `s` at most in the fields written by
`backtrack`: the values, the saved phases, the heap, `propagated`, the trail
and the decision-level table. -/
def BFrame (s s2 : Solver) : Prop :=
  { s2 with
    value := s.value, saved := s.saved, vsids := s.vsids, propagated := s.propagated,
    trail := s.trail, pos_in_trail := s.pos_in_trail } = s

/-- A state in which one conflict has been counted since the last restart. -/
def countedState : Solver := { init with restarts := 1, rephases := 1, reduces := 1 }

end Solver

end EasySAT

namespace EasySAT

namespace Solver

/-- The fields of the LBD bookkeeping: the queue, its size and write position,
and the two sums. -/
def lbdFields (s : Solver) : (Nat → Int) × Nat × Nat × ℚ × ℚ :=
  (s.lbd_queue, s.lbd_queue_size, s.lbd_queue_pos, s.fast_lbd_sum, s.slow_lbd_sum)

/-- The states reached from `alloc_memory` by calls of `analyze` that return
0, calls of `restart`, and any other steps that leave the LBD bookkeeping
alone.  The first index lists the LBDs output by those calls of `analyze`
since the initialisation, the second those since the most recent restart, the
latest first. -/
inductive LbdRun : List Int → List Int → Solver → Prop where
  | start (s0 : Solver) : LbdRun [] [] (alloc_memory s0)
  | analyzed {all cur : List Int} {s : Solver} (conflict bt : Nat) (lbd : Int) (s2 : Solver) :
      LbdRun all cur s → analyze s conflict = some (0, bt, lbd, s2) →
      LbdRun (lbd :: all) (lbd :: cur) s2
  | restarted {all cur : List Int} {s : Solver} (coins : Nat → Nat) :
      LbdRun all cur s → LbdRun all [] (restart s coins).1
  | other {all cur : List Int} {s : Solver} (s2 : Solver) :
      LbdRun all cur s → lbdFields s2 = lbdFields s → LbdRun all cur s2

/-- The content claimed for the LBD bookkeeping after the LBDs `all` since the
initialisation, of which `cur` since the most recent restart. -/
def LbdSums (all cur : List Int) (s : Solver) : Prop :=
  s.lbd_queue_size = min cur.length 50 ∧
  s.fast_lbd_sum = (((cur.take 50).sum : Int) : ℚ) ∧
  s.slow_lbd_sum = (((all.map (fun l => min l 50)).sum : Int) : ℚ)

/-- The invariant of the LBD queue: the sums and the size as claimed, the
write position is the number of LBDs pushed since the last restart modulo 50,
and the `i`-th latest of the last 50 LBDs sits `i + 1` slots behind it. -/
def LbdInv (all cur : List Int) (s : Solver) : Prop :=
  LbdSums all cur s ∧ s.lbd_queue_pos = cur.length % 50 ∧
  ∀ i, i < cur.length → i < 50 → s.lbd_queue ((cur.length - 1 - i) % 50) = cur.getD i 0

/-- The state that `analyze` leaves when called on `analysisState` with the
falsified clause 1. -/
def analyzedState : Solver :=
  match analyze analysisState 1 with
  | some r => r.2.2.2
  | none => analysisState

end Solver

end EasySAT

namespace EasySAT

namespace Solver

/-- The trail literal at position `j` is implied: the reason of its variable
is a stored clause that holds the literal at position 0, and every other
literal of that clause is the negation of a trail literal at an earlier
position. -/
def ReasonAt (s : Solver) (j : Nat) : Prop :=
  ∃ cref : Nat, s.reason (s.trail.getD j 0).natAbs = (cref : Int) ∧ cref < s.clause_DB.length ∧
    litAt s cref 0 = s.trail.getD j 0 ∧
    ∀ k, 1 ≤ k → k < (s.clause_DB.getD cref default).lit.length →
      ∃ i, i < j ∧ s.trail.getD i 0 = -(litAt s cref k)

/-- Reasons are antecedents: every trail literal of a level above 0 that does
not sit at a position of the decision-level table is implied. -/
def Reasons (s : Solver) : Prop :=
  ∀ j, j < s.trail.length → (∀ b, b ∈ s.pos_in_trail → b ≠ j) →
    0 < s.level (s.trail.getD j 0).natAbs → ReasonAt s j

/-- Literals are in range: the assigned variables and the variables of the
literals of the stored clauses are variables `1..vars`. -/
def Ranged (s : Solver) : Prop :=
  (∀ v, s.value v ≠ 0 → IsVar s v) ∧
  ∀ cref, cref < s.clause_DB.length → ∀ l, l ∈ (s.clause_DB.getD cref default).lit →
    IsVar s l.natAbs

/-- State of the watch loop of `propagate` for the trail literal `p`, which
sits at position `propagated - 1`: the invariant of the watch lists, the
invariant of the assignment for the frontier `propagated - 1`, the reasons,
the range of the literals, and every watcher kept so far refers to a clause
with a true literal. -/
structure GInv (p : Int) (i j n : Nat) (s : Solver) : Prop where
  winv : WInv p i j n s
  hprop : 1 ≤ s.propagated
  hp : s.trail.getD (s.propagated - 1) 0 = p
  core : Core (s.propagated - 1) s
  reasons : Reasons s
  ranged : Ranged s
  kept : ∀ w, w ∈ (s.watches p).take j →
    ∃ m, m ∈ (s.clause_DB.getD w.idx_clause default).lit ∧ litValue s.value m = 1

/-- The state in which `propagate` returns the conflicting clause `cref`:
the literal at position `propagated - 1` was being propagated, the clause is
falsified, and its first literal is assigned at the current decision level. -/
structure Conflict (s : Solver) (cref : Nat) : Prop where
  stopped : Stopped s
  reasons : Reasons s
  ranged : Ranged s
  hcref : cref < s.clause_DB.length
  allFalse : AllFalse s cref
  top : s.level (litAt s cref 0).natAbs = s.pos_in_trail.length

/-- What one iteration of the watch loop guarantees. -/
def GPost (p : Int) (i n : Nat) : WatchStep → Prop
  | WatchStep.next j2 s2 => GInv p (i + 1) j2 n s2
  | WatchStep.conflict cref s2 => Conflict s2 cref

/-- What the watch loop guarantees. -/
def GLoopPost : Option Nat × Solver → Prop
  | (none, s2) => Steady s2 ∧ Reasons s2 ∧ Ranged s2
  | (some cref, s2) => Conflict s2 cref

/-- What `propagate` guarantees on a state that satisfies the invariants. -/
def GPropagatePost (r : Int) (s2 : Solver) : Prop :=
  (r = -1 → Steady s2 ∧ Reasons s2 ∧ Ranged s2 ∧ s2.propagated = s2.trail.length) ∧
  (r ≠ -1 → ∃ cref : Nat, r = (cref : Int) ∧ Conflict s2 cref)

end Solver

end EasySAT

namespace EasySAT

namespace Solver

/-- The number of indices below `n` at which `P` holds. -/
def countBelow (P : Nat → Bool) : Nat → Nat
  | 0 => 0
  | n + 1 => countBelow P n + (if P n then 1 else 0)

/-- The test of the backward scan of `analyze` at trail position `i`: the
variable carries the current time stamp and its level is not below `H`. -/
def pending (s : Solver) (H i : Nat) : Bool :=
  Decidable.decide (s.mark (s.trail.getD i 0).natAbs = s.time_stamp ∧
    ¬ (s.level (s.trail.getD i 0).natAbs < H))

/-- State of the resolution loop of `analyze`, started in the state `s0`, at a
point where the trail positions from `n` on have been scanned: only fields of
the analysis differ from `s0`, the counter `should_visit_ct` is the number of
trail positions below `n` that the scan will stop at, no such position lies at
`n` or above, and the literals pushed on `learnt` after the placeholder are
false literals of the levels `1..H-1`. -/
structure AInv (s0 : Solver) (H n : Nat) (ct : Int) (s : Solver) : Prop where
  frame : AFrame s0 s
  stamp : 1 ≤ s.time_stamp
  hn : n ≤ s0.trail.length
  count : ct = (countBelow (pending s H) n : Int)
  above : ∀ i, n ≤ i → i < s0.trail.length → pending s H i = false
  learntNe : s.learnt ≠ []
  learntTail : ∀ l, l ∈ s.learnt.tail →
    -l ∈ s0.trail ∧ 0 < s0.level l.natAbs ∧ s0.level l.natAbs < H

/-- What the resolution loop of `analyze` returns: only fields of the
analysis differ from `s0`, the last literal resolved is a trail literal of
level `H`, and the literals pushed on `learnt` after the placeholder are false
literals of the levels `1..H-1`. -/
structure APost (s0 : Solver) (H : Nat) (r : Int × List Nat × Solver) : Prop where
  frame : AFrame s0 r.2.2
  onTrail : r.1 ∈ s0.trail
  level : s0.level r.1.natAbs = H
  learntNe : r.2.2.learnt ≠ []
  learntTail : ∀ l, l ∈ r.2.2.learnt.tail →
    -l ∈ s0.trail ∧ 0 < s0.level l.natAbs ∧ s0.level l.natAbs < H

end Solver

end EasySAT

namespace EasySAT

namespace Solver

/-- What `analyze` leaves when it returns 0 with the backtrack level `bt`,
called in the state `s0`: only fields of the analysis differ from `s0`, no
mark is above the time stamp, the negation of the first learnt literal is a
trail literal of the current decision level, every other learnt literal is a
false literal of a level in `1..bt`, the second learnt literal is at level
`bt`, and `bt` is below the current decision level. -/
structure Analyzed (s0 : Solver) (bt : Nat) (s2 : Solver) : Prop where
  frame : AFrame s0 s2
  marks : MarksOld s2
  learntNe : s2.learnt ≠ []
  firstOn : -(s2.learnt.getD 0 0) ∈ s0.trail
  firstTop : s0.level (s2.learnt.getD 0 0).natAbs = s0.pos_in_trail.length
  tail : ∀ l, l ∈ s2.learnt.tail →
    -l ∈ s0.trail ∧ 0 < s0.level l.natAbs ∧ s0.level l.natAbs ≤ bt
  below : bt < s0.pos_in_trail.length
  single : s2.learnt.length = 1 → bt = 0
  second : 2 ≤ s2.learnt.length → s0.level (s2.learnt.getD 1 0).natAbs = bt

end Solver

end EasySAT

namespace EasySAT

namespace Solver

/-- The heap holds variables `1..vars` only. -/
def HeapVars (s : Solver) : Prop := ∀ v, s.vsids.inHeap v = true → IsVar s v

/-- The fields that the invariants of the solver read, the saved and
local-best phases apart. -/
def searchFields (s : Solver) :=
  (s.value, s.trail, s.level, s.pos_in_trail, s.propagated, s.clause_DB, s.watches, s.reason,
    s.vars, s.mark, s.time_stamp, s.vsids, s.origin_clauses)

/-- The invariants of the solver relative to a frontier `f`: the invariant of
the assignment with everything before position `f` propagated, the watch
lists, the reasons, the range of the literals, the marks, the heap, and
`origin_clauses` inside the clause database. -/
structure Base (f : Nat) (s : Solver) : Prop where
  core : Core f s
  wok : WatchOK s.watches s.clause_DB
  reasons : Reasons s
  ranged : Ranged s
  marks : MarksOld s
  heap : HeapInv s
  heapVars : HeapVars s
  origin : s.origin_clauses ≤ s.clause_DB.length

/-- The invariant of the solver at the head of the loop of `solve`, before a
call of `propagate`: the invariant of the assignment with everything before
`propagated` propagated, the watch lists, the reasons, the range of the
literals, the marks, the heap, and `origin_clauses` inside the clause
database. -/
structure Inv (s : Solver) : Prop where
  steady : Steady s
  reasons : Reasons s
  ranged : Ranged s
  marks : MarksOld s
  heap : HeapInv s
  heapVars : HeapVars s
  origin : s.origin_clauses ≤ s.clause_DB.length

/-- The invariant of the solver in the state in which `propagate` returned
the conflicting clause `cref`. -/
structure ConflictInv (s : Solver) (cref : Nat) : Prop where
  conflict : Conflict s cref
  marks : MarksOld s
  heap : HeapInv s
  heapVars : HeapVars s
  origin : s.origin_clauses ≤ s.clause_DB.length

/-- The states in which `parse` can be while it reads the clauses of a
well-formed input (one header, then clauses of nonzero literals of the
variables `1..vars`): after `alloc_memory`, after the assignment of the
literal of a unit clause that was unassigned, and after `add_clause` of a
clause of two literals or more. -/
inductive Loading : Solver → Prop where
  | start (V C : Int) : Loading (alloc_memory { init with vars := V, clauses := C })
  | unit {s : Solver} (l : Int) : Loading s → l ≠ 0 → IsVar s l.natAbs →
      litValue s.value l = 0 → Loading (assign s l 0 (-1))
  | clause {s : Solver} (c : List Int) : Loading s → 2 ≤ c.length →
      (∀ l, l ∈ c → l ≠ 0 ∧ IsVar s l.natAbs) → Loading (add_clause s c).2

/-- The states at the head of the loop of `solve`, and before the call of
`propagate` that ends `parse`, in a run on a well-formed input: the state at
the end of the clauses, and the states that the branches of the loop lead
to, whatever the restart, reduce and rephase policies decide. -/
inductive Reach : Solver → Prop where
  | loaded {s : Solver} : Loading s → Reach { s with origin_clauses := s.clause_DB.length }
  | quiet {s : Solver} (fuel : Nat) (s1 : Solver) :
      Reach s → propagate fuel s = some (-1, s1) → Reach s1
  | learnt {s : Solver} (fuel : Nat) (r : Int) (s1 : Solver) (bt : Nat) (lbd : Int)
      (s2 : Solver) :
      Reach s → propagate fuel s = some (r, s1) → r ≠ -1 →
      analyze s1 r.toNat = some (0, bt, lbd, s2) → Reach (learnAndAssign s2 bt lbd)
  | reduced {s : Solver} (coins : Nat → Nat) : Reach s → Reach (reduce s coins).1
  | restarted {s : Solver} (coins : Nat → Nat) : Reach s → Reach (restart s coins).1
  | rephased {s : Solver} : Reach s → Reach (rephase s)
  | decided {s : Solver} (s2 : Solver) :
      Reach s → s.propagated = s.trail.length → decide s = some (0, s2) → Reach s2

/-- The state at the end of the clauses of the input `p cnf 2 2`, `-1 2 0`,
`-1 -2 0`. -/
def loadedExample : Solver :=
  { (add_clause (add_clause (alloc_memory { init with vars := 2, clauses := 2 }) [-1, 2]).2
      [-1, -2]).2 with
    origin_clauses :=
      (add_clause (add_clause (alloc_memory { init with vars := 2, clauses := 2 }) [-1, 2]).2
        [-1, -2]).2.clause_DB.length }

/-- The state after the first decision on `loadedExample`. -/
def decidedExample : Solver :=
  match decide loadedExample with
  | some r => r.2
  | none => loadedExample

end Solver

end EasySAT

namespace EasySAT

namespace Solver

end Solver

end EasySAT

namespace EasySAT

namespace Solver

/-- The states between the operations of the driver in a run on a
well-formed input: the states of `parse` while it reads the clauses, the
states at the head of the loop of `solve`, the state `propagate` returns, the
state `analyze` returns, the state after the `backtrack` of the conflict
branch, the state after its `add_clause`, and the state in which `decide`
returns 10. -/
inductive Visited : Solver → Prop where
  | loading {s : Solver} : Loading s → Visited s
  | head {s : Solver} : Reach s → Visited s
  | propagated {s : Solver} (fuel : Nat) (r : Int) (s1 : Solver) :
      Reach s → propagate fuel s = some (r, s1) → Visited s1
  | analyzed {s : Solver} (fuel : Nat) (r : Int) (s1 : Solver) (code : Int) (bt : Nat)
      (lbd : Int) (s2 : Solver) :
      Reach s → propagate fuel s = some (r, s1) → r ≠ -1 →
      analyze s1 r.toNat = some (code, bt, lbd, s2) → Visited s2
  | backtracked {s : Solver} (fuel : Nat) (r : Int) (s1 : Solver) (bt : Nat) (lbd : Int)
      (s2 : Solver) :
      Reach s → propagate fuel s = some (r, s1) → r ≠ -1 →
      analyze s1 r.toNat = some (0, bt, lbd, s2) → Visited (backtrack s2 bt)
  | added {s : Solver} (fuel : Nat) (r : Int) (s1 : Solver) (bt : Nat) (lbd : Int)
      (s2 : Solver) :
      Reach s → propagate fuel s = some (r, s1) → r ≠ -1 →
      analyze s1 r.toNat = some (0, bt, lbd, s2) → s2.learnt.length ≠ 1 →
      Visited (add_clause (backtrack s2 bt) (backtrack s2 bt).learnt).2
  | model {s : Solver} (s2 : Solver) :
      Reach s → s.propagated = s.trail.length → decide s = some (10, s2) → Visited s2

end Solver

/-- An input with two header lines: the unit clause `1` is read before the
second header, the clause `-1 2` after it. -/
def twoHeaderInput : List Char := "p cnf 2 1\n1 0\np cnf 2 1\n-1 2 0\n".toList

/-- The code returned by `parse` and the fields of the final state that the
trail invariants read, as lists of integers: the code, the trail, the
decision-level table, the values of the variables 1, 2 and 3, the levels and the reasons of the
variables 1 and 2, and then the clauses. -/
def ParseResult.summary : ParseResult → List (List Int)
  | ParseResult.exit _ => []
  | ParseResult.ret code s =>
    [[code], s.trail, s.pos_in_trail.map Int.ofNat, [s.value 1, s.value 2, s.value 3],
      [Int.ofNat (s.level 1), Int.ofNat (s.level 2)], [s.reason 1, s.reason 2]] ++
      s.clause_DB.map Clause.lit

end EasySAT

namespace EasySAT

/-- An input with two header lines: the clause `1 2` is read before the
second header, which empties the watch lists, and the unit clauses `-1` and
`-2` after it. -/
def unwatchedInput : List Char := "p cnf 2 1\n1 2 0\np cnf 2 1\n-1 0\n-2 0\n".toList

/-- A well-formed input with the single clause `1 2 3`. -/
def ternaryInput : List Char := "p cnf 3 1\n1 2 3 0\n".toList

/-- A well-formed input whose clause `1 2 2` repeats the literal `2`, after
the unit clause `-1`. -/
def repeatedInput : List Char := "p cnf 2 2\n-1 0\n1 2 2 0\n".toList

namespace Solver

/-- Clause `cref` is unit as the glossary defines it: exactly one of its
literals is unassigned and all its other literals are false. -/
def UnitClause (s : Solver) (cref : Nat) : Prop :=
  ∃ l, l ∈ (s.clause_DB.getD cref default).lit ∧ litValue s.value l = 0 ∧
    ∀ m, m ∈ (s.clause_DB.getD cref default).lit → m ≠ l → litValue s.value m = -1

/-- The state after propagation as claimed: no stored clause is falsified and
no stored clause is unit. -/
def QuietClaim (s : Solver) : Prop :=
  ∀ cref, cref < s.clause_DB.length → ¬ Falsified s cref ∧ ¬ UnitClause s cref

/-- The state after propagation as the watched literals leave it: no stored
clause is falsified, no stored clause has exactly one unassigned literal
position with false literals at all its other positions, and so no stored
clause without a repeated literal is unit. -/
def QuietSound (s : Solver) : Prop :=
  ∀ cref, cref < s.clause_DB.length →
    ¬ Falsified s cref ∧ ¬ IsUnit s cref ∧
    ((s.clause_DB.getD cref default).lit.Nodup → ¬ UnitClause s cref)

/-- The state at the end of the clauses of the input `p cnf 2 1`, `1 0`,
`-1 2 0`: the literal `1` is on the trail, not yet propagated. -/
def chainExample : Solver :=
  { (add_clause (assign (alloc_memory { init with vars := 2, clauses := 1 }) 1 0 (-1))
      [-1, 2]).2 with
    origin_clauses :=
      (add_clause (assign (alloc_memory { init with vars := 2, clauses := 1 }) 1 0 (-1))
        [-1, 2]).2.clause_DB.length }

/-- The fields of a state that the watch invariants read, as lists of
integers: the trail, the values of the variables 1, 2 and 3, the index
`propagated`, and then the clauses. -/
def watchSummary (s : Solver) : List (List Int) :=
  [s.trail, [s.value 1, s.value 2, s.value 3], [Int.ofNat s.propagated]] ++
    s.clause_DB.map Clause.lit

/-- Watch soundness as claimed: in every stored clause of three literals or
more, if neither watched literal (positions 0 and 1) is true, every literal
from position 2 on is false. -/
def WatchSoundClaim (s : Solver) : Prop :=
  ∀ cref, cref < s.clause_DB.length → 3 ≤ (s.clause_DB.getD cref default).lit.length →
    litValue s.value (litAt s cref 0) ≠ 1 → litValue s.value (litAt s cref 1) ≠ 1 →
    ∀ k, 2 ≤ k → k < (s.clause_DB.getD cref default).lit.length →
      litValue s.value (litAt s cref k) = -1

/-- Watch soundness as the blocking literals of `propagate` leave it: in every
stored clause, a false watched literal comes with a true literal of the
clause; so if neither watched literal is true, both are unassigned or a
literal from position 2 on is true. -/
def WatchSound (s : Solver) : Prop :=
  ∀ cref, cref < s.clause_DB.length →
    (∀ x, x < 2 → litValue s.value (litAt s cref x) = -1 →
      ∃ k, k < (s.clause_DB.getD cref default).lit.length ∧
        litValue s.value (litAt s cref k) = 1) ∧
    (litValue s.value (litAt s cref 0) ≠ 1 → litValue s.value (litAt s cref 1) ≠ 1 →
      (litValue s.value (litAt s cref 0) = 0 ∧ litValue s.value (litAt s cref 1) = 0) ∨
      ∃ k, 2 ≤ k ∧ k < (s.clause_DB.getD cref default).lit.length ∧
        litValue s.value (litAt s cref k) = 1)

/-- Watch soundness for the propagated part of the trail: in every stored
clause, a false watched literal whose negation is among the first
`propagated` literals of the trail comes with a true literal of the clause. -/
def WatchSoundAt (s : Solver) : Prop :=
  ∀ cref, cref < s.clause_DB.length → ∀ x, x < 2 →
    litValue s.value (litAt s cref x) = -1 →
    -(litAt s cref x) ∈ s.trail.take s.propagated →
    ∃ k, k < (s.clause_DB.getD cref default).lit.length ∧
      litValue s.value (litAt s cref k) = 1

end Solver

end EasySAT

namespace EasySAT

namespace Solver

end Solver

end EasySAT

namespace EasySAT

namespace Solver

end Solver

end EasySAT

namespace EasySAT

/-! ## List access lemmas -/

theorem getD_set_eq {α : Type} (l : List α) (i : Nat) (a d : α) (h : i < l.length) :
    (l.set i a).getD i d = a := by
  simp [List.getD_eq_getElem?_getD, List.getElem?_set, h]

theorem getD_set_ne {α : Type} (l : List α) (i j : Nat) (a d : α) (h : i ≠ j) :
    (l.set i a).getD j d = l.getD j d := by
  simp [List.getD_eq_getElem?_getD, List.getElem?_set, h]

theorem getD_set {α : Type} (l : List α) (i j : Nat) (a d : α) :
    (l.set i a).getD j d = if i = j ∧ i < l.length then a else l.getD j d := by
  by_cases hij : i = j
  · subst hij
    by_cases hi : i < l.length
    · simp [getD_set_eq, hi]
    · have : l.set i a = l := List.set_eq_of_length_le (by omega)
      simp [this, hi]
  · simp [getD_set_ne, hij]

theorem getD_append_left {α : Type} (l m : List α) (i : Nat) (d : α) (h : i < l.length) :
    (l ++ m).getD i d = l.getD i d := by
  simp [List.getD_eq_getElem?_getD, List.getElem?_append_left, h]

theorem getD_append_right {α : Type} (l m : List α) (i : Nat) (d : α) (h : l.length ≤ i) :
    (l ++ m).getD i d = m.getD (i - l.length) d := by
  simp [List.getD_eq_getElem?_getD, List.getElem?_append_right, h]

theorem getD_dropLast {α : Type} (l : List α) (i : Nat) (d : α) (h : i < l.length - 1) :
    l.dropLast.getD i d = l.getD i d := by
  have h2 : i < l.length := by omega
  simp [List.getD_eq_getElem?_getD, List.dropLast_eq_take, List.getElem?_take, h, h2]

theorem getD_replicate {α : Type} (n i : Nat) (a : α) : (List.replicate n a).getD i a = a := by
  simp [List.getD_eq_getElem?_getD, List.getElem?_replicate]
  split <;> simp

namespace Heap

theorem father_lt {v : Nat} (h : v ≠ 0) : father v < v := by
  unfold father; omega

theorem father_eq_iff {i v : Nat} (hi : 0 < i) : father i = v ↔ i = left v ∨ i = right v := by
  unfold father left right; omega

theorem lt_iff {α : Type} [LinearOrder α] (act : Nat → α) (a b : Nat) :
    GreaterActivity act a b = true ↔ act b < act a := by
  simp [GreaterActivity]

theorem inHeap_iff (h : Heap) (n : Nat) :
    inHeap h n = true ↔ n < h.pos.length ∧ 0 ≤ h.pos.getD n 0 := by
  simp [inHeap]

theorem posOK_inHeap_iff_mem {h : Heap} (hp : PosOK h) (n : Nat) :
    inHeap h n = true ↔ ∃ i, i < h.heap.length ∧ h.heap.getD i 0 = n := by
  rw [inHeap_iff]
  constructor
  · rintro ⟨h1, h2⟩
    exact hp.2 n h1 h2
  · rintro ⟨i, hi, rfl⟩
    have := hp.1 i hi
    exact ⟨this.1, by rw [this.2]; exact Int.ofNat_nonneg i⟩

theorem posOK_inj {h : Heap} (hp : PosOK h) {i j : Nat} (hi : i < h.heap.length)
    (hj : j < h.heap.length) (e : h.heap.getD i 0 = h.heap.getD j 0) : i = j := by
  have h1 := (hp.1 i hi).2
  have h2 := (hp.1 j hj).2
  rw [e, h2] at h1
  exact_mod_cast h1.symm

/-- The final writes of a sift loop close the hole and give a heap whose
position map is consistent again. -/
theorem holeInv_finish {h0 h : Heap} {x v : Nat} (hi : HoleInv h0 x v h) :
    PosOK ⟨h.heap.set v x, h.pos.set x (v : Int)⟩ ∧
    (h.heap.set v x).length = h0.heap.length ∧
    (h.pos.set x (v : Int)).length = h0.pos.length ∧
    (∀ n, n ≠ x → (0 ≤ (h.pos.set x (v : Int)).getD n 0 ↔ 0 ≤ h0.pos.getD n 0)) ∧
    0 ≤ (h.pos.set x (v : Int)).getD x 0 := by
  refine ⟨⟨?_, ?_⟩, ?_, ?_, ?_, ?_⟩
  · intro i hil
    simp only [List.length_set] at hil ⊢
    by_cases hiv : i = v
    · subst hiv
      simp [getD_set_eq, hil, hi.hx]
    · have := hi.fwd i hil hiv
      rw [getD_set_ne _ _ _ _ _ (Ne.symm hiv)]
      refine ⟨this.1, ?_⟩
      rw [getD_set_ne _ _ _ _ _ (Ne.symm this.2.2)]
      exact this.2.1
  · intro n hn hpos
    simp only [List.length_set] at hn ⊢
    by_cases hnx : n = x
    · subst hnx
      exact ⟨v, hi.hv, getD_set_eq _ _ _ _ hi.hv⟩
    · rw [getD_set_ne _ _ _ _ _ (Ne.symm hnx)] at hpos
      obtain ⟨i, hil, hiv, e⟩ := hi.bwd n hn hnx hpos
      exact ⟨i, hil, by rw [getD_set_ne _ _ _ _ _ (Ne.symm hiv)]; exact e⟩
  · simp [hi.lenHeap]
  · simp [hi.lenPos]
  · intro n hnx
    rw [getD_set_ne _ _ _ _ _ (Ne.symm hnx)]
    exact hi.same n hnx
  · rw [getD_set_eq _ _ _ _ hi.hx]
    exact Int.ofNat_nonneg v

/-- Moving the content of slot `c` into the hole `v` makes `c` the hole. -/
theorem holeInv_move {h0 h : Heap} {x v c : Nat} (hi : HoleInv h0 x v h)
    (hc : c < h.heap.length) (hcv : c ≠ v) :
    HoleInv h0 x c ⟨h.heap.set v (h.heap.getD c 0), h.pos.set (h.heap.getD c 0) (v : Int)⟩ := by
  have fc := hi.fwd c hc hcv
  refine ⟨?_, ?_, ?_, ?_, ?_, ?_, ?_⟩
  · simpa using hc
  · simpa using hi.hx
  · intro i hil hic
    simp only [List.length_set] at hil ⊢
    by_cases hiv : i = v
    · subst hiv
      rw [getD_set_eq _ _ _ _ hil]
      exact ⟨fc.1, getD_set_eq _ _ _ _ fc.1, fc.2.2⟩
    · have fi := hi.fwd i hil hiv
      rw [getD_set_ne _ _ _ _ _ (Ne.symm hiv)]
      refine ⟨fi.1, ?_, fi.2.2⟩
      have hne : h.heap.getD c 0 ≠ h.heap.getD i 0 := by
        intro e
        have h1 := fi.2.1
        rw [← e, fc.2.1] at h1
        exact hic (by exact_mod_cast h1.symm)
      rw [getD_set_ne _ _ _ _ _ hne]
      exact fi.2.1
  · intro n hn hnx hpos
    simp only [List.length_set] at hn ⊢
    by_cases hnc : n = h.heap.getD c 0
    · exact ⟨v, hi.hv, Ne.symm hcv, by rw [getD_set_eq _ _ _ _ hi.hv]; exact hnc.symm⟩
    · rw [getD_set_ne _ _ _ _ _ (Ne.symm hnc)] at hpos
      obtain ⟨i, hil, hiv, e⟩ := hi.bwd n hn hnx hpos
      refine ⟨i, hil, ?_, ?_⟩
      · intro hic
        subst hic
        exact hnc e.symm
      · rw [getD_set_ne _ _ _ _ _ (Ne.symm hiv)]
        exact e
  · simp [hi.lenHeap]
  · simp [hi.lenPos]
  · intro n hnx
    by_cases hnc : n = h.heap.getD c 0
    · subst hnc
      rw [getD_set_eq _ _ _ _ fc.1, ← hi.same _ hnx, fc.2.1]
      simp
    · rw [getD_set_ne _ _ _ _ _ (Ne.symm hnc)]
      exact hi.same n hnx

end Heap

end EasySAT

namespace EasySAT

namespace Heap

variable {α : Type} [LinearOrder α]

theorem upOrd_finish {act : Nat → α} {h0 h : Heap} {x v : Nat} (hi : HoleInv h0 x v h)
    (ho : UpOrd act x v h) (htop : v ≠ 0 → act x ≤ act (h.heap.getD (father v) 0)) :
    SiftPost act h0 x ⟨h.heap.set v x, h.pos.set x (v : Int)⟩ := by
  obtain ⟨hp, h2, h3, h4, h5⟩ := holeInv_finish hi
  refine ⟨⟨hp, ?_⟩, h2, h3, h4, h5⟩
  intro i hi0 hil
  simp only [List.length_set] at hil
  show act ((h.heap.set v x).getD i 0) ≤ act ((h.heap.set v x).getD (father i) 0)
  have hfi : father i < i := father_lt (by omega)
  by_cases hiv : i = v
  · subst hiv
    rw [getD_set_eq _ _ _ _ hil, getD_set_ne _ _ _ _ _ (by omega)]
    exact htop (by omega)
  · rw [getD_set_ne _ _ _ _ _ (Ne.symm hiv)]
    by_cases hfv : father i = v
    · rw [hfv, getD_set_eq _ _ _ _ hi.hv]
      exact (ho.chi i hi0 hil hfv).1
    · rw [getD_set_ne _ _ _ _ _ (Ne.symm hfv)]
      exact ho.par i hi0 hil hiv hfv

theorem upLoop_spec (act : Nat → α) (h0 : Heap) (x : Nat) :
    ∀ (fuel v : Nat) (h : Heap), v ≤ fuel → HoleInv h0 x v h → UpOrd act x v h →
      SiftPost act h0 x (upLoop (GreaterActivity act) x fuel v h) := by
  intro fuel
  induction fuel with
  | zero =>
    intro v h hv hi ho
    have : v = 0 := by omega
    subst this
    exact upOrd_finish hi ho (fun h => absurd rfl h)
  | succ fuel ih =>
    intro v h hv hi ho
    unfold upLoop
    by_cases hc : v ≠ 0 ∧ GreaterActivity act x (h.heap.getD (father v) 0) = true
    · rw [if_pos hc]
      obtain ⟨hv0, hlt⟩ := hc
      rw [lt_iff] at hlt
      have hpv : father v < v := father_lt hv0
      have hpl : father v < h.heap.length := lt_trans hpv hi.hv
      apply ih (father v) _ (by omega) (holeInv_move hi hpl (by omega))
      constructor
      · intro i hi0 hil hip hfp
        simp only [List.length_set] at hil
        have hiv : i ≠ v := by
          intro e
          exact hfp (by rw [e])
        show act ((h.heap.set v _).getD i 0) ≤ act ((h.heap.set v _).getD (father i) 0)
        rw [getD_set_ne _ _ _ _ _ (Ne.symm hiv)]
        by_cases hfv : father i = v
        · rw [hfv, getD_set_eq _ _ _ _ hi.hv]
          exact (ho.chi i hi0 hil hfv).2 hv0
        · rw [getD_set_ne _ _ _ _ _ (Ne.symm hfv)]
          exact ho.par i hi0 hil hiv hfv
      · intro i hi0 hil hfp
        simp only [List.length_set] at hil
        show act ((h.heap.set v _).getD i 0) ≤ act x ∧
          (father v ≠ 0 → act ((h.heap.set v _).getD i 0) ≤
            act ((h.heap.set v _).getD (father (father v)) 0))
        have hffv : ∀ (_ : father v ≠ 0), father (father v) ≠ v := by
          intro h0
          have := father_lt h0
          omega
        by_cases hiv : i = v
        · subst hiv
          rw [getD_set_eq _ _ _ _ hil]
          refine ⟨le_of_lt hlt, fun hp0 => ?_⟩
          rw [getD_set_ne _ _ _ _ _ (Ne.symm (hffv hp0))]
          exact ho.par (father i) (by omega) hpl (by omega) (hffv hp0)
        · rw [getD_set_ne _ _ _ _ _ (Ne.symm hiv)]
          have h1 : act (h.heap.getD i 0) ≤ act (h.heap.getD (father v) 0) := by
            have := ho.par i hi0 hil hiv (by omega)
            rwa [hfp] at this
          refine ⟨le_trans h1 (le_of_lt hlt), fun hp0 => ?_⟩
          rw [getD_set_ne _ _ _ _ _ (Ne.symm (hffv hp0))]
          exact le_trans h1 (ho.par (father v) (by omega) hpl (by omega) (hffv hp0))
    · rw [if_neg hc]
      apply upOrd_finish hi ho
      intro hv0
      have : ¬ GreaterActivity act x (h.heap.getD (father v) 0) = true := fun h => hc ⟨hv0, h⟩
      rw [lt_iff] at this
      exact not_lt.mp this

theorem downOrd_finish {act : Nat → α} {h0 h : Heap} {x v : Nat} (hi : HoleInv h0 x v h)
    (ho : DownOrd act x v h)
    (hch : ∀ i, 0 < i → i < h.heap.length → father i = v → act (h.heap.getD i 0) ≤ act x) :
    SiftPost act h0 x ⟨h.heap.set v x, h.pos.set x (v : Int)⟩ := by
  obtain ⟨hp, h2, h3, h4, h5⟩ := holeInv_finish hi
  refine ⟨⟨hp, ?_⟩, h2, h3, h4, h5⟩
  intro i hi0 hil
  simp only [List.length_set] at hil
  show act ((h.heap.set v x).getD i 0) ≤ act ((h.heap.set v x).getD (father i) 0)
  have hfi : father i < i := father_lt (by omega)
  by_cases hiv : i = v
  · subst hiv
    rw [getD_set_eq _ _ _ _ hil, getD_set_ne _ _ _ _ _ (by omega)]
    exact ho.top (by omega)
  · rw [getD_set_ne _ _ _ _ _ (Ne.symm hiv)]
    by_cases hfv : father i = v
    · rw [hfv, getD_set_eq _ _ _ _ hi.hv]
      exact hch i hi0 hil hfv
    · rw [getD_set_ne _ _ _ _ _ (Ne.symm hfv)]
      exact ho.par i hi0 hil hiv hfv

theorem downLoop_spec (act : Nat → α) (h0 : Heap) (x : Nat) :
    ∀ (fuel v : Nat) (h : Heap), h.heap.length ≤ fuel + v → HoleInv h0 x v h →
      DownOrd act x v h → SiftPost act h0 x (downLoop (GreaterActivity act) x fuel v h) := by
  intro fuel
  induction fuel with
  | zero =>
    intro v h hv hi ho
    have := hi.hv
    omega
  | succ fuel ih =>
    intro v h hv hi ho
    unfold downLoop
    by_cases hl : left v < h.heap.length
    · simp only [hl, if_true]
      generalize hcdef : (if right v < h.heap.length ∧
          GreaterActivity act (h.heap.getD (right v) 0) (h.heap.getD (left v) 0) = true
          then right v else left v) = c
      have hcl : c < h.heap.length := by
        rw [← hcdef]; split
        · rename_i h; exact h.1
        · exact hl
      have hcf : father c = v ∧ 0 < c := by
        rw [← hcdef]; unfold father left right; split <;> omega
      have hsib : ∀ i, 0 < i → i < h.heap.length → father i = v →
          act (h.heap.getD i 0) ≤ act (h.heap.getD c 0) := by
        intro i hi0 hil hfv
        rw [father_eq_iff hi0] at hfv
        rw [← hcdef]
        split
        · rename_i hr
          have hr2 := hr.2
          rw [lt_iff] at hr2
          rcases hfv with e | e
          · rw [e]; exact le_of_lt hr2
          · rw [e]
        · rename_i hr
          rcases hfv with e | e
          · rw [e]
          · rw [e]
            rw [e] at hil
            have : ¬ GreaterActivity act (h.heap.getD (right v) 0) (h.heap.getD (left v) 0) = true :=
              fun h => hr ⟨hil, h⟩
            rw [lt_iff] at this
            exact not_lt.mp this
      have hvc : v < c := by
        have := father_lt (v := c) (by omega)
        omega
      have hcv : c ≠ v := by omega
      by_cases hlt : GreaterActivity act (h.heap.getD c 0) x = true
      · simp only [hlt, if_true]
        rw [lt_iff] at hlt
        apply ih c _ (by simp only [List.length_set]; omega) (holeInv_move hi hcl hcv)
        constructor
        · intro i hi0 hil hic hfc
          simp only [List.length_set] at hil
          show act ((h.heap.set v _).getD i 0) ≤ act ((h.heap.set v _).getD (father i) 0)
          have hfi : father i < i := father_lt (by omega)
          by_cases hiv : i = v
          · subst hiv
            rw [getD_set_eq _ _ _ _ hil, getD_set_ne _ _ _ _ _ (by omega)]
            exact ho.gc (by omega) c hcf.2 hcl hcf.1
          · rw [getD_set_ne _ _ _ _ _ (Ne.symm hiv)]
            by_cases hfv : father i = v
            · rw [hfv, getD_set_eq _ _ _ _ hi.hv]
              exact hsib i hi0 hil hfv
            · rw [getD_set_ne _ _ _ _ _ (Ne.symm hfv)]
              exact ho.par i hi0 hil hiv hfv
        · intro _
          show act x ≤ act ((h.heap.set v _).getD (father c) 0)
          rw [hcf.1, getD_set_eq _ _ _ _ hi.hv]
          exact le_of_lt hlt
        · intro _ i hi0 hil hfc
          simp only [List.length_set] at hil
          show act ((h.heap.set v _).getD i 0) ≤ act ((h.heap.set v _).getD (father c) 0)
          have hiv : i ≠ v := by
            have := father_lt (v := i) (by omega)
            omega
          rw [hcf.1, getD_set_eq _ _ _ _ hi.hv, getD_set_ne _ _ _ _ _ (Ne.symm hiv)]
          have := ho.par i hi0 hil hiv (by omega)
          rwa [hfc] at this
      · simp only [hlt, if_false]
        rw [lt_iff] at hlt
        apply downOrd_finish hi ho
        intro i hi0 hil hfv
        exact le_trans (hsib i hi0 hil hfv) (not_lt.mp hlt)
    · simp only [hl, if_false]
      apply downOrd_finish hi ho
      intro i hi0 hil hfv
      rw [father_eq_iff hi0] at hfv
      unfold left right at *
      omega

end Heap

end EasySAT

namespace EasySAT

namespace Heap

variable {α : Type} [LinearOrder α]

theorem holeInv_of_posOK {h : Heap} (hp : PosOK h) {v : Nat} (hv : v < h.heap.length) :
    HoleInv h (h.heap.getD v 0) v h := by
  refine ⟨hv, (hp.1 v hv).1, ?_, ?_, rfl, rfl, fun _ _ => Iff.rfl⟩
  · intro i hi hiv
    exact ⟨(hp.1 i hi).1, (hp.1 i hi).2, fun e => hiv (posOK_inj hp hi hv e)⟩
  · intro n hn hnx hpos
    obtain ⟨i, hi, e⟩ := hp.2 n hn hpos
    refine ⟨i, hi, ?_, e⟩
    intro hiv
    subst hiv
    exact hnx e.symm

theorem siftPost_inHeap_eq {act : Nat → α} {h0 h1 : Heap} {x : Nat} (hs : SiftPost act h0 x h1)
    (hx : inHeap h0 x = true) (n : Nat) : inHeap h1 n = inHeap h0 n := by
  obtain ⟨_, _, h3, h4, h5⟩ := hs
  rw [Bool.eq_iff_iff, inHeap_iff, inHeap_iff, h3]
  by_cases hnx : n = x
  · subst hnx
    rw [inHeap_iff] at hx
    exact ⟨fun _ => hx, fun _ => ⟨hx.1, h5⟩⟩
  · rw [h4 n hnx]

theorem ordered_root_max {act : Nat → α} {h : Heap} (ho : Ordered act h) :
    ∀ i, i < h.heap.length → act (h.heap.getD i 0) ≤ act (h.heap.getD 0 0) := by
  intro i
  induction i using Nat.strong_induction_on with
  | _ i ih =>
    intro hi
    by_cases h0 : i = 0
    · subst h0; exact le_refl _
    · have hf := father_lt h0
      exact le_trans (ho i (by omega) hi) (ih (father i) hf (by omega))

/-- Effect of `insert` on a valid heap. -/
theorem insert_spec {act : Nat → α} {h : Heap} (hv : Valid act h) (x : Nat)
    (hx : inHeap h x = false) :
    Valid act (insert (GreaterActivity act) h x) ∧
      ∀ n, inHeap (insert (GreaterActivity act) h x) n = true ↔ (n = x ∨ inHeap h n = true) := by
  obtain ⟨hp, ho⟩ := hv
  have hxm : ∀ i, i < h.heap.length → h.heap.getD i 0 ≠ x := by
    intro i hi e
    have : inHeap h x = true := (posOK_inHeap_iff_mem hp x).2 ⟨i, hi, e⟩
    rw [hx] at this
    exact Bool.noConfusion this
  generalize hpos1 : (if h.pos.length < x + 1 then
      h.pos ++ List.replicate (x + 1 - h.pos.length) (-1) else h.pos) = pos1
  have hl1 : x < pos1.length ∧ h.pos.length ≤ pos1.length := by
    rw [← hpos1]; split
    · simp; omega
    · omega
  have hg1 : ∀ n, n < h.pos.length → pos1.getD n 0 = h.pos.getD n 0 := by
    intro n hn
    rw [← hpos1]; split
    · exact getD_append_left _ _ _ _ hn
    · rfl
  have hg2 : ∀ n, n < pos1.length → h.pos.length ≤ n → pos1.getD n 0 = -1 := by
    intro n hn hn2
    rw [← hpos1] at hn ⊢
    split
    · rename_i hlt
      rw [if_pos hlt] at hn
      simp only [List.length_append, List.length_replicate] at hn
      rw [List.getD_eq_getElem?_getD, List.getElem?_append_right hn2,
        List.getElem?_replicate]
      rw [if_pos (by omega)]
      rfl
    · rename_i hlt
      rw [if_neg hlt] at hn
      omega
  have hins : insert (GreaterActivity act) h x =
      upLoop (GreaterActivity act) x h.heap.length h.heap.length
        ⟨h.heap ++ [x], pos1.set x (h.heap.length : Int)⟩ := by
    unfold insert up
    simp only [hpos1]
    rw [getD_set_eq _ _ _ _ hl1.1]
    simp only [Int.toNat_ofNat]
    rw [getD_append_right _ _ _ _ (le_refl _)]
    simp
  generalize hh1 : (⟨h.heap ++ [x], pos1.set x (h.heap.length : Int)⟩ : Heap) = h1 at hins
  have hlen1 : h1.heap.length = h.heap.length + 1 := by rw [← hh1]; simp
  have hget1 : ∀ i, i < h.heap.length → h1.heap.getD i 0 = h.heap.getD i 0 := by
    intro i hi; rw [← hh1]; exact getD_append_left _ _ _ _ hi
  have hgetx : h1.heap.getD h.heap.length 0 = x := by
    rw [← hh1]; show (h.heap ++ [x]).getD _ _ = _
    rw [getD_append_right _ _ _ _ (le_refl _)]; simp
  have hplen : h1.pos.length = pos1.length := by rw [← hh1]; simp
  have hpx : h1.pos.getD x 0 = (h.heap.length : Int) := by
    rw [← hh1]; exact getD_set_eq _ _ _ _ hl1.1
  have hpn : ∀ n, n ≠ x → h1.pos.getD n 0 = pos1.getD n 0 := by
    intro n hn; rw [← hh1]; exact getD_set_ne _ _ _ _ _ (Ne.symm hn)
  have hp1 : PosOK h1 := by
    constructor
    · intro i hi
      by_cases hil : i < h.heap.length
      · rw [hget1 i hil, hplen, hpn _ (hxm i hil), hg1 _ (hp.1 i hil).1]
        exact ⟨lt_of_lt_of_le (hp.1 i hil).1 hl1.2, (hp.1 i hil).2⟩
      · have : i = h.heap.length := by omega
        subst this
        rw [hgetx, hplen, hpx]
        exact ⟨hl1.1, rfl⟩
    · intro n hn hpos
      rw [hplen] at hn
      by_cases hnx : n = x
      · subst hnx
        exact ⟨h.heap.length, by omega, hgetx⟩
      · rw [hpn n hnx] at hpos
        by_cases hnl : n < h.pos.length
        · rw [hg1 n hnl] at hpos
          obtain ⟨i, hi, e⟩ := hp.2 n hnl hpos
          exact ⟨i, by omega, by rw [hget1 i hi]; exact e⟩
        · rw [hg2 n hn (by omega)] at hpos
          omega
  have hinv : HoleInv h1 x h.heap.length h1 := by
    have := holeInv_of_posOK hp1 (v := h.heap.length) (by omega)
    rwa [hgetx] at this
  have hord : UpOrd act x h.heap.length h1 := by
    constructor
    · intro i hi0 hil hiv hfv
      have hfi := father_lt (v := i) (by omega)
      rw [hget1 i (by omega), hget1 (father i) (by omega)]
      exact ho i hi0 (by omega)
    · intro i hi0 hil hfv
      have hfi := father_lt (v := i) (by omega)
      omega
  have hpost := upLoop_spec act h1 x h.heap.length h.heap.length h1 (le_refl _) hinv hord
  rw [← hins] at hpost
  refine ⟨hpost.1, fun n => ?_⟩
  have hx1 : inHeap h1 x = true := by
    rw [inHeap_iff, hplen, hpx]; exact ⟨hl1.1, Int.ofNat_nonneg _⟩
  rw [siftPost_inHeap_eq hpost hx1 n]
  by_cases hnx : n = x
  · subst hnx; simp [hx1]
  · rw [inHeap_iff, inHeap_iff, hplen, hpn n hnx]
    simp only [hnx, false_or]
    constructor
    · rintro ⟨h1, h2⟩
      by_cases hnl : n < h.pos.length
      · exact ⟨hnl, by rwa [hg1 n hnl] at h2⟩
      · rw [hg2 n h1 (by omega)] at h2; omega
    · rintro ⟨h1, h2⟩
      exact ⟨by omega, by rwa [hg1 n h1]⟩

/-- Effect of `update(v)` called after the activity of member `v` was raised. -/
theorem update_spec {act act2 : Nat → α} {h : Heap} (hv : Valid act h) (v : Nat)
    (hm : inHeap h v = true) (hinc : act v ≤ act2 v)
    (hsame : ∀ w, inHeap h w = true → w ≠ v → act2 w = act w) :
    Valid act2 (update (GreaterActivity act2) h v) ∧
      ∀ n, inHeap (update (GreaterActivity act2) h v) n = inHeap h n := by
  obtain ⟨hp, ho⟩ := hv
  obtain ⟨i, hi, e⟩ := (posOK_inHeap_iff_mem hp v).1 hm
  have hpv : h.pos.getD v 0 = (i : Int) := by rw [← e]; exact (hp.1 i hi).2
  have hupd : update (GreaterActivity act2) h v =
      upLoop (GreaterActivity act2) v i i h := by
    unfold update up
    rw [hpv]; simp only [Int.toNat_ofNat]; rw [e]
  have hinv : HoleInv h v i h := by
    have := holeInv_of_posOK hp hi
    rwa [e] at this
  have hmem : ∀ j, j < h.heap.length → inHeap h (h.heap.getD j 0) = true :=
    fun j hj => (posOK_inHeap_iff_mem hp _).2 ⟨j, hj, rfl⟩
  have hact : ∀ j, j < h.heap.length → j ≠ i → act2 (h.heap.getD j 0) = act (h.heap.getD j 0) := by
    intro j hj hji
    apply hsame _ (hmem j hj)
    intro e2
    rw [← e] at e2
    exact hji (posOK_inj hp hj hi e2)
  have hord : UpOrd act2 v i h := by
    constructor
    · intro j hj0 hjl hji hfi
      have hfj := father_lt (v := j) (by omega)
      rw [hact j hjl hji, hact (father j) (by omega) hfi]
      exact ho j hj0 hjl
    · intro j hj0 hjl hfi
      have hfj := father_lt (v := j) (by omega)
      have hji : j ≠ i := by omega
      have h1 : act (h.heap.getD j 0) ≤ act v := by
        have := ho j hj0 hjl
        rwa [hfi, e] at this
      rw [hact j hjl hji]
      refine ⟨le_trans h1 hinc, fun hi0 => ?_⟩
      have hfi2 := father_lt hi0
      rw [hact (father i) (by omega) (by omega)]
      have := ho i (by omega) hi
      rw [e] at this
      exact le_trans h1 this
  have hpost := upLoop_spec act2 h v i i h (le_refl _) hinv hord
  rw [← hupd] at hpost
  exact ⟨hpost.1, siftPost_inHeap_eq hpost hm⟩

end Heap

end EasySAT

namespace EasySAT

namespace Heap

variable {α : Type} [LinearOrder α]

/-- The heap `pop` hands to `down`: the last slot moved to the root, the old
root unregistered. -/
theorem pop_pre {h : Heap} (hp : PosOK h) (hne : 0 < h.heap.length) :
    ∃ h2 : Heap,
      PosOK h2 ∧ h2.heap.length = h.heap.length - 1 ∧
      h2.heap = (h.heap.set 0 (h.heap.getD (h.heap.length - 1) 0)).dropLast ∧
      h2.pos = (h.pos.set ((h.heap.set 0 (h.heap.getD (h.heap.length - 1) 0)).getD 0 0) 0).set
        (h.heap.getD 0 0) (-1) ∧
      (∀ i, 0 < i → i < h.heap.length - 1 → h2.heap.getD i 0 = h.heap.getD i 0) ∧
      (∀ n, inHeap h2 n = true ↔ (inHeap h n = true ∧ n ≠ h.heap.getD 0 0)) := by
  refine ⟨⟨(h.heap.set 0 (h.heap.getD (h.heap.length - 1) 0)).dropLast,
    (h.pos.set ((h.heap.set 0 (h.heap.getD (h.heap.length - 1) 0)).getD 0 0) 0).set
        (h.heap.getD 0 0) (-1)⟩, ?_⟩
  generalize hx : h.heap.getD 0 0 = x
  generalize hlast : h.heap.getD (h.heap.length - 1) 0 = last
  have h10 : (h.heap.set 0 last).getD 0 0 = last := getD_set_eq _ _ _ _ hne
  rw [h10]
  have hxl : x < h.pos.length := by rw [← hx]; exact (hp.1 0 hne).1
  have hll : last < h.pos.length := by rw [← hlast]; exact (hp.1 _ (by omega)).1
  have hlen2 : ((h.heap.set 0 last).dropLast).length = h.heap.length - 1 := by simp
  have hget2 : ∀ i, 0 < i → i < h.heap.length - 1 →
      ((h.heap.set 0 last).dropLast).getD i 0 = h.heap.getD i 0 := by
    intro i hi0 hil
    rw [getD_dropLast _ _ _ (by simpa using hil), getD_set_ne _ _ _ _ _ (by omega)]
  have hget0 : 1 < h.heap.length → ((h.heap.set 0 last).dropLast).getD 0 0 = last := by
    intro h1
    rw [getD_dropLast _ _ _ (by simpa using (by omega : 0 < h.heap.length - 1)), h10]
  have hposx : ((h.pos.set last 0).set x (-1)).getD x 0 = -1 :=
    getD_set_eq _ _ _ _ (by simpa using hxl)
  have hposl : last ≠ x → ((h.pos.set last 0).set x (-1)).getD last 0 = 0 := by
    intro hne
    rw [getD_set_ne _ _ _ _ _ (Ne.symm hne), getD_set_eq _ _ _ _ hll]
  have hposn : ∀ n, n ≠ x → n ≠ last →
      ((h.pos.set last 0).set x (-1)).getD n 0 = h.pos.getD n 0 := by
    intro n h1 h2
    rw [getD_set_ne _ _ _ _ _ (Ne.symm h1), getD_set_ne _ _ _ _ _ (Ne.symm h2)]
  have hlx : 1 < h.heap.length → last ≠ x := by
    intro h1 e
    rw [← hx, ← hlast] at e
    have := posOK_inj hp (by omega) hne e
    omega
  have hix : ∀ i, 0 < i → i < h.heap.length → h.heap.getD i 0 ≠ x := by
    intro i hi0 hil e
    rw [← hx] at e
    have := posOK_inj hp hil hne e
    omega
  have hil : ∀ i, i < h.heap.length - 1 → h.heap.getD i 0 ≠ last := by
    intro i hil e
    rw [← hlast] at e
    have := posOK_inj hp (by omega) (by omega) e
    omega
  have hmem : ∀ n, (n < h.pos.length ∧ 0 ≤ ((h.pos.set last 0).set x (-1)).getD n 0) ↔
      ((n < h.pos.length ∧ 0 ≤ h.pos.getD n 0) ∧ n ≠ x) := by
    intro n
    by_cases hnx : n = x
    · subst hnx
      rw [hposx]
      constructor
      · intro hh; omega
      · intro hh; exact absurd rfl hh.2
    · by_cases hnl : n = last
      · subst hnl
        rw [hposl hnx]
        have : h.pos.getD n 0 = ((h.heap.length - 1 : Nat) : Int) := by
          rw [← hlast]; exact (hp.1 _ (by omega)).2
        rw [this]
        constructor
        · intro hh; exact ⟨⟨hh.1, Int.ofNat_nonneg _⟩, hnx⟩
        · intro hh; exact ⟨hh.1.1, le_refl _⟩
      · rw [hposn n hnx hnl]
        constructor
        · intro hh; exact ⟨hh, hnx⟩
        · intro hh; exact hh.1
  refine ⟨⟨?_, ?_⟩, hlen2, rfl, rfl, hget2, ?_⟩
  · intro i hi
    show ((h.heap.set 0 last).dropLast).getD i 0 < ((h.pos.set last 0).set x (-1)).length ∧
      ((h.pos.set last 0).set x (-1)).getD (((h.heap.set 0 last).dropLast).getD i 0) 0 = (i : Int)
    have hi2 : i < h.heap.length - 1 := by rw [← hlen2]; exact hi
    simp only [List.length_set]
    by_cases hi0 : i = 0
    · subst hi0
      rw [hget0 (by omega), hposl (hlx (by omega))]
      exact ⟨hll, rfl⟩
    · rw [hget2 i (by omega) hi2, hposn _ (hix i (by omega) (by omega)) (hil i hi2)]
      exact hp.1 i (by omega)
  · intro n hn hpos
    show ∃ i, i < ((h.heap.set 0 last).dropLast).length ∧
      ((h.heap.set 0 last).dropLast).getD i 0 = n
    have hn2 : n < h.pos.length := by simpa using hn
    have hpos2 : 0 ≤ ((h.pos.set last 0).set x (-1)).getD n 0 := hpos
    obtain ⟨⟨_, hpn⟩, hnx⟩ := (hmem n).1 ⟨hn2, hpos2⟩
    rw [hlen2]
    by_cases hnl : n = last
    · subst hnl
      have h1 : 1 < h.heap.length := by
        by_contra hc
        have : h.heap.length - 1 = 0 := by omega
        rw [this, hx] at hlast
        exact hnx hlast.symm
      exact ⟨0, by omega, hget0 h1⟩
    · obtain ⟨i, hi, e⟩ := hp.2 n hn2 hpn
      have hi0 : i ≠ 0 := by
        intro e0; subst e0; rw [hx] at e; exact hnx e.symm
      have hi1 : i ≠ h.heap.length - 1 := by
        intro e1; subst e1; rw [hlast] at e; exact hnl e.symm
      exact ⟨i, by omega, by rw [hget2 i (by omega) (by omega)]; exact e⟩
  · intro n
    rw [inHeap_iff, inHeap_iff]
    show (n < ((h.pos.set last 0).set x (-1)).length ∧ _) ↔ _
    simp only [List.length_set]
    exact hmem n

/-- Effect of `pop` on a valid non-empty heap. -/
theorem pop_spec {act : Nat → α} {h : Heap} (hv : Valid act h) (hne : h.heap ≠ []) :
    (pop (GreaterActivity act) h).1 = h.heap.getD 0 0 ∧
    inHeap h (pop (GreaterActivity act) h).1 = true ∧
    (∀ w, inHeap h w = true → act w ≤ act (pop (GreaterActivity act) h).1) ∧
    Valid act (pop (GreaterActivity act) h).2 ∧
    (∀ n, inHeap (pop (GreaterActivity act) h).2 n = true ↔
      (inHeap h n = true ∧ n ≠ (pop (GreaterActivity act) h).1)) := by
  obtain ⟨hp, ho⟩ := hv
  have hlen : 0 < h.heap.length := List.length_pos.mpr hne
  obtain ⟨h2, hh2⟩ := pop_pre hp hlen
  obtain ⟨hp2, hlen2, hheap2, hpos2, hget2, hmem2⟩ := hh2
  have h1 : (pop (GreaterActivity act) h).1 = h.heap.getD 0 0 := rfl
  have hpop2 : (pop (GreaterActivity act) h).2 =
      if h2.heap.length > 1 then down (GreaterActivity act) h2 0 else h2 := by
    have : h2 = ⟨(h.heap.set 0 (h.heap.getD (h.heap.length - 1) 0)).dropLast,
      (h.pos.set ((h.heap.set 0 (h.heap.getD (h.heap.length - 1) 0)).getD 0 0) 0).set
        (h.heap.getD 0 0) (-1)⟩ := by
      cases h2; simp only at hheap2 hpos2; rw [hheap2, hpos2]
    rw [this]; rfl
  refine ⟨h1, ?_, ?_, ?_⟩
  · rw [h1]; exact (posOK_inHeap_iff_mem hp _).2 ⟨0, hlen, rfl⟩
  · intro w hw
    obtain ⟨i, hi, e⟩ := (posOK_inHeap_iff_mem hp w).1 hw
    rw [h1, ← e]
    exact ordered_root_max ho i hi
  · rw [hpop2, h1]
    by_cases hgt : h2.heap.length > 1
    · rw [if_pos hgt]
      have hinv := holeInv_of_posOK hp2 (v := 0) (by omega)
      have hord : DownOrd act (h2.heap.getD 0 0) 0 h2 := by
        refine ⟨?_, fun h => absurd rfl h, fun h => absurd rfl h⟩
        intro i hi0 hil _ hf0
        have hfi := father_lt (v := i) (by omega)
        rw [hget2 i hi0 (by omega), hget2 (father i) (by omega) (by omega)]
        exact ho i hi0 (by omega)
      have hpost := downLoop_spec act h2 (h2.heap.getD 0 0) h2.heap.length 0 h2 (le_refl _)
        hinv hord
      have hm0 : inHeap h2 (h2.heap.getD 0 0) = true :=
        (posOK_inHeap_iff_mem hp2 _).2 ⟨0, by omega, rfl⟩
      refine ⟨hpost.1, fun n => ?_⟩
      show inHeap (downLoop _ _ _ _ _) n = true ↔ _
      rw [siftPost_inHeap_eq hpost hm0 n]
      exact hmem2 n
    · rw [if_neg hgt]
      refine ⟨⟨hp2, ?_⟩, hmem2⟩
      intro i hi0 hil
      omega

/-- Every heap built by the operations is a valid max-heap for the current
activities. -/
theorem built_valid {act : Nat → α} {h : Heap} (hb : Built act h) : Valid act h := by
  induction hb with
  | empty act =>
    refine ⟨⟨?_, ?_⟩, ?_⟩
    · intro i hi; simp at hi
    · intro n hn; simp at hn
    · intro i _ hi; simp at hi
  | insert x _ hx ih => exact (insert_spec ih x hx).1
  | pop _ hne ih => exact (pop_spec ih hne).2.2.2.1
  | update act2 v _ hm hinc hsame ih => exact (update_spec ih v hm hinc hsame).1

/-- C7: on every non-empty heap built from the empty heap by inserts of absent
variables, pops and updates that follow an increase of a member's activity,
`pop` returns a member of maximal activity, removes exactly that variable from
the membership relation, and leaves the position map pointing at every
remaining slot. -/
theorem pop_returns_max (act : Nat → α) (h : Heap) (hb : Built act h) (hne : h.heap ≠ []) :
    inHeap h (pop (GreaterActivity act) h).1 = true ∧
    (∀ w, inHeap h w = true → ¬ act (pop (GreaterActivity act) h).1 < act w) ∧
    inHeap (pop (GreaterActivity act) h).2 (pop (GreaterActivity act) h).1 = false ∧
    (∀ w, w ≠ (pop (GreaterActivity act) h).1 →
      (inHeap (pop (GreaterActivity act) h).2 w = inHeap h w)) ∧
    (∀ i, i < (pop (GreaterActivity act) h).2.heap.length →
      (pop (GreaterActivity act) h).2.pos.getD ((pop (GreaterActivity act) h).2.heap.getD i 0) 0
        = (i : Int)) := by
  obtain ⟨_, h2, h3, h4, h5⟩ := pop_spec (built_valid hb) hne
  refine ⟨h2, fun w hw => not_lt.mpr (h3 w hw), ?_, ?_, ?_⟩
  · rw [Bool.eq_false_iff]
    intro hc
    exact ((h5 _).1 hc).2 rfl
  · intro w hw
    rw [Bool.eq_iff_iff, h5 w]
    exact ⟨fun hh => hh.1, fun hh => ⟨hh, hw⟩⟩
  · intro i hi
    exact (h4.1.1 i hi).2

/-- C7 instance: variables 1, 2, 3 with activities 5, 9, 7 inserted in turn;
`pop` returns variable 2. -/
theorem pop_returns_max_witness :
    exampleHeap.heap ≠ [] ∧ (pop (GreaterActivity exampleAct) exampleHeap).1 = 2 ∧
    (inHeap exampleHeap (pop (GreaterActivity exampleAct) exampleHeap).1 = true ∧
    (∀ w, inHeap exampleHeap w = true →
      ¬ exampleAct (pop (GreaterActivity exampleAct) exampleHeap).1 < exampleAct w) ∧
    inHeap (pop (GreaterActivity exampleAct) exampleHeap).2
      (pop (GreaterActivity exampleAct) exampleHeap).1 = false ∧
    (∀ w, w ≠ (pop (GreaterActivity exampleAct) exampleHeap).1 →
      (inHeap (pop (GreaterActivity exampleAct) exampleHeap).2 w = inHeap exampleHeap w)) ∧
    (∀ i, i < (pop (GreaterActivity exampleAct) exampleHeap).2.heap.length →
      (pop (GreaterActivity exampleAct) exampleHeap).2.pos.getD
        ((pop (GreaterActivity exampleAct) exampleHeap).2.heap.getD i 0) 0 = (i : Int))) :=
  ⟨by decide, by decide,
    pop_returns_max exampleAct exampleHeap
      (Built.insert 3 (Built.insert 2 (Built.insert 1 (Built.empty _) (by decide)) (by decide))
        (by decide)) (by decide)⟩

end Heap

end EasySAT

namespace EasySAT

namespace Heap

theorem downLoop_length (lt : Nat → Nat → Bool) (x : Nat) :
    ∀ (fuel v : Nat) (h : Heap), (downLoop lt x fuel v h).heap.length = h.heap.length := by
  intro fuel
  induction fuel with
  | zero => intro v h; simp [downLoop]
  | succ fuel ih =>
    intro v h
    unfold downLoop
    dsimp only
    split_ifs <;> simp [ih]

theorem upLoop_length (lt : Nat → Nat → Bool) (x : Nat) :
    ∀ (fuel v : Nat) (h : Heap), (upLoop lt x fuel v h).heap.length = h.heap.length := by
  intro fuel
  induction fuel with
  | zero => intro v h; simp [upLoop]
  | succ fuel ih =>
    intro v h
    unfold upLoop
    dsimp only
    split_ifs <;> simp [ih]

theorem pop_length (lt : Nat → Nat → Bool) (h : Heap) :
    (pop lt h).2.heap.length = h.heap.length - 1 := by
  unfold pop
  dsimp only
  split_ifs
  · unfold down; rw [downLoop_length]; simp
  · simp

end Heap

end EasySAT

namespace EasySAT

namespace Solver

/-- C5 (evaluation): with the letter `x` where a literal is expected, `parse`
does not exit; it returns the code 20. -/
theorem parse_bad_char_returns :
    (parse 10 badCharInput).map ParseResult.returned = some (some 20) ∧
    (parse 10 badCharInput).map ParseResult.exited = some none := by
  decide

/-- C6 (evaluation): when the last clause `-1` is followed by white space and
the end of the file, `parse` does not exit; it drops the clause and returns the
code 0 with an empty clause database and only the literal `1` assigned. -/
theorem parse_unterminated_returns :
    (parse 10 unterminatedInput).map ParseResult.returned = some (some 0) ∧
    (parse 10 unterminatedInput).map ParseResult.exited = some none ∧
    (parse 10 unterminatedInput).map ParseResult.clauses = some [] := by
  decide

end Solver

end EasySAT

namespace EasySAT

namespace Solver

theorem litValue_ofNat (value : Nat → Int) (v : Nat) (hv : 1 ≤ v) :
    litValue value (v : Int) = value v := by
  unfold litValue
  have : (v : Int) > 0 := by omega
  simp [this]

theorem litValue_neg_ofNat (value : Nat → Int) (v : Nat) (hv : 1 ≤ v) :
    litValue value (-(v : Int)) = - value v := by
  unfold litValue
  have : ¬ (-(v : Int) > 0) := by omega
  simp [this]

theorem decideLoop_unfold (fuel : Nat) (next : Int) (s : Solver) :
    decideLoop fuel next s =
      if next = -1 ∨ litValue s.value next ≠ 0 then
        if s.vsids.empty then some (none, s)
        else
          match fuel with
          | 0 => none
          | fuel + 1 =>
            decideLoop fuel ((Heap.pop (GreaterActivity s.activity) s.vsids).1 : Int)
              { s with vsids := (Heap.pop (GreaterActivity s.activity) s.vsids).2 }
      else some (some next, s) := by
  cases fuel <;> rw [decideLoop]

/-- The selection loop of `decide`: when some variable is unassigned and the
heap is valid and complete, the loop ends on an unassigned variable of maximal
activity, and only the heap has changed. -/
theorem decideLoop_spec (s : Solver) (hex : ∃ v, IsVar s v ∧ s.value v = 0) :
    ∀ (fuel : Nat) (next : Int) (h : Heap),
      Heap.Valid s.activity h → h.heap.length = fuel →
      (∀ v, h.inHeap v = true → IsVar s v) →
      (∀ v, IsVar s v → s.value v = 0 → h.inHeap v = true) →
      (next = -1 ∨ litValue s.value next ≠ 0) →
      ∃ (v : Nat) (h2 : Heap),
        decideLoop fuel next { s with vsids := h } = some (some (v : Int), { s with vsids := h2 }) ∧
        IsVar s v ∧ s.value v = 0 ∧
        (∀ w, IsVar s w → s.value w = 0 → s.activity w ≤ s.activity v) := by
  intro fuel
  induction fuel with
  | zero =>
    intro next h _ hlen _ hcomp _
    obtain ⟨v, hv, hval⟩ := hex
    have := hcomp v hv hval
    rw [Heap.inHeap_iff] at this
    exfalso
    have hm := hcomp v hv hval
    rename_i hvalid _ _
    obtain ⟨i, hi, _⟩ := (Heap.posOK_inHeap_iff_mem hvalid.1 v).1 hm
    omega
  | succ fuel ih =>
    intro next h hvalid hlen hvars hcomp hcont
    have hne : h.heap ≠ [] := by
      intro e; rw [e] at hlen; simp at hlen
    obtain ⟨_, hmem, hmax, hvalid2, hmem2⟩ := Heap.pop_spec hvalid hne
    have hlen2 := Heap.pop_length (GreaterActivity s.activity) h
    rw [decideLoop_unfold]
    have hemp : Heap.empty h = false := by
      unfold Heap.empty; simp; exact hne
    simp only [hcont, if_true, hemp, Bool.false_eq_true, if_false]
    generalize hr : Heap.pop (GreaterActivity s.activity) h = r at hmem hmax hvalid2 hmem2 hlen2
    have hrv := hvars r.1 hmem
    by_cases hval : s.value r.1 = 0
    · refine ⟨r.1, r.2, ?_, hrv, hval, ?_⟩
      · rw [decideLoop_unfold]
        have : ¬ (((r.1 : Nat) : Int) = -1 ∨ litValue s.value (r.1 : Int) ≠ 0) := by
          rw [litValue_ofNat _ _ hrv.1]
          intro hc
          rcases hc with hc | hc
          · omega
          · exact hc hval
        simp only [this, if_false]
      · intro w hw hwv
        exact hmax w (hcomp w hw hwv)
    · apply ih (r.1 : Int) r.2 hvalid2 (by omega)
      · intro v hv
        exact hvars v ((hmem2 v).1 hv).1
      · intro v hv hvv
        refine (hmem2 v).2 ⟨hcomp v hv hvv, ?_⟩
        intro e
        subst e
        exact hval hvv
      · right
        rw [litValue_ofNat _ _ hrv.1]
        exact hval

/-- C8: in a state whose heap is a valid max-heap over the variables that
contains every unassigned variable, with at least one variable unassigned,
`decide` returns 0, pushes the trail length on the decision-level table, and
assigns one unassigned variable `v` of maximal activity among the unassigned
ones, with the saved sign if there is one and positively otherwise, at the new
level and with reason `-1`; no other variable changes value. -/
theorem decide_assigns_max (s : Solver) (hvalid : Heap.Valid s.activity s.vsids)
    (htyped : HeapTyped s) (hcomp : HeapComplete s) (hex : ∃ v, IsVar s v ∧ s.value v = 0) :
    ∃ (s2 : Solver) (v : Nat),
      decide s = some (0, s2) ∧
      IsVar s v ∧ s.value v = 0 ∧
      (∀ w, IsVar s w → s.value w = 0 → s.activity w ≤ s.activity v) ∧
      s2.pos_in_trail = s.pos_in_trail ++ [s.trail.length] ∧
      s2.trail = s.trail ++ [decisionLit s v] ∧
      s2.value v = litSign (decisionLit s v) ∧
      s2.level v = s2.pos_in_trail.length ∧
      s2.reason v = -1 ∧
      (∀ w, w ≠ v → s2.value w = s.value w) := by
  obtain ⟨v, h2, hloop, hv, hval, hmax⟩ :=
    decideLoop_spec s hex s.vsids.heap.length (-1) s.vsids hvalid rfl htyped.1 hcomp (Or.inl rfl)
  have hs : ({ s with vsids := s.vsids } : Solver) = s := rfl
  rw [hs] at hloop
  have hlit : (if s.saved (v : Int).toNat ≠ 0 then (v : Int) * s.saved (v : Int).toNat else (v : Int))
      = decisionLit s v := by
    simp only [Int.toNat_ofNat]
    unfold decisionLit
    rcases htyped.2 v hv with e | e | e <;> rw [e] <;> simp
  have habs : (decisionLit s v).natAbs = v := by
    unfold decisionLit
    split_ifs <;> simp
  have hdec : decide s = some (0, assign
      { s with vsids := h2, pos_in_trail := s.pos_in_trail ++ [s.trail.length] }
      (decisionLit s v) (s.pos_in_trail ++ [s.trail.length]).length (-1)) := by
    unfold decide
    rw [hloop]
    dsimp only
    rw [hlit]
  refine ⟨_, v, hdec, hv, hval, hmax, ?_, ?_, ?_, ?_, ?_, ?_⟩
  · simp [assign]
  · simp only [assign]
  · simp only [assign, habs, Function.update_same]
  · simp only [assign, habs, Function.update_same]
  · simp only [assign, habs, Function.update_same]
  · intro w hw
    simp only [assign, habs]
    rw [Function.update_noteq hw]

end Solver

end EasySAT

namespace EasySAT

namespace Solver

theorem exampleState_valid : Heap.Valid exampleState.activity exampleState.vsids := by
  refine ⟨⟨?_, ?_⟩, ?_⟩
  · intro i hi
    have hi3 : i < 3 := hi
    interval_cases i <;> decide
  · intro n hn hpos
    have hn4 : n < 4 := hn
    interval_cases n
    · exact absurd hpos (by decide)
    · exact ⟨1, by decide, by decide⟩
    · exact ⟨0, by decide, by decide⟩
    · exact ⟨2, by decide, by decide⟩
  · intro i hi0 hi
    have hi3 : i < 3 := hi
    interval_cases i
    · show exampleState.activity 1 ≤ exampleState.activity 2
      simp [exampleState]
      norm_num
    · show exampleState.activity 3 ≤ exampleState.activity 2
      simp [exampleState]
      norm_num

theorem exampleState_typed : HeapTyped exampleState := by
  constructor
  · intro v hv
    rw [Heap.inHeap_iff] at hv
    have hn4 : v < 4 := hv.1
    have h2 := hv.2
    interval_cases v
    · exact absurd h2 (by decide)
    · exact ⟨by decide, by decide⟩
    · exact ⟨by decide, by decide⟩
    · exact ⟨by decide, by decide⟩
  · intro v _
    by_cases h : v = 2
    · subst h; right; right; rfl
    · left; simp [exampleState, h]

theorem exampleState_complete : HeapComplete exampleState := by
  intro v hv _
  obtain ⟨h1, h2⟩ := hv
  have h3 : (v : Int) ≤ 3 := h2
  have h4 : v ≤ 3 := by omega
  interval_cases v <;> decide

/-- C8 instance: in the sample state `decide` picks variable 2 (activity 9, the
largest among the unassigned variables 2 and 3) with its saved sign `-1`. -/
theorem decide_assigns_max_witness :
    ∃ (s2 : Solver) (v : Nat),
      decide exampleState = some (0, s2) ∧
      IsVar exampleState v ∧ exampleState.value v = 0 ∧
      (∀ w, IsVar exampleState w → exampleState.value w = 0 →
        exampleState.activity w ≤ exampleState.activity v) ∧
      s2.pos_in_trail = exampleState.pos_in_trail ++ [exampleState.trail.length] ∧
      s2.trail = exampleState.trail ++ [decisionLit exampleState v] ∧
      s2.value v = litSign (decisionLit exampleState v) ∧
      s2.level v = s2.pos_in_trail.length ∧
      s2.reason v = -1 ∧
      (∀ w, w ≠ v → s2.value w = exampleState.value w) :=
  decide_assigns_max exampleState exampleState_valid exampleState_typed exampleState_complete
    ⟨2, ⟨by decide, by decide⟩, rfl⟩

end Solver

end EasySAT

namespace EasySAT

namespace Heap

theorem upLoop_pos_length (lt : Nat → Nat → Bool) (x : Nat) :
    ∀ (fuel v : Nat) (h : Heap), (upLoop lt x fuel v h).pos.length = h.pos.length := by
  intro fuel
  induction fuel with
  | zero => intro v h; simp [upLoop]
  | succ fuel ih =>
    intro v h
    unfold upLoop
    dsimp only
    split_ifs <;> simp [ih]

theorem upLoop_pos_nonneg (lt : Nat → Nat → Bool) (x n : Nat) :
    ∀ (fuel v : Nat) (h : Heap), 0 ≤ h.pos.getD n 0 →
      0 ≤ (upLoop lt x fuel v h).pos.getD n 0 := by
  intro fuel
  induction fuel with
  | zero =>
    intro v h hn
    unfold upLoop
    show 0 ≤ (h.pos.set x (v : Int)).getD n 0
    rw [getD_set]
    split_ifs
    · exact Int.ofNat_nonneg v
    · exact hn
  | succ fuel ih =>
    intro v h hn
    unfold upLoop
    dsimp only
    split_ifs
    · apply ih
      show 0 ≤ (h.pos.set _ (v : Int)).getD n 0
      rw [getD_set]
      split_ifs
      · exact Int.ofNat_nonneg v
      · exact hn
    · show 0 ≤ (h.pos.set x (v : Int)).getD n 0
      rw [getD_set]
      split_ifs
      · exact Int.ofNat_nonneg v
      · exact hn

/-- Whatever the heap, `insert` registers the inserted variable and keeps
every registered variable registered. -/
theorem insert_inHeap (lt : Nat → Nat → Bool) (h : Heap) (x : Nat) :
    inHeap (insert lt h x) x = true ∧ ∀ n, inHeap h n = true → inHeap (insert lt h x) n = true := by
  generalize hpos1 : (if h.pos.length < x + 1 then
      h.pos ++ List.replicate (x + 1 - h.pos.length) (-1) else h.pos) = pos1
  have hl1 : x < pos1.length ∧ h.pos.length ≤ pos1.length := by
    rw [← hpos1]; split
    · simp; omega
    · omega
  have hg1 : ∀ n, n < h.pos.length → pos1.getD n 0 = h.pos.getD n 0 := by
    intro n hn
    rw [← hpos1]; split
    · exact getD_append_left _ _ _ _ hn
    · rfl
  have hins : insert lt h x =
      upLoop lt ((h.heap ++ [x]).getD ((pos1.set x (h.heap.length : Int)).getD x 0).toNat 0)
        ((pos1.set x (h.heap.length : Int)).getD x 0).toNat
        ((pos1.set x (h.heap.length : Int)).getD x 0).toNat
        ⟨h.heap ++ [x], pos1.set x (h.heap.length : Int)⟩ := by
    unfold insert up
    simp only [hpos1]
  have hlen : (insert lt h x).pos.length = pos1.length := by
    rw [hins, upLoop_pos_length]; simp
  have hmono : ∀ n, n < pos1.length → 0 ≤ (pos1.set x (h.heap.length : Int)).getD n 0 →
      inHeap (insert lt h x) n = true := by
    intro n hn hpos
    rw [inHeap_iff, hlen]
    refine ⟨hn, ?_⟩
    rw [hins]
    exact upLoop_pos_nonneg lt _ n _ _ _ hpos
  constructor
  · apply hmono x hl1.1
    rw [getD_set_eq _ _ _ _ hl1.1]
    exact Int.ofNat_nonneg _
  · intro n hn
    rw [inHeap_iff] at hn
    apply hmono n (by omega)
    rw [getD_set]
    split_ifs
    · exact Int.ofNat_nonneg _
    · rw [hg1 n hn.1]; exact hn.2

end Heap

namespace Solver

theorem resize_of_le {α : Type} (l : List α) (n : Nat) (d : α) (h : n ≤ l.length) :
    resize l n d = l.take n := by
  unfold resize
  have : n - l.length = 0 := by omega
  simp [this]

theorem unassign_frame (s : Solver) (lit : Int) :
    (unassign s lit).trail = s.trail ∧
    (unassign s lit).pos_in_trail = s.pos_in_trail ∧
    (unassign s lit).level = s.level ∧
    (unassign s lit).reason = s.reason ∧
    (unassign s lit).clause_DB = s.clause_DB ∧
    (unassign s lit).watches = s.watches ∧
    (unassign s lit).activity = s.activity ∧
    (unassign s lit).vars = s.vars ∧
    (unassign s lit).origin_clauses = s.origin_clauses := by
  unfold unassign
  dsimp only
  split_ifs <;> exact ⟨rfl, rfl, rfl, rfl, rfl, rfl, rfl, rfl, rfl⟩

theorem unassign_value (s : Solver) (lit : Int) :
    (unassign s lit).value = Function.update s.value lit.natAbs 0 ∧
    (unassign s lit).saved = Function.update s.saved lit.natAbs (litSign lit) := by
  unfold unassign
  dsimp only
  split_ifs <;> exact ⟨rfl, rfl⟩

theorem unassign_inHeap (s : Solver) (lit : Int) :
    (unassign s lit).vsids.inHeap lit.natAbs = true ∧
    ∀ w, s.vsids.inHeap w = true → (unassign s lit).vsids.inHeap w = true := by
  unfold unassign
  dsimp only
  split_ifs with hc
  · exact ⟨hc, fun w hw => hw⟩
  · exact Heap.insert_inHeap _ _ _

/-- The loop of `backtrack` touches only `value`, `saved` and the heap. -/
theorem backtrackLoop_frame (bound : Nat) :
    ∀ (n : Nat) (s : Solver),
      (backtrackLoop bound n s).trail = s.trail ∧
      (backtrackLoop bound n s).pos_in_trail = s.pos_in_trail ∧
      (backtrackLoop bound n s).level = s.level ∧
      (backtrackLoop bound n s).reason = s.reason ∧
      (backtrackLoop bound n s).clause_DB = s.clause_DB ∧
      (backtrackLoop bound n s).watches = s.watches ∧
      (backtrackLoop bound n s).activity = s.activity ∧
      (backtrackLoop bound n s).vars = s.vars ∧
      (backtrackLoop bound n s).origin_clauses = s.origin_clauses := by
  intro n
  induction n with
  | zero => intro s; simp [backtrackLoop]
  | succ n ih =>
    intro s
    unfold backtrackLoop
    obtain ⟨h1, h2, h3, h4, h5, h6, h7, h8, h9⟩ := ih (unassign s (s.trail.getD (bound + n) 0))
    obtain ⟨g1, g2, g3, g4, g5, g6, g7, g8, g9⟩ := unassign_frame s (s.trail.getD (bound + n) 0)
    exact ⟨h1.trans g1, h2.trans g2, h3.trans g3, h4.trans g4, h5.trans g5, h6.trans g6,
      h7.trans g7, h8.trans g8, h9.trans g9⟩

/-- The loop of `backtrack` never removes a variable from the heap. -/
theorem backtrackLoop_inHeap_mono (bound : Nat) (w : Nat) :
    ∀ (n : Nat) (s : Solver), s.vsids.inHeap w = true →
      (backtrackLoop bound n s).vsids.inHeap w = true := by
  intro n
  induction n with
  | zero => intro s h; simpa [backtrackLoop] using h
  | succ n ih =>
    intro s h
    unfold backtrackLoop
    exact ih _ ((unassign_inHeap _ _).2 w h)

/-- Effect of the loop of `backtrack` on the variables of the trail positions
`bound, ..., bound + n - 1` and on all other variables. -/
theorem backtrackLoop_spec (bound : Nat) :
    ∀ (n : Nat) (s : Solver),
      (∀ w, (∃ i, bound ≤ i ∧ i < bound + n ∧ (s.trail.getD i 0).natAbs = w) →
        (backtrackLoop bound n s).value w = 0 ∧
        (backtrackLoop bound n s).vsids.inHeap w = true ∧
        ∃ i, bound ≤ i ∧ i < bound + n ∧ (s.trail.getD i 0).natAbs = w ∧
          (backtrackLoop bound n s).saved w = litSign (s.trail.getD i 0)) ∧
      (∀ w, (∀ i, bound ≤ i → i < bound + n → (s.trail.getD i 0).natAbs ≠ w) →
        (backtrackLoop bound n s).value w = s.value w ∧
        (backtrackLoop bound n s).saved w = s.saved w) := by
  intro n
  induction n with
  | zero =>
    intro s
    constructor
    · rintro w ⟨i, h1, h2, _⟩; omega
    · intro w _; simp [backtrackLoop]
  | succ n ih =>
    intro s
    generalize hs2 : unassign s (s.trail.getD (bound + n) 0) = s2
    have hstep : backtrackLoop bound (n + 1) s = backtrackLoop bound n s2 := by
      rw [← hs2]; rfl
    have htr : s2.trail = s.trail := by rw [← hs2]; exact (unassign_frame _ _).1
    have hval : s2.value = Function.update s.value (s.trail.getD (bound + n) 0).natAbs 0 := by
      rw [← hs2]; exact (unassign_value _ _).1
    have hsav : s2.saved = Function.update s.saved (s.trail.getD (bound + n) 0).natAbs
        (litSign (s.trail.getD (bound + n) 0)) := by
      rw [← hs2]; exact (unassign_value _ _).2
    have hin : s2.vsids.inHeap (s.trail.getD (bound + n) 0).natAbs = true := by
      rw [← hs2]; exact (unassign_inHeap _ _).1
    obtain ⟨ih1, ih2⟩ := ih s2
    rw [htr] at ih1 ih2
    rw [hstep]
    constructor
    · rintro w ⟨i, hi1, hi2, hiw⟩
      by_cases hlow : ∃ i, bound ≤ i ∧ i < bound + n ∧ (s.trail.getD i 0).natAbs = w
      · obtain ⟨h1, h2, j, hj1, hj2, hj3, hj4⟩ := ih1 w hlow
        exact ⟨h1, h2, j, hj1, by omega, hj3, hj4⟩
      · have hlow2 : ∀ i, bound ≤ i → i < bound + n → (s.trail.getD i 0).natAbs ≠ w :=
          fun i h1 h2 h3 => hlow ⟨i, h1, h2, h3⟩
        have hieq : i = bound + n := by
          by_contra hne
          exact hlow2 i hi1 (by omega) hiw
        subst hieq
        obtain ⟨h1, h2⟩ := ih2 w hlow2
        refine ⟨?_, ?_, bound + n, hi1, hi2, hiw, ?_⟩
        · rw [h1, hval, ← hiw, Function.update_same]
        · rw [← hiw]
          exact backtrackLoop_inHeap_mono bound _ n s2 hin
        · rw [h2, hsav, ← hiw, Function.update_same]
    · intro w hw
      have hlow2 : ∀ i, bound ≤ i → i < bound + n → (s.trail.getD i 0).natAbs ≠ w :=
        fun i h1 h2 => hw i h1 (by omega)
      obtain ⟨h1, h2⟩ := ih2 w hlow2
      have hne : w ≠ (s.trail.getD (bound + n) 0).natAbs :=
        fun e => hw (bound + n) (by omega) (by omega) e.symm
      rw [h1, h2, hval, hsav, Function.update_noteq hne, Function.update_noteq hne]
      exact ⟨rfl, rfl⟩

end Solver

end EasySAT

namespace EasySAT

namespace Solver

/-- In a nondecreasing table, more than `L` entries are at most `i` whenever
entry `L` is. -/
theorem count_le_of_sorted (t : List Nat) (L i : Nat) (hL : L < t.length)
    (hs : ∀ a b, a ≤ b → b < t.length → t.getD a 0 ≤ t.getD b 0) (hb : t.getD L 0 ≤ i) :
    L < t.countP (fun b => Nat.ble b i) := by
  have h1 : (t.take (L + 1)).countP (fun b => Nat.ble b i) = (t.take (L + 1)).length := by
    rw [List.countP_eq_length]
    intro a ha
    rw [List.mem_take_iff_getElem] at ha
    obtain ⟨k, hk, e⟩ := ha
    have hk2 : k < L + 1 ∧ k < t.length := by
      simp only [lt_inf_iff] at hk; exact hk
    have := hs k L (by omega) hL
    rw [List.getD_eq_getElem _ _ hk2.2, e] at this
    simp only [Nat.ble_eq]
    omega
  have h2 : t.countP (fun b => Nat.ble b i) =
      (t.take (L + 1)).countP (fun b => Nat.ble b i) +
        (t.drop (L + 1)).countP (fun b => Nat.ble b i) := by
    rw [← List.countP_append, List.take_append_drop]
  rw [h2, h1, List.length_take]
  have : min (L + 1) t.length = L + 1 := by omega
  omega

/-- In a nondecreasing table, at most `L` entries are at most `i` whenever
entry `L` is above `i`. -/
theorem count_gt_of_sorted (t : List Nat) (L i : Nat) (hL : L < t.length)
    (hs : ∀ a b, a ≤ b → b < t.length → t.getD a 0 ≤ t.getD b 0) (hb : i < t.getD L 0) :
    t.countP (fun b => Nat.ble b i) ≤ L := by
  have h1 : (t.drop L).countP (fun b => Nat.ble b i) = 0 := by
    rw [List.countP_eq_zero]
    intro a ha
    rw [List.mem_drop_iff_getElem] at ha
    obtain ⟨k, hk, e⟩ := ha
    have := hs L (L + k) (by omega) (by omega)
    rw [List.getD_eq_getElem _ _ (by omega : L + k < t.length), e] at this
    simp only [Nat.ble_eq]
    omega
  have h2 : t.countP (fun b => Nat.ble b i) =
      (t.take L).countP (fun b => Nat.ble b i) + (t.drop L).countP (fun b => Nat.ble b i) := by
    rw [← List.countP_append, List.take_append_drop]
  rw [h2, h1]
  have := List.countP_le_length (fun b => Nat.ble b i) (l := t.take L)
  rw [List.length_take] at this
  omega

theorem backtrack_unfold (s : Solver) (L : Nat) (hL : L < s.pos_in_trail.length) :
    backtrack s L =
      { backtrackLoop (s.pos_in_trail.getD L 0) (s.trail.length - s.pos_in_trail.getD L 0) s with
        propagated := s.pos_in_trail.getD L 0,
        trail := resize (backtrackLoop (s.pos_in_trail.getD L 0)
          (s.trail.length - s.pos_in_trail.getD L 0) s).trail (s.pos_in_trail.getD L 0) 0,
        pos_in_trail := resize (backtrackLoop (s.pos_in_trail.getD L 0)
          (s.trail.length - s.pos_in_trail.getD L 0) s).pos_in_trail L 0 } := by
  unfold backtrack
  rw [if_neg (by omega)]

/-- The effect of `backtrack(L)` in a trail-consistent state whose
decision-level table is nondecreasing with entries bounded by the trail
length: the identity when the table has at most `L` entries; otherwise it cuts
the trail and the table, unassigns exactly the variables of a level above `L`,
saves their phases, puts them in the heap, and leaves the kept variables
alone. -/
theorem backtrack_effect (s : Solver) (L : Nat) (hc : TrailConsistent s) (hs : TableSorted s) :
    BacktrackClaim s L := by
  constructor
  · intro h
    unfold backtrack
    rw [if_pos h]
  · intro hL
    generalize hb : s.pos_in_trail.getD L 0 = b
    have hbl : b ≤ s.trail.length := by rw [← hb]; exact hs.2 L hL
    have hu := backtrack_unfold s L hL
    rw [hb] at hu
    obtain ⟨f1, f2, f3, f4, _⟩ := backtrackLoop_frame b (s.trail.length - b) s
    obtain ⟨sp1, sp2⟩ := backtrackLoop_spec b (s.trail.length - b) s
    have hlev : ∀ i, i < s.trail.length →
        (b ≤ i ↔ L < s.level (s.trail.getD i 0).natAbs) := by
      intro i hi
      rw [(hc i hi).2]
      constructor
      · intro h
        exact count_le_of_sorted _ L i hL hs.1 (by rw [hb]; exact h)
      · intro h
        by_contra hlt
        have := count_gt_of_sorted _ L i hL hs.1 (by rw [hb]; omega)
        omega
    have htrail : (backtrack s L).trail = s.trail.take b := by
      rw [hu]
      show resize (backtrackLoop b (s.trail.length - b) s).trail b 0 = _
      rw [f1, resize_of_le _ _ _ hbl]
    have htab : (backtrack s L).pos_in_trail = s.pos_in_trail.take L := by
      rw [hu]
      show resize (backtrackLoop b (s.trail.length - b) s).pos_in_trail L 0 = _
      rw [f2, resize_of_le _ _ _ (by omega)]
    have hvalue : (backtrack s L).value = (backtrackLoop b (s.trail.length - b) s).value := by
      rw [hu]
    have hsaved : (backtrack s L).saved = (backtrackLoop b (s.trail.length - b) s).saved := by
      rw [hu]
    have hheap : (backtrack s L).vsids = (backtrackLoop b (s.trail.length - b) s).vsids := by
      rw [hu]
    have hlevel : (backtrack s L).level = s.level := by
      rw [hu]; exact f3
    have hreason : (backtrack s L).reason = s.reason := by
      rw [hu]; exact f4
    refine ⟨htrail, ?_, ?_, htab, ?_, hlev, ?_, ?_⟩
    · rw [htrail, List.length_take]; omega
    · rw [hu]
    · rw [htab, List.length_take]; omega
    · intro i hbi hi
      obtain ⟨h1, h2, j, hj1, hj2, hj3, hj4⟩ :=
        sp1 (s.trail.getD i 0).natAbs ⟨i, hbi, by omega, rfl⟩
      rw [hvalue, hsaved, hheap]
      refine ⟨h1, ?_, h2⟩
      rw [hj4]
      have e1 := (hc j (by omega)).1
      have e2 := (hc i hi).1
      rw [hj3] at e1
      rw [← e1, e2]
    · intro i hib hi
      have hne : ∀ j, b ≤ j → j < b + (s.trail.length - b) →
          (s.trail.getD j 0).natAbs ≠ (s.trail.getD i 0).natAbs := by
        intro j hj1 hj2 e
        have h1 := (hlev j (by omega)).1 hj1
        have h2 : ¬ L < s.level (s.trail.getD i 0).natAbs := fun h => by
          have := (hlev i hi).2 h
          omega
        rw [e] at h1
        exact h2 h1
      obtain ⟨h1, _⟩ := sp2 (s.trail.getD i 0).natAbs hne
      rw [hvalue, hlevel, hreason]
      exact ⟨h1, rfl, rfl⟩

/-- C9 (amended): in a trail-consistent state whose decision-level table is
nondecreasing with entries bounded by the trail length, `backtrack(L)` is the
identity when the table has at most `L` entries, and otherwise cuts the trail
and the table, unassigns exactly the variables of a level above `L`, saves
their phases, puts them in the heap, and leaves the kept variables alone. -/
theorem backtrack_spec (s : Solver) (L : Nat) (hc : TrailConsistent s) (hs : TableSorted s) :
    BacktrackClaim s L :=
  backtrack_effect s L hc hs

end Solver

end EasySAT

namespace EasySAT

namespace Solver

theorem unsortedState_consistent : TrailConsistent unsortedState := by
  intro i hi
  have hi2 : i < 2 := hi
  interval_cases i <;> exact ⟨by decide, by decide⟩

/-- C9 (counterexample): trail consistency alone does not give the claimed
effect.  With the table `[2, 0]` on the trail `[1, 2]` both variables are at
level 1, the state is trail-consistent, and `backtrack(0)` removes no trail
entry although both variables are assigned above level 0.  With the table `[3]`
on the empty trail, `backtrack(0)` pads the trail with three zero entries. -/
theorem backtrack_unsorted_counterexample :
    (TrailConsistent unsortedState ∧ ¬ BacktrackClaim unsortedState 0) ∧
    (TrailConsistent overrunState ∧ (backtrack overrunState 0).trail = [0, 0, 0] ∧
      ¬ BacktrackClaim overrunState 0) := by
  refine ⟨⟨unsortedState_consistent, fun h => ?_⟩, ⟨?_, by decide, fun h => ?_⟩⟩
  · have h1 := (h.2 (by decide)).2.2.2.2.2.1 0 (by decide)
    have h2 : unsortedState.pos_in_trail.getD 0 0 ≤ 0 := h1.2 (by decide)
    exact absurd h2 (by decide)
  · intro i hi
    have hi0 : i < 0 := hi
    omega
  · have h1 := (h.2 (by decide)).1
    exact absurd h1 (by decide)

theorem twoLevelState_consistent : TrailConsistent twoLevelState := by
  intro i hi
  have hi2 : i < 4 := hi
  interval_cases i <;> exact ⟨by decide, by decide⟩

theorem twoLevelState_sorted : TableSorted twoLevelState := by
  constructor
  · intro i j hij hj
    have hj2 : j < 2 := hj
    interval_cases j <;> interval_cases i <;> decide
  · intro i hi
    have hi2 : i < 2 := hi
    interval_cases i <;> decide

/-- C9 instance: backtracking the two-level sample state to level 1 drops the
level-2 literal `4` and keeps the trail `[1, -2, 3]`. -/
theorem backtrack_spec_witness :
    (TrailConsistent twoLevelState ∧ TableSorted twoLevelState) ∧
    (backtrack twoLevelState 1).trail = [1, -2, 3] ∧
    (backtrack twoLevelState 1).value 4 = 0 ∧
    (backtrack twoLevelState 1).vsids.inHeap 4 = true ∧
    BacktrackClaim twoLevelState 1 :=
  ⟨⟨twoLevelState_consistent, twoLevelState_sorted⟩, by decide, by decide, by decide,
    backtrack_spec twoLevelState 1 twoLevelState_consistent twoLevelState_sorted⟩

end Solver

end EasySAT

namespace EasySAT

namespace Solver

theorem backtrack_frame (s : Solver) (L : Nat) :
    (backtrack s L).clause_DB = s.clause_DB ∧
    (backtrack s L).origin_clauses = s.origin_clauses ∧
    (backtrack s L).watches = s.watches ∧
    (backtrack s L).vars = s.vars ∧
    (backtrack s L).level = s.level ∧
    (backtrack s L).reason = s.reason ∧
    (backtrack s L).activity = s.activity := by
  unfold backtrack
  split_ifs
  · exact ⟨rfl, rfl, rfl, rfl, rfl, rfl, rfl⟩
  · obtain ⟨_, _, h3, h4, h5, h6, h7, h8, h9⟩ :=
      backtrackLoop_frame (s.pos_in_trail.getD L 0) (s.trail.length - s.pos_in_trail.getD L 0) s
    exact ⟨h5, h9, h6, h8, h3, h4, h7⟩

theorem take_set_self {α : Type} (l : List α) (n : Nat) (a : α) :
    (l.set n a).take n = l.take n := by
  apply List.ext_getElem?
  intro i
  simp only [List.getElem?_take, List.getElem?_set]
  split_ifs <;> first | rfl | omega

theorem survivors_sublist : ∀ (cs : List Clause) (coins : Nat → Nat),
    (survivors coins cs).Sublist cs := by
  intro cs
  induction cs with
  | nil => intro coins; simp [survivors]
  | cons c cs ih =>
    intro coins
    unfold survivors
    split_ifs
    · exact List.Sublist.cons c (ih _)
    · exact List.Sublist.cons₂ c (ih _)
    · exact List.Sublist.cons₂ c (ih _)

theorem survivors_filter : ∀ (cs : List Clause) (coins : Nat → Nat),
    (survivors coins cs).filter (fun c => Decidable.decide (c.lbd < 5)) =
      cs.filter (fun c => Decidable.decide (c.lbd < 5)) := by
  intro cs
  induction cs with
  | nil => intro coins; simp [survivors]
  | cons c cs ih =>
    intro coins
    unfold survivors
    split_ifs with h1 h2
    · have : ¬ c.lbd < 5 := by omega
      rw [List.filter_cons, ih]
      simp [this]
    · have : ¬ c.lbd < 5 := by omega
      rw [List.filter_cons, List.filter_cons, ih]
    · rw [List.filter_cons, List.filter_cons, ih]

/-- The compaction loop of `reduce`: the first `new_size` clauses of the
store are kept, the survivors among the clauses from index `i` on are moved
down behind them, and the length of the store does not change. -/
theorem reduceLoop_spec :
    ∀ (n i new_size : Nat) (coins : Nat → Nat) (s : Solver),
      i + n = s.clause_DB.length → new_size ≤ i →
      (reduceLoop n i new_size coins s).1.clause_DB.length = s.clause_DB.length ∧
      (reduceLoop n i new_size coins s).2.1 ≤ s.clause_DB.length ∧
      (reduceLoop n i new_size coins s).1.clause_DB.take (reduceLoop n i new_size coins s).2.1 =
        s.clause_DB.take new_size ++ survivors coins (s.clause_DB.drop i) := by
  intro n
  induction n with
  | zero =>
    intro i new_size coins s hlen hle
    have : s.clause_DB.drop i = [] := by
      apply List.drop_eq_nil_of_le; omega
    simp [reduceLoop, this, survivors]
    omega
  | succ n ih =>
    intro i new_size coins s hlen hle
    have hi : i < s.clause_DB.length := by omega
    have hdrop := List.drop_eq_getElem_cons hi
    have hget : s.clause_DB.getD i default = s.clause_DB[i] := List.getD_eq_getElem _ _ hi
    have hkeep : ∀ (coins2 : Nat → Nat),
        (reduceLoop n (i + 1) (new_size + 1) coins2 (reduceKeep s i new_size)).1.clause_DB.length
          = s.clause_DB.length ∧
        (reduceLoop n (i + 1) (new_size + 1) coins2 (reduceKeep s i new_size)).2.1
          ≤ s.clause_DB.length ∧
        (reduceLoop n (i + 1) (new_size + 1) coins2 (reduceKeep s i new_size)).1.clause_DB.take
            (reduceLoop n (i + 1) (new_size + 1) coins2 (reduceKeep s i new_size)).2.1 =
          s.clause_DB.take new_size ++ s.clause_DB[i] :: survivors coins2 (s.clause_DB.drop (i + 1)) := by
      intro coins2
      have hdb : (reduceKeep s i new_size).clause_DB =
          (if new_size ≠ i then s.clause_DB.set new_size (s.clause_DB.getD i default)
            else s.clause_DB) := rfl
      have hl2 : (reduceKeep s i new_size).clause_DB.length = s.clause_DB.length := by
        rw [hdb]; split_ifs <;> simp
      obtain ⟨h1, h2, h3⟩ := ih (i + 1) (new_size + 1) coins2 (reduceKeep s i new_size)
        (by rw [hl2]; omega) (by omega)
      refine ⟨h1.trans hl2, le_trans h2 (le_of_eq hl2), ?_⟩
      rw [h3]
      have hd : (reduceKeep s i new_size).clause_DB.drop (i + 1) = s.clause_DB.drop (i + 1) := by
        rw [hdb]; split_ifs with hne
        · exact List.drop_set_of_lt _ _ (by omega)
        · rfl
      have ht : (reduceKeep s i new_size).clause_DB.take (new_size + 1) =
          s.clause_DB.take new_size ++ [s.clause_DB[i]] := by
        rw [hdb]; split_ifs with hne
        · rw [List.take_succ, take_set_self,
            List.getElem?_set_self (by omega), hget]
          rfl
        · have : new_size = i := by omega
          subst this
          rw [List.take_succ, List.getElem?_eq_getElem hi]
          rfl
      rw [hd, ht]
      simp
    unfold reduceLoop
    rw [hdrop]
    by_cases h1 : (s.clause_DB.getD i default).lbd ≥ 5
    · have hc : (s.clause_DB[i]).lbd ≥ 5 := by rw [← hget]; exact h1
      rw [if_pos h1]
      by_cases h2 : coins 0 % 2 = 0
      · rw [if_pos h2]
        obtain ⟨g1, g2, g3⟩ := ih (i + 1) new_size (fun t => coins (t + 1))
          { s with reduce_map := s.reduce_map.set i (-1) } (by simpa using (by omega)) (by omega)
        refine ⟨g1, g2, ?_⟩
        rw [g3]
        simp only [survivors, hc, h2, if_true]
      · rw [if_neg h2]
        obtain ⟨g1, g2, g3⟩ := hkeep (fun t => coins (t + 1))
        refine ⟨g1, g2, ?_⟩
        rw [g3]
        simp only [survivors, hc, h2, if_true, if_false]
    · have hc : ¬ (s.clause_DB[i]).lbd ≥ 5 := by rw [← hget]; exact h1
      rw [if_neg h1]
      obtain ⟨g1, g2, g3⟩ := hkeep coins
      refine ⟨g1, g2, ?_⟩
      rw [g3]
      simp only [survivors, hc, if_false]

theorem reduce_clause_DB (s : Solver) (coins : Nat → Nat) :
    (reduce s coins).1.clause_DB =
      resize
        (reduceLoop (s.clause_DB.length - s.origin_clauses) s.origin_clauses s.origin_clauses coins
          { backtrack s 0 with
            reduces := 0, reduce_limit := (backtrack s 0).reduce_limit + 512,
            reduce_map := resize (backtrack s 0).reduce_map s.clause_DB.length 0 }).1.clause_DB
        (reduceLoop (s.clause_DB.length - s.origin_clauses) s.origin_clauses s.origin_clauses coins
          { backtrack s 0 with
            reduces := 0, reduce_limit := (backtrack s 0).reduce_limit + 512,
            reduce_map := resize (backtrack s 0).reduce_map s.clause_DB.length 0 }).2.1
        ⟨0, []⟩ := by
  obtain ⟨h1, h2, _⟩ := backtrack_frame s 0
  unfold reduce
  dsimp only
  rw [h1, h2]

/-- The effect of `reduce` on the clause store when `origin_clauses` does not
exceed the number of stored clauses: every original clause stays at its index,
and the new store is the originals followed by the surviving learnt clauses in
their order. -/
theorem reduce_effect (s : Solver) (coins : Nat → Nat)
    (horigin : s.origin_clauses ≤ s.clause_DB.length) : ReduceClaim s coins := by
  have hdb := reduce_clause_DB s coins
  generalize hs3 : ({ backtrack s 0 with
      reduces := 0, reduce_limit := (backtrack s 0).reduce_limit + 512,
      reduce_map := resize (backtrack s 0).reduce_map s.clause_DB.length 0 } : Solver) = s3 at hdb
  have h3db : s3.clause_DB = s.clause_DB := by
    rw [← hs3]; exact (backtrack_frame s 0).1
  obtain ⟨g1, g2, g3⟩ := reduceLoop_spec (s.clause_DB.length - s.origin_clauses) s.origin_clauses
    s.origin_clauses coins s3 (by rw [h3db]; omega) (le_refl _)
  rw [h3db] at g1 g2 g3
  have hnew : (reduce s coins).1.clause_DB =
      s.clause_DB.take s.origin_clauses ++ survivors coins (s.clause_DB.drop s.origin_clauses) := by
    rw [hdb, resize_of_le _ _ _ (by omega), g3]
  refine ⟨?_, hnew, survivors_sublist _ _, survivors_filter _ _⟩
  intro i hi
  rw [hnew, List.getD_eq_getElem?_getD, List.getD_eq_getElem?_getD,
    List.getElem?_append_left (by rw [List.length_take]; omega), List.getElem?_take, if_pos hi]

/-- C10 (amended): when `origin_clauses` does not exceed the number of stored
clauses, `reduce` keeps every original clause at its index, and the new store
is the originals followed by the surviving learnt clauses in their order:
every learnt clause with LBD below 5 survives, and one with LBD at least 5 is
deleted exactly when its coin is even. -/
theorem reduce_spec (s : Solver) (coins : Nat → Nat)
    (horigin : s.origin_clauses ≤ s.clause_DB.length) : ReduceClaim s coins :=
  reduce_effect s coins horigin

/-- C10 (counterexample): in a state that counts one original clause while
its store is empty, `reduce` pads the store with an empty clause, which is
neither an original nor a surviving learnt clause. -/
theorem reduce_miscount_counterexample :
    (reduce miscountState exampleCoins).1.clause_DB = [⟨0, []⟩] ∧
    ¬ ReduceClaim miscountState exampleCoins := by
  refine ⟨by decide, fun h => ?_⟩
  have h1 := h.2.1
  have h2 : (reduce miscountState exampleCoins).1.clause_DB = [⟨0, []⟩] := by decide
  rw [h2] at h1
  exact absurd h1 (by decide)

/-- C10 instance: with one original clause and learnt clauses of LBD 2, 7, 6
and coins 0, 1, ..., the clause of LBD 7 draws the even coin and is deleted;
the clause of LBD 6 draws the odd coin and is kept. -/
theorem reduce_spec_witness :
    learntState.origin_clauses ≤ learntState.clause_DB.length ∧
    (reduce learntState exampleCoins).1.clause_DB =
      [⟨0, [1, 2]⟩, ⟨2, [-1, 3]⟩, ⟨6, [-1, -3]⟩] ∧
    ReduceClaim learntState exampleCoins :=
  ⟨by decide, by decide, reduce_spec learntState exampleCoins (by decide)⟩

end Solver

end EasySAT

namespace EasySAT

/-! ## Values of literals -/

theorem litValue_eq (value : Nat → Int) (l : Int) :
    litValue value l = if l > 0 then value l.natAbs else - value l.natAbs := by
  unfold litValue
  split_ifs with h
  · have : l.toNat = l.natAbs := by omega
    rw [this]
  · have : (-l).toNat = l.natAbs := by omega
    rw [this]

theorem litValue_neg (value : Nat → Int) (l : Int) (hl : l ≠ 0) :
    litValue value (-l) = - litValue value l := by
  rw [litValue_eq, litValue_eq]
  have : (-l).natAbs = l.natAbs := Int.natAbs_neg l
  rw [this]
  split_ifs with h1 h2 h2
  · omega
  · simp
  · rfl
  · omega

theorem litValue_update_self (value : Nat → Int) (l : Int) :
    litValue (Function.update value l.natAbs (litSign l)) l = 1 := by
  rw [litValue_eq, Function.update_same]
  unfold litSign
  split_ifs <;> rfl

theorem litValue_update_other (value : Nat → Int) (l m : Int) (x : Int)
    (h : m.natAbs ≠ l.natAbs) :
    litValue (Function.update value l.natAbs x) m = litValue value m := by
  rw [litValue_eq, litValue_eq, Function.update_noteq h]

/-- A literal on the variable of a true literal is true or false. -/
theorem litValue_same_var (value : Nat → Int) (l m : Int) (h : m.natAbs = l.natAbs)
    (hm : litValue value m = 1) : litValue value l = 1 ∨ litValue value l = -1 := by
  rw [litValue_eq] at hm ⊢
  rw [h] at hm
  split_ifs at hm ⊢ <;> omega

namespace Solver

theorem findWatch_spec (value : Nat → Int) (lits : List Int) :
    ∀ (fuel k : Nat),
      k ≤ findWatch value lits fuel k ∧
      (∀ m, k ≤ m → m < findWatch value lits fuel k →
        litValue value (lits.getD m 0) = -1) ∧
      (lits.length ≤ k + fuel → findWatch value lits fuel k < lits.length →
        litValue value (lits.getD (findWatch value lits fuel k) 0) ≠ -1) := by
  intro fuel
  induction fuel with
  | zero =>
    intro k
    refine ⟨le_refl _, ?_, ?_⟩
    · intro m h1 h2
      simp only [findWatch] at h2
      omega
    · intro h1 h2
      simp only [findWatch] at h2
      omega
  | succ fuel ih =>
    intro k
    unfold findWatch
    split_ifs with hc
    · obtain ⟨h1, h2, h3⟩ := ih (k + 1)
      refine ⟨by omega, ?_, ?_⟩
      · intro m hm1 hm2
        by_cases hmk : m = k
        · subst hmk; exact hc.2
        · exact h2 m (by omega) hm2
      · intro hl hlt
        exact h3 (by omega) hlt
    · refine ⟨le_refl _, ?_, ?_⟩
      · intro m h1 h2; omega
      · intro _ hlt hv
        exact hc ⟨hlt, hv⟩

/-! ## Counting watchers -/

theorem countIdx_append (cref : Nat) (l m : List Watcher) :
    countIdx cref (l ++ m) = countIdx cref l + countIdx cref m := by
  unfold countIdx
  exact List.countP_append _ _ _

theorem countIdx_single (cref : Nat) (w : Watcher) :
    countIdx cref [w] = if w.idx_clause = cref then 1 else 0 := by
  unfold countIdx
  by_cases h : w.idx_clause = cref <;> simp [h]

theorem countIdx_cons (cref : Nat) (w : Watcher) (l : List Watcher) :
    countIdx cref (w :: l) = (if w.idx_clause = cref then 1 else 0) + countIdx cref l := by
  have : w :: l = [w] ++ l := rfl
  rw [this, countIdx_append, countIdx_single]

theorem take_set_succ {α : Type} (l : List α) (j : Nat) (a : α) (h : j < l.length) :
    (l.set j a).take (j + 1) = l.take j ++ [a] := by
  rw [List.take_succ, take_set_self, List.getElem?_set_self h]
  rfl

theorem drop_getD {α : Type} (l : List α) (i : Nat) (d : α) (h : i < l.length) :
    l.drop i = l.getD i d :: l.drop (i + 1) := by
  rw [List.getD_eq_getElem _ _ h]
  exact List.drop_eq_getElem_cons h

/-- Writing the watcher read at `i` (or another watcher of the same clause) at
the write index `j ≤ i` moves one watcher of that clause from the unread part
to the kept part. -/
theorem count_keep (ws : List Watcher) (i j : Nat) (w : Watcher) (cref : Nat)
    (hji : j ≤ i) (hi : i < ws.length)
    (hw : w.idx_clause = (ws.getD i default).idx_clause) :
    countIdx cref ((ws.set j w).take (j + 1)) + countIdx cref ((ws.set j w).drop (i + 1)) =
      countIdx cref (ws.take j) + countIdx cref (ws.drop i) := by
  rw [take_set_succ _ _ _ (by omega), List.drop_set_of_lt _ _ (by omega),
    drop_getD ws i default hi, countIdx_append, countIdx_single, countIdx_cons, hw]
  omega

end Solver

end EasySAT

namespace EasySAT

namespace Solver

theorem swapWatched_length (c : Clause) (p : Int) :
    (swapWatched c p).lit.length = c.lit.length := by
  unfold swapWatched
  split_ifs <;> simp

theorem swapWatched_get (c : Clause) (p : Int) (hlen : 2 ≤ c.lit.length)
    (h0 : c.lit.getD 0 0 = -p) (k : Nat) :
    (swapWatched c p).lit.getD k 0 =
      if k = 0 then c.lit.getD 1 0 else if k = 1 then -p else c.lit.getD k 0 := by
  unfold swapWatched
  rw [if_pos h0]
  show ((c.lit.set 0 (c.lit.getD 1 0)).set 1 (-p)).getD k 0 = _
  rw [getD_set, getD_set]
  simp only [List.length_set]
  by_cases hk0 : k = 0
  · subst hk0
    rw [if_neg (by omega), if_pos ⟨rfl, by omega⟩, if_pos rfl]
  · by_cases hk1 : k = 1
    · subst hk1
      rw [if_pos ⟨rfl, by omega⟩, if_neg hk0, if_pos rfl]
    · have h1 : ¬ (1 = k ∧ 1 < c.lit.length) := fun h => hk1 h.1.symm
      have h2 : ¬ (0 = k ∧ 0 < c.lit.length) := fun h => hk0 h.1.symm
      rw [if_neg h1, if_neg h2, if_neg hk0, if_neg hk1]

theorem swapWatched_of_ne (c : Clause) (p : Int) (h0 : c.lit.getD 0 0 ≠ -p) :
    swapWatched c p = c := by
  unfold swapWatched
  rw [if_neg h0]

theorem npos_swapWatched (c : Clause) (p q : Int) (hlen : 2 ≤ c.lit.length) :
    npos (swapWatched c p) q = npos c q := by
  by_cases h0 : c.lit.getD 0 0 = -p
  · unfold npos
    rw [swapWatched_get c p hlen h0 0, swapWatched_get c p hlen h0 1, h0]
    simp only [if_true, if_false, one_ne_zero]
    omega
  · rw [swapWatched_of_ne c p h0]

theorem swapWatched_one (c : Clause) (p : Int) (hlen : 2 ≤ c.lit.length)
    (hn : 1 ≤ npos c p) : (swapWatched c p).lit.getD 1 0 = -p := by
  by_cases h0 : c.lit.getD 0 0 = -p
  · rw [swapWatched_get c p hlen h0 1]
    simp
  · rw [swapWatched_of_ne c p h0]
    unfold npos at hn
    rw [if_neg h0] at hn
    by_contra h1
    rw [if_neg h1] at hn
    omega

theorem swapWatched_nonzero (c : Clause) (p : Int) (hp : p ≠ 0) (hlen : 2 ≤ c.lit.length)
    (hnz : ∀ k, k < c.lit.length → c.lit.getD k 0 ≠ 0) :
    ∀ k, k < (swapWatched c p).lit.length → (swapWatched c p).lit.getD k 0 ≠ 0 := by
  intro k hk
  rw [swapWatched_length] at hk
  by_cases h0 : c.lit.getD 0 0 = -p
  · rw [swapWatched_get c p hlen h0 k]
    split_ifs
    · exact hnz 1 (by omega)
    · omega
    · exact hnz k hk
  · rw [swapWatched_of_ne c p h0]
    exact hnz k hk

theorem moveWatch_length (c : Clause) (k : Nat) (p : Int) :
    (moveWatch c k p).lit.length = c.lit.length := by
  unfold moveWatch
  simp

theorem moveWatch_get (c : Clause) (k : Nat) (p : Int) (hk2 : 2 ≤ k) (hk : k < c.lit.length)
    (m : Nat) :
    (moveWatch c k p).lit.getD m 0 =
      if m = k then -p else if m = 1 then c.lit.getD k 0 else c.lit.getD m 0 := by
  unfold moveWatch
  show ((c.lit.set 1 (c.lit.getD k 0)).set k (-p)).getD m 0 = _
  rw [getD_set, getD_set]
  simp only [List.length_set]
  by_cases hmk : m = k
  · subst hmk
    rw [if_pos ⟨rfl, by omega⟩, if_pos rfl]
  · have h1 : ¬ (k = m ∧ k < c.lit.length) := fun h => hmk h.1.symm
    rw [if_neg h1, if_neg hmk]
    by_cases hm1 : m = 1
    · subst hm1
      rw [if_pos ⟨rfl, by omega⟩, if_pos rfl]
    · have h2 : ¬ (1 = m ∧ 1 < c.lit.length) := fun h => hm1 h.1.symm
      rw [if_neg h2, if_neg hm1]

theorem npos_moveWatch (c : Clause) (k : Nat) (p q : Int) (hk2 : 2 ≤ k) (hk : k < c.lit.length) :
    npos (moveWatch c k p) q =
      (if c.lit.getD 0 0 = -q then 1 else 0) + (if c.lit.getD k 0 = -q then 1 else 0) := by
  unfold npos
  rw [moveWatch_get c k p hk2 hk 0, moveWatch_get c k p hk2 hk 1]
  have h0 : ¬ (0 = k) := by omega
  have h1 : ¬ (1 = k) := by omega
  simp only [h0, h1, if_false, if_true]
  simp

end Solver

end EasySAT

namespace EasySAT

namespace Solver

theorem propInv_keep {p : Int} {i j n : Nat} {s : Solver} (hinv : PropInv p i j (n + 1) s)
    (s2 : Solver) (w : Watcher)
    (hw : w.idx_clause = ((s.watches p).getD i default).idx_clause)
    (hwatch : s2.watches = Function.update s.watches p ((s.watches p).set j w))
    (hval : s2.value = s.value) (htrail : s2.trail = s.trail)
    (hnpos : ∀ cref q, npos (s2.clause_DB.getD cref default) q =
      npos (s.clause_DB.getD cref default) q)
    (htyped : LitsTyped s2) : PropInv p (i + 1) (j + 1) n s2 := by
  have hi : i < (s.watches p).length := by have := hinv.hlen; omega
  have hwp : s2.watches p = (s.watches p).set j w := by rw [hwatch, Function.update_same]
  refine ⟨hinv.hp0, by rw [hval]; exact hinv.hpt, ?_, htyped, ?_, ?_, ?_, ?_⟩
  · intro l hl
    rw [hval]
    rw [htrail] at hl
    exact hinv.trailTrue l hl
  · have := hinv.hji; omega
  · rw [hwp, List.length_set]
    have := hinv.hlen; omega
  · intro cref
    rw [hwp, count_keep _ i j w cref hinv.hji hi hw, hnpos]
    exact hinv.cntP cref
  · intro q hq cref
    rw [hwatch, Function.update_noteq hq, hnpos]
    exact hinv.cntQ q hq cref

theorem propInv_assign {p : Int} {i j n : Nat} {s : Solver} (hinv : PropInv p i j n s)
    (l : Int) (lvl : Nat) (cref : Int) (hl0 : l ≠ 0)
    (h1 : litValue s.value l ≠ 1) (h2 : litValue s.value l ≠ -1) :
    PropInv p i j n (assign s l lvl cref) := by
  have hother : ∀ m, litValue s.value m = 1 →
      litValue (Function.update s.value l.natAbs (litSign l)) m = 1 := by
    intro m hm
    by_cases hv : m.natAbs = l.natAbs
    · rcases litValue_same_var s.value l m hv hm with h | h
      · exact absurd h h1
      · exact absurd h h2
    · rw [litValue_update_other _ _ _ _ hv]
      exact hm
  refine ⟨hinv.hp0, hother p hinv.hpt, ?_, ?_, hinv.hji, hinv.hlen, hinv.cntP, hinv.cntQ⟩
  · intro m hm
    have hm2 : m ∈ s.trail ++ [l] := hm
    rw [List.mem_append] at hm2
    rcases hm2 with h | h
    · exact hother m (hinv.trailTrue m h)
    · have : m = l := by simpa using h
      subst this
      exact litValue_update_self _ _
  · refine ⟨?_, hinv.typed.2⟩
    intro m hm
    have hm2 : m ∈ s.trail ++ [l] := hm
    rw [List.mem_append] at hm2
    rcases hm2 with h | h
    · exact hinv.typed.1 m h
    · have : m = l := by simpa using h
      subst this
      exact hl0

/-- The clause a watcher still to be read refers to is a stored clause with
at least two nonzero literals, one of its watched positions holding `-p`. -/
theorem propInv_current {p : Int} {i j n : Nat} {s : Solver} (hinv : PropInv p i j (n + 1) s) :
    ((s.watches p).getD i default).idx_clause < s.clause_DB.length ∧
    1 ≤ npos (s.clause_DB.getD ((s.watches p).getD i default).idx_clause default) p := by
  have hi : i < (s.watches p).length := by have := hinv.hlen; omega
  have hc := hinv.cntP ((s.watches p).getD i default).idx_clause
  rw [drop_getD _ i default hi, countIdx_cons, if_pos rfl] at hc
  have hn : 1 ≤ npos (s.clause_DB.getD ((s.watches p).getD i default).idx_clause default) p := by
    omega
  refine ⟨?_, hn⟩
  by_contra hlt
  have hd : s.clause_DB.getD ((s.watches p).getD i default).idx_clause default = default := by
    rw [List.getD_eq_getElem?_getD, List.getElem?_eq_none (by omega)]
    rfl
  rw [hd] at hn
  have hp0 := hinv.hp0
  have : npos (default : Clause) p = 0 := by
    unfold npos
    have h0 : (default : Clause).lit.getD 0 0 = 0 := rfl
    have h1 : (default : Clause).lit.getD 1 0 = 0 := rfl
    rw [h0, h1]
    have : ¬ (0 = -p) := by omega
    simp [this]
  omega

theorem getD_set_clause (db : List Clause) (cref x : Nat) (c : Clause) (h : cref < db.length) :
    (db.set cref c).getD x default = if x = cref then c else db.getD x default := by
  rw [getD_set]
  by_cases hx : x = cref
  · subst hx; rw [if_pos ⟨rfl, h⟩, if_pos rfl]
  · rw [if_neg (fun h => hx h.1.symm), if_neg hx]

/-- Replacing a stored clause by one with the same number of literals, all
nonzero, keeps the typing. -/
theorem litsTyped_setClause {s : Solver} (ht : LitsTyped s) (cref : Nat) (c : Clause)
    (hc : cref < s.clause_DB.length) (hlen : 2 ≤ c.lit.length)
    (hnz : ∀ k, k < c.lit.length → c.lit.getD k 0 ≠ 0) :
    LitsTyped (setClause s cref c) := by
  refine ⟨ht.1, ?_⟩
  intro x hx
  have hx2 : x < s.clause_DB.length := by simpa [setClause] using hx
  show 2 ≤ ((s.clause_DB.set cref c).getD x default).lit.length ∧
    ∀ k, k < ((s.clause_DB.set cref c).getD x default).lit.length →
      ((s.clause_DB.set cref c).getD x default).lit.getD k 0 ≠ 0
  rw [getD_set_clause _ _ _ _ hc]
  split_ifs
  · exact ⟨hlen, hnz⟩
  · exact ht.2 x hx2

end Solver

end EasySAT

namespace EasySAT

namespace Solver

/-- One iteration of the watch loop keeps the loop invariant, and a conflict
it reports is a falsified stored clause. -/
theorem watchStep_spec {p : Int} {i j n : Nat} {s : Solver} (hinv : PropInv p i j (n + 1) s) :
    StepPost p i n (watchStep p n i j s) := by
  have hi : i < (s.watches p).length := by have := hinv.hlen; omega
  obtain ⟨hcv, hnp⟩ := propInv_current hinv
  have hdropi := drop_getD (s.watches p) i default hi
  have hw0eq : ((s.watches p).getD i default).idx_clause =
    ((s.watches p).getD i default).idx_clause := rfl
  unfold watchStep
  dsimp only
  generalize hw0 : (s.watches p).getD i default = w0 at hcv hnp hdropi
  by_cases hb : litValue s.value w0.blocker = 1
  · rw [if_pos hb]
    exact propInv_keep hinv _ w0 (by rw [hw0]) rfl rfl rfl (fun _ _ => rfl) hinv.typed
  · rw [if_neg hb]
    have hct := hinv.typed.2 w0.idx_clause hcv
    generalize hc : s.clause_DB.getD w0.idx_clause default = c at hnp hct
    have hc1len := swapWatched_length c p
    have hc1one := swapWatched_one c p hct.1 hnp
    have hc1nz := swapWatched_nonzero c p hinv.hp0 hct.1 hct.2
    have hc1np := fun q => npos_swapWatched c p q hct.1
    generalize hc1 : swapWatched c p = c1 at hc1len hc1one hc1nz hc1np
    have hnpos1 : ∀ x q, npos ((setClause s w0.idx_clause c1).clause_DB.getD x default) q =
        npos (s.clause_DB.getD x default) q := by
      intro x q
      show npos ((s.clause_DB.set w0.idx_clause c1).getD x default) q = _
      rw [getD_set_clause _ _ _ _ hcv]
      split_ifs with hx
      · rw [hx, hc, hc1np]
      · rfl
    have htyped1 : LitsTyped (setClause s w0.idx_clause c1) :=
      litsTyped_setClause hinv.typed _ _ hcv (by omega) hc1nz
    have hnegp : litValue s.value (-p) = -1 := by
      rw [litValue_neg _ _ hinv.hp0, hinv.hpt]
    by_cases h1 : litValue (setClause s w0.idx_clause c1).value (c1.lit.getD 0 0) = 1
    · rw [if_pos h1]
      exact propInv_keep hinv _ ⟨w0.idx_clause, c1.lit.getD 0 0⟩ (by rw [hw0]) rfl rfl rfl
        hnpos1 htyped1
    · rw [if_neg h1]
      have h1s : litValue s.value (c1.lit.getD 0 0) ≠ 1 := h1
      obtain ⟨hk2, hkfalse, hkstop⟩ :=
        findWatch_spec (setClause s w0.idx_clause c1).value c1.lit c1.lit.length 2
      generalize hk : findWatch (setClause s w0.idx_clause c1).value c1.lit c1.lit.length 2 = k
        at hk2 hkfalse hkstop
      by_cases hklt : k < c1.lit.length
      · rw [if_pos hklt]
        have hkv : litValue s.value (c1.lit.getD k 0) ≠ -1 := hkstop (by omega) hklt
        have hkne : c1.lit.getD k 0 ≠ -p := by
          intro e; rw [e] at hkv; exact hkv hnegp
        have hc2get1 : (moveWatch c1 k p).lit.getD 1 0 = c1.lit.getD k 0 := by
          rw [moveWatch_get c1 k p hk2 hklt 1]
          rw [if_neg (by omega), if_pos rfl]
        rw [hc2get1]
        have hqp : -(c1.lit.getD k 0) ≠ p := by
          intro e; apply hkne; omega
        have hdb2 : ∀ x, ((s.clause_DB.set w0.idx_clause c1).set w0.idx_clause
            (moveWatch c1 k p)).getD x default =
            if x = w0.idx_clause then moveWatch c1 k p else s.clause_DB.getD x default := by
          intro x
          rw [getD_set_clause _ _ _ _ (by simpa using hcv), getD_set_clause _ _ _ _ hcv]
          split_ifs <;> rfl
        have hnp2 := fun q => npos_moveWatch c1 k p q hk2 hklt
        have hnpc1 : ∀ q, npos c q =
            (if c1.lit.getD 0 0 = -q then 1 else 0) + (if -p = -q then 1 else 0) := by
          intro q
          rw [← hc1np q]
          unfold npos
          rw [hc1one]
        refine ⟨hinv.hp0, hinv.hpt, hinv.trailTrue, ?_, by have := hinv.hji; omega, ?_, ?_, ?_⟩
        · apply litsTyped_setClause htyped1 _ _ (by simpa [setClause] using hcv)
          · rw [moveWatch_length]; omega
          · intro m hm
            rw [moveWatch_length] at hm
            rw [moveWatch_get c1 k p hk2 hklt m]
            split_ifs
            · have := hinv.hp0; omega
            · exact hc1nz k hklt
            · exact hc1nz m hm
        · show i + 1 + n = (Function.update s.watches (-(c1.lit.getD k 0)) _ p).length
          rw [Function.update_noteq hqp.symm]
          have := hinv.hlen; omega
        · intro x
          show countIdx x ((Function.update s.watches (-(c1.lit.getD k 0)) _ p).take j) +
            countIdx x ((Function.update s.watches (-(c1.lit.getD k 0)) _ p).drop (i + 1)) ≤
            npos (((s.clause_DB.set w0.idx_clause c1).set w0.idx_clause
              (moveWatch c1 k p)).getD x default) p
          rw [Function.update_noteq hqp.symm, hdb2]
          have hcnt := hinv.cntP x
          rw [hdropi, countIdx_cons] at hcnt
          split_ifs with hx
          · subst hx
            rw [if_pos rfl, hc, hnpc1 p, if_pos rfl] at hcnt
            rw [hnp2 p, if_neg hkne]
            omega
          · rw [if_neg (fun e => hx e.symm)] at hcnt
            omega
        · intro q hq x
          show countIdx x (Function.update s.watches (-(c1.lit.getD k 0))
              (s.watches (-(c1.lit.getD k 0)) ++ [⟨w0.idx_clause, c1.lit.getD 0 0⟩]) q) ≤
            npos (((s.clause_DB.set w0.idx_clause c1).set w0.idx_clause
              (moveWatch c1 k p)).getD x default) q
          rw [hdb2]
          have hcnt := hinv.cntQ q hq x
          have hpq : ¬ (-p = -q) := by omega
          by_cases hqq : q = -(c1.lit.getD k 0)
          · subst hqq
            rw [Function.update_same, countIdx_append, countIdx_single]
            show _ + (if w0.idx_clause = x then 1 else 0) ≤ _
            split_ifs with hx1 hx2 hx2
            · subst hx2
              rw [hnp2, if_pos (show c1.lit.getD k 0 = - -(c1.lit.getD k 0) by omega)]
              rw [hc, hnpc1, if_neg (show ¬ (-p = - -(c1.lit.getD k 0)) by omega)] at hcnt
              omega
            · exact absurd hx1.symm hx2
            · exact absurd hx2.symm hx1
            · omega
          · rw [Function.update_noteq hqq]
            split_ifs with hx
            · subst hx
              rw [hc, hnpc1 q, if_neg hpq] at hcnt
              rw [hnp2 q, if_neg (show ¬ (c1.lit.getD k 0 = -q) by omega)]
              omega
            · exact hcnt
      · rw [if_neg hklt]
        have hkeep := propInv_keep hinv
          (setWatch (setClause s w0.idx_clause c1) p
            (((setClause s w0.idx_clause c1).watches p).set j ⟨w0.idx_clause, c1.lit.getD 0 0⟩))
          ⟨w0.idx_clause, c1.lit.getD 0 0⟩ (by rw [hw0]) rfl rfl rfl hnpos1 htyped1
        by_cases hconf : litValue (setWatch (setClause s w0.idx_clause c1) p
            (((setClause s w0.idx_clause c1).watches p).set j
              ⟨w0.idx_clause, c1.lit.getD 0 0⟩)).value (c1.lit.getD 0 0) = -1
        · rw [if_pos hconf]
          have hconf2 : litValue s.value (c1.lit.getD 0 0) = -1 := hconf
          refine ⟨by simpa [setWatch, setClause] using hcv, ?_⟩
          intro m hm
          have hget : (s.clause_DB.set w0.idx_clause c1).getD w0.idx_clause default = c1 := by
            rw [getD_set_clause _ _ _ _ hcv, if_pos rfl]
          have hm2 : m < c1.lit.length := by
            have : m < ((s.clause_DB.set w0.idx_clause c1).getD w0.idx_clause default).lit.length := hm
            rwa [hget] at this
          show litValue s.value (((s.clause_DB.set w0.idx_clause c1).getD w0.idx_clause
            default).lit.getD m 0) = -1
          rw [hget]
          by_cases hm0 : m = 0
          · subst hm0; exact hconf2
          · by_cases hm1 : m = 1
            · subst hm1; rw [hc1one]; exact hnegp
            · exact hkfalse m (by omega) (by omega)
        · rw [if_neg hconf]
          have hconf2 : litValue s.value (c1.lit.getD 0 0) ≠ -1 := hconf
          exact propInv_assign hkeep _ _ _ (hc1nz 0 (by omega)) h1s hconf2

end Solver

end EasySAT

namespace EasySAT

namespace Solver

/-- The watch loop of `propagate` re-establishes the watcher multiplicities
when it ends without conflict, and a conflict it reports is a falsified
stored clause. -/
theorem propagateWatches_spec (p : Int) :
    ∀ (n i j : Nat) (s : Solver), PropInv p i j n s →
      WatchesPost (propagateWatches p n i j s) := by
  intro n
  induction n with
  | zero =>
    intro i j s hinv
    unfold propagateWatches
    show PropReady (setWatch s p (resize (s.watches p) j default))
    have hjl : j ≤ (s.watches p).length := by
      have := hinv.hlen; have := hinv.hji; omega
    rw [resize_of_le _ _ _ hjl]
    refine ⟨?_, hinv.trailTrue, hinv.typed⟩
    intro q cref
    show countIdx cref (Function.update s.watches p ((s.watches p).take j) q) ≤
      npos (s.clause_DB.getD cref default) q
    by_cases hq : q = p
    · subst hq
      rw [Function.update_same]
      have := hinv.cntP cref
      omega
    · rw [Function.update_noteq hq]
      exact hinv.cntQ q hq cref
  | succ n ih =>
    intro i j s hinv
    have hstep := watchStep_spec hinv
    unfold propagateWatches
    generalize watchStep p n i j s = r at hstep
    cases r with
    | next j2 s2 => exact ih (i + 1) j2 s2 hstep
    | conflict cref s2 => exact hstep

/-- C4 (amended): in a state whose literals and clauses are typed, whose
trail literals are true, and in which no clause has more watchers in a watch
list than watched positions holding the negated literal, a value other than
`-1` returned by `propagate` is the index of a stored clause all of whose
literals are false. -/
theorem propagate_conflict_falsified (s : Solver) (hready : PropReady s) : ConflictClaim s := by
  intro fuel
  induction fuel generalizing s with
  | zero =>
    intro r s2 hrun hr
    unfold propagate at hrun
    split_ifs at hrun
    simp only [Option.some.injEq, Prod.mk.injEq] at hrun
    exact absurd hrun.1.symm hr
  | succ fuel ih =>
    intro r s2 hrun hr
    unfold propagate at hrun
    split_ifs at hrun with hlt
    · dsimp only at hrun
      generalize hp : s.trail.getD s.propagated 0 = p at hrun
      have hmem : p ∈ s.trail := by
        rw [← hp, List.getD_eq_getElem _ _ hlt]
        exact List.getElem_mem _
      have hinv : PropInv p 0 0 (s.watches p).length { s with propagated := s.propagated + 1 } := by
        refine ⟨hready.2.2.1 p hmem, hready.2.1 p hmem, hready.2.1, hready.2.2, le_refl _,
          by simp, ?_, ?_⟩
        · intro cref
          have := hready.1 p cref
          show countIdx cref ((s.watches p).take 0) + countIdx cref ((s.watches p).drop 0) ≤ _
          simp only [List.take_zero, List.drop_zero]
          have h0 : countIdx cref [] = 0 := rfl
          rw [h0]
          omega
        · intro q _ cref
          exact hready.1 q cref
      have hpost := propagateWatches_spec p _ 0 0 _ hinv
      generalize hres : propagateWatches p (s.watches p).length 0 0
        { s with propagated := s.propagated + 1 } = res at hrun hpost
      rcases res with ⟨_ | cref, s3⟩
      · exact ih s3 hpost r s2 hrun hr
      · simp only [Option.some.injEq, Prod.mk.injEq] at hrun
        obtain ⟨h1, h2⟩ := hrun
        subst h2
        exact ⟨cref, h1.symm, hpost.1, hpost.2⟩
    · simp only [Option.some.injEq, Prod.mk.injEq] at hrun
      exact absurd hrun.1.symm hr

end Solver

end EasySAT

namespace EasySAT

namespace Solver

theorem doubleWatchState_watchRef : WatchRef doubleWatchState := by
  intro q w hw
  by_cases hq : q = 1
  · subst hq
    have hw2 : w ∈ [(⟨0, 2⟩ : Watcher), ⟨0, 2⟩] := hw
    simp only [List.mem_cons, List.mem_singleton, List.not_mem_nil, or_false, or_self] at hw2
    subst hw2
    exact ⟨by decide, Or.inr (by decide)⟩
  · have hw2 : w ∈ (if q = 1 then [(⟨0, 2⟩ : Watcher), ⟨0, 2⟩] else []) := hw
    rw [if_neg hq] at hw2
    exact absurd hw2 (List.not_mem_nil _)

theorem doubleWatchState_trailTrue : TrailTrue doubleWatchState := by
  intro l hl
  have hl2 : l ∈ [(-2 : Int), 1] := hl
  simp only [List.mem_cons, List.mem_singleton, List.not_mem_nil, or_false] at hl2
  rcases hl2 with h | h <;> subst h <;> decide

/-- C4 (counterexample): the watch list of the trail literal `1` holds two
watchers of the clause `[2, -1, 3]`, so every watcher refers to a clause with
`-1` at position 1, and both trail literals are true.  The first watcher moves
the watch to the unassigned literal `3`; the second one finds `2` false and no
further candidate, and `propagate` returns clause 0, now `[2, 3, -1]`, whose
literal `3` is unassigned. -/
theorem propagate_double_watch_counterexample :
    WatchRef doubleWatchState ∧ TrailTrue doubleWatchState ∧
    (propagate 5 doubleWatchState).map (fun r => (r.1, r.2.clause_DB)) =
      some (0, [⟨0, [2, 3, -1]⟩]) ∧
    (propagate 5 doubleWatchState).map (fun r => litValue r.2.value 3) = some 0 ∧
    ¬ ConflictClaim doubleWatchState := by
  refine ⟨doubleWatchState_watchRef, doubleWatchState_trailTrue, by decide, by decide,
    fun h => ?_⟩
  have hev : (propagate 5 doubleWatchState).map (fun r =>
      (r.1, litValue r.2.value ((r.2.clause_DB.getD 0 default).lit.getD 1 0),
        (r.2.clause_DB.getD 0 default).lit.length)) = some (0, 0, 3) := by decide
  cases hrun : propagate 5 doubleWatchState with
  | none => rw [hrun] at hev; simp at hev
  | some rs =>
    obtain ⟨r, s2⟩ := rs
    rw [hrun] at hev
    simp only [Option.map_some', Option.some.injEq, Prod.mk.injEq] at hev
    obtain ⟨hr, hv, hl⟩ := hev
    obtain ⟨cref, hc, _, hfalse⟩ := h 5 r s2 hrun (by omega)
    have hc0 : cref = 0 := by omega
    subst hc0
    have := hfalse 1 (by omega)
    omega

theorem conflictState_ready : PropReady conflictState := by
  refine ⟨?_, ?_, ?_, ?_⟩
  · intro q cref
    show countIdx cref (if q = 1 then [(⟨0, 2⟩ : Watcher), ⟨1, -2⟩] else if q = -2 then [⟨0, -1⟩]
      else if q = 2 then [⟨1, -1⟩] else []) ≤ npos (conflictState.clause_DB.getD cref default) q
    split_ifs with h1 h2 h3
    · subst h1
      match cref with
      | 0 => decide
      | 1 => decide
      | n + 2 => simp [countIdx]
    · subst h2
      match cref with
      | 0 => decide
      | 1 => decide
      | n + 2 => simp [countIdx]
    · subst h3
      match cref with
      | 0 => decide
      | 1 => decide
      | n + 2 => simp [countIdx]
    · simp [countIdx]
  · intro l hl
    have hl2 : l ∈ [(1 : Int)] := hl
    simp only [List.mem_singleton] at hl2
    subst hl2
    decide
  · intro l hl
    have hl2 : l ∈ [(1 : Int)] := hl
    simp only [List.mem_singleton] at hl2
    subst hl2
    decide
  · intro cref hc
    have hc2 : cref < 2 := hc
    interval_cases cref
    · refine ⟨by decide, fun k hk => ?_⟩
      have hk2 : k < 2 := hk
      interval_cases k <;> decide
    · refine ⟨by decide, fun k hk => ?_⟩
      have hk2 : k < 2 := hk
      interval_cases k <;> decide

/-- C4 instance: with `1` true and the clauses `[-1, 2]` and `[-1, -2]`,
`propagate` assigns `2` from the first clause and returns the second clause,
index 1, which is then falsified. -/
theorem propagate_conflict_falsified_witness :
    PropReady conflictState ∧
    (propagate 5 conflictState).map (fun r => (r.1, r.2.trail)) = some (1, [1, 2]) ∧
    ConflictClaim conflictState :=
  ⟨conflictState_ready, by decide, propagate_conflict_falsified conflictState conflictState_ready⟩

end Solver

end EasySAT

namespace EasySAT

namespace Solver

theorem mem_iff_getD (l : List Int) (m : Int) :
    m ∈ l ↔ ∃ t, t < l.length ∧ l.getD t 0 = m := by
  rw [List.mem_iff_getElem]
  constructor
  · rintro ⟨t, ht, e⟩
    exact ⟨t, ht, by rw [List.getD_eq_getElem _ _ ht]; exact e⟩
  · rintro ⟨t, ht, e⟩
    exact ⟨t, ht, by rw [List.getD_eq_getElem _ _ ht] at e; exact e⟩

theorem getD_mem (l : List Int) (t : Nat) (h : t < l.length) : l.getD t 0 ∈ l :=
  (mem_iff_getD l _).2 ⟨t, h, rfl⟩

/-- Trail consistency makes every trail literal true. -/
theorem trailTrue_of_cons {s : Solver} (hc : TrailConsistent s) : TrailTrue s := by
  intro l hl
  obtain ⟨i, hi, e⟩ := (mem_iff_getD _ _).1 hl
  have h := (hc i hi).1
  rw [e] at h
  rw [litValue_eq, h]
  unfold litSign
  split_ifs <;> rfl

theorem natAbs_eq_cases (a b : Int) (h : a.natAbs = b.natAbs) : a = b ∨ a = -b := by
  omega

/-- A true nonzero literal is on the trail. -/
theorem true_on_trail {f : Nat} {s : Solver} (hc : Core f s) (l : Int) (hl0 : l ≠ 0)
    (hv : litValue s.value l = 1) : l ∈ s.trail := by
  have hval : s.value l.natAbs ≠ 0 := by
    rw [litValue_eq] at hv
    split_ifs at hv <;> omega
  obtain ⟨i, hi, e⟩ := hc.onTrail _ hval
  have hmem := getD_mem s.trail i hi
  rcases natAbs_eq_cases _ _ e with h | h
  · rw [h] at hmem; exact hmem
  · exfalso
    have ht := trailTrue_of_cons hc.cons _ hmem
    rw [h, litValue_neg _ _ hl0, hv] at ht
    omega

/-- The negation of a false nonzero literal is on the trail. -/
theorem false_on_trail {f : Nat} {s : Solver} (hc : Core f s) (l : Int) (hl0 : l ≠ 0)
    (hv : litValue s.value l = -1) : -l ∈ s.trail := by
  apply true_on_trail hc (-l) (by omega)
  rw [litValue_neg _ _ hl0, hv]
  rfl

theorem countP_ble_le (t : List Nat) (i : Nat) :
    t.countP (fun b => Nat.ble b i) ≤ t.length :=
  List.countP_le_length _

/-- The level of a trail literal is at most the number of decision levels. -/
theorem level_le_table {s : Solver} (hc : TrailConsistent s) (i : Nat) (hi : i < s.trail.length) :
    s.level (s.trail.getD i 0).natAbs ≤ s.pos_in_trail.length := by
  rw [(hc i hi).2]
  exact countP_ble_le _ _

/-- A trail literal behind every table entry is at the top level. -/
theorem level_eq_table {s : Solver} (hc : TrailConsistent s) (i : Nat) (hi : i < s.trail.length)
    (hall : ∀ a, a < s.pos_in_trail.length → s.pos_in_trail.getD a 0 ≤ i) :
    s.level (s.trail.getD i 0).natAbs = s.pos_in_trail.length := by
  rw [(hc i hi).2, List.countP_eq_length]
  intro b hb
  obtain ⟨a, ha, e⟩ := List.mem_iff_getElem.1 hb
  have := hall a ha
  rw [List.getD_eq_getElem _ _ ha, e] at this
  simp only [Nat.ble_eq]
  exact this

/-- The level of an assigned variable is at most the number of decision
levels. -/
theorem level_le_of_assigned {f : Nat} {s : Solver} (hc : Core f s) (v : Nat)
    (hv : s.value v ≠ 0) : s.level v ≤ s.pos_in_trail.length := by
  obtain ⟨i, hi, e⟩ := hc.onTrail v hv
  rw [← e]
  exact level_le_table hc.cons i hi

theorem value_ne_zero_of_lit {value : Nat → Int} {l : Int}
    (h : litValue value l = 1 ∨ litValue value l = -1) : value l.natAbs ≠ 0 := by
  rw [litValue_eq] at h
  split_ifs at h <;> omega

theorem litValue_zero_of {value : Nat → Int} {l : Int}
    (hr : value l.natAbs = 0 ∨ value l.natAbs = 1 ∨ value l.natAbs = -1)
    (h1 : litValue value l ≠ 1) (h2 : litValue value l ≠ -1) : value l.natAbs = 0 := by
  rw [litValue_eq] at h1 h2
  split_ifs at h1 h2 <;> omega

theorem count_set_getD (l : List Int) (i : Nat) (a x : Int) (h : i < l.length) :
    (l.set i a).count x + (if l.getD i 0 = x then 1 else 0) =
      l.count x + (if a = x then 1 else 0) := by
  rw [List.count_set _ _ _ _ h, List.getD_eq_getElem _ _ h]
  have hpos : l[i] = x → 1 ≤ l.count x := by
    intro e
    have : x ∈ l := e ▸ List.getElem_mem h
    exact List.count_pos_iff.2 this
  simp only [beq_iff_eq]
  by_cases h1 : l[i] = x
  · have := hpos h1
    rw [if_pos h1]
    omega
  · rw [if_neg h1]
    omega

/-- Exchanging two positions of a list permutes it. -/
theorem perm_swap (l : List Int) (a b : Nat) (ha : a < l.length) (hb : b < l.length) :
    List.Perm ((l.set a (l.getD b 0)).set b (l.getD a 0)) l := by
  rw [List.perm_iff_count]
  intro x
  have h1 := count_set_getD l a (l.getD b 0) x ha
  have h2 := count_set_getD (l.set a (l.getD b 0)) b (l.getD a 0) x
    (by rw [List.length_set]; exact hb)
  by_cases hab : a = b
  · subst hab
    rw [getD_set_eq _ _ _ _ ha] at h2
    omega
  · rw [getD_set_ne _ _ _ _ _ hab] at h2
    omega

theorem swapWatched_perm (c : Clause) (p : Int) (hlen : 2 ≤ c.lit.length) :
    List.Perm (swapWatched c p).lit c.lit := by
  by_cases h0 : c.lit.getD 0 0 = -p
  · unfold swapWatched
    rw [if_pos h0]
    show List.Perm ((c.lit.set 0 (c.lit.getD 1 0)).set 1 (-p)) c.lit
    rw [← h0]
    exact perm_swap c.lit 0 1 (by omega) (by omega)
  · rw [swapWatched_of_ne c p h0]

theorem moveWatch_perm (c : Clause) (k : Nat) (p : Int) (hk2 : 2 ≤ k) (hk : k < c.lit.length)
    (h1 : c.lit.getD 1 0 = -p) : List.Perm (moveWatch c k p).lit c.lit := by
  unfold moveWatch
  show List.Perm ((c.lit.set 1 (c.lit.getD k 0)).set k (-p)) c.lit
  rw [← h1]
  exact perm_swap c.lit 1 k (by omega) hk

theorem swapWatched_mem (c : Clause) (p : Int) (hlen : 2 ≤ c.lit.length) (m : Int) :
    m ∈ (swapWatched c p).lit ↔ m ∈ c.lit :=
  (swapWatched_perm c p hlen).mem_iff

theorem moveWatch_mem (c : Clause) (k : Nat) (p : Int) (hk2 : 2 ≤ k) (hk : k < c.lit.length)
    (h1 : c.lit.getD 1 0 = -p) (m : Int) :
    m ∈ (moveWatch c k p).lit ↔ m ∈ c.lit :=
  (moveWatch_perm c k p hk2 hk h1).mem_iff

/-- The literals at the watched positions after `swapWatched` are those at
the watched positions before. -/
theorem swapWatched_watched (c : Clause) (p : Int) (hlen : 2 ≤ c.lit.length) (x : Nat)
    (hx : x < 2) :
    ∃ x2, x2 < 2 ∧ (swapWatched c p).lit.getD x 0 = c.lit.getD x2 0 := by
  by_cases h0 : c.lit.getD 0 0 = -p
  · rw [swapWatched_get c p hlen h0 x]
    by_cases hx0 : x = 0
    · exact ⟨1, by omega, by rw [if_pos hx0]⟩
    · have hx1 : x = 1 := by omega
      exact ⟨0, by omega, by rw [if_neg hx0, if_pos hx1, h0]⟩
  · rw [swapWatched_of_ne c p h0]
    exact ⟨x, hx, rfl⟩

/-- The tail copy of `propagate` leaves the kept watchers followed by the
unread ones. -/
theorem copyTail_spec :
    ∀ (n i j : Nat) (ws : List Watcher), j ≤ i → i + n = ws.length →
      (copyTail n i j ws).2 ≤ (copyTail n i j ws).1.length ∧
      (copyTail n i j ws).1.take (copyTail n i j ws).2 = ws.take j ++ ws.drop i := by
  intro n
  induction n with
  | zero =>
    intro i j ws hji hlen
    unfold copyTail
    have : ws.drop i = [] := List.drop_eq_nil_of_le (by omega)
    rw [this]
    simp
    omega
  | succ n ih =>
    intro i j ws hji hlen
    unfold copyTail
    have hi : i < ws.length := by omega
    obtain ⟨h1, h2⟩ := ih (i + 1) (j + 1) (ws.set j (ws.getD i default)) (by omega)
      (by simp; omega)
    refine ⟨h1, ?_⟩
    rw [h2, take_set_succ _ _ _ (by omega), List.drop_set_of_lt _ _ (by omega),
      drop_getD ws i default hi]
    simp

end Solver

end EasySAT

namespace EasySAT

namespace Solver

theorem virt_keep {α : Type} (ws : List α) (i j : Nat) (w : α) (hji : j ≤ i)
    (hi : i < ws.length) :
    (ws.set j w).take (j + 1) ++ (ws.set j w).drop (i + 1) = ws.take j ++ w :: ws.drop (i + 1) := by
  rw [take_set_succ _ _ _ (by omega), List.drop_set_of_lt _ _ (by omega)]
  simp

theorem mem_virt {α : Type} (ws : List α) (i j : Nat) (d : α) (hi : i < ws.length) (x : α) :
    x ∈ ws.take j ++ ws.drop i ↔ x ∈ ws.take j ∨ x = ws.getD i d ∨ x ∈ ws.drop (i + 1) := by
  rw [List.mem_append, drop_getD ws i d hi, List.mem_cons]

/-- Keeping at the write index a watcher of the clause of the watcher read
keeps the loop invariant, when the clause database changed at most by the
exchange of the two watched literals of a clause. -/
theorem winv_keep {p : Int} {i j n : Nat} {s : Solver} (hinv : WInv p i j (n + 1) s)
    (s2 : Solver) (w : Watcher)
    (hw : w.idx_clause = ((s.watches p).getD i default).idx_clause)
    (hwatch : s2.watches = Function.update s.watches p ((s.watches p).set j w))
    (hval : s2.value = s.value) (htrail : s2.trail = s.trail)
    (hdblen : s2.clause_DB.length = s.clause_DB.length)
    (hnpos : ∀ cref q, npos (s2.clause_DB.getD cref default) q =
      npos (s.clause_DB.getD cref default) q)
    (hmem : ∀ cref m, m ∈ (s.clause_DB.getD cref default).lit →
      m ∈ (s2.clause_DB.getD cref default).lit)
    (hwb : w.blocker ∈ (s2.clause_DB.getD w.idx_clause default).lit)
    (htyped : LitsTyped s2) : WInv p (i + 1) (j + 1) n s2 := by
  have hi : i < (s.watches p).length := by have := hinv.hlen; omega
  have hwp : s2.watches p = (s.watches p).set j w := by rw [hwatch, Function.update_same]
  have hw0 := hinv.refP ((s.watches p).getD i default)
    ((mem_virt _ i j default hi _).2 (Or.inr (Or.inl rfl)))
  refine ⟨hinv.hp0, by rw [hval]; exact hinv.hpt, ?_, htyped, ?_, ?_, ?_, ?_, ?_, ?_⟩
  · intro l hl
    rw [hval]
    rw [htrail] at hl
    exact hinv.trailTrue l hl
  · have := hinv.hji; omega
  · rw [hwp, List.length_set]
    have := hinv.hlen; omega
  · intro x hx
    rw [hwp, virt_keep _ i j w hinv.hji hi, List.mem_append, List.mem_cons] at hx
    rw [hdblen]
    rcases hx with h | h | h
    · have := hinv.refP x ((mem_virt _ i j default hi _).2 (Or.inl h))
      exact ⟨this.1, hmem _ _ this.2⟩
    · subst h
      exact ⟨by rw [hw]; exact hw0.1, hwb⟩
    · have := hinv.refP x ((mem_virt _ i j default hi _).2 (Or.inr (Or.inr h)))
      exact ⟨this.1, hmem _ _ this.2⟩
  · intro q hq x hx
    rw [hwatch, Function.update_noteq hq] at hx
    rw [hdblen]
    have := hinv.refQ q hq x hx
    exact ⟨this.1, hmem _ _ this.2⟩
  · intro cref hcref
    rw [hdblen] at hcref
    rw [hwp, count_keep _ i j w cref hinv.hji hi hw, hnpos]
    exact hinv.cntP cref hcref
  · intro q hq cref hcref
    rw [hdblen] at hcref
    rw [hwatch, Function.update_noteq hq, hnpos]
    exact hinv.cntQ q hq cref hcref

/-- Assigning an unassigned literal keeps the loop invariant. -/
theorem winv_assign {p : Int} {i j n : Nat} {s : Solver} (hinv : WInv p i j n s)
    (l : Int) (lvl : Nat) (cref : Int) (hl0 : l ≠ 0)
    (h1 : litValue s.value l ≠ 1) (h2 : litValue s.value l ≠ -1) :
    WInv p i j n (assign s l lvl cref) := by
  have hother : ∀ m, litValue s.value m = 1 →
      litValue (Function.update s.value l.natAbs (litSign l)) m = 1 := by
    intro m hm
    by_cases hv : m.natAbs = l.natAbs
    · rcases litValue_same_var s.value l m hv hm with h | h
      · exact absurd h h1
      · exact absurd h h2
    · rw [litValue_update_other _ _ _ _ hv]
      exact hm
  refine ⟨hinv.hp0, hother p hinv.hpt, ?_, ?_, hinv.hji, hinv.hlen, hinv.refP, hinv.refQ,
    hinv.cntP, hinv.cntQ⟩
  · intro m hm
    have hm2 : m ∈ s.trail ++ [l] := hm
    rw [List.mem_append] at hm2
    rcases hm2 with h | h
    · exact hother m (hinv.trailTrue m h)
    · have : m = l := by simpa using h
      subst this
      exact litValue_update_self _ _
  · refine ⟨?_, hinv.typed.2⟩
    intro m hm
    have hm2 : m ∈ s.trail ++ [l] := hm
    rw [List.mem_append] at hm2
    rcases hm2 with h | h
    · exact hinv.typed.1 m h
    · have : m = l := by simpa using h
      subst this
      exact hl0

end Solver

end EasySAT

namespace EasySAT

namespace Solver

theorem set_getD_self {α : Type} (l : List α) (i : Nat) (d : α) : l.set i (l.getD i d) = l := by
  apply List.ext_getElem
  · simp
  · intro n h1 h2
    rw [List.getElem_set]
    split_ifs with h
    · subst h
      exact List.getD_eq_getElem _ _ h2
    · rfl

theorem npos_pos_iff (c : Clause) (p : Int) :
    1 ≤ npos c p ↔ (c.lit.getD 0 0 = -p ∨ c.lit.getD 1 0 = -p) := by
  unfold npos
  by_cases h0 : c.lit.getD 0 0 = -p
  · rw [if_pos h0]
    exact ⟨fun _ => Or.inl h0, fun _ => by omega⟩
  · rw [if_neg h0]
    by_cases h1 : c.lit.getD 1 0 = -p
    · rw [if_pos h1]
      exact ⟨fun _ => Or.inr h1, fun _ => by omega⟩
    · rw [if_neg h1]
      constructor
      · intro h; omega
      · rintro (h | h)
        · exact absurd h h0
        · exact absurd h h1

/-- Building the frame of a watch step from the new clause `c2`. -/
theorem stepFrame_mk (p : Int) (s s2 : Solver) (cref : Nat) (c2 : Clause)
    (hcref : cref < s.clause_DB.length)
    (hdb : s2.clause_DB = s.clause_DB.set cref c2)
    (hperm : List.Perm c2.lit (s.clause_DB.getD cref default).lit)
    (hlbd : c2.lbd = (s.clause_DB.getD cref default).lbd)
    (hnegp : 1 ≤ npos (s.clause_DB.getD cref default) p)
    (hsame : c2 = s.clause_DB.getD cref default ∨
      litValue s.value ((s.clause_DB.getD cref default).lit.getD 0 0) ≠ 1)
    (hwatched : ∀ x, x < 2 →
      (∃ y, y < 2 ∧ c2.lit.getD x 0 = (s.clause_DB.getD cref default).lit.getD y 0) ∨
        litValue s.value (c2.lit.getD x 0) ≠ -1) :
    StepFrame p s s2 cref := by
  have hget : s2.clause_DB.getD cref default = c2 := by
    rw [hdb, getD_set_clause _ _ _ _ hcref, if_pos rfl]
  refine ⟨hcref, by rw [hget]; exact hdb, by rw [hget]; exact hperm, by rw [hget]; exact hlbd,
    (npos_pos_iff _ _).1 hnegp, by rw [hget]; exact hsame, ?_⟩
  intro x hx
  unfold litAt
  rw [hget]
  exact hwatched x hx

/-- The loop invariant makes the kept watchers followed by the unread ones,
with the lists of the other literals, fit the clause database. -/
theorem winv_watchOK {p : Int} {i j n : Nat} {s : Solver} (hinv : WInv p i j n s) :
    WatchOK (Function.update s.watches p ((s.watches p).take j ++ (s.watches p).drop i))
      s.clause_DB := by
  constructor
  · intro q w hw
    by_cases hq : q = p
    · subst hq
      rw [Function.update_same] at hw
      exact hinv.refP w hw
    · rw [Function.update_noteq hq] at hw
      exact hinv.refQ q hq w hw
  · intro q cref hcref
    by_cases hq : q = p
    · subst hq
      rw [Function.update_same, countIdx_append]
      exact hinv.cntP cref hcref
    · rw [Function.update_noteq hq]
      exact hinv.cntQ q hq cref hcref

/-- Watch lists that fit the clause database give the loop invariant at the
start of the watch list of a true trail literal. -/
theorem winv_start {s : Solver} (h : WReady s) (p : Int) (hp : p ∈ s.trail) (k : Nat) :
    WInv p 0 0 (s.watches p).length { s with propagated := k } := by
  refine ⟨h.2.2.1 p hp, h.2.1 p hp, h.2.1, h.2.2, le_refl _, by simp, ?_, ?_, ?_, ?_⟩
  · intro w hw
    have hw2 : w ∈ (s.watches p).take 0 ++ (s.watches p).drop 0 := hw
    simp only [List.take_zero, List.drop_zero, List.nil_append] at hw2
    exact h.1.1 p w hw2
  · intro q _ w hw
    exact h.1.1 q w hw
  · intro cref hcref
    show countIdx cref ((s.watches p).take 0) + countIdx cref ((s.watches p).drop 0) = _
    simp only [List.take_zero, List.drop_zero]
    have h0 : countIdx cref [] = 0 := rfl
    rw [h0, Nat.zero_add]
    exact h.1.2 p cref hcref
  · intro q _ cref hcref
    exact h.1.2 q cref hcref

end Solver

end EasySAT

namespace EasySAT

namespace Solver

/-- One iteration of the watch loop keeps the loop invariant and acts on the
state as a kept watcher, a moved watch, a unit assignment or a conflict. -/
theorem watchStep_wpost {p : Int} {i j n : Nat} {s : Solver} (hinv : WInv p i j (n + 1) s) :
    WPost p i j n s (watchStep p n i j s) := by
  have hi : i < (s.watches p).length := by have := hinv.hlen; omega
  have hw0ref := hinv.refP ((s.watches p).getD i default)
    ((mem_virt _ i j default hi _).2 (Or.inr (Or.inl rfl)))
  have hdropi := drop_getD (s.watches p) i default hi
  unfold watchStep
  dsimp only
  generalize hw0 : (s.watches p).getD i default = w0 at hw0ref hdropi
  obtain ⟨hcv, hw0b⟩ := hw0ref
  have hnp : 1 ≤ npos (s.clause_DB.getD w0.idx_clause default) p := by
    have := hinv.cntP w0.idx_clause hcv
    rw [hdropi, countIdx_cons, if_pos rfl] at this
    omega
  have hct := hinv.typed.2 w0.idx_clause hcv
  have hself : s.clause_DB = s.clause_DB.set w0.idx_clause
      (s.clause_DB.getD w0.idx_clause default) := (set_getD_self _ _ _).symm
  by_cases hb : litValue s.value w0.blocker = 1
  · rw [if_pos hb]
    refine ⟨winv_keep hinv _ w0 (by rw [hw0]) rfl rfl rfl rfl (fun _ _ => rfl) (fun _ _ h => h)
      hw0b hinv.typed, w0.idx_clause, ?_, Or.inl ⟨rfl, rfl, ⟨w0, rfl, ?_⟩, w0.blocker, hw0b, hb⟩⟩
    · exact stepFrame_mk p s _ _ _ hcv hself (List.Perm.refl _) rfl hnp (Or.inl rfl)
        (fun x hx => Or.inl ⟨x, hx, rfl⟩)
    · show Function.update s.watches p ((s.watches p).set j w0) p = _
      rw [Function.update_same]
  · rw [if_neg hb]
    clear hself
    generalize hc : s.clause_DB.getD w0.idx_clause default = c at hnp hct hw0b
    have hnegp : litValue s.value (-p) = -1 := by
      rw [litValue_neg _ _ hinv.hp0, hinv.hpt]
    have hc1len := swapWatched_length c p
    have hc1one := swapWatched_one c p hct.1 hnp
    have hc1nz := swapWatched_nonzero c p hinv.hp0 hct.1 hct.2
    have hc1np := fun q => npos_swapWatched c p q hct.1
    have hc1perm := swapWatched_perm c p hct.1
    have hc1lbd : (swapWatched c p).lbd = c.lbd := by
      unfold swapWatched
      split_ifs <;> rfl
    have hc1w := swapWatched_watched c p hct.1
    have hc1same : swapWatched c p = c ∨ litValue s.value (c.lit.getD 0 0) ≠ 1 := by
      by_cases h0 : c.lit.getD 0 0 = -p
      · right
        rw [h0, hnegp]
        decide
      · left
        exact swapWatched_of_ne c p h0
    generalize hc1 : swapWatched c p = c1 at hc1len hc1one hc1nz hc1np hc1perm hc1lbd hc1w hc1same
    have hget1 : (s.clause_DB.set w0.idx_clause c1).getD w0.idx_clause default = c1 := by
      rw [getD_set_clause _ _ _ _ hcv, if_pos rfl]
    have hnpos1 : ∀ x q, npos ((setClause s w0.idx_clause c1).clause_DB.getD x default) q =
        npos (s.clause_DB.getD x default) q := by
      intro x q
      show npos ((s.clause_DB.set w0.idx_clause c1).getD x default) q = _
      rw [getD_set_clause _ _ _ _ hcv]
      split_ifs with hx
      · rw [hx, hc, hc1np]
      · rfl
    have hmem1 : ∀ x m, m ∈ (s.clause_DB.getD x default).lit →
        m ∈ ((setClause s w0.idx_clause c1).clause_DB.getD x default).lit := by
      intro x m hm
      show m ∈ ((s.clause_DB.set w0.idx_clause c1).getD x default).lit
      rw [getD_set_clause _ _ _ _ hcv]
      split_ifs with hx
      · rw [hx, hc] at hm
        exact hc1perm.mem_iff.2 hm
      · exact hm
    have hlen1 : (setClause s w0.idx_clause c1).clause_DB.length = s.clause_DB.length := by
      show (s.clause_DB.set w0.idx_clause c1).length = _
      rw [List.length_set]
    have htyped1 : LitsTyped (setClause s w0.idx_clause c1) :=
      litsTyped_setClause hinv.typed _ _ hcv (by omega) hc1nz
    have hwb1 : c1.lit.getD 0 0 ∈
        ((setClause s w0.idx_clause c1).clause_DB.getD w0.idx_clause default).lit := by
      show c1.lit.getD 0 0 ∈ ((s.clause_DB.set w0.idx_clause c1).getD w0.idx_clause default).lit
      rw [hget1]
      exact getD_mem _ _ (by omega)
    have hframe1 : ∀ s2 : Solver, s2.clause_DB = s.clause_DB.set w0.idx_clause c1 →
        StepFrame p s s2 w0.idx_clause := by
      intro s2 hdb
      refine stepFrame_mk p s s2 _ c1 hcv hdb (by rw [hc]; exact hc1perm)
        (by rw [hc]; exact hc1lbd) (by rw [hc]; exact hnp) (by rw [hc]; exact hc1same) ?_
      intro x hx
      rw [hc]
      exact Or.inl (hc1w x hx)
    have hkeep := winv_keep hinv
      (setWatch (setClause s w0.idx_clause c1) p
        (((setClause s w0.idx_clause c1).watches p).set j ⟨w0.idx_clause, c1.lit.getD 0 0⟩))
      ⟨w0.idx_clause, c1.lit.getD 0 0⟩ (by rw [hw0]) rfl rfl rfl hlen1 hnpos1 hmem1 hwb1 htyped1
    have hwset : (setWatch (setClause s w0.idx_clause c1) p
        (((setClause s w0.idx_clause c1).watches p).set j
          ⟨w0.idx_clause, c1.lit.getD 0 0⟩)).watches p =
        (s.watches p).set j ⟨w0.idx_clause, c1.lit.getD 0 0⟩ := by
      show Function.update s.watches p _ p = _
      rw [Function.update_same]
      rfl
    by_cases h1 : litValue (setClause s w0.idx_clause c1).value (c1.lit.getD 0 0) = 1
    · rw [if_pos h1]
      refine ⟨hkeep, w0.idx_clause, hframe1 _ rfl,
        Or.inl ⟨rfl, rfl, ⟨⟨w0.idx_clause, c1.lit.getD 0 0⟩, rfl, hwset⟩, c1.lit.getD 0 0, hwb1, h1⟩⟩
    · rw [if_neg h1]
      have h1s : litValue s.value (c1.lit.getD 0 0) ≠ 1 := h1
      have hgetS : ∀ s2 : Solver, s2.clause_DB = s.clause_DB.set w0.idx_clause c1 →
          s2.clause_DB.getD w0.idx_clause default = c1 := by
        intro s2 h
        rw [h]
        exact hget1
      obtain ⟨hk2, hkfalse, hkstop⟩ :=
        findWatch_spec (setClause s w0.idx_clause c1).value c1.lit c1.lit.length 2
      generalize hk : findWatch (setClause s w0.idx_clause c1).value c1.lit c1.lit.length 2 = k
        at hk2 hkfalse hkstop
      by_cases hklt : k < c1.lit.length
      · rw [if_pos hklt]
        have hkv : litValue s.value (c1.lit.getD k 0) ≠ -1 := hkstop (by omega) hklt
        have hkne : c1.lit.getD k 0 ≠ -p := by
          intro e; rw [e] at hkv; exact hkv hnegp
        have hc2get1 : (moveWatch c1 k p).lit.getD 1 0 = c1.lit.getD k 0 := by
          rw [moveWatch_get c1 k p hk2 hklt 1]
          rw [if_neg (by omega), if_pos rfl]
        have hc2get0 : (moveWatch c1 k p).lit.getD 0 0 = c1.lit.getD 0 0 := by
          rw [moveWatch_get c1 k p hk2 hklt 0]
          rw [if_neg (by omega), if_neg (by omega)]
        have hc2perm := moveWatch_perm c1 k p hk2 hklt hc1one
        rw [hc2get1]
        have hqp : -(c1.lit.getD k 0) ≠ p := by
          intro e; apply hkne; omega
        have hdb2 : ∀ x, ((s.clause_DB.set w0.idx_clause c1).set w0.idx_clause
            (moveWatch c1 k p)).getD x default =
            if x = w0.idx_clause then moveWatch c1 k p else s.clause_DB.getD x default := by
          intro x
          rw [getD_set_clause _ _ _ _ (by simpa using hcv), getD_set_clause _ _ _ _ hcv]
          split_ifs <;> rfl
        have hmem2 : ∀ x m, m ∈ (s.clause_DB.getD x default).lit →
            m ∈ (((s.clause_DB.set w0.idx_clause c1).set w0.idx_clause
              (moveWatch c1 k p)).getD x default).lit := by
          intro x m hm
          rw [hdb2]
          split_ifs with hx
          · rw [hx, hc] at hm
            exact hc2perm.mem_iff.2 (hc1perm.mem_iff.2 hm)
          · exact hm
        have hlen2 : ((s.clause_DB.set w0.idx_clause c1).set w0.idx_clause
            (moveWatch c1 k p)).length = s.clause_DB.length := by
          rw [List.length_set, List.length_set]
        have hnp2 := fun q => npos_moveWatch c1 k p q hk2 hklt
        have hnpc1 : ∀ q, npos c q =
            (if c1.lit.getD 0 0 = -q then 1 else 0) + (if -p = -q then 1 else 0) := by
          intro q
          rw [← hc1np q]
          unfold npos
          rw [hc1one]
        refine ⟨⟨hinv.hp0, hinv.hpt, hinv.trailTrue, ?_, by have := hinv.hji; omega, ?_, ?_, ?_,
          ?_, ?_⟩, w0.idx_clause, ?_, Or.inr (Or.inl ⟨rfl, rfl, ?_⟩)⟩
        · apply litsTyped_setClause htyped1 _ _ (by simpa [setClause] using hcv)
          · rw [moveWatch_length]; omega
          · intro m hm
            rw [moveWatch_length] at hm
            rw [moveWatch_get c1 k p hk2 hklt m]
            split_ifs
            · have := hinv.hp0; omega
            · exact hc1nz k hklt
            · exact hc1nz m hm
        · show i + 1 + n = (Function.update s.watches (-(c1.lit.getD k 0)) _ p).length
          rw [Function.update_noteq hqp.symm]
          have := hinv.hlen; omega
        · intro x hx
          have hx2 : x ∈ (Function.update s.watches (-(c1.lit.getD k 0))
              (s.watches (-(c1.lit.getD k 0)) ++ [⟨w0.idx_clause, c1.lit.getD 0 0⟩]) p).take j ++
              (Function.update s.watches (-(c1.lit.getD k 0))
              (s.watches (-(c1.lit.getD k 0)) ++ [⟨w0.idx_clause, c1.lit.getD 0 0⟩]) p).drop
                (i + 1) := hx
          rw [Function.update_noteq hqp.symm, List.mem_append] at hx2
          have hold : x ∈ (s.watches p).take j ++ (s.watches p).drop i := by
            rw [mem_virt _ i j default hi]
            rcases hx2 with h | h
            · exact Or.inl h
            · exact Or.inr (Or.inr h)
          have := hinv.refP x hold
          exact ⟨by rw [← hlen2] at this; exact this.1, hmem2 _ _ this.2⟩
        · intro q hq x hx
          have hx2 : x ∈ Function.update s.watches (-(c1.lit.getD k 0))
              (s.watches (-(c1.lit.getD k 0)) ++ [⟨w0.idx_clause, c1.lit.getD 0 0⟩]) q := hx
          show x.idx_clause < ((s.clause_DB.set w0.idx_clause c1).set w0.idx_clause
              (moveWatch c1 k p)).length ∧
            x.blocker ∈ (((s.clause_DB.set w0.idx_clause c1).set w0.idx_clause
              (moveWatch c1 k p)).getD x.idx_clause default).lit
          rw [hlen2]
          by_cases hqq : q = -(c1.lit.getD k 0)
          · subst hqq
            rw [Function.update_same, List.mem_append] at hx2
            rcases hx2 with h | h
            · have := hinv.refQ _ hq x h
              exact ⟨this.1, hmem2 _ _ this.2⟩
            · have hxe : x = ⟨w0.idx_clause, c1.lit.getD 0 0⟩ := by simpa using h
              subst hxe
              refine ⟨hcv, ?_⟩
              show c1.lit.getD 0 0 ∈ (((s.clause_DB.set w0.idx_clause c1).set w0.idx_clause
                (moveWatch c1 k p)).getD w0.idx_clause default).lit
              rw [hdb2, if_pos rfl]
              exact hc2perm.mem_iff.2 (getD_mem _ _ (by omega))
          · rw [Function.update_noteq hqq] at hx2
            have := hinv.refQ _ hq x hx2
            exact ⟨this.1, hmem2 _ _ this.2⟩
        · intro x hxl
          have hxl2 : x < s.clause_DB.length := by
            have : x < ((s.clause_DB.set w0.idx_clause c1).set w0.idx_clause
              (moveWatch c1 k p)).length := hxl
            rwa [hlen2] at this
          show countIdx x ((Function.update s.watches (-(c1.lit.getD k 0)) _ p).take j) +
            countIdx x ((Function.update s.watches (-(c1.lit.getD k 0)) _ p).drop (i + 1)) =
            npos (((s.clause_DB.set w0.idx_clause c1).set w0.idx_clause
              (moveWatch c1 k p)).getD x default) p
          rw [Function.update_noteq hqp.symm, hdb2]
          have hcnt := hinv.cntP x hxl2
          rw [hdropi, countIdx_cons] at hcnt
          split_ifs with hx
          · subst hx
            rw [if_pos rfl, hc, hnpc1 p, if_pos rfl] at hcnt
            rw [hnp2 p, if_neg hkne]
            omega
          · rw [if_neg (fun e => hx e.symm)] at hcnt
            omega
        · intro q hq x hxl
          have hxl2 : x < s.clause_DB.length := by
            have : x < ((s.clause_DB.set w0.idx_clause c1).set w0.idx_clause
              (moveWatch c1 k p)).length := hxl
            rwa [hlen2] at this
          show countIdx x (Function.update s.watches (-(c1.lit.getD k 0))
              (s.watches (-(c1.lit.getD k 0)) ++ [⟨w0.idx_clause, c1.lit.getD 0 0⟩]) q) =
            npos (((s.clause_DB.set w0.idx_clause c1).set w0.idx_clause
              (moveWatch c1 k p)).getD x default) q
          rw [hdb2]
          have hcnt := hinv.cntQ q hq x hxl2
          have hpq : ¬ (-p = -q) := by omega
          by_cases hqq : q = -(c1.lit.getD k 0)
          · subst hqq
            rw [Function.update_same, countIdx_append, countIdx_single]
            show _ + (if w0.idx_clause = x then 1 else 0) = _
            split_ifs with hx1 hx2 hx2
            · subst hx2
              rw [hnp2, if_pos (show c1.lit.getD k 0 = - -(c1.lit.getD k 0) by omega)]
              rw [hc, hnpc1, if_neg (show ¬ (-p = - -(c1.lit.getD k 0)) by omega)] at hcnt
              omega
            · exact absurd hx1.symm hx2
            · exact absurd hx2.symm hx1
            · omega
          · rw [Function.update_noteq hqq]
            split_ifs with hx
            · subst hx
              rw [hc, hnpc1 q, if_neg hpq] at hcnt
              rw [hnp2 q, if_neg (show ¬ (c1.lit.getD k 0 = -q) by omega)]
              omega
            · exact hcnt
        · refine stepFrame_mk p s _ _ (moveWatch c1 k p) hcv ?_ (by rw [hc]; exact hc2perm.trans hc1perm)
            (by rw [hc]; exact hc1lbd) (by rw [hc]; exact hnp) ?_ ?_
          · show (s.clause_DB.set w0.idx_clause c1).set w0.idx_clause (moveWatch c1 k p) = _
            rw [List.set_set]
          · right
            rw [hc]
            rcases hc1same with h | h
            · rw [← h]; exact h1s
            · exact h
          · intro x hx
            rw [hc]
            by_cases hx0 : x = 0
            · subst hx0
              rw [hc2get0]
              exact Or.inl (hc1w 0 (by omega))
            · have hx1 : x = 1 := by omega
              subst hx1
              rw [hc2get1]
              exact Or.inr hkv
        · show Function.update s.watches (-(c1.lit.getD k 0)) _ p = s.watches p
          rw [Function.update_noteq hqp.symm]
      · rw [if_neg hklt]
        have hrest : ∀ m, 1 ≤ m → m < c1.lit.length → litValue s.value (c1.lit.getD m 0) = -1 := by
          intro m hm1 hm
          by_cases hm1 : m = 1
          · subst hm1; rw [hc1one]; exact hnegp
          · exact hkfalse m (by omega) (by omega)
        by_cases hconf : litValue (setWatch (setClause s w0.idx_clause c1) p
            (((setClause s w0.idx_clause c1).watches p).set j
              ⟨w0.idx_clause, c1.lit.getD 0 0⟩)).value (c1.lit.getD 0 0) = -1
        · rw [if_pos hconf]
          have hconf2 : litValue s.value (c1.lit.getD 0 0) = -1 := hconf
          obtain ⟨hr1, hr2⟩ := copyTail_spec n (i + 1) (j + 1)
            ((setWatch (setClause s w0.idx_clause c1) p
              (((setClause s w0.idx_clause c1).watches p).set j
                ⟨w0.idx_clause, c1.lit.getD 0 0⟩)).watches p) (by have := hinv.hji; omega)
            hkeep.hlen
          refine ⟨⟨?_, hkeep.trailTrue, hkeep.typed⟩, hframe1 _ rfl, rfl, ?_⟩
          · have hwok := winv_watchOK hkeep
            rw [← hr2, ← resize_of_le _ _ default hr1] at hwok
            exact hwok
          · intro m hm
            have hm2 : m < c1.lit.length := by
              have : m < ((s.clause_DB.set w0.idx_clause c1).getD w0.idx_clause
                default).lit.length := hm
              rwa [hget1] at this
            show litValue s.value (((s.clause_DB.set w0.idx_clause c1).getD w0.idx_clause
              default).lit.getD m 0) = -1
            rw [hget1]
            by_cases hm0 : m = 0
            · subst hm0; exact hconf2
            · exact hrest m (by omega) hm2
        · rw [if_neg hconf]
          have hconf2 : litValue s.value (c1.lit.getD 0 0) ≠ -1 := hconf
          refine ⟨winv_assign hkeep _ _ _ (hc1nz 0 (by omega)) h1s hconf2, w0.idx_clause,
            hframe1 _ rfl, Or.inr (Or.inr ⟨rfl, ?_, ⟨⟨w0.idx_clause, c1.lit.getD 0 0⟩, rfl, hwset⟩,
              ?_, ?_, ?_, ?_⟩)⟩
          · have e : litAt (assign (setWatch (setClause s w0.idx_clause c1) p
                (((setClause s w0.idx_clause c1).watches p).set j
                  ⟨w0.idx_clause, c1.lit.getD 0 0⟩)) (c1.lit.getD 0 0)
                ((setWatch (setClause s w0.idx_clause c1) p
                  (((setClause s w0.idx_clause c1).watches p).set j
                    ⟨w0.idx_clause, c1.lit.getD 0 0⟩)).level p.natAbs) (w0.idx_clause : Int))
                w0.idx_clause 0 = c1.lit.getD 0 0 := by
              unfold litAt
              rw [hgetS _ rfl]
            rw [e]
            rfl
          · unfold litAt
            rw [hgetS _ rfl]
            exact h1s
          · unfold litAt
            rw [hgetS _ rfl]
            exact hconf2
          · unfold litAt
            rw [hgetS _ rfl]
            exact hc1one
          · intro m hm1 hm
            unfold litAt
            rw [hgetS _ rfl] at hm ⊢
            exact hrest m hm1 hm

end Solver

end EasySAT

namespace EasySAT

namespace Solver

theorem sameClauses_refl (db : List Clause) : SameClauses db db :=
  ⟨rfl, fun _ _ => ⟨rfl, List.Perm.refl _⟩⟩

theorem sameClauses_trans {db1 db2 db3 : List Clause} (h12 : SameClauses db1 db2)
    (h23 : SameClauses db2 db3) : SameClauses db1 db3 := by
  refine ⟨h23.1.trans h12.1, fun cref hc => ?_⟩
  have h1 := h12.2 cref hc
  have h2 := h23.2 cref (by rw [h12.1]; exact hc)
  exact ⟨h2.1.trans h1.1, h2.2.trans h1.2⟩

/-- A watch step changes the clause database only by permuting the literals
of one clause. -/
theorem stepFrame_same {p : Int} {s s2 : Solver} {cref : Nat} (h : StepFrame p s s2 cref) :
    SameClauses s.clause_DB s2.clause_DB := by
  have hlen : s2.clause_DB.length = s.clause_DB.length := by
    rw [h.hdb, List.length_set]
  refine ⟨hlen, fun x hx => ?_⟩
  by_cases hxc : x = cref
  · subst hxc
    exact ⟨h.hlbd, h.hperm⟩
  · have : s2.clause_DB.getD x default = s.clause_DB.getD x default := by
      rw [h.hdb, getD_set_clause _ _ _ _ h.hcref, if_neg hxc]
    rw [this]
    exact ⟨rfl, List.Perm.refl _⟩

/-- The watch loop of `propagate` re-establishes the fit of the watch lists
and changes the clause database only by permuting literals inside clauses. -/
theorem propagateWatches_wready (p : Int) :
    ∀ (n i j : Nat) (s : Solver), WInv p i j n s →
      WReady (propagateWatches p n i j s).2 ∧
      SameClauses s.clause_DB (propagateWatches p n i j s).2.clause_DB := by
  intro n
  induction n with
  | zero =>
    intro i j s hinv
    unfold propagateWatches
    refine ⟨⟨?_, hinv.trailTrue, hinv.typed⟩, sameClauses_refl _⟩
    have hjl : j ≤ (s.watches p).length := by
      have := hinv.hlen; have := hinv.hji; omega
    have hwok := winv_watchOK hinv
    have hd : (s.watches p).drop i = [] := List.drop_eq_nil_of_le (by have := hinv.hlen; omega)
    rw [hd, List.append_nil] at hwok
    show WatchOK (Function.update s.watches p (resize (s.watches p) j default)) s.clause_DB
    rw [resize_of_le _ _ _ hjl]
    exact hwok
  | succ n ih =>
    intro i j s hinv
    have hstep := watchStep_wpost hinv
    unfold propagateWatches
    generalize watchStep p n i j s = r at hstep
    cases r with
    | next j2 s2 =>
      obtain ⟨hinv2, cref, hframe, _⟩ := hstep
      have := ih (i + 1) j2 s2 hinv2
      exact ⟨this.1, sameClauses_trans (stepFrame_same hframe) this.2⟩
    | conflict cref s2 => exact ⟨hstep.1, stepFrame_same hstep.2.1⟩

/-- From a state whose watch lists fit the clause database, `propagate`
returns in such a state, with the clause database changed only by
permutations of literals inside clauses. -/
theorem propagate_wready :
    ∀ (fuel : Nat) (s : Solver) (r : Int) (s2 : Solver), WReady s →
      propagate fuel s = some (r, s2) → WReady s2 ∧ SameClauses s.clause_DB s2.clause_DB := by
  intro fuel
  induction fuel with
  | zero =>
    intro s r s2 hready hrun
    unfold propagate at hrun
    split_ifs at hrun
    simp only [Option.some.injEq, Prod.mk.injEq] at hrun
    rw [← hrun.2]
    exact ⟨hready, sameClauses_refl _⟩
  | succ fuel ih =>
    intro s r s2 hready hrun
    unfold propagate at hrun
    split_ifs at hrun with hlt
    · dsimp only at hrun
      generalize hp : s.trail.getD s.propagated 0 = p at hrun
      have hmem : p ∈ s.trail := by
        rw [← hp, List.getD_eq_getElem _ _ hlt]
        exact List.getElem_mem _
      have hpost := propagateWatches_wready p _ 0 0 _ (winv_start hready p hmem (s.propagated + 1))
      generalize hres : propagateWatches p (s.watches p).length 0 0
        { s with propagated := s.propagated + 1 } = res at hrun hpost
      rcases res with ⟨_ | cref, s3⟩
      · have := ih s3 r s2 hpost.1 hrun
        exact ⟨this.1, sameClauses_trans hpost.2 this.2⟩
      · simp only [Option.some.injEq, Prod.mk.injEq] at hrun
        rw [← hrun.2]
        exact hpost
    · simp only [Option.some.injEq, Prod.mk.injEq] at hrun
      rw [← hrun.2]
      exact ⟨hready, sameClauses_refl _⟩

end Solver

end EasySAT

namespace EasySAT

namespace Solver

/-- C20 (amended): in a state whose literals and clauses are typed, whose
trail literals are true, and whose watch lists fit the clause database (every
watcher refers to a stored clause, and the list of a literal `q` holds exactly
one watcher of a clause per watched position of it holding `-q`), `propagate`
changes a clause only by permuting its literals: when it returns, with or
without a conflict, the database has the same number of clauses, and each
clause has the same multiset of literals and the same LBD as before. -/
theorem propagate_permutes (s : Solver) (hready : WReady s) : PermuteClaim s :=
  fun fuel r s2 hrun => (propagate_wready fuel s r s2 hready hrun).2

/-- C20 (counterexample): the watch list of the trail literal `1` holds a
watcher of the clause `[2, 3, 4]`.  The clause does not start with `-1`, its
first literal is not true, and the literal `4` at position 2 is not false, so
`propagate` executes `c[1] = c[2], c[2] = -p`: the clause becomes
`[2, 4, -1]`, which has lost the literal `3`. -/
theorem propagate_stray_watch_counterexample :
    (propagate 5 strayWatchState).map (fun r => (r.1, r.2.clause_DB)) =
      some (-1, [⟨0, [2, 4, -1]⟩]) ∧
    ¬ PermuteClaim strayWatchState := by
  refine ⟨by decide, fun h => ?_⟩
  have hev : (propagate 5 strayWatchState).map (fun r => r.2.clause_DB) =
      some [⟨0, [2, 4, -1]⟩] := by decide
  cases hrun : propagate 5 strayWatchState with
  | none => rw [hrun] at hev; simp at hev
  | some rs =>
    obtain ⟨r, s2⟩ := rs
    rw [hrun] at hev
    simp only [Option.map_some', Option.some.injEq] at hev
    have hperm := (h 5 r s2 hrun).2 0 (by decide)
    rw [hev] at hperm
    have hmem : (3 : Int) ∈ [(2 : Int), 4, -1] := hperm.2.mem_iff.2 (by decide)
    exact absurd hmem (by decide)

theorem conflictState_wready : WReady conflictState := by
  refine ⟨⟨?_, ?_⟩, conflictState_ready.2.1, conflictState_ready.2.2⟩
  · intro q w hw
    have hw2 : w ∈ (if q = 1 then [(⟨0, 2⟩ : Watcher), ⟨1, -2⟩] else if q = -2 then [⟨0, -1⟩]
      else if q = 2 then [⟨1, -1⟩] else []) := hw
    split_ifs at hw2 with h1 h2 h3
    · simp only [List.mem_cons, List.mem_singleton, List.not_mem_nil, or_false] at hw2
      rcases hw2 with h | h <;> subst h <;> exact ⟨by decide, by decide⟩
    · simp only [List.mem_singleton] at hw2
      subst hw2
      exact ⟨by decide, by decide⟩
    · simp only [List.mem_singleton] at hw2
      subst hw2
      exact ⟨by decide, by decide⟩
    · exact absurd hw2 (List.not_mem_nil _)
  · intro q cref hc
    have hc2 : cref < 2 := hc
    show countIdx cref (if q = 1 then [(⟨0, 2⟩ : Watcher), ⟨1, -2⟩] else if q = -2 then [⟨0, -1⟩]
      else if q = 2 then [⟨1, -1⟩] else []) = npos (conflictState.clause_DB.getD cref default) q
    split_ifs with h1 h2 h3
    · subst h1
      interval_cases cref <;> decide
    · subst h2
      interval_cases cref <;> decide
    · subst h3
      interval_cases cref <;> decide
    · have e1 : ¬ q = 1 := h1
      have e2 : ¬ q = -2 := h2
      have e3 : ¬ q = 2 := h3
      interval_cases cref
      · show 0 = (if (-1 : Int) = -q then 1 else 0) + (if (2 : Int) = -q then 1 else 0)
        rw [if_neg (by omega), if_neg (by omega)]
      · show 0 = (if (-1 : Int) = -q then 1 else 0) + (if (-2 : Int) = -q then 1 else 0)
        rw [if_neg (by omega), if_neg (by omega)]

/-- C20 instance: with `1` true and the clauses `[-1, 2]` and `[-1, -2]`
watched as `add_clause` leaves them, `propagate` returns clause 1 after
exchanging the two literals of each clause. -/
theorem propagate_permutes_witness :
    WReady conflictState ∧
    (propagate 5 conflictState).map (fun r => (r.1, r.2.clause_DB)) =
      some (1, [⟨0, [2, -1]⟩, ⟨0, [-2, -1]⟩]) ∧
    PermuteClaim conflictState :=
  ⟨conflictState_wready, by decide, propagate_permutes conflictState conflictState_wready⟩

end Solver

end EasySAT

namespace EasySAT

namespace Solver

theorem hFrame_refl (s : Solver) : HFrame s s := rfl

theorem hFrame_trans {s1 s2 s3 : Solver} (h12 : HFrame s1 s2) (h23 : HFrame s2 s3) :
    HFrame s1 s3 := by
  unfold HFrame at *
  have e : keepHeuristic s3 s1 = keepHeuristic (keepHeuristic s3 s2) s1 := rfl
  rw [e, h23, h12]

theorem aFrame_refl (s : Solver) : AFrame s s := rfl

theorem aFrame_trans {s1 s2 s3 : Solver} (h12 : AFrame s1 s2) (h23 : AFrame s2 s3) :
    AFrame s1 s3 := by
  unfold AFrame at *
  have e : keepSearch s3 s1 = keepSearch (keepSearch s3 s2) s1 := rfl
  rw [e, h23, h12]

theorem aFrame_of_hFrame {s s2 : Solver} (h : HFrame s s2) : AFrame s s2 := by
  unfold AFrame
  unfold HFrame at h
  have e : keepSearch s2 s = keepSearch (keepHeuristic s2 s) s := rfl
  rw [e, h]
  rfl

/-- The method `bump_var` writes only the activities, the increment and the
heap. -/
theorem bump_var_frame (s : Solver) (var : Nat) (coeff : ℚ) : HFrame s (bump_var s var coeff) := by
  unfold HFrame bump_var
  dsimp only
  split_ifs <;> rfl

theorem hFrame_level {s s2 : Solver} (h : HFrame s s2) : s2.level = s.level := by
  have e := congrArg Solver.level (h : keepHeuristic s2 s = s)
  exact e

theorem hFrame_learnt {s s2 : Solver} (h : HFrame s s2) : s2.learnt = s.learnt := by
  have e := congrArg Solver.learnt (h : keepHeuristic s2 s = s)
  exact e

theorem hFrame_mark {s s2 : Solver} (h : HFrame s s2) : s2.mark = s.mark := by
  have e := congrArg Solver.mark (h : keepHeuristic s2 s = s)
  exact e

theorem hFrame_time_stamp {s s2 : Solver} (h : HFrame s s2) : s2.time_stamp = s.time_stamp := by
  have e := congrArg Solver.time_stamp (h : keepHeuristic s2 s = s)
  exact e

theorem aFrame_level {s s2 : Solver} (h : AFrame s s2) : s2.level = s.level := by
  have e := congrArg Solver.level (h : keepSearch s2 s = s)
  exact e

end Solver

end EasySAT

namespace EasySAT

namespace Solver

theorem setMark_frame (s : Solver) (v t : Nat) : AFrame s (setMark s v t) := rfl

theorem setMark_old {s : Solver} (h : MarksOld s) (v t : Nat) (ht : t ≤ s.time_stamp) :
    MarksOld (setMark s v t) := by
  intro x
  show Function.update s.mark v t x ≤ s.time_stamp
  by_cases hx : x = v
  · subst hx
    rw [Function.update_same]
    exact ht
  · rw [Function.update_noteq hx]
    exact h x

theorem marksOld_of_hFrame {s s2 : Solver} (hf : HFrame s s2) (h : MarksOld s) : MarksOld s2 := by
  intro v
  rw [hFrame_mark hf, hFrame_time_stamp hf]
  exact h v

set_option maxRecDepth 4000 in
/-- One literal of the clause loop of `analyze` writes only fields of the
analysis, keeps the time stamp, and leaves marks that are not above it. -/
theorem analyzeLit_frame (H : Nat) (st : Solver × List Nat × Int) (lit : Int) :
    AFrame st.1 (analyzeLit H st lit).1 ∧
    (analyzeLit H st lit).1.time_stamp = st.1.time_stamp ∧
    (MarksOld st.1 → MarksOld (analyzeLit H st lit).1) := by
  have hb := bump_var_frame st.1 lit.natAbs (1 / 2)
  have hts := hFrame_time_stamp hb
  have h2 : AFrame st.1 (setMark (bump_var st.1 lit.natAbs (1 / 2)) lit.natAbs
      (bump_var st.1 lit.natAbs (1 / 2)).time_stamp) :=
    aFrame_trans (aFrame_of_hFrame hb) (setMark_frame _ _ _)
  have h3 : MarksOld st.1 → MarksOld (setMark (bump_var st.1 lit.natAbs (1 / 2)) lit.natAbs
      (bump_var st.1 lit.natAbs (1 / 2)).time_stamp) :=
    fun hold => setMark_old (marksOld_of_hFrame hb hold) _ _ (le_refl _)
  unfold analyzeLit
  dsimp only
  split_ifs
  · exact ⟨h2, hts, h3⟩
  · exact ⟨aFrame_trans h2 rfl, hts, h3⟩
  · exact ⟨aFrame_refl _, rfl, fun h => h⟩

theorem foldl_analyzeLit_frame (H : Nat) :
    ∀ (lits : List Int) (st : Solver × List Nat × Int),
      AFrame st.1 (lits.foldl (analyzeLit H) st).1 ∧
      (lits.foldl (analyzeLit H) st).1.time_stamp = st.1.time_stamp ∧
      (MarksOld st.1 → MarksOld (lits.foldl (analyzeLit H) st).1) := by
  intro lits
  induction lits with
  | nil => intro st; exact ⟨aFrame_refl _, rfl, fun h => h⟩
  | cons l ls ih =>
    intro st
    rw [List.foldl_cons]
    obtain ⟨a1, a2, a3⟩ := analyzeLit_frame H st l
    obtain ⟨b1, b2, b3⟩ := ih (analyzeLit H st l)
    exact ⟨aFrame_trans a1 b1, b2.trans a2, fun h => b3 (a3 h)⟩

theorem analyzeClause_frame (H : Nat) (s : Solver) (conflict : Nat) (resolve_lit : Int)
    (bump : List Nat) (ct : Int) :
    AFrame s (analyzeClause H s conflict resolve_lit bump ct).1 ∧
    (analyzeClause H s conflict resolve_lit bump ct).1.time_stamp = s.time_stamp ∧
    (MarksOld s → MarksOld (analyzeClause H s conflict resolve_lit bump ct).1) :=
  foldl_analyzeLit_frame H _ (s, bump, ct)

/-- The resolution loop of `analyze` writes only fields of the analysis, keeps
the time stamp, and leaves marks that are not above it. -/
theorem analyzeLoop_frame (H : Nat) :
    ∀ (fuel : Nat) (conflict resolve_lit : Int) (n : Nat) (ct : Int) (bump : List Nat)
      (s : Solver) (r : Int × List Nat × Solver),
      analyzeLoop H fuel conflict resolve_lit n ct bump s = some r →
      AFrame s r.2.2 ∧ r.2.2.time_stamp = s.time_stamp ∧ (MarksOld s → MarksOld r.2.2) := by
  intro fuel
  induction fuel with
  | zero =>
    intro conflict resolve_lit n ct bump s r h
    simp [analyzeLoop] at h
  | succ fuel ih =>
    intro conflict resolve_lit n ct bump s r h
    unfold analyzeLoop at h
    by_cases hbad : conflict < 0 ∨ s.clause_DB.length ≤ conflict.toNat
    · rw [if_pos hbad] at h
      simp at h
    · rw [if_neg hbad] at h
      obtain ⟨a1, a2, a3⟩ := analyzeClause_frame H s conflict.toNat resolve_lit bump ct
      generalize analyzeClause H s conflict.toNat resolve_lit bump ct = st at h a1 a2 a3
      cases hf : findResolve st.1 H n with
      | none => rw [hf] at h; simp at h
      | some x =>
        obtain ⟨lit, n2⟩ := x
        rw [hf] at h
        dsimp only at h
        have hreset : MarksOld st.1 → MarksOld (setMark st.1 lit.natAbs 0) :=
          fun hold => setMark_old hold _ _ (Nat.zero_le _)
        by_cases hct : st.2.2 - 1 > 0
        · rw [if_pos hct] at h
          obtain ⟨b1, b2, b3⟩ := ih _ _ _ _ _ _ r h
          exact ⟨aFrame_trans a1 (aFrame_trans (setMark_frame _ _ _) b1), b2.trans a2,
            fun hold => b3 (hreset (a3 hold))⟩
        · rw [if_neg hct] at h
          simp only [Option.some.injEq] at h
          rw [← h]
          exact ⟨aFrame_trans a1 (setMark_frame _ _ _), a2, fun hold => hreset (a3 hold)⟩

end Solver

end EasySAT

namespace EasySAT

namespace Solver

/-- The levels the LBD loop still has to count in `lits`: those of a literal
of `lits`, other than 0, that are not marked with the current time stamp. -/
theorem lbdStep_fold :
    ∀ (lits : List Int) (st : Solver) (n : Int),
      (lits.foldl lbdStep (st, n)).2 = n +
        (((lits.map (fun l => st.level l.natAbs)).filter
          (fun l => Decidable.decide (l ≠ 0 ∧ st.mark l ≠ st.time_stamp))).toFinset.card : Int) ∧
      AFrame st (lits.foldl lbdStep (st, n)).1 ∧
      (lits.foldl lbdStep (st, n)).1.learnt = st.learnt := by
  intro lits
  induction lits with
  | nil =>
    intro st n
    refine ⟨?_, aFrame_refl _, rfl⟩
    simp
  | cons lit ls ih =>
    intro st n
    rw [List.foldl_cons]
    by_cases hc : st.level lit.natAbs ≠ 0 ∧ st.mark (st.level lit.natAbs) ≠ st.time_stamp
    · have e : lbdStep (st, n) lit =
          (setMark st (st.level lit.natAbs) st.time_stamp, n + 1) := by
        unfold lbdStep
        exact if_pos hc
      rw [e]
      obtain ⟨h1, h2, h3⟩ := ih (setMark st (st.level lit.natAbs) st.time_stamp) (n + 1)
      refine ⟨?_, aFrame_trans (setMark_frame _ _ _) h2, h3⟩
      rw [h1]
      have hA : ((ls.map (fun l => (setMark st (st.level lit.natAbs) st.time_stamp).level
            l.natAbs)).filter (fun l => Decidable.decide (l ≠ 0 ∧
              (setMark st (st.level lit.natAbs) st.time_stamp).mark l ≠
                (setMark st (st.level lit.natAbs) st.time_stamp).time_stamp))).toFinset =
          (((ls.map (fun l => st.level l.natAbs)).filter
            (fun l => Decidable.decide (l ≠ 0 ∧ st.mark l ≠ st.time_stamp))).toFinset).erase
              (st.level lit.natAbs) := by
        ext x
        simp only [List.mem_toFinset, List.mem_filter, List.mem_map, decide_eq_true_eq,
          Finset.mem_erase]
        show ((∃ a, a ∈ ls ∧ st.level a.natAbs = x) ∧ x ≠ 0 ∧
          Function.update st.mark (st.level lit.natAbs) st.time_stamp x ≠ st.time_stamp) ↔ _
        by_cases hx : x = st.level lit.natAbs
        · rw [hx, Function.update_same]
          simp
        · rw [Function.update_noteq hx]
          simp [hx]
      have hB : (((lit :: ls).map (fun l => st.level l.natAbs)).filter
            (fun l => Decidable.decide (l ≠ 0 ∧ st.mark l ≠ st.time_stamp))).toFinset =
          insert (st.level lit.natAbs) (((ls.map (fun l => st.level l.natAbs)).filter
            (fun l => Decidable.decide (l ≠ 0 ∧ st.mark l ≠ st.time_stamp))).toFinset) := by
        rw [List.map_cons, List.filter_cons_of_pos (by simpa using hc), List.toFinset_cons]
      rw [hA, hB]
      have hcard := Finset.card_erase_add_one
        (Finset.mem_insert_self (st.level lit.natAbs)
          (((ls.map (fun l => st.level l.natAbs)).filter
            (fun l => Decidable.decide (l ≠ 0 ∧ st.mark l ≠ st.time_stamp))).toFinset))
      rw [Finset.erase_insert_eq_erase] at hcard
      rw [← hcard]
      push_cast
      ring
    · have e : lbdStep (st, n) lit = (st, n) := by
        unfold lbdStep
        exact if_neg hc
      rw [e]
      obtain ⟨h1, h2, h3⟩ := ih st n
      refine ⟨?_, h2, h3⟩
      rw [h1, List.map_cons, List.filter_cons_of_neg (by simpa using hc)]

/-- With no mark equal to the current time stamp, the LBD loop counts the
distinct levels other than 0 of the literals. -/
theorem lbdStep_fold_fresh (lits : List Int) (st : Solver)
    (hfresh : ∀ v, st.mark v ≠ st.time_stamp) :
    (lits.foldl lbdStep (st, 0)).2 = ((levelsOf st lits).card : Int) := by
  rw [(lbdStep_fold lits st 0).1, zero_add]
  unfold levelsOf
  congr 3
  apply List.filter_congr
  intro x _
  simp [hfresh x]

theorem levelsOf_perm (s s2 : Solver) (l l2 : List Int) (hl : s2.level = s.level)
    (hp : List.Perm l2 l) : levelsOf s2 l2 = levelsOf s l := by
  unfold levelsOf
  rw [hl]
  exact List.toFinset_eq_of_perm _ _ ((hp.map _).filter _)

end Solver

end EasySAT

namespace EasySAT

namespace Solver

theorem maxIdStep_lt (s : Solver) (m i n : Nat) (hm : m < n) (hi : i < n) :
    maxIdStep s m i < n := by
  unfold maxIdStep
  split_ifs
  · exact hi
  · exact hm

theorem foldl_maxIdStep_lt (s : Solver) (n : Nat) :
    ∀ (l : List Nat) (m : Nat), m < n → (∀ i, i ∈ l → i < n) → l.foldl (maxIdStep s) m < n := by
  intro l
  induction l with
  | nil => intro m hm _; exact hm
  | cons a l ih =>
    intro m hm hl
    rw [List.foldl_cons]
    exact ih _ (maxIdStep_lt s m a n hm (hl a (List.mem_cons_self _ _)))
      (fun i hi => hl i (List.mem_cons_of_mem _ hi))

theorem maxId_lt (s : Solver) (h : 2 ≤ s.learnt.length) : maxId s < s.learnt.length := by
  unfold maxId
  apply foldl_maxIdStep_lt s _ _ 1 (by omega)
  intro i hi
  exact List.mem_range.1 (List.mem_of_mem_drop hi)

theorem foldl_maxIdStep_ge (s : Solver) :
    ∀ (l : List Nat) (m : Nat), 1 ≤ m → (∀ i, i ∈ l → 1 ≤ i) → 1 ≤ l.foldl (maxIdStep s) m := by
  intro l
  induction l with
  | nil => intro m hm _; exact hm
  | cons a l ih =>
    intro m hm hl
    rw [List.foldl_cons]
    apply ih
    · unfold maxIdStep
      split_ifs
      · exact hl a (List.mem_cons_self _ _)
      · exact hm
    · exact fun i hi => hl i (List.mem_cons_of_mem _ hi)

/-- The choice of the backtrack level writes only `learnt`, which it
permutes. -/
theorem chooseLevel_frame (s : Solver) :
    AFrame s (chooseLevel s).2 ∧ List.Perm (chooseLevel s).2.learnt s.learnt := by
  unfold chooseLevel
  by_cases h1 : s.learnt.length = 1
  · rw [if_pos h1]
    exact ⟨aFrame_refl _, List.Perm.refl _⟩
  · rw [if_neg h1]
    refine ⟨rfl, ?_⟩
    show List.Perm ((s.learnt.set (maxId s) (s.learnt.getD 1 0)).set 1
      (s.learnt.getD (maxId s) 0)) s.learnt
    by_cases h0 : s.learnt.length = 0
    · have : s.learnt = [] := List.length_eq_zero.1 h0
      rw [this]
      simp
    · exact perm_swap s.learnt (maxId s) 1 (maxId_lt s (by omega)) (by omega)

theorem pushLbd_frame (s : Solver) (lbd : Int) :
    AFrame s (pushLbd s lbd) ∧ (pushLbd s lbd).learnt = s.learnt := by
  unfold pushLbd
  dsimp only
  split_ifs <;> exact ⟨rfl, rfl⟩

theorem bumpStep_frame (bt : Nat) (s : Solver) (v : Nat) : HFrame s (bumpStep bt s v) := by
  unfold bumpStep
  split_ifs
  · exact bump_var_frame _ _ _
  · exact hFrame_refl _

theorem foldl_bumpStep_frame (bt : Nat) :
    ∀ (l : List Nat) (s : Solver), HFrame s (l.foldl (bumpStep bt) s) := by
  intro l
  induction l with
  | nil => intro s; exact hFrame_refl _
  | cons a l ih =>
    intro s
    rw [List.foldl_cons]
    exact hFrame_trans (bumpStep_frame bt s a) (ih _)

theorem closeLearnt_frame (s : Solver) (resolve_lit : Int) : AFrame s (closeLearnt s resolve_lit) :=
  rfl

/-- The part of `analyze` behind the resolution loop writes only fields of the
analysis; the LBD it outputs is the number of distinct levels other than 0 of
the literals of the learnt clause it leaves, provided no mark is above the
time stamp. -/
theorem finishAnalyze_spec (s : Solver) (resolve_lit : Int) (bump : List Nat) :
    AFrame s (finishAnalyze s resolve_lit bump).2.2 ∧
    List.Perm (finishAnalyze s resolve_lit bump).2.2.learnt (s.learnt.set 0 (-resolve_lit)) ∧
    (MarksOld s → (finishAnalyze s resolve_lit bump).2.1 =
      ((levelsOf (finishAnalyze s resolve_lit bump).2.2
        (finishAnalyze s resolve_lit bump).2.2.learnt).card : Int)) := by
  have hfresh : MarksOld s → ∀ v, (closeLearnt s resolve_lit).mark v ≠
      (closeLearnt s resolve_lit).time_stamp := by
    intro hold v
    have := hold v
    show s.mark v ≠ s.time_stamp + 1
    omega
  obtain ⟨_, a2, a3⟩ := lbdStep_fold (closeLearnt s resolve_lit).learnt (closeLearnt s resolve_lit) 0
  have a1 := fun hold => lbdStep_fold_fresh (closeLearnt s resolve_lit).learnt
    (closeLearnt s resolve_lit) (hfresh hold)
  unfold finishAnalyze
  generalize List.foldl lbdStep (closeLearnt s resolve_lit, 0) (closeLearnt s resolve_lit).learnt = r
    at a1 a2 a3
  obtain ⟨b1, b2⟩ := pushLbd_frame r.1 r.2
  generalize pushLbd r.1 r.2 = s5 at b1 b2
  obtain ⟨c1, c2⟩ := chooseLevel_frame s5
  generalize chooseLevel s5 = ch at c1 c2
  have d1 := foldl_bumpStep_frame ch.1 bump ch.2
  generalize List.foldl (bumpStep ch.1) ch.2 bump = s6 at d1
  show AFrame s s6 ∧ List.Perm s6.learnt (s.learnt.set 0 (-resolve_lit)) ∧
    (MarksOld s → r.2 = ((levelsOf s6 s6.learnt).card : Int))
  have hperm : List.Perm s6.learnt (closeLearnt s resolve_lit).learnt := by
    rw [hFrame_learnt d1, ← a3, ← b2]
    exact c2
  have hlevel : s6.level = (closeLearnt s resolve_lit).level := by
    rw [hFrame_level d1, aFrame_level c1, aFrame_level b1, aFrame_level a2]
  refine ⟨aFrame_trans (closeLearnt_frame s resolve_lit)
    (aFrame_trans a2 (aFrame_trans b1 (aFrame_trans c1 (aFrame_of_hFrame d1)))), hperm, ?_⟩
  intro hold
  rw [a1 hold]
  rw [levelsOf_perm (closeLearnt s resolve_lit) s6 _ _ hlevel hperm]

/-- C14: whenever `analyze` returns 0 from a state whose mark array holds only
what earlier analyses left there (no mark above the time stamp), the LBD it
outputs is the number of distinct decision levels greater than 0 among the
variables of the learnt clause it produced, its first literal included. -/
theorem analyze_lbd (s : Solver) (conflict : Nat) (hmarks : MarksOld s) : LbdClaim s conflict := by
  intro bt lbd s2 h
  unfold analyze at h
  by_cases h0 : conflictLevel s conflict = 0
  · rw [if_pos h0] at h
    simp only [Option.some.injEq, Prod.mk.injEq] at h
    omega
  · rw [if_neg h0] at h
    cases hl : analyzeLoop (conflictLevel s conflict) (s.trail.length + 1) (conflict : Int) 0
        s.trail.length 0 [] { startAnalyze s with learnt := [0] } with
    | none => rw [hl] at h; simp at h
    | some r =>
      obtain ⟨resolve_lit, bump, s3⟩ := r
      rw [hl] at h
      simp only [Option.some.injEq, Prod.mk.injEq, true_and] at h
      obtain ⟨_, hlbd, hs2⟩ := h
      have hold3 : MarksOld s3 := by
        have := (analyzeLoop_frame _ _ _ _ _ _ _ _ _ hl).2.2
        apply this
        intro v
        have := hmarks v
        show s.mark v ≤ s.time_stamp + 1
        omega
      have := (finishAnalyze_spec s3 resolve_lit bump).2.2 hold3
      rw [hlbd, hs2] at this
      exact this

set_option maxRecDepth 100000 in
/-- C14 instance: after the decision `1` implied `2` by the clause `[2, -1]`
and falsified the clause `[-2, -1]`, `analyze` learns the unit clause `[-1]`,
whose only variable is at level 1, and outputs the LBD 1. -/
theorem analyze_lbd_witness :
    MarksOld analysisState ∧
    (analyze analysisState 1).map (fun r => (r.1, r.2.1, r.2.2.1, r.2.2.2.learnt)) =
      some (0, 0, 1, [-1]) ∧
    LbdClaim analysisState 1 :=
  ⟨fun _ => le_refl _, by with_unfolding_all decide, analyze_lbd analysisState 1 (fun _ => le_refl _)⟩

end Solver

end EasySAT

namespace EasySAT

namespace Solver

theorem rFrame_refl (s : Solver) : RFrame s s := rfl

theorem rFrame_trans {s1 s2 s3 : Solver} (h12 : RFrame s1 s2) (h23 : RFrame s2 s3) :
    RFrame s1 s3 := by
  unfold RFrame at *
  have e : ({ s3 with clause_DB := s1.clause_DB, reduce_map := s1.reduce_map } : Solver) =
      { ({ s3 with clause_DB := s2.clause_DB, reduce_map := s2.reduce_map } : Solver) with
        clause_DB := s1.clause_DB, reduce_map := s1.reduce_map } := rfl
  rw [e, h23, h12]

theorem reduceKeep_frame (s : Solver) (i ns : Nat) : RFrame s (reduceKeep s i ns) := rfl

/-- The compaction loop of `reduce` writes only the clause database and
`reduce_map`. -/
theorem reduceLoop_frame :
    ∀ (n i ns : Nat) (coins : Nat → Nat) (s : Solver), RFrame s (reduceLoop n i ns coins s).1 := by
  intro n
  induction n with
  | zero => intro i ns coins s; exact rFrame_refl _
  | succ n ih =>
    intro i ns coins s
    unfold reduceLoop
    split_ifs
    · exact rFrame_trans (show RFrame s { s with reduce_map := s.reduce_map.set i (-1) } from rfl)
        (ih _ _ _ _)
    · exact rFrame_trans (reduceKeep_frame s i ns) (ih _ _ _ _)
    · exact rFrame_trans (reduceKeep_frame s i ns) (ih _ _ _ _)

theorem compacted_nil (db : List Clause) (map : List Int) (i ns : Nat) (hi : db.length ≤ i)
    (hns : ns ≤ db.length) : Compacted db map i ns db map ns := by
  refine ⟨rfl, rfl, le_refl _, hns, fun _ _ => rfl, fun _ _ => rfl, ?_, ?_, ?_⟩
  · intro x h1 h2; omega
  · intro nx h1 h2; omega
  · intro x y h1 h2 h3; omega

theorem compacted_drop {db : List Clause} {map : List Int} {i ns : Nat} {db2 : List Clause}
    {map2 : List Int} {ns2 : Nat} (h : Compacted db (map.set i (-1)) (i + 1) ns db2 map2 ns2)
    (himap : i < map.length) : Compacted db map i ns db2 map2 ns2 := by
  have hmi : map2.getD i 0 = -1 := by
    rw [h.hbefore i (by omega), getD_set_eq _ _ _ _ himap]
  refine ⟨by rw [h.hmaplen, List.length_set], h.hdblen, h.hns, h.hns2, ?_, h.hlow, ?_, ?_, ?_⟩
  · intro x hx
    rw [h.hbefore x (by omega), getD_set_ne _ _ _ _ _ (by omega)]
  · intro x hx hxl
    by_cases hxi : x = i
    · subst hxi
      exact Or.inl hmi
    · exact h.hkept x (by omega) hxl
  · intro nx h1 h2
    obtain ⟨x, hx1, hx2, hx3⟩ := h.hsurj nx h1 h2
    exact ⟨x, by omega, hx2, hx3⟩
  · intro x y hx hxy hy hx1 hy1
    by_cases hxi : x = i
    · subst hxi
      exact absurd hmi hx1
    · exact h.hmono x y (by omega) hxy hy hx1 hy1

theorem compacted_keep {db : List Clause} {map : List Int} {i ns : Nat} {db2 : List Clause}
    {map2 : List Int} {ns2 : Nat}
    (h : Compacted (if ns ≠ i then db.set ns (db.getD i default) else db)
      (map.set i (ns : Int)) (i + 1) (ns + 1) db2 map2 ns2)
    (hi : i < db.length) (himap : i < map.length) (hns : ns ≤ i) :
    Compacted db map i ns db2 map2 ns2 := by
  have hlen1 : (if ns ≠ i then db.set ns (db.getD i default) else db).length = db.length := by
    split_ifs <;> simp
  have hget1 : ∀ x, x ≠ ns →
      (if ns ≠ i then db.set ns (db.getD i default) else db).getD x default =
        db.getD x default := by
    intro x hx
    split_ifs
    · rw [getD_set_ne _ _ _ _ _ (fun e => hx e.symm)]
    · rfl
  have hgetns : (if ns ≠ i then db.set ns (db.getD i default) else db).getD ns default =
      db.getD i default := by
    split_ifs with hne
    · rw [getD_set_eq _ _ _ _ (by omega)]
    · have : ns = i := by omega
      rw [this]
  have hmi : map2.getD i 0 = (ns : Int) := by
    rw [h.hbefore i (by omega), getD_set_eq _ _ _ _ himap]
  have hdbns : db2.getD ns default = db.getD i default := by
    rw [h.hlow ns (by omega), hgetns]
  have hns2 := h.hns
  refine ⟨by rw [h.hmaplen, List.length_set], by rw [h.hdblen, hlen1], by omega,
    by rw [← hlen1]; exact h.hns2, ?_, ?_, ?_, ?_, ?_⟩
  · intro x hx
    rw [h.hbefore x (by omega), getD_set_ne _ _ _ _ _ (by omega)]
  · intro y hy
    rw [h.hlow y (by omega), hget1 y (by omega)]
  · intro x hx hxl
    by_cases hxi : x = i
    · subst hxi
      exact Or.inr ⟨ns, hmi, le_refl _, by omega, hdbns⟩
    · rcases h.hkept x (by omega) (by rw [hlen1]; exact hxl) with h1 | ⟨nx, h1, h2, h3, h4⟩
      · exact Or.inl h1
      · exact Or.inr ⟨nx, h1, by omega, h3, by rw [h4, hget1 x (by omega)]⟩
  · intro nx h1 h2
    by_cases hnx : nx = ns
    · subst hnx
      exact ⟨i, le_refl _, hi, hmi⟩
    · obtain ⟨x, hx1, hx2, hx3⟩ := h.hsurj nx (by omega) h2
      exact ⟨x, by omega, by rw [← hlen1]; exact hx2, hx3⟩
  · intro x y hx hxy hy hx1 hy1
    by_cases hxi : x = i
    · subst hxi
      rcases h.hkept y (by omega) (by rw [hlen1]; exact hy) with h1 | ⟨ny, h1, h2, _, _⟩
      · exact absurd h1 hy1
      · rw [hmi, h1]
        omega
    · exact h.hmono x y (by omega) hxy (by rw [hlen1]; exact hy) hx1 hy1

/-- The compaction loop of `reduce` leaves a compacted database and its
map. -/
theorem reduceLoop_compacted :
    ∀ (n i ns : Nat) (coins : Nat → Nat) (s : Solver),
      i + n = s.clause_DB.length → ns ≤ i → s.clause_DB.length ≤ s.reduce_map.length →
      Compacted s.clause_DB s.reduce_map i ns (reduceLoop n i ns coins s).1.clause_DB
        (reduceLoop n i ns coins s).1.reduce_map (reduceLoop n i ns coins s).2.1 := by
  intro n
  induction n with
  | zero =>
    intro i ns coins s hlen hns _
    exact compacted_nil _ _ _ _ (by omega) (by omega)
  | succ n ih =>
    intro i ns coins s hlen hns hmap
    have hkeep : ∀ coins2 : Nat → Nat,
        Compacted s.clause_DB s.reduce_map i ns
          (reduceLoop n (i + 1) (ns + 1) coins2 (reduceKeep s i ns)).1.clause_DB
          (reduceLoop n (i + 1) (ns + 1) coins2 (reduceKeep s i ns)).1.reduce_map
          (reduceLoop n (i + 1) (ns + 1) coins2 (reduceKeep s i ns)).2.1 := by
      intro coins2
      have hl : (reduceKeep s i ns).clause_DB.length = s.clause_DB.length := by
        show (if ns ≠ i then s.clause_DB.set ns (s.clause_DB.getD i default)
          else s.clause_DB).length = _
        split_ifs <;> simp
      have hm : (reduceKeep s i ns).reduce_map.length = s.reduce_map.length := by
        show (s.reduce_map.set i (ns : Int)).length = _
        rw [List.length_set]
      exact compacted_keep (ih (i + 1) (ns + 1) coins2 (reduceKeep s i ns) (by rw [hl]; omega)
        (by omega) (by rw [hl, hm]; exact hmap)) (by omega) (by omega) hns
    unfold reduceLoop
    split_ifs
    · exact compacted_drop (ih (i + 1) ns (fun t => coins (t + 1))
        { s with reduce_map := s.reduce_map.set i (-1) }
        (by show i + 1 + n = s.clause_DB.length; omega) (by omega)
        (by show s.clause_DB.length ≤ (s.reduce_map.set i (-1)).length
            rw [List.length_set]; exact hmap)) (by omega)
    · exact hkeep _
    · exact hkeep _

end Solver

end EasySAT

namespace EasySAT

namespace Solver

theorem take_set_lt {α : Type} (l : List α) (i n : Nat) (a : α) (h : n ≤ i) :
    (l.set i a).take n = l.take n := by
  apply List.ext_getElem
  · simp
  · intro k h1 h2
    rw [List.getElem_take, List.getElem_take, List.getElem_set_ne (by
      have : k < n := by
        have := h1
        rw [List.length_take] at this
        omega
      omega)]

/-- The watch update of `reduce` over one watch list keeps, in order and
re-indexed, the watchers whose new index is not `-1`. -/
theorem remapLoop_spec (origin_clauses : Nat) (reduce_map : List Int) :
    ∀ (n i nsz : Nat) (ws : List Watcher), nsz ≤ i → i + n = ws.length →
      (remapLoop origin_clauses reduce_map n i nsz ws).2 ≤
        (remapLoop origin_clauses reduce_map n i nsz ws).1.length ∧
      (remapLoop origin_clauses reduce_map n i nsz ws).1.take
          (remapLoop origin_clauses reduce_map n i nsz ws).2 =
        ws.take nsz ++ (ws.drop i).filterMap (remapWatcher origin_clauses reduce_map) := by
  intro n
  induction n with
  | zero =>
    intro i nsz ws hns hlen
    unfold remapLoop
    have : ws.drop i = [] := List.drop_eq_nil_of_le (by omega)
    rw [this]
    simp
    omega
  | succ n ih =>
    intro i nsz ws hns hlen
    have hi : i < ws.length := by omega
    have hdrop := drop_getD ws i default hi
    unfold remapLoop
    dsimp only
    by_cases hk : (if (ws.getD i default).idx_clause < origin_clauses then
        ((ws.getD i default).idx_clause : Int)
        else reduce_map.getD (ws.getD i default).idx_clause 0) ≠ -1
    · rw [if_pos hk]
      have hf : remapWatcher origin_clauses reduce_map (ws.getD i default) =
          some { ws.getD i default with
            idx_clause := (if (ws.getD i default).idx_clause < origin_clauses then
              ((ws.getD i default).idx_clause : Int)
              else reduce_map.getD (ws.getD i default).idx_clause 0).toNat } := by
        unfold remapWatcher newIdx
        rw [if_pos hk]
      generalize hw : ({ ws.getD i default with
            idx_clause := (if (ws.getD i default).idx_clause < origin_clauses then
              ((ws.getD i default).idx_clause : Int)
              else reduce_map.getD (ws.getD i default).idx_clause 0).toNat } : Watcher) = w2 at hf
      have hget1 : (ws.set i w2).getD i default = w2 := getD_set_eq _ _ _ _ hi
      rw [hget1]
      have hlen2 : (if nsz ≠ i then (ws.set i w2).set nsz w2 else ws.set i w2).length =
          ws.length := by
        split_ifs <;> simp
      obtain ⟨h1, h2⟩ := ih (i + 1) (nsz + 1)
        (if nsz ≠ i then (ws.set i w2).set nsz w2 else ws.set i w2) (by omega)
        (by rw [hlen2]; omega)
      refine ⟨h1, ?_⟩
      rw [h2, hdrop, List.filterMap_cons_some hf]
      have hd : (if nsz ≠ i then (ws.set i w2).set nsz w2 else ws.set i w2).drop (i + 1) =
          ws.drop (i + 1) := by
        split_ifs
        · rw [List.drop_set_of_lt _ _ (by omega), List.drop_set_of_lt _ _ (by omega)]
        · rw [List.drop_set_of_lt _ _ (by omega)]
      have ht : (if nsz ≠ i then (ws.set i w2).set nsz w2 else ws.set i w2).take (nsz + 1) =
          ws.take nsz ++ [w2] := by
        split_ifs with hne
        · rw [take_set_succ _ _ _ (by rw [List.length_set]; omega), take_set_lt _ _ _ _ hns]
        · have : nsz = i := by omega
          subst this
          rw [take_set_succ _ _ _ hi]
      rw [hd, ht]
      simp
    · rw [if_neg hk]
      have hf : remapWatcher origin_clauses reduce_map (ws.getD i default) = none := by
        unfold remapWatcher newIdx
        rw [if_neg hk]
      obtain ⟨h1, h2⟩ := ih (i + 1) nsz ws (by omega) (by omega)
      refine ⟨h1, ?_⟩
      rw [h2, hdrop, List.filterMap_cons_none hf]

/-- The watch list that `reduce` leaves for an updated literal. -/
theorem remapLoop_result (origin_clauses : Nat) (reduce_map : List Int) (ws : List Watcher) :
    resize (remapLoop origin_clauses reduce_map ws.length 0 0 ws).1
        (remapLoop origin_clauses reduce_map ws.length 0 0 ws).2 default =
      ws.filterMap (remapWatcher origin_clauses reduce_map) := by
  obtain ⟨h1, h2⟩ := remapLoop_spec origin_clauses reduce_map ws.length 0 0 ws (le_refl _)
    (by omega)
  rw [resize_of_le _ _ _ h1, h2]
  simp

end Solver

end EasySAT

namespace EasySAT

namespace Solver

theorem getD_take {α : Type} (l : List α) (n y : Nat) (d : α) (h : y < n) :
    (l.take n).getD y d = l.getD y d := by
  rw [List.getD_eq_getElem?_getD, List.getD_eq_getElem?_getD, List.getElem?_take, if_pos h]

/-- Counting the re-indexed watchers of a new index `c2` amounts to counting
the watchers of its only preimage `i`. -/
theorem countIdx_filterMap (f : Watcher → Option Watcher) (c2 i : Nat) :
    ∀ ws : List Watcher,
      (∀ w, w ∈ ws → ((∃ w2, f w = some w2 ∧ w2.idx_clause = c2) ↔ w.idx_clause = i)) →
      countIdx c2 (ws.filterMap f) = countIdx i ws := by
  intro ws
  induction ws with
  | nil => intro _; rfl
  | cons w ws ih =>
    intro h
    have ih2 := ih (fun x hx => h x (List.mem_cons_of_mem _ hx))
    have hw := h w (List.mem_cons_self _ _)
    rw [countIdx_cons]
    cases hf : f w with
    | none =>
      rw [List.filterMap_cons_none hf, ih2]
      have : ¬ w.idx_clause = i := by
        intro e
        obtain ⟨w2, h1, _⟩ := hw.2 e
        rw [hf] at h1
        exact absurd h1 (by simp)
      rw [if_neg this]
      omega
    | some w2 =>
      rw [List.filterMap_cons_some hf, countIdx_cons, ih2]
      by_cases e : w.idx_clause = i
      · obtain ⟨w3, h1, h2⟩ := hw.2 e
        rw [hf] at h1
        have : w2 = w3 := by simpa using h1
        rw [if_pos e, if_pos (by rw [this]; exact h2)]
      · have : ¬ w2.idx_clause = c2 := fun e2 => e (hw.1 ⟨w2, hf, e2⟩)
        rw [if_neg e, if_neg this]

/-- Re-indexing the watchers through the map of a compaction keeps the watch
lists fitted to the compacted clause database. -/
theorem watchOK_compacted {wf : Int → List Watcher} {db : List Clause} {origin : Nat}
    {map : List Int} {db2 : List Clause} {map2 : List Int} {ns2 : Nat}
    (hw : WatchOK wf db) (horigin : origin ≤ db.length)
    (hc : Compacted db map origin origin db2 map2 ns2) :
    WatchOK (fun q => (wf q).filterMap (remapWatcher origin map2)) (db2.take ns2) := by
  have hlen : (db2.take ns2).length = ns2 := by
    rw [List.length_take, hc.hdblen]
    exact Nat.min_eq_left hc.hns2
  have hnew : ∀ i, i < db.length → newIdx origin map2 i ≠ -1 →
      ∃ c2 : Nat, newIdx origin map2 i = (c2 : Int) ∧ c2 < ns2 ∧
        (db2.take ns2).getD c2 default = db.getD i default := by
    intro i hi hne
    unfold newIdx at hne ⊢
    by_cases hio : i < origin
    · rw [if_pos hio]
      have := hc.hns
      exact ⟨i, rfl, by omega, by rw [getD_take _ _ _ _ (by omega), hc.hlow i hio]⟩
    · rw [if_neg hio] at hne ⊢
      rcases hc.hkept i (by omega) hi with h1 | ⟨nx, h1, _, h3, h4⟩
      · exact absurd h1 hne
      · exact ⟨nx, h1, h3, by rw [getD_take _ _ _ _ h3, h4]⟩
  have hpre : ∀ c2, c2 < ns2 → ∃ i, i < db.length ∧ newIdx origin map2 i = (c2 : Int) ∧
      ∀ k, k < db.length → newIdx origin map2 k = (c2 : Int) → k = i := by
    intro c2 hc2
    by_cases hco : c2 < origin
    · refine ⟨c2, by omega, by unfold newIdx; rw [if_pos hco], ?_⟩
      intro k hk hkc
      unfold newIdx at hkc
      by_cases hko : k < origin
      · rw [if_pos hko] at hkc
        omega
      · rw [if_neg hko] at hkc
        rcases hc.hkept k (by omega) hk with h1 | ⟨nx, h1, h2, _, _⟩
        · omega
        · omega
    · obtain ⟨i, hi1, hi2, hi3⟩ := hc.hsurj c2 (by omega) hc2
      have hio : ¬ i < origin := by omega
      refine ⟨i, hi2, by unfold newIdx; rw [if_neg hio]; exact hi3, ?_⟩
      intro k hk hkc
      unfold newIdx at hkc
      by_cases hko : k < origin
      · rw [if_pos hko] at hkc
        omega
      · rw [if_neg hko] at hkc
        by_contra hne
        rcases Nat.lt_or_gt_of_ne hne with hlt | hgt
        · have := hc.hmono k i (by omega) hlt hi2 (by omega) (by omega)
          omega
        · have := hc.hmono i k (by omega) hgt hk (by omega) (by omega)
          omega
  constructor
  · intro q w2 hw2
    obtain ⟨w, hwm, hfw⟩ := List.mem_filterMap.1 hw2
    obtain ⟨hv, hb⟩ := hw.1 q w hwm
    unfold remapWatcher at hfw
    by_cases hne : newIdx origin map2 w.idx_clause ≠ -1
    · rw [if_pos hne] at hfw
      obtain ⟨c2, h1, h2, h3⟩ := hnew _ hv hne
      have e : w2 = { w with idx_clause := (newIdx origin map2 w.idx_clause).toNat } := by
        simpa using hfw.symm
      rw [e, h1]
      show (c2 : Int).toNat < (db2.take ns2).length ∧
        w.blocker ∈ ((db2.take ns2).getD (c2 : Int).toNat default).lit
      rw [Int.toNat_ofNat, hlen, h3]
      exact ⟨h2, hb⟩
    · rw [if_neg hne] at hfw
      exact absurd hfw (by simp)
  · intro q c2 hc2
    rw [hlen] at hc2
    obtain ⟨i, hi, hic, huniq⟩ := hpre c2 hc2
    obtain ⟨c3, h1, _, h3⟩ := hnew i hi (by rw [hic]; omega)
    have hc3 : c3 = c2 := by omega
    subst hc3
    show countIdx c3 ((wf q).filterMap (remapWatcher origin map2)) = _
    rw [h3, ← hw.2 q i hi]
    apply countIdx_filterMap
    intro w hwm
    obtain ⟨hv, _⟩ := hw.1 q w hwm
    constructor
    · rintro ⟨w2, hf, hidx⟩
      unfold remapWatcher at hf
      by_cases hne : newIdx origin map2 w.idx_clause ≠ -1
      · rw [if_pos hne] at hf
        have e : w2 = { w with idx_clause := (newIdx origin map2 w.idx_clause).toNat } := by
          simpa using hf.symm
        rw [e] at hidx
        obtain ⟨c4, h4, _, _⟩ := hnew _ hv hne
        apply huniq _ hv
        have hidx2 : (newIdx origin map2 w.idx_clause).toNat = c3 := hidx
        rw [h4] at hidx2 ⊢
        rw [Int.toNat_ofNat] at hidx2
        rw [hidx2]
      · rw [if_neg hne] at hf
        exact absurd hf (by simp)
    · intro e
      refine ⟨{ w with idx_clause := (newIdx origin map2 w.idx_clause).toNat }, ?_, ?_⟩
      · unfold remapWatcher
        rw [if_pos (by rw [e, hic]; omega)]
      · show (newIdx origin map2 w.idx_clause).toNat = c3
        rw [e, hic, Int.toNat_ofNat]

end Solver

end EasySAT

namespace EasySAT

namespace Solver

theorem rFrame_watches {s s2 : Solver} (h : RFrame s s2) : s2.watches = s.watches := by
  have e := congrArg Solver.watches
    (h : ({ s2 with clause_DB := s.clause_DB, reduce_map := s.reduce_map } : Solver) = s)
  exact e

theorem rFrame_vars {s s2 : Solver} (h : RFrame s s2) : s2.vars = s.vars := by
  have e := congrArg Solver.vars
    (h : ({ s2 with clause_DB := s.clause_DB, reduce_map := s.reduce_map } : Solver) = s)
  exact e

theorem rFrame_origin {s s2 : Solver} (h : RFrame s s2) :
    s2.origin_clauses = s.origin_clauses := by
  have e := congrArg Solver.origin_clauses
    (h : ({ s2 with clause_DB := s.clause_DB, reduce_map := s.reduce_map } : Solver) = s)
  exact e

/-- The watch update of `reduce`, behind the compaction loop run from the
state `s3`. -/
theorem reduce_tail_watchOK (s3 : Solver) (coins : Nat → Nat)
    (hw : WatchOK s3.watches s3.clause_DB)
    (horigin : s3.origin_clauses ≤ s3.clause_DB.length)
    (hmap : s3.clause_DB.length ≤ s3.reduce_map.length)
    (hout : ∀ q, ¬ (q ≠ 0 ∧ -s3.vars ≤ q ∧ q ≤ s3.vars) → s3.watches q = []) :
    WatchOK
      (fun v =>
        if v ≠ 0 ∧ -(reduceLoop (s3.clause_DB.length - s3.origin_clauses) s3.origin_clauses
            s3.origin_clauses coins s3).1.vars ≤ v ∧
            v ≤ (reduceLoop (s3.clause_DB.length - s3.origin_clauses) s3.origin_clauses
              s3.origin_clauses coins s3).1.vars then
          resize
            (remapLoop
              (reduceLoop (s3.clause_DB.length - s3.origin_clauses) s3.origin_clauses
                s3.origin_clauses coins s3).1.origin_clauses
              (reduceLoop (s3.clause_DB.length - s3.origin_clauses) s3.origin_clauses
                s3.origin_clauses coins s3).1.reduce_map
              ((reduceLoop (s3.clause_DB.length - s3.origin_clauses) s3.origin_clauses
                s3.origin_clauses coins s3).1.watches v).length 0 0
              ((reduceLoop (s3.clause_DB.length - s3.origin_clauses) s3.origin_clauses
                s3.origin_clauses coins s3).1.watches v)).1
            (remapLoop
              (reduceLoop (s3.clause_DB.length - s3.origin_clauses) s3.origin_clauses
                s3.origin_clauses coins s3).1.origin_clauses
              (reduceLoop (s3.clause_DB.length - s3.origin_clauses) s3.origin_clauses
                s3.origin_clauses coins s3).1.reduce_map
              ((reduceLoop (s3.clause_DB.length - s3.origin_clauses) s3.origin_clauses
                s3.origin_clauses coins s3).1.watches v).length 0 0
              ((reduceLoop (s3.clause_DB.length - s3.origin_clauses) s3.origin_clauses
                s3.origin_clauses coins s3).1.watches v)).2 default
        else (reduceLoop (s3.clause_DB.length - s3.origin_clauses) s3.origin_clauses
          s3.origin_clauses coins s3).1.watches v)
      (resize (reduceLoop (s3.clause_DB.length - s3.origin_clauses) s3.origin_clauses
          s3.origin_clauses coins s3).1.clause_DB
        (reduceLoop (s3.clause_DB.length - s3.origin_clauses) s3.origin_clauses
          s3.origin_clauses coins s3).2.1 ⟨0, []⟩) := by
  have hf := reduceLoop_frame (s3.clause_DB.length - s3.origin_clauses) s3.origin_clauses
    s3.origin_clauses coins s3
  have hcomp := reduceLoop_compacted (s3.clause_DB.length - s3.origin_clauses) s3.origin_clauses
    s3.origin_clauses coins s3 (by omega) (le_refl _) hmap
  generalize reduceLoop (s3.clause_DB.length - s3.origin_clauses) s3.origin_clauses
    s3.origin_clauses coins s3 = r at hf hcomp
  rw [rFrame_watches hf, rFrame_vars hf, rFrame_origin hf,
    resize_of_le _ _ _ (by rw [hcomp.hdblen]; exact hcomp.hns2)]
  have hfun : (fun v =>
        if v ≠ 0 ∧ -s3.vars ≤ v ∧ v ≤ s3.vars then
          resize (remapLoop s3.origin_clauses r.1.reduce_map (s3.watches v).length 0 0
            (s3.watches v)).1
            (remapLoop s3.origin_clauses r.1.reduce_map (s3.watches v).length 0 0
              (s3.watches v)).2 default
        else s3.watches v) =
      fun v => (s3.watches v).filterMap (remapWatcher s3.origin_clauses r.1.reduce_map) := by
    funext v
    by_cases hv : v ≠ 0 ∧ -s3.vars ≤ v ∧ v ≤ s3.vars
    · rw [if_pos hv, remapLoop_result]
    · rw [if_neg hv, hout v hv]
      rfl
  rw [hfun]
  exact watchOK_compacted hw horigin hcomp

/-- The method `reduce` keeps the watch lists fitted to the clause database,
when `origin_clauses` does not exceed the number of stored clauses and only
the lists of the literals of the variables `1..vars` hold watchers. -/
theorem reduce_watchOK (s : Solver) (coins : Nat → Nat)
    (hw : WatchOK s.watches s.clause_DB)
    (horigin : s.origin_clauses ≤ s.clause_DB.length)
    (hout : ∀ q, ¬ (q ≠ 0 ∧ -s.vars ≤ q ∧ q ≤ s.vars) → s.watches q = []) :
    WatchOK (reduce s coins).1.watches (reduce s coins).1.clause_DB := by
  obtain ⟨hb1, hb2, hb3, hb4, _⟩ := backtrack_frame s 0
  exact reduce_tail_watchOK
    { backtrack s 0 with
      reduces := 0, reduce_limit := (backtrack s 0).reduce_limit + 512,
      reduce_map := resize (backtrack s 0).reduce_map (backtrack s 0).clause_DB.length 0 }
    coins
    (by show WatchOK (backtrack s 0).watches (backtrack s 0).clause_DB
        rw [hb1, hb3]; exact hw)
    (by show (backtrack s 0).origin_clauses ≤ (backtrack s 0).clause_DB.length
        rw [hb1, hb2]; exact horigin)
    (by show (backtrack s 0).clause_DB.length ≤
          (resize (backtrack s 0).reduce_map (backtrack s 0).clause_DB.length 0).length
        unfold resize
        simp
        omega)
    (by intro q hq
        show (backtrack s 0).watches q = []
        rw [hb3]
        apply hout
        rw [← hb4]
        exact hq)

end Solver

end EasySAT

namespace EasySAT

namespace Solver

theorem countIdx_pos_iff (cref : Nat) (ws : List Watcher) :
    1 ≤ countIdx cref ws ↔ ∃ w, w ∈ ws ∧ w.idx_clause = cref := by
  unfold countIdx
  rw [Nat.succ_le_iff, List.countP_pos_iff]
  simp

theorem countIdx_eq_zero (cref : Nat) (ws : List Watcher)
    (h : ∀ w, w ∈ ws → w.idx_clause ≠ cref) : countIdx cref ws = 0 := by
  by_contra hne
  obtain ⟨w, hw, e⟩ := (countIdx_pos_iff cref ws).1 (by omega)
  exact h w hw e

/-- The method `add_clause`, called with a clause of two literals or more,
keeps the watch lists fitted to the clause database. -/
theorem add_clause_watchOK (s : Solver) (c : List Int) (hw : WatchOK s.watches s.clause_DB)
    (hc : 2 ≤ c.length) :
    WatchOK (add_clause s c).2.watches (add_clause s c).2.clause_DB := by
  have hold : ∀ x, x < s.clause_DB.length →
      (s.clause_DB ++ [(⟨0, c⟩ : Clause)]).getD x default = s.clause_DB.getD x default :=
    fun x hx => getD_append_left _ _ _ _ hx
  have hnew : (s.clause_DB ++ [(⟨0, c⟩ : Clause)]).getD s.clause_DB.length default = ⟨0, c⟩ := by
    rw [getD_append_right _ _ _ _ (le_refl _), Nat.sub_self]
    rfl
  have hlen : (s.clause_DB ++ [(⟨0, c⟩ : Clause)]).length = s.clause_DB.length + 1 := by simp
  have hwatch : ∀ q, (add_clause s c).2.watches q =
      s.watches q ++ (if q = -(c.getD 0 0) then [(⟨s.clause_DB.length, c.getD 1 0⟩ : Watcher)]
        else []) ++ (if q = -(c.getD 1 0) then [(⟨s.clause_DB.length, c.getD 0 0⟩ : Watcher)]
        else []) := by
    intro q
    show Function.update (Function.update s.watches (-(c.getD 0 0)) _) (-(c.getD 1 0)) _ q = _
    by_cases h1 : q = -(c.getD 1 0)
    · rw [h1, Function.update_same, if_pos rfl]
      by_cases h0 : -(c.getD 1 0) = -(c.getD 0 0)
      · rw [h0, Function.update_same, if_pos rfl]
      · rw [Function.update_noteq h0, if_neg h0, List.append_nil]
    · rw [Function.update_noteq h1, if_neg h1, List.append_nil]
      by_cases h0 : q = -(c.getD 0 0)
      · rw [h0, Function.update_same, if_pos rfl]
      · rw [Function.update_noteq h0, if_neg h0, List.append_nil]
  constructor
  · intro q w hwm
    rw [hwatch q, List.mem_append, List.mem_append] at hwm
    show w.idx_clause < (s.clause_DB ++ [(⟨0, c⟩ : Clause)]).length ∧
      w.blocker ∈ ((s.clause_DB ++ [(⟨0, c⟩ : Clause)]).getD w.idx_clause default).lit
    rw [hlen]
    rcases hwm with (h | h) | h
    · obtain ⟨h1, h2⟩ := hw.1 q w h
      rw [hold _ h1]
      exact ⟨by omega, h2⟩
    · split_ifs at h
      · simp only [List.mem_singleton] at h
        subst h
        refine ⟨by show s.clause_DB.length < _; omega, ?_⟩
        show c.getD 1 0 ∈ ((s.clause_DB ++ [(⟨0, c⟩ : Clause)]).getD s.clause_DB.length
          default).lit
        rw [hnew]
        exact getD_mem c 1 (by omega)
      · exact absurd h (List.not_mem_nil _)
    · split_ifs at h
      · simp only [List.mem_singleton] at h
        subst h
        refine ⟨by show s.clause_DB.length < _; omega, ?_⟩
        show c.getD 0 0 ∈ ((s.clause_DB ++ [(⟨0, c⟩ : Clause)]).getD s.clause_DB.length
          default).lit
        rw [hnew]
        exact getD_mem c 0 (by omega)
      · exact absurd h (List.not_mem_nil _)
  · intro q cref hcref
    have hcref2 : cref < s.clause_DB.length + 1 := by
      have : cref < (s.clause_DB ++ [(⟨0, c⟩ : Clause)]).length := hcref
      rwa [hlen] at this
    show countIdx cref ((add_clause s c).2.watches q) =
      npos ((s.clause_DB ++ [(⟨0, c⟩ : Clause)]).getD cref default) q
    rw [hwatch q, countIdx_append, countIdx_append]
    have h0 : ∀ b : Int, countIdx cref (if q = -b then
        [(⟨s.clause_DB.length, c.getD 1 0⟩ : Watcher)] else []) =
        if cref = s.clause_DB.length then (if b = -q then 1 else 0) else 0 := by
      intro b
      by_cases hq : q = -b
      · rw [if_pos hq, if_pos (show b = -q by omega), countIdx_single]
        show (if s.clause_DB.length = cref then 1 else 0) = _
        by_cases e : cref = s.clause_DB.length
        · rw [if_pos e, if_pos e.symm]
        · rw [if_neg e, if_neg (fun h => e h.symm)]
      · rw [if_neg hq, if_neg (show ¬ b = -q by omega)]
        simp [countIdx]
    have h1 : ∀ b : Int, countIdx cref (if q = -b then
        [(⟨s.clause_DB.length, c.getD 0 0⟩ : Watcher)] else []) =
        if cref = s.clause_DB.length then (if b = -q then 1 else 0) else 0 := by
      intro b
      by_cases hq : q = -b
      · rw [if_pos hq, if_pos (show b = -q by omega), countIdx_single]
        show (if s.clause_DB.length = cref then 1 else 0) = _
        by_cases e : cref = s.clause_DB.length
        · rw [if_pos e, if_pos e.symm]
        · rw [if_neg e, if_neg (fun h => e h.symm)]
      · rw [if_neg hq, if_neg (show ¬ b = -q by omega)]
        simp [countIdx]
    rw [h0 (c.getD 0 0), h1 (c.getD 1 0)]
    by_cases e : cref = s.clause_DB.length
    · rw [if_pos e, if_pos e, e, hnew]
      have : countIdx s.clause_DB.length (s.watches q) = 0 := by
        apply countIdx_eq_zero
        intro w hwm
        have := (hw.1 q w hwm).1
        omega
      rw [this]
      show 0 + (if c.getD 0 0 = -q then 1 else 0) + (if c.getD 1 0 = -q then 1 else 0) =
        (if c.getD 0 0 = -q then 1 else 0) + (if c.getD 1 0 = -q then 1 else 0)
      omega
    · rw [if_neg e, if_neg e, hold cref (by omega)]
      have := hw.2 q cref (by omega)
      omega

/-- Watch lists that fit the clause database satisfy the watch invariant in
the words of the specification. -/
theorem watchOK_member (s : Solver) (hw : WatchOK s.watches s.clause_DB) : WatchMember s := by
  refine ⟨fun cref hcref => ⟨?_, ?_, ?_⟩, fun q w hwm => (hw.1 q w hwm).1⟩
  · apply (countIdx_pos_iff _ _).1
    rw [hw.2 _ cref hcref, npos_pos_iff]
    left
    unfold litAt
    omega
  · apply (countIdx_pos_iff _ _).1
    rw [hw.2 _ cref hcref, npos_pos_iff]
    right
    unfold litAt
    omega
  · intro q w hwm hidx
    have h1 := (countIdx_pos_iff cref (s.watches q)).2 ⟨w, hwm, hidx⟩
    rw [hw.2 q cref hcref, npos_pos_iff] at h1
    unfold litAt
    rcases h1 with h | h
    · left; omega
    · right; omega

/-- C17 (amended): in a state whose watch lists fit the clause database
(every watcher refers to a stored clause and carries one of its literals as
blocker, and the list of a literal `q` holds exactly one watcher of a clause
per watched position of it holding `-q`), this fit is kept by `add_clause` for
a clause of two literals or more (which establishes it from the empty
database), by `propagate` on both returns when the trail literals are true and
the literals typed, and by `reduce` when `origin_clauses` does not exceed the
number of clauses and only literals of the variables `1..vars` are watched;
and the fit gives the invariant of the specification: every stored clause has
a watcher in the lists of the negations of its two watched literals and in no
other list, and no watcher refers outside the database. -/
theorem watch_invariant_kept (s : Solver) (hw : WatchOK s.watches s.clause_DB) : WatchKeep s :=
  ⟨fun c hc => add_clause_watchOK s c hw hc,
    fun ht hty fuel r s2 hrun => (propagate_wready fuel s r s2 ⟨hw, ht, hty⟩ hrun).1.1,
    fun horigin hrange coins => reduce_watchOK s coins hw horigin hrange,
    watchOK_member s hw⟩

end Solver

end EasySAT

namespace EasySAT

namespace Solver

theorem twinWatchState_member : WatchMember twinWatchState := by
  refine ⟨fun cref hcref => ?_, fun q w hw => ?_⟩
  · have hc : cref < 1 := hcref
    have hc0 : cref = 0 := by omega
    subst hc0
    refine ⟨⟨⟨0, -1⟩, by decide, rfl⟩, ⟨⟨0, 2⟩, by decide, rfl⟩, ?_⟩
    intro q w hw _
    have hw2 : w ∈ (if q = 1 then [(⟨0, 2⟩ : Watcher), ⟨0, 2⟩]
      else if q = -2 then [⟨0, -1⟩] else []) := hw
    split_ifs at hw2 with h1 h2
    · right; rw [h1]; decide
    · left; rw [h2]; decide
    · exact absurd hw2 (List.not_mem_nil _)
  · have hw2 : w ∈ (if q = 1 then [(⟨0, 2⟩ : Watcher), ⟨0, 2⟩]
      else if q = -2 then [⟨0, -1⟩] else []) := hw
    split_ifs at hw2 with h1 h2
    · simp only [List.mem_cons, List.mem_singleton, List.not_mem_nil, or_false, or_self] at hw2
      subst hw2
      decide
    · simp only [List.mem_singleton] at hw2
      subst hw2
      decide
    · exact absurd hw2 (List.not_mem_nil _)

theorem twinWatchState_typed : TrailTrue twinWatchState ∧ LitsTyped twinWatchState := by
  refine ⟨?_, ?_, ?_⟩
  · intro l hl
    have hl2 : l ∈ [(1 : Int)] := hl
    simp only [List.mem_singleton] at hl2
    subst hl2
    decide
  · intro l hl
    have hl2 : l ∈ [(1 : Int)] := hl
    simp only [List.mem_singleton] at hl2
    subst hl2
    decide
  · intro cref hc
    have hc2 : cref < 1 := hc
    have hc0 : cref = 0 := by omega
    subst hc0
    refine ⟨by decide, fun k hk => ?_⟩
    have hk2 : k < 3 := hk
    interval_cases k <;> decide

/-- C17 (counterexample): the watch list of the trail literal `1` holds two
watchers of the clause `[2, -1, 3]` and the list of `-2` holds one, so the
clause has a watcher in the lists of the negations of its two watched literals
and in no other list.  The first watcher moves the watch to the literal `3`
(the clause becomes `[2, 3, -1]`); the second finds no other literal to watch,
stays in the list of `1` and assigns `2`.  After `propagate` has returned
`-1`, the list of `1` holds a watcher of the clause, whose watched literals
are `2` and `3`. -/
theorem propagate_twin_watch_counterexample :
    WatchMember twinWatchState ∧ TrailTrue twinWatchState ∧ LitsTyped twinWatchState ∧
    (propagate 5 twinWatchState).map (fun r => (r.1, r.2.clause_DB, r.2.watches 1)) =
      some (-1, [⟨0, [2, 3, -1]⟩], [⟨0, 2⟩]) ∧
    ¬ MemberKept twinWatchState := by
  have hev : (propagate 5 twinWatchState).map (fun r => (r.1, r.2.clause_DB, r.2.watches 1)) =
      some (-1, [⟨0, [2, 3, -1]⟩], [⟨0, 2⟩]) := by decide
  refine ⟨twinWatchState_member, twinWatchState_typed.1, twinWatchState_typed.2, hev,
    fun h => ?_⟩
  cases hrun : propagate 5 twinWatchState with
  | none => rw [hrun] at hev; simp at hev
  | some rs =>
    obtain ⟨r, s2⟩ := rs
    rw [hrun] at hev
    simp only [Option.map_some', Option.some.injEq, Prod.mk.injEq] at hev
    obtain ⟨_, hdb, hw1⟩ := hev
    have hm := (h 5 r s2 hrun).1 0 (by rw [hdb]; decide)
    have := hm.2.2 1 ⟨0, 2⟩ (by rw [hw1]; decide) rfl
    unfold litAt at this
    rw [hdb] at this
    revert this
    decide

theorem conflictState_range : WatchRange conflictState := by
  intro q hq
  show (if q = 1 then [(⟨0, 2⟩ : Watcher), ⟨1, -2⟩] else if q = -2 then [⟨0, -1⟩]
    else if q = 2 then [⟨1, -1⟩] else []) = []
  have hv : conflictState.vars = 2 := rfl
  rw [hv] at hq
  rw [if_neg (by omega), if_neg (by omega), if_neg (by omega)]

/-- C17 instance: the clauses `[-1, 2]` and `[-1, -2]` watched as `add_clause`
leaves them, with `1` true and still to be propagated. -/
theorem watch_invariant_kept_witness :
    WatchOK conflictState.watches conflictState.clause_DB ∧
    TrailTrue conflictState ∧ LitsTyped conflictState ∧
    conflictState.origin_clauses ≤ conflictState.clause_DB.length ∧ WatchRange conflictState ∧
    (propagate 5 conflictState).map (fun r => (r.1, r.2.watches 1)) =
      some (1, [⟨0, 2⟩, ⟨1, -2⟩]) ∧
    WatchKeep conflictState :=
  ⟨conflictState_wready.1, conflictState_wready.2.1, conflictState_wready.2.2, by decide,
    conflictState_range, by decide,
    watch_invariant_kept conflictState conflictState_wready.1⟩

end Solver

end EasySAT

namespace EasySAT

namespace Heap

/-- The loop of `up` keeps the position map consistent, whatever the
comparator. -/
theorem upLoop_posOK (lt : Nat → Nat → Bool) (h0 : Heap) (x : Nat) :
    ∀ (fuel v : Nat) (h : Heap), HoleInv h0 x v h → PosPost h0 x (upLoop lt x fuel v h) := by
  intro fuel
  induction fuel with
  | zero =>
    intro v h hi
    exact holeInv_finish hi
  | succ fuel ih =>
    intro v h hi
    unfold upLoop
    by_cases hc : v ≠ 0 ∧ lt x (h.heap.getD (father v) 0) = true
    · rw [if_pos hc]
      have hpv : father v < v := father_lt hc.1
      exact ih (father v) _ (holeInv_move hi (lt_trans hpv hi.hv) (by omega))
    · rw [if_neg hc]
      exact holeInv_finish hi

/-- The loop of `down` keeps the position map consistent, whatever the
comparator. -/
theorem downLoop_posOK (lt : Nat → Nat → Bool) (h0 : Heap) (x : Nat) :
    ∀ (fuel v : Nat) (h : Heap), HoleInv h0 x v h → PosPost h0 x (downLoop lt x fuel v h) := by
  intro fuel
  induction fuel with
  | zero =>
    intro v h hi
    exact holeInv_finish hi
  | succ fuel ih =>
    intro v h hi
    unfold downLoop
    by_cases hl : left v < h.heap.length
    · simp only [hl, if_true]
      generalize hcdef : (if right v < h.heap.length ∧
          lt (h.heap.getD (right v) 0) (h.heap.getD (left v) 0) = true
          then right v else left v) = c
      have hcl : c < h.heap.length := by
        rw [← hcdef]; split
        · rename_i h; exact h.1
        · exact hl
      have hcv : c ≠ v := by
        rw [← hcdef]; unfold left right; split <;> omega
      by_cases hlt : lt (h.heap.getD c 0) x = true
      · simp only [hlt, if_true]
        exact ih c _ (holeInv_move hi hcl hcv)
      · simp only [hlt, if_false]
        exact holeInv_finish hi
    · simp only [hl, if_false]
      exact holeInv_finish hi

theorem posPost_inHeap_eq {h0 h1 : Heap} {x : Nat} (hs : PosPost h0 x h1)
    (hx : inHeap h0 x = true) (n : Nat) : inHeap h1 n = inHeap h0 n := by
  obtain ⟨_, _, h3, h4, h5⟩ := hs
  rw [Bool.eq_iff_iff, inHeap_iff, inHeap_iff, h3]
  by_cases hnx : n = x
  · subst hnx
    rw [inHeap_iff] at hx
    exact ⟨fun _ => hx, fun _ => ⟨hx.1, h5⟩⟩
  · rw [h4 n hnx]

/-- Effect of `update` of a member on a consistent heap, whatever the
comparator. -/
theorem update_posOK (lt : Nat → Nat → Bool) {h : Heap} (hp : PosOK h) (v : Nat)
    (hm : inHeap h v = true) :
    PosOK (update lt h v) ∧ ∀ n, inHeap (update lt h v) n = inHeap h n := by
  obtain ⟨i, hi, e⟩ := (posOK_inHeap_iff_mem hp v).1 hm
  have hpv : h.pos.getD v 0 = (i : Int) := by rw [← e]; exact (hp.1 i hi).2
  have hupd : update lt h v = upLoop lt v i i h := by
    unfold update up
    rw [hpv]; simp only [Int.toNat_ofNat]; rw [e]
  have hinv : HoleInv h v i h := by
    have := holeInv_of_posOK hp hi
    rwa [e] at this
  have hpost := upLoop_posOK lt h v i i h hinv
  rw [← hupd] at hpost
  exact ⟨hpost.1, posPost_inHeap_eq hpost hm⟩

/-- Effect of `pop` on a consistent non-empty heap, whatever the
comparator. -/
theorem pop_posOK (lt : Nat → Nat → Bool) {h : Heap} (hp : PosOK h) (hne : h.heap ≠ []) :
    (pop lt h).1 = h.heap.getD 0 0 ∧
    inHeap h (pop lt h).1 = true ∧
    PosOK (pop lt h).2 ∧
    (∀ n, inHeap (pop lt h).2 n = true ↔ (inHeap h n = true ∧ n ≠ (pop lt h).1)) := by
  have hlen : 0 < h.heap.length := List.length_pos.mpr hne
  obtain ⟨h2, hh2⟩ := pop_pre hp hlen
  obtain ⟨hp2, hlen2, hheap2, hpos2, hget2, hmem2⟩ := hh2
  have h1 : (pop lt h).1 = h.heap.getD 0 0 := rfl
  have hpop2 : (pop lt h).2 = if h2.heap.length > 1 then down lt h2 0 else h2 := by
    have : h2 = ⟨(h.heap.set 0 (h.heap.getD (h.heap.length - 1) 0)).dropLast,
      (h.pos.set ((h.heap.set 0 (h.heap.getD (h.heap.length - 1) 0)).getD 0 0) 0).set
        (h.heap.getD 0 0) (-1)⟩ := by
      cases h2; simp only at hheap2 hpos2; rw [hheap2, hpos2]
    rw [this]; rfl
  refine ⟨h1, ?_, ?_⟩
  · rw [h1]; exact (posOK_inHeap_iff_mem hp _).2 ⟨0, hlen, rfl⟩
  · rw [hpop2, h1]
    by_cases hgt : h2.heap.length > 1
    · rw [if_pos hgt]
      have hinv := holeInv_of_posOK hp2 (v := 0) (by omega)
      have hpost := downLoop_posOK lt h2 (h2.heap.getD 0 0) h2.heap.length 0 h2 hinv
      have hm0 : inHeap h2 (h2.heap.getD 0 0) = true :=
        (posOK_inHeap_iff_mem hp2 _).2 ⟨0, by omega, rfl⟩
      refine ⟨hpost.1, fun n => ?_⟩
      show inHeap (downLoop _ _ _ _ _) n = true ↔ _
      rw [posPost_inHeap_eq hpost hm0 n]
      exact hmem2 n
    · rw [if_neg hgt]
      exact ⟨hp2, hmem2⟩

/-- Effect of `insert` of an absent variable on a consistent heap, whatever
the comparator. -/
theorem insert_posOK (lt : Nat → Nat → Bool) {h : Heap} (hp : PosOK h) (x : Nat)
    (hx : inHeap h x = false) :
    PosOK (insert lt h x) ∧
      ∀ n, inHeap (insert lt h x) n = true ↔ (n = x ∨ inHeap h n = true) := by
  have hxm : ∀ i, i < h.heap.length → h.heap.getD i 0 ≠ x := by
    intro i hi e
    have : inHeap h x = true := (posOK_inHeap_iff_mem hp x).2 ⟨i, hi, e⟩
    rw [hx] at this
    exact Bool.noConfusion this
  generalize hpos1 : (if h.pos.length < x + 1 then
      h.pos ++ List.replicate (x + 1 - h.pos.length) (-1) else h.pos) = pos1
  have hl1 : x < pos1.length ∧ h.pos.length ≤ pos1.length := by
    rw [← hpos1]; split
    · simp; omega
    · omega
  have hg1 : ∀ n, n < h.pos.length → pos1.getD n 0 = h.pos.getD n 0 := by
    intro n hn
    rw [← hpos1]; split
    · exact getD_append_left _ _ _ _ hn
    · rfl
  have hg2 : ∀ n, n < pos1.length → h.pos.length ≤ n → pos1.getD n 0 = -1 := by
    intro n hn hn2
    rw [← hpos1] at hn ⊢
    split
    · rename_i hlt
      rw [if_pos hlt] at hn
      simp only [List.length_append, List.length_replicate] at hn
      rw [List.getD_eq_getElem?_getD, List.getElem?_append_right hn2,
        List.getElem?_replicate]
      rw [if_pos (by omega)]
      rfl
    · rename_i hlt
      rw [if_neg hlt] at hn
      omega
  have hins : insert lt h x =
      upLoop lt x h.heap.length h.heap.length
        ⟨h.heap ++ [x], pos1.set x (h.heap.length : Int)⟩ := by
    unfold insert up
    simp only [hpos1]
    rw [getD_set_eq _ _ _ _ hl1.1]
    simp only [Int.toNat_ofNat]
    rw [getD_append_right _ _ _ _ (le_refl _)]
    simp
  generalize hh1 : (⟨h.heap ++ [x], pos1.set x (h.heap.length : Int)⟩ : Heap) = h1 at hins
  have hlen1 : h1.heap.length = h.heap.length + 1 := by rw [← hh1]; simp
  have hget1 : ∀ i, i < h.heap.length → h1.heap.getD i 0 = h.heap.getD i 0 := by
    intro i hi; rw [← hh1]; exact getD_append_left _ _ _ _ hi
  have hgetx : h1.heap.getD h.heap.length 0 = x := by
    rw [← hh1]; show (h.heap ++ [x]).getD _ _ = _
    rw [getD_append_right _ _ _ _ (le_refl _)]; simp
  have hplen : h1.pos.length = pos1.length := by rw [← hh1]; simp
  have hpx : h1.pos.getD x 0 = (h.heap.length : Int) := by
    rw [← hh1]; exact getD_set_eq _ _ _ _ hl1.1
  have hpn : ∀ n, n ≠ x → h1.pos.getD n 0 = pos1.getD n 0 := by
    intro n hn; rw [← hh1]; exact getD_set_ne _ _ _ _ _ (Ne.symm hn)
  have hp1 : PosOK h1 := by
    constructor
    · intro i hi
      by_cases hil : i < h.heap.length
      · rw [hget1 i hil, hplen, hpn _ (hxm i hil), hg1 _ (hp.1 i hil).1]
        exact ⟨lt_of_lt_of_le (hp.1 i hil).1 hl1.2, (hp.1 i hil).2⟩
      · have : i = h.heap.length := by omega
        subst this
        rw [hgetx, hplen, hpx]
        exact ⟨hl1.1, rfl⟩
    · intro n hn hpos
      rw [hplen] at hn
      by_cases hnx : n = x
      · subst hnx
        exact ⟨h.heap.length, by omega, hgetx⟩
      · rw [hpn n hnx] at hpos
        by_cases hnl : n < h.pos.length
        · rw [hg1 n hnl] at hpos
          obtain ⟨i, hi, e⟩ := hp.2 n hnl hpos
          exact ⟨i, by omega, by rw [hget1 i hi]; exact e⟩
        · rw [hg2 n hn (by omega)] at hpos
          omega
  have hinv : HoleInv h1 x h.heap.length h1 := by
    have := holeInv_of_posOK hp1 (v := h.heap.length) (by omega)
    rwa [hgetx] at this
  have hpost := upLoop_posOK lt h1 x h.heap.length h.heap.length h1 hinv
  rw [← hins] at hpost
  refine ⟨hpost.1, fun n => ?_⟩
  have hx1 : inHeap h1 x = true := by
    rw [inHeap_iff, hplen, hpx]; exact ⟨hl1.1, Int.ofNat_nonneg _⟩
  rw [posPost_inHeap_eq hpost hx1 n]
  by_cases hnx : n = x
  · subst hnx; simp [hx1]
  · rw [inHeap_iff, inHeap_iff, hplen, hpn n hnx]
    simp only [hnx, false_or]
    constructor
    · rintro ⟨h1, h2⟩
      by_cases hnl : n < h.pos.length
      · exact ⟨hnl, by rwa [hg1 n hnl] at h2⟩
      · rw [hg2 n h1 (by omega)] at h2; omega
    · rintro ⟨h1, h2⟩
      exact ⟨by omega, by rwa [hg1 n h1]⟩

end Heap

end EasySAT

namespace EasySAT

namespace Solver

theorem posOK_empty : Heap.PosOK ⟨[], []⟩ := by
  constructor
  · intro i hi
    exact absurd hi (Nat.not_lt_zero _)
  · intro n hn
    exact absurd hn (Nat.not_lt_zero _)

/-- The loop of `alloc_memory` inserts the variables `i, ..., i + n - 1` into
a consistent heap whose members are below `i`. -/
theorem allocLoop_spec (lt : Nat → Nat → Bool) :
    ∀ (n i : Nat) (h : Heap), Heap.PosOK h → (∀ v, h.inHeap v = true → v < i) →
      Heap.PosOK (allocLoop lt n i h) ∧
      ∀ v, (allocLoop lt n i h).inHeap v = true ↔ (h.inHeap v = true ∨ (i ≤ v ∧ v < i + n)) := by
  intro n
  induction n with
  | zero =>
    intro i h hp _
    refine ⟨hp, fun v => ?_⟩
    unfold allocLoop
    constructor
    · exact fun h => Or.inl h
    · rintro (h | h)
      · exact h
      · omega
  | succ n ih =>
    intro i h hp hlt
    have habs : h.inHeap i = false := by
      by_contra hc
      have := hlt i (by simpa using hc)
      omega
    obtain ⟨hp2, hm2⟩ := Heap.insert_posOK lt hp i habs
    obtain ⟨hp3, hm3⟩ := ih (i + 1) (Heap.insert lt h i) hp2 (by
      intro v hv
      rcases (hm2 v).1 hv with e | e
      · omega
      · have := hlt v e
        omega)
    unfold allocLoop
    refine ⟨hp3, fun v => ?_⟩
    rw [hm3 v, hm2 v]
    constructor
    · rintro ((h1 | h1) | h1)
      · right; omega
      · left; exact h1
      · right; omega
    · rintro (h1 | h1)
      · left; right; exact h1
      · by_cases e : v = i
        · left; left; exact e
        · right; omega

/-- The method `alloc_memory`, called on a solver whose heap is empty,
establishes the invariant of the decision heap. -/
theorem heapInv_alloc (s0 : Solver) (h0 : s0.vsids = ⟨[], []⟩) : HeapInv (alloc_memory s0) := by
  obtain ⟨hp, hm⟩ := allocLoop_spec (GreaterActivity (fun _ => (0 : ℚ))) s0.vars.toNat 1 s0.vsids
    (by rw [h0]; exact posOK_empty) (by
      intro v hv
      rw [h0, Heap.inHeap_iff] at hv
      exact absurd hv.1 (Nat.not_lt_zero _))
  refine ⟨hp, ?_, fun _ => Or.inl rfl, fun _ => Or.inl rfl, fun _ => Or.inl rfl⟩
  intro v hv _
  have hv1 : 1 ≤ v := hv.1
  have hv2 : (v : Int) ≤ s0.vars := hv.2
  exact (hm v).2 (Or.inr ⟨hv1, by omega⟩)

theorem grows_refl (s : Solver) : Grows s s := ⟨rfl, rfl, rfl, rfl, fun _ => Or.inl rfl⟩

theorem grows_trans {s1 s2 s3 : Solver} (h12 : Grows s1 s2) (h23 : Grows s2 s3) : Grows s1 s3 := by
  obtain ⟨a1, a2, a3, a4, a5⟩ := h12
  obtain ⟨b1, b2, b3, b4, b5⟩ := h23
  refine ⟨b1.trans a1, b2.trans a2, b3.trans a3, b4.trans a4, fun v => ?_⟩
  rcases b5 v with h | h
  · rw [h]
    exact a5 v
  · exact Or.inr h

theorem litSign_cases (l : Int) : litSign l = 1 ∨ litSign l = -1 := by
  unfold litSign
  split_ifs
  · exact Or.inl rfl
  · exact Or.inr rfl

theorem grows_assign (s : Solver) (lit : Int) (l : Nat) (cref : Int) :
    Grows s (assign s lit l cref) := by
  refine ⟨rfl, rfl, rfl, rfl, fun v => ?_⟩
  show Function.update s.value lit.natAbs (litSign lit) v = s.value v ∨
    Function.update s.value lit.natAbs (litSign lit) v = 1 ∨
    Function.update s.value lit.natAbs (litSign lit) v = -1
  by_cases hv : v = lit.natAbs
  · rw [hv, Function.update_same]
    exact Or.inr (litSign_cases lit)
  · rw [Function.update_noteq hv]
    exact Or.inl rfl

/-- Assignments keep the invariant of the decision heap. -/
theorem heapInv_grows {s s2 : Solver} (hg : Grows s s2) (hi : HeapInv s) : HeapInv s2 := by
  obtain ⟨g1, g2, g3, g4, g5⟩ := hg
  obtain ⟨hp, hc, ht1, ht2, ht3⟩ := hi
  refine ⟨by rw [g1]; exact hp, ?_, ?_, by rw [g3]; exact ht2, by rw [g4]; exact ht3⟩
  · intro v hv hval
    rw [g1]
    apply hc v (by unfold IsVar at hv ⊢; rw [← g2]; exact hv)
    rcases g5 v with h | h | h
    · rw [← h]; exact hval
    · rw [hval] at h; omega
    · rw [hval] at h; omega
  · intro v
    rcases g5 v with h | h | h
    · rw [h]; exact ht1 v
    · exact Or.inr (Or.inl h)
    · exact Or.inr (Or.inr h)

/-- One iteration of the watch loop of `propagate` only assigns. -/
theorem watchStep_grows (p : Int) (n i j : Nat) (s : Solver) :
    match watchStep p n i j s with
    | WatchStep.next _ s2 => Grows s s2
    | WatchStep.conflict _ s2 => Grows s s2 := by
  unfold watchStep
  dsimp only
  split_ifs
  · exact grows_refl _
  · exact grows_refl _
  · exact grows_refl _
  · exact grows_refl _
  · exact grows_assign _ _ _ _

theorem propagateWatches_grows (p : Int) :
    ∀ (n i j : Nat) (s : Solver), Grows s (propagateWatches p n i j s).2 := by
  intro n
  induction n with
  | zero => intro i j s; exact grows_refl _
  | succ n ih =>
    intro i j s
    have hstep := watchStep_grows p n i j s
    unfold propagateWatches
    generalize watchStep p n i j s = r at hstep
    cases r with
    | next j2 s2 => exact grows_trans hstep (ih _ _ _)
    | conflict cref s2 => exact hstep

/-- The method `propagate` only assigns. -/
theorem propagate_grows :
    ∀ (fuel : Nat) (s : Solver) (r : Int) (s2 : Solver),
      propagate fuel s = some (r, s2) → Grows s s2 := by
  intro fuel
  induction fuel with
  | zero =>
    intro s r s2 hrun
    unfold propagate at hrun
    split_ifs at hrun
    simp only [Option.some.injEq, Prod.mk.injEq] at hrun
    rw [← hrun.2]
    exact grows_refl _
  | succ fuel ih =>
    intro s r s2 hrun
    unfold propagate at hrun
    split_ifs at hrun with hlt
    · dsimp only at hrun
      have hpost := propagateWatches_grows (s.trail.getD s.propagated 0)
        (s.watches (s.trail.getD s.propagated 0)).length 0 0
        { s with propagated := s.propagated + 1 }
      generalize hres : propagateWatches (s.trail.getD s.propagated 0)
        (s.watches (s.trail.getD s.propagated 0)).length 0 0
        { s with propagated := s.propagated + 1 } = res at hrun hpost
      have h0 : Grows s { s with propagated := s.propagated + 1 } := grows_refl _
      rcases res with ⟨_ | cref, s3⟩
      · exact grows_trans (grows_trans h0 hpost) (ih s3 r s2 hrun)
      · simp only [Option.some.injEq, Prod.mk.injEq] at hrun
        rw [← hrun.2]
        exact grows_trans h0 hpost
    · simp only [Option.some.injEq, Prod.mk.injEq] at hrun
      rw [← hrun.2]
      exact grows_refl _

end Solver

end EasySAT

namespace EasySAT

namespace Solver

theorem heapSame_refl (s : Solver) : HeapSame s s := fun h => ⟨h, fun _ => rfl⟩

theorem heapSame_trans {s1 s2 s3 : Solver} (h12 : HeapSame s1 s2) (h23 : HeapSame s2 s3) :
    HeapSame s1 s3 := by
  intro hp
  obtain ⟨a1, a2⟩ := h12 hp
  obtain ⟨b1, b2⟩ := h23 a1
  exact ⟨b1, fun n => (b2 n).trans (a2 n)⟩

theorem heapSame_of_eq {s s2 : Solver} (h : s2.vsids = s.vsids) : HeapSame s s2 := by
  unfold HeapSame
  rw [h]
  exact fun h => ⟨h, fun _ => rfl⟩

/-- The method `bump_var` keeps the members of the heap. -/
theorem bump_var_heapSame (s : Solver) (var : Nat) (coeff : ℚ) :
    HeapSame s (bump_var s var coeff) := by
  unfold bump_var
  dsimp only
  split_ifs with h1 h2 h2
  · exact fun hp => Heap.update_posOK _ hp var h2
  · exact heapSame_refl _
  · exact fun hp => Heap.update_posOK _ hp var h2
  · exact heapSame_refl _

theorem setMark_heapSame (s : Solver) (v t : Nat) : HeapSame s (setMark s v t) :=
  heapSame_refl _

set_option maxRecDepth 4000 in
theorem analyzeLit_heapSame (H : Nat) (st : Solver × List Nat × Int) (lit : Int) :
    HeapSame st.1 (analyzeLit H st lit).1 := by
  have hb := bump_var_heapSame st.1 lit.natAbs (1 / 2)
  unfold analyzeLit
  dsimp only
  split_ifs
  · exact hb
  · exact hb
  · exact heapSame_refl _

theorem foldl_analyzeLit_heapSame (H : Nat) :
    ∀ (lits : List Int) (st : Solver × List Nat × Int),
      HeapSame st.1 (lits.foldl (analyzeLit H) st).1 := by
  intro lits
  induction lits with
  | nil => intro st; exact heapSame_refl _
  | cons l ls ih =>
    intro st
    rw [List.foldl_cons]
    exact heapSame_trans (analyzeLit_heapSame H st l) (ih _)

theorem analyzeLoop_heapSame (H : Nat) :
    ∀ (fuel : Nat) (conflict resolve_lit : Int) (n : Nat) (ct : Int) (bump : List Nat)
      (s : Solver) (r : Int × List Nat × Solver),
      analyzeLoop H fuel conflict resolve_lit n ct bump s = some r → HeapSame s r.2.2 := by
  intro fuel
  induction fuel with
  | zero =>
    intro conflict resolve_lit n ct bump s r h
    simp [analyzeLoop] at h
  | succ fuel ih =>
    intro conflict resolve_lit n ct bump s r h
    unfold analyzeLoop at h
    by_cases hbad : conflict < 0 ∨ s.clause_DB.length ≤ conflict.toNat
    · rw [if_pos hbad] at h
      simp at h
    · rw [if_neg hbad] at h
      have a1 : HeapSame s (analyzeClause H s conflict.toNat resolve_lit bump ct).1 :=
        foldl_analyzeLit_heapSame H _ (s, bump, ct)
      generalize analyzeClause H s conflict.toNat resolve_lit bump ct = st at h a1
      cases hf : findResolve st.1 H n with
      | none => rw [hf] at h; simp at h
      | some x =>
        obtain ⟨lit, n2⟩ := x
        rw [hf] at h
        dsimp only at h
        by_cases hct : st.2.2 - 1 > 0
        · rw [if_pos hct] at h
          exact heapSame_trans a1 (heapSame_trans (setMark_heapSame _ _ _) (ih _ _ _ _ _ _ r h))
        · rw [if_neg hct] at h
          simp only [Option.some.injEq] at h
          rw [← h]
          exact heapSame_trans a1 (setMark_heapSame _ _ _)

theorem lbdStep_vsids (st : Solver × Int) (lit : Int) : (lbdStep st lit).1.vsids = st.1.vsids := by
  unfold lbdStep
  split_ifs <;> rfl

theorem foldl_lbdStep_vsids :
    ∀ (lits : List Int) (st : Solver × Int), (lits.foldl lbdStep st).1.vsids = st.1.vsids := by
  intro lits
  induction lits with
  | nil => intro st; rfl
  | cons l ls ih =>
    intro st
    rw [List.foldl_cons, ih, lbdStep_vsids]

theorem pushLbd_vsids (s : Solver) (lbd : Int) : (pushLbd s lbd).vsids = s.vsids := by
  unfold pushLbd
  dsimp only
  split_ifs <;> rfl

theorem chooseLevel_vsids (s : Solver) : (chooseLevel s).2.vsids = s.vsids := by
  unfold chooseLevel
  split_ifs <;> rfl

theorem foldl_bumpStep_heapSame (bt : Nat) :
    ∀ (l : List Nat) (s : Solver), HeapSame s (l.foldl (bumpStep bt) s) := by
  intro l
  induction l with
  | nil => intro s; exact heapSame_refl _
  | cons a l ih =>
    intro s
    rw [List.foldl_cons]
    refine heapSame_trans ?_ (ih _)
    unfold bumpStep
    split_ifs
    · exact bump_var_heapSame _ _ _
    · exact heapSame_refl _

theorem finishAnalyze_heapSame (s : Solver) (resolve_lit : Int) (bump : List Nat) :
    HeapSame s (finishAnalyze s resolve_lit bump).2.2 := by
  unfold finishAnalyze
  refine heapSame_trans (heapSame_of_eq ?_) (foldl_bumpStep_heapSame _ bump _)
  rw [chooseLevel_vsids, pushLbd_vsids, foldl_lbdStep_vsids]
  rfl

/-- What `analyze` leaves when it returns: it wrote only fields of the
analysis, and the heap has the same members. -/
theorem analyze_frame (s : Solver) (conflict : Nat) (res : Int) (bt : Nat) (lbd : Int)
    (s2 : Solver) (h : analyze s conflict = some (res, bt, lbd, s2)) :
    AFrame s s2 ∧ HeapSame s s2 := by
  unfold analyze at h
  by_cases h0 : conflictLevel s conflict = 0
  · rw [if_pos h0] at h
    simp only [Option.some.injEq, Prod.mk.injEq] at h
    rw [← h.2.2.2]
    exact ⟨rfl, heapSame_refl _⟩
  · rw [if_neg h0] at h
    cases hl : analyzeLoop (conflictLevel s conflict) (s.trail.length + 1) (conflict : Int) 0
        s.trail.length 0 [] { startAnalyze s with learnt := [0] } with
    | none => rw [hl] at h; simp at h
    | some r =>
      obtain ⟨resolve_lit, bump, s3⟩ := r
      rw [hl] at h
      simp only [Option.some.injEq, Prod.mk.injEq] at h
      rw [← h.2.2.2]
      have a1 := (analyzeLoop_frame _ _ _ _ _ _ _ _ _ hl).1
      have a2 := analyzeLoop_heapSame _ _ _ _ _ _ _ _ _ hl
      have b1 := (finishAnalyze_spec s3 resolve_lit bump).1
      have b2 := finishAnalyze_heapSame s3 resolve_lit bump
      have c1 : AFrame s { startAnalyze s with learnt := [0] } := rfl
      have c2 : HeapSame s { startAnalyze s with learnt := [0] } := heapSame_refl _
      exact ⟨aFrame_trans c1 (aFrame_trans a1 b1), heapSame_trans c2 (heapSame_trans a2 b2)⟩

end Solver

end EasySAT

namespace EasySAT

namespace Solver

theorem aFrame_value {s s2 : Solver} (h : AFrame s s2) : s2.value = s.value := by
  have e := congrArg Solver.value (h : keepSearch s2 s = s)
  exact e

theorem aFrame_saved {s s2 : Solver} (h : AFrame s s2) : s2.saved = s.saved := by
  have e := congrArg Solver.saved (h : keepSearch s2 s = s)
  exact e

theorem aFrame_local_best {s s2 : Solver} (h : AFrame s s2) : s2.local_best = s.local_best := by
  have e := congrArg Solver.local_best (h : keepSearch s2 s = s)
  exact e

theorem aFrame_vars {s s2 : Solver} (h : AFrame s s2) : s2.vars = s.vars := by
  have e := congrArg Solver.vars (h : keepSearch s2 s = s)
  exact e

/-- The method `analyze` keeps the invariant of the decision heap. -/
theorem heapInv_analyze (s : Solver) (conflict : Nat) (res : Int) (bt : Nat) (lbd : Int)
    (s2 : Solver) (h : analyze s conflict = some (res, bt, lbd, s2)) (hi : HeapInv s) :
    HeapInv s2 := by
  obtain ⟨hf, hs⟩ := analyze_frame s conflict res bt lbd s2 h
  obtain ⟨hp, hc, ht1, ht2, ht3⟩ := hi
  obtain ⟨hp2, hm2⟩ := hs hp
  refine ⟨hp2, ?_, by rw [aFrame_value hf]; exact ht1, by rw [aFrame_saved hf]; exact ht2,
    by rw [aFrame_local_best hf]; exact ht3⟩
  intro v hv hval
  rw [hm2 v]
  apply hc v
  · unfold IsVar at hv ⊢
    rw [← aFrame_vars hf]
    exact hv
  · rw [← aFrame_value hf]
    exact hval

/-- The body of the loop of `backtrack` keeps the invariant of the decision
heap. -/
theorem heapInv_unassign (s : Solver) (lit : Int) (hi : HeapInv s) : HeapInv (unassign s lit) := by
  obtain ⟨hp, hc, ht1, ht2, ht3⟩ := hi
  obtain ⟨hv1, hv2⟩ := unassign_value s lit
  obtain ⟨hh1, hh2⟩ := unassign_inHeap s lit
  have hvars : (unassign s lit).vars = s.vars := by
    unfold unassign
    dsimp only
    split_ifs <;> rfl
  have hlb : (unassign s lit).local_best = s.local_best := by
    unfold unassign
    dsimp only
    split_ifs <;> rfl
  have hpos : Heap.PosOK (unassign s lit).vsids := by
    unfold unassign
    dsimp only
    split_ifs with h
    · exact hp
    · exact (Heap.insert_posOK _ hp lit.natAbs (by simpa using h)).1
  refine ⟨hpos, ?_, ?_, ?_, by rw [hlb]; exact ht3⟩
  · intro v hv hval
    by_cases e : v = lit.natAbs
    · rw [e]
      exact hh1
    · apply hh2
      apply hc v (by unfold IsVar at hv ⊢; rw [← hvars]; exact hv)
      rw [hv1, Function.update_noteq e] at hval
      exact hval
  · intro v
    rw [hv1]
    by_cases e : v = lit.natAbs
    · rw [e, Function.update_same]
      exact Or.inl rfl
    · rw [Function.update_noteq e]
      exact ht1 v
  · intro v
    rw [hv2]
    by_cases e : v = lit.natAbs
    · rw [e, Function.update_same]
      exact Or.inr (litSign_cases lit)
    · rw [Function.update_noteq e]
      exact ht2 v

theorem heapInv_backtrackLoop (bound : Nat) :
    ∀ (n : Nat) (s : Solver), HeapInv s → HeapInv (backtrackLoop bound n s) := by
  intro n
  induction n with
  | zero => intro s h; exact h
  | succ n ih =>
    intro s h
    unfold backtrackLoop
    exact ih _ (heapInv_unassign s _ h)

/-- The method `backtrack` keeps the invariant of the decision heap. -/
theorem heapInv_backtrack (s : Solver) (L : Nat) (hi : HeapInv s) : HeapInv (backtrack s L) := by
  unfold backtrack
  split_ifs
  · exact hi
  · exact heapInv_grows ⟨rfl, rfl, rfl, rfl, fun _ => Or.inl rfl⟩ (heapInv_backtrackLoop _ _ s hi)

end Solver

end EasySAT

namespace EasySAT

namespace Solver

/-- The selection loop of `decide` on a consistent heap that registers every
unassigned variable other than `next`: it changes only the heap; when it finds
the heap empty every variable is assigned; and when it ends on a variable,
that variable is unassigned and every other unassigned variable is still
registered. -/
theorem decideLoop_heap :
    ∀ (fuel : Nat) (next : Int) (s : Solver) (res : Option Int) (s2 : Solver),
      decideLoop fuel next s = some (res, s2) →
      Heap.PosOK s.vsids → (next = -1 ∨ 0 ≤ next) →
      (∀ v, IsVar s v → s.value v = 0 → s.vsids.inHeap v = true ∨ (v : Int) = next) →
      s2 = { s with vsids := s2.vsids } ∧ Heap.PosOK s2.vsids ∧
      (res = none → ∀ v, IsVar s v → s.value v ≠ 0) ∧
      (∀ nx, res = some nx → 0 ≤ nx ∧ litValue s.value nx = 0 ∧
        ∀ v, IsVar s v → s.value v = 0 → s2.vsids.inHeap v = true ∨ (v : Int) = nx) := by
  intro fuel
  induction fuel with
  | zero =>
    intro next s res s2 h hp hnext hcomp
    rw [decideLoop_unfold] at h
    by_cases hc : next = -1 ∨ litValue s.value next ≠ 0
    · rw [if_pos hc] at h
      by_cases he : s.vsids.empty = true
      · rw [if_pos he] at h
        simp only [Option.some.injEq, Prod.mk.injEq] at h
        obtain ⟨h1, h2⟩ := h
        subst h1
        subst h2
        refine ⟨rfl, hp, fun _ v hv hval => ?_, fun nx hnx => by simp at hnx⟩
        rcases hcomp v hv hval with hin | hin
        · obtain ⟨i, hi, _⟩ := (Heap.posOK_inHeap_iff_mem hp v).1 hin
          unfold Heap.empty at he
          simp at he
          rw [he] at hi
          exact absurd hi (Nat.not_lt_zero _)
        · rcases hc with hc | hc
          · have := hv.1
            omega
          · rw [← hin, litValue_ofNat _ _ hv.1] at hc
            exact hc hval
      · rw [if_neg he] at h
        simp at h
    · rw [if_neg hc] at h
      simp only [Option.some.injEq, Prod.mk.injEq] at h
      obtain ⟨h1, h2⟩ := h
      subst h1
      subst h2
      push_neg at hc
      refine ⟨rfl, hp, fun h => by simp at h, fun nx hnx => ?_⟩
      simp only [Option.some.injEq] at hnx
      subst hnx
      exact ⟨by omega, hc.2, hcomp⟩
  | succ fuel ih =>
    intro next s res s2 h hp hnext hcomp
    rw [decideLoop_unfold] at h
    by_cases hc : next = -1 ∨ litValue s.value next ≠ 0
    · rw [if_pos hc] at h
      have hin : ∀ v, IsVar s v → s.value v = 0 → s.vsids.inHeap v = true := by
        intro v hv hval
        rcases hcomp v hv hval with hin | hin
        · exact hin
        · exfalso
          rcases hc with hc | hc
          · have := hv.1
            omega
          · rw [← hin, litValue_ofNat _ _ hv.1] at hc
            exact hc hval
      by_cases he : s.vsids.empty = true
      · rw [if_pos he] at h
        simp only [Option.some.injEq, Prod.mk.injEq] at h
        obtain ⟨h1, h2⟩ := h
        subst h1
        subst h2
        refine ⟨rfl, hp, fun _ v hv hval => ?_, fun nx hnx => by simp at hnx⟩
        obtain ⟨i, hi, _⟩ := (Heap.posOK_inHeap_iff_mem hp v).1 (hin v hv hval)
        unfold Heap.empty at he
        simp at he
        rw [he] at hi
        exact absurd hi (Nat.not_lt_zero _)
      · rw [if_neg he] at h
        dsimp only at h
        have hne : s.vsids.heap ≠ [] := by
          intro e
          apply he
          unfold Heap.empty
          rw [e]
          rfl
        obtain ⟨_, _, hp2, hm2⟩ := Heap.pop_posOK (GreaterActivity s.activity) hp hne
        obtain ⟨a1, a2, a3, a4⟩ := ih _ _ res s2 h hp2 (Or.inr (Int.ofNat_nonneg _)) (by
          intro v hv hval
          by_cases e : v = (Heap.pop (GreaterActivity s.activity) s.vsids).1
          · right
            rw [e]
          · left
            exact (hm2 v).2 ⟨hin v hv hval, e⟩)
        exact ⟨a1, a2, a3, a4⟩
    · rw [if_neg hc] at h
      simp only [Option.some.injEq, Prod.mk.injEq] at h
      obtain ⟨h1, h2⟩ := h
      subst h1
      subst h2
      push_neg at hc
      refine ⟨rfl, hp, fun h => by simp at h, fun nx hnx => ?_⟩
      simp only [Option.some.injEq] at hnx
      subst hnx
      exact ⟨by omega, hc.2, hcomp⟩

end Solver

end EasySAT

namespace EasySAT

namespace Solver

theorem natAbs_mul_sign (a b : Int) (hb : b = 1 ∨ b = -1) : (a * b).natAbs = a.natAbs := by
  rcases hb with h | h <;> rw [h] <;> simp

theorem typed_update (value : Nat → Int) (ht : ∀ v, value v = 0 ∨ value v = 1 ∨ value v = -1)
    (x : Nat) (l : Int) (v : Nat) :
    Function.update value x (litSign l) v = 0 ∨ Function.update value x (litSign l) v = 1 ∨
      Function.update value x (litSign l) v = -1 := by
  by_cases e : v = x
  · rw [e, Function.update_same]
    exact Or.inr (litSign_cases l)
  · rw [Function.update_noteq e]
    exact ht v

/-- The method `decide` keeps the invariant of the decision heap, and returns
10 only when every variable is assigned. -/
theorem heapInv_decide (s : Solver) (r : Int) (s2 : Solver) (h : decide s = some (r, s2))
    (hi : HeapInv s) : HeapInv s2 ∧ (r = 10 → ∀ v, IsVar s v → s.value v ≠ 0) := by
  obtain ⟨hp, hc, ht1, ht2, ht3⟩ := hi
  unfold decide at h
  cases hl : decideLoop s.vsids.heap.length (-1) s with
  | none => rw [hl] at h; simp at h
  | some x =>
    obtain ⟨res, s1⟩ := x
    obtain ⟨a1, a2, a3, a4⟩ := decideLoop_heap _ _ s res s1 hl hp (Or.inl rfl)
      (fun v hv hval => Or.inl (hc v hv hval))
    rw [hl] at h
    have hval1 : s1.value = s.value := by rw [a1]
    have hsaved1 : s1.saved = s.saved := by rw [a1]
    have hlb1 : s1.local_best = s.local_best := by rw [a1]
    have hvars1 : s1.vars = s.vars := by rw [a1]
    cases res with
    | none =>
      simp only [Option.some.injEq, Prod.mk.injEq] at h
      rw [← h.2]
      refine ⟨⟨a2, ?_, by rw [hval1]; exact ht1, by rw [hsaved1]; exact ht2,
        by rw [hlb1]; exact ht3⟩, fun _ => a3 rfl⟩
      intro v hv hval
      exfalso
      exact a3 rfl v (by unfold IsVar at hv ⊢; rw [← hvars1]; exact hv)
        (by rw [← hval1]; exact hval)
    | some next =>
      obtain ⟨b1, b2, b3⟩ := a4 next rfl
      have h2 := Option.some.inj h
      have hr : (0 : Int) = r := congrArg Prod.fst h2
      have hs2 := congrArg Prod.snd h2
      dsimp only at hs2
      refine ⟨?_, fun h10 => by omega⟩
      rw [← hs2]
      generalize hn2 : (if s1.saved next.toNat ≠ 0 then next * s1.saved next.toNat
        else next) = next2
      have habs : next2.natAbs = next.natAbs := by
        rw [← hn2]
        split_ifs with hs
        · apply natAbs_mul_sign
          have := ht2 next.toNat
          rw [← hsaved1] at this
          rcases this with h | h | h
          · exact absurd h hs
          · exact Or.inl h
          · exact Or.inr h
        · rfl
      refine ⟨a2, ?_, ?_, by show ∀ v, s1.saved v = 0 ∨ _; rw [hsaved1]; exact ht2,
        by show ∀ v, s1.local_best v = 0 ∨ _; rw [hlb1]; exact ht3⟩
      · intro v hv hval
        have hval2 : Function.update s1.value next2.natAbs (litSign next2) v = 0 := hval
        by_cases e : v = next2.natAbs
        · rw [e, Function.update_same] at hval2
          rcases litSign_cases next2 with h | h <;> omega
        · rw [Function.update_noteq e, hval1] at hval2
          have hv2 : IsVar s v := by
            have : IsVar s1 v := hv
            unfold IsVar at this ⊢
            rw [← hvars1]
            exact this
          rcases b3 v hv2 hval2 with h | h
          · exact h
          · exfalso
            apply e
            rw [habs, ← h]
            rfl
      · exact typed_update s1.value (by rw [hval1]; exact ht1) _ _

end Solver

end EasySAT

namespace EasySAT

namespace Solver

theorem bFrame_refl (s : Solver) : BFrame s s := rfl

theorem bFrame_trans {s1 s2 s3 : Solver} (h12 : BFrame s1 s2) (h23 : BFrame s2 s3) :
    BFrame s1 s3 := by
  unfold BFrame at *
  have e : ({ s3 with
      value := s1.value, saved := s1.saved, vsids := s1.vsids, propagated := s1.propagated,
      trail := s1.trail, pos_in_trail := s1.pos_in_trail } : Solver) =
      { ({ s3 with
          value := s2.value, saved := s2.saved, vsids := s2.vsids, propagated := s2.propagated,
          trail := s2.trail, pos_in_trail := s2.pos_in_trail } : Solver) with
        value := s1.value, saved := s1.saved, vsids := s1.vsids, propagated := s1.propagated,
        trail := s1.trail, pos_in_trail := s1.pos_in_trail } := rfl
  rw [e, h23, h12]

theorem unassign_bFrame (s : Solver) (lit : Int) : BFrame s (unassign s lit) := by
  unfold unassign
  dsimp only
  split_ifs <;> rfl

theorem backtrackLoop_bFrame (bound : Nat) :
    ∀ (n : Nat) (s : Solver), BFrame s (backtrackLoop bound n s) := by
  intro n
  induction n with
  | zero => intro s; exact bFrame_refl _
  | succ n ih =>
    intro s
    unfold backtrackLoop
    exact bFrame_trans (unassign_bFrame s _) (ih _)

/-- The method `backtrack` writes only the values, the saved phases, the heap,
`propagated`, the trail and the decision-level table. -/
theorem backtrack_bFrame (s : Solver) (L : Nat) : BFrame s (backtrack s L) := by
  unfold backtrack
  split_ifs
  · exact bFrame_refl _
  · exact bFrame_trans (backtrackLoop_bFrame _ _ s) rfl

theorem bFrame_restarts {s s2 : Solver} (h : BFrame s s2) : s2.restarts = s.restarts := by
  have e := congrArg Solver.restarts h
  exact e

theorem bFrame_reduces {s s2 : Solver} (h : BFrame s s2) : s2.reduces = s.reduces := by
  have e := congrArg Solver.reduces h
  exact e

theorem rFrame_reduces {s s2 : Solver} (h : RFrame s s2) : s2.reduces = s.reduces := by
  have e := congrArg Solver.reduces
    (h : ({ s2 with clause_DB := s.clause_DB, reduce_map := s.reduce_map } : Solver) = s)
  exact e

theorem restart_restarts (s : Solver) (coins : Nat → Nat) :
    (restart s coins).1.restarts = s.restarts := by
  have hb : (backtrack { s with fast_lbd_sum := 0, lbd_queue_size := 0, lbd_queue_pos := 0 }
      0).restarts = s.restarts := by
    have e := bFrame_restarts (backtrack_bFrame
      { s with fast_lbd_sum := 0, lbd_queue_size := 0, lbd_queue_pos := 0 } 0)
    exact e
  unfold restart
  dsimp only
  split_ifs <;> exact hb

theorem reduce_reduces (s : Solver) (coins : Nat → Nat) : (reduce s coins).1.reduces = 0 := by
  unfold reduce
  dsimp only
  have e := rFrame_reduces (reduceLoop_frame
    ((backtrack s 0).clause_DB.length - (backtrack s 0).origin_clauses)
    (backtrack s 0).origin_clauses (backtrack s 0).origin_clauses coins
    { backtrack s 0 with
      reduces := 0, reduce_limit := (backtrack s 0).reduce_limit + 512,
      reduce_map := resize (backtrack s 0).reduce_map (backtrack s 0).clause_DB.length 0 })
  exact e

/-- C23: `rephase` resets `rephases` and `reduce` resets `reduces`, but
`restart` does not reset `restarts`: it resets the LBD queue, backtracks and
rewrites the saved phases, and leaves the counter as it was.  In a state that
has counted one conflict, the counter is still 1 after `restart`. -/
theorem restart_keeps_restarts :
    (∀ (s : Solver) (coins : Nat → Nat),
      (restart s coins).1.restarts = s.restarts ∧ (reduce s coins).1.reduces = 0 ∧
        (rephase s).rephases = 0) ∧
    (restart countedState exampleCoins).1.restarts = 1 ∧
    (reduce countedState exampleCoins).1.reduces = 0 ∧ (rephase countedState).rephases = 0 :=
  ⟨fun s coins => ⟨restart_restarts s coins, reduce_reduces s coins, rfl⟩,
    restart_restarts countedState exampleCoins, reduce_reduces countedState exampleCoins, rfl⟩

end Solver

end EasySAT

namespace EasySAT

namespace Solver

/-- A quantity that `bump_var`, `setMark` and the writes of `learnt` leave
alone is left alone by the resolution loop of `analyze`. -/
theorem analyzeLoop_preserves {α : Type} (f : Solver → α)
    (hb : ∀ s v c, f (bump_var s v c) = f s) (hm : ∀ s v t, f (setMark s v t) = f s)
    (hl : ∀ (s : Solver) (l : List Int), f { s with learnt := l } = f s) (H : Nat) :
    ∀ (fuel : Nat) (conflict resolve_lit : Int) (n : Nat) (ct : Int) (bump : List Nat)
      (s : Solver) (r : Int × List Nat × Solver),
      analyzeLoop H fuel conflict resolve_lit n ct bump s = some r → f r.2.2 = f s := by
  have hlit : ∀ (st : Solver × List Nat × Int) (lit : Int), f (analyzeLit H st lit).1 = f st.1 := by
    intro st lit
    unfold analyzeLit
    dsimp only
    split_ifs
    · rw [hm, hb]
    · rw [hl, hm, hb]
    · rfl
  have hfold : ∀ (lits : List Int) (st : Solver × List Nat × Int),
      f (lits.foldl (analyzeLit H) st).1 = f st.1 := by
    intro lits
    induction lits with
    | nil => intro st; rfl
    | cons l ls ih =>
      intro st
      rw [List.foldl_cons, ih, hlit]
  intro fuel
  induction fuel with
  | zero =>
    intro conflict resolve_lit n ct bump s r h
    simp [analyzeLoop] at h
  | succ fuel ih =>
    intro conflict resolve_lit n ct bump s r h
    unfold analyzeLoop at h
    by_cases hbad : conflict < 0 ∨ s.clause_DB.length ≤ conflict.toNat
    · rw [if_pos hbad] at h
      simp at h
    · rw [if_neg hbad] at h
      have a1 : f (analyzeClause H s conflict.toNat resolve_lit bump ct).1 = f s :=
        hfold _ (s, bump, ct)
      generalize analyzeClause H s conflict.toNat resolve_lit bump ct = st at h a1
      cases hf : findResolve st.1 H n with
      | none => rw [hf] at h; simp at h
      | some x =>
        obtain ⟨lit, n2⟩ := x
        rw [hf] at h
        dsimp only at h
        by_cases hct : st.2.2 - 1 > 0
        · rw [if_pos hct] at h
          rw [ih _ _ _ _ _ _ r h, hm, a1]
        · rw [if_neg hct] at h
          simp only [Option.some.injEq] at h
          rw [← h]
          show f (setMark st.1 lit.natAbs 0) = f s
          rw [hm, a1]

end Solver

end EasySAT

namespace EasySAT

namespace Solver

theorem bFrame_lbdFields {s s2 : Solver} (h : BFrame s s2) : lbdFields s2 = lbdFields s := by
  unfold BFrame at h
  have e := congrArg lbdFields h
  exact e

theorem bump_var_lbdFields (s : Solver) (v : Nat) (c : ℚ) :
    lbdFields (bump_var s v c) = lbdFields s := by
  unfold bump_var
  dsimp only
  split_ifs <;> rfl

theorem foldl_lbdStep_lbdFields :
    ∀ (l : List Int) (st : Solver × Int), lbdFields (l.foldl lbdStep st).1 = lbdFields st.1 := by
  intro l
  induction l with
  | nil => intro st; rfl
  | cons a l ih =>
    intro st
    rw [List.foldl_cons, ih]
    unfold lbdStep
    split_ifs <;> rfl

theorem chooseLevel_lbdFields (s : Solver) : lbdFields (chooseLevel s).2 = lbdFields s := by
  unfold chooseLevel
  split_ifs <;> rfl

theorem foldl_bumpStep_lbdFields (bt : Nat) :
    ∀ (l : List Nat) (s : Solver), lbdFields (l.foldl (bumpStep bt) s) = lbdFields s := by
  intro l
  induction l with
  | nil => intro s; rfl
  | cons a l ih =>
    intro s
    rw [List.foldl_cons, ih]
    unfold bumpStep
    split_ifs
    · exact bump_var_lbdFields _ _ _
    · rfl

theorem pushLbd_congr {x s : Solver} (h : lbdFields x = lbdFields s) (lbd : Int) :
    lbdFields (pushLbd x lbd) = lbdFields (pushLbd s lbd) := by
  simp only [lbdFields, Prod.mk.injEq] at h
  obtain ⟨h1, h2, h3, h4, h5⟩ := h
  unfold pushLbd
  dsimp only
  rw [h2]
  by_cases hs : s.lbd_queue_size < 50
  · rw [if_pos hs, if_pos hs]
    dsimp only
    rw [h3]
    by_cases hp : s.lbd_queue_pos + 1 = 50
    · rw [if_pos hp, if_pos hp]
      simp only [lbdFields, h1, h2, h3, h4, h5]
    · rw [if_neg hp, if_neg hp]
      simp only [lbdFields, h1, h2, h3, h4, h5]
  · rw [if_neg hs, if_neg hs]
    dsimp only
    rw [h3]
    by_cases hp : s.lbd_queue_pos + 1 = 50
    · rw [if_pos hp, if_pos hp]
      simp only [lbdFields, h1, h2, h3, h4, h5]
    · rw [if_neg hp, if_neg hp]
      simp only [lbdFields, h1, h2, h3, h4, h5]

/-- A call of `analyze` that returns 0 changes the LBD bookkeeping as
`pushLbd` with the LBD it outputs does. -/
theorem analyze_lbdFields {s : Solver} {conflict bt : Nat} {lbd : Int} {s2 : Solver}
    (h : analyze s conflict = some (0, bt, lbd, s2)) :
    lbdFields s2 = lbdFields (pushLbd s lbd) := by
  unfold analyze at h
  by_cases h0 : conflictLevel s conflict = 0
  · rw [if_pos h0] at h
    simp at h
  · rw [if_neg h0] at h
    cases hl : analyzeLoop (conflictLevel s conflict) (s.trail.length + 1) (conflict : Int) 0
        s.trail.length 0 [] { startAnalyze s with learnt := [0] } with
    | none => rw [hl] at h; simp at h
    | some r =>
      obtain ⟨resolve_lit, bump, s3⟩ := r
      rw [hl] at h
      have a1 : lbdFields s3 = lbdFields s :=
        analyzeLoop_preserves lbdFields bump_var_lbdFields (fun _ _ _ => rfl) (fun _ _ => rfl)
          _ _ _ _ _ _ _ _ _ hl
      simp only [Option.some.injEq, Prod.mk.injEq, true_and] at h
      obtain ⟨_, h2, h3⟩ := h
      rw [← h3, ← h2]
      unfold finishAnalyze
      dsimp only
      rw [foldl_bumpStep_lbdFields, chooseLevel_lbdFields]
      apply pushLbd_congr
      rw [foldl_lbdStep_lbdFields]
      exact a1

theorem restart_lbdFields (s : Solver) (coins : Nat → Nat) :
    lbdFields (restart s coins).1 = (s.lbd_queue, 0, 0, 0, s.slow_lbd_sum) := by
  have hb : lbdFields (backtrack
      { s with fast_lbd_sum := 0, lbd_queue_size := 0, lbd_queue_pos := 0 } 0) =
      (s.lbd_queue, 0, 0, 0, s.slow_lbd_sum) := by
    have e := bFrame_lbdFields (backtrack_bFrame
      { s with fast_lbd_sum := 0, lbd_queue_size := 0, lbd_queue_pos := 0 } 0)
    exact e
  unfold restart
  dsimp only
  split_ifs <;> exact hb

theorem lbdInv_congr {all cur : List Int} {s s2 : Solver} (h : lbdFields s2 = lbdFields s)
    (hi : LbdInv all cur s) : LbdInv all cur s2 := by
  simp only [lbdFields, Prod.mk.injEq] at h
  obtain ⟨h1, h2, h3, h4, h5⟩ := h
  unfold LbdInv LbdSums at *
  rw [h1, h2, h3, h4, h5]
  exact hi

theorem sum_take_fifty (cur : List Int) (h : 50 ≤ cur.length) :
    (cur.take 50).sum = (cur.take 49).sum + cur.getD 49 0 := by
  have h49 : 49 < cur.length := by omega
  rw [show (50 : Nat) = 49 + 1 from rfl, List.take_succ, List.getElem?_eq_getElem h49,
    List.getD_eq_getElem _ _ h49]
  simp only [Option.toList, List.sum_append, List.sum_cons, List.sum_nil, add_zero]

/-- One push on the LBD queue keeps its invariant. -/
theorem lbdInv_push {all cur : List Int} {s : Solver} (lbd : Int) (hi : LbdInv all cur s) :
    LbdInv (lbd :: all) (lbd :: cur) (pushLbd s lbd) := by
  obtain ⟨⟨hsize, hfast, hslow⟩, hpos, hq⟩ := hi
  have hmin : (if lbd > 50 then 50 else (lbd : ℚ)) = ((min lbd 50 : Int) : ℚ) := by
    by_cases hl : lbd > 50
    · rw [if_pos hl, min_eq_right (le_of_lt hl)]
      norm_num
    · rw [if_neg hl, min_eq_left (not_lt.1 hl)]
  have hslow2 : s.slow_lbd_sum + (if lbd > 50 then 50 else (lbd : ℚ)) =
      ((((lbd :: all).map (fun l => min l 50)).sum : Int) : ℚ) := by
    rw [hmin, hslow, List.map_cons, List.sum_cons]
    push_cast
    ring
  by_cases hn : cur.length < 50
  · have hs : s.lbd_queue_size < 50 := by rw [hsize]; omega
    have hp : s.lbd_queue_pos = cur.length := by rw [hpos]; omega
    have hfast2 : s.fast_lbd_sum + (lbd : ℚ) = ((((lbd :: cur).take 50).sum : Int) : ℚ) := by
      rw [hfast, List.take_of_length_le (by omega), List.take_of_length_le
        (by rw [List.length_cons]; omega), List.sum_cons]
      push_cast
      ring
    have hq2 : ∀ i, i < (lbd :: cur).length → i < 50 →
        Function.update s.lbd_queue s.lbd_queue_pos lbd (((lbd :: cur).length - 1 - i) % 50) =
          (lbd :: cur).getD i 0 := by
      intro i hi1 hi2
      rw [List.length_cons] at hi1
      rw [List.length_cons]
      cases i with
      | zero =>
        have : (cur.length + 1 - 1 - 0) % 50 = s.lbd_queue_pos := by rw [hp]; omega
        rw [this, Function.update_same]
        rfl
      | succ k =>
        have hne : (cur.length + 1 - 1 - (k + 1)) % 50 ≠ s.lbd_queue_pos := by rw [hp]; omega
        rw [Function.update_noteq hne]
        have e := hq k (by omega) (by omega)
        have : (cur.length + 1 - 1 - (k + 1)) % 50 = (cur.length - 1 - k) % 50 := by omega
        rw [this, e]
        rfl
    unfold pushLbd
    dsimp only
    rw [if_pos hs]
    dsimp only
    by_cases hp50 : s.lbd_queue_pos + 1 = 50
    · rw [if_pos hp50]
      refine ⟨⟨?_, hfast2, hslow2⟩, ?_, hq2⟩
      · show s.lbd_queue_size + 1 = min (cur.length + 1) 50
        rw [hsize]; omega
      · show 0 = (cur.length + 1) % 50
        omega
    · rw [if_neg hp50]
      refine ⟨⟨?_, hfast2, hslow2⟩, ?_, hq2⟩
      · show s.lbd_queue_size + 1 = min (cur.length + 1) 50
        rw [hsize]; omega
      · show s.lbd_queue_pos + 1 = (cur.length + 1) % 50
        omega
  · have hn2 : 50 ≤ cur.length := by omega
    have hs : ¬ s.lbd_queue_size < 50 := by rw [hsize]; omega
    have hold : s.lbd_queue s.lbd_queue_pos = cur.getD 49 0 := by
      have e := hq 49 (by omega) (by omega)
      have : (cur.length - 1 - 49) % 50 = s.lbd_queue_pos := by rw [hpos]; omega
      rw [this] at e
      exact e
    have hfast2 : s.fast_lbd_sum - (s.lbd_queue s.lbd_queue_pos : ℚ) + (lbd : ℚ) =
        ((((lbd :: cur).take 50).sum : Int) : ℚ) := by
      rw [hfast, hold, sum_take_fifty cur hn2, show (50 : Nat) = 49 + 1 from rfl,
        List.take_succ_cons, List.sum_cons]
      push_cast
      ring
    have hq2 : ∀ i, i < (lbd :: cur).length → i < 50 →
        Function.update s.lbd_queue s.lbd_queue_pos lbd (((lbd :: cur).length - 1 - i) % 50) =
          (lbd :: cur).getD i 0 := by
      intro i hi1 hi2
      rw [List.length_cons]
      cases i with
      | zero =>
        have : (cur.length + 1 - 1 - 0) % 50 = s.lbd_queue_pos := by rw [hpos]; omega
        rw [this, Function.update_same]
        rfl
      | succ k =>
        have hne : (cur.length + 1 - 1 - (k + 1)) % 50 ≠ s.lbd_queue_pos := by rw [hpos]; omega
        rw [Function.update_noteq hne]
        have e := hq k (by omega) (by omega)
        have : (cur.length + 1 - 1 - (k + 1)) % 50 = (cur.length - 1 - k) % 50 := by omega
        rw [this, e]
        rfl
    unfold pushLbd
    dsimp only
    rw [if_neg hs]
    dsimp only
    by_cases hp50 : s.lbd_queue_pos + 1 = 50
    · rw [if_pos hp50]
      refine ⟨⟨?_, hfast2, hslow2⟩, ?_, hq2⟩
      · show s.lbd_queue_size = min (cur.length + 1) 50
        rw [hsize]; omega
      · show 0 = (cur.length + 1) % 50
        omega
    · rw [if_neg hp50]
      refine ⟨⟨?_, hfast2, hslow2⟩, ?_, hq2⟩
      · show s.lbd_queue_size = min (cur.length + 1) 50
        rw [hsize]; omega
      · show s.lbd_queue_pos + 1 = (cur.length + 1) % 50
        omega

theorem lbdRun_inv {all cur : List Int} {s : Solver} (h : LbdRun all cur s) :
    LbdInv all cur s := by
  induction h with
  | start s0 =>
    refine ⟨⟨rfl, ?_, ?_⟩, rfl, ?_⟩
    · show (0 : ℚ) = _
      simp
    · show (0 : ℚ) = _
      simp
    · intro i hi
      simp at hi
  | analyzed conflict bt lbd s2 _ ha ih =>
    exact lbdInv_congr (analyze_lbdFields ha) (lbdInv_push lbd ih)
  | @restarted all cur s coins _ ih =>
    obtain ⟨⟨_, _, hslow⟩, _, _⟩ := ih
    have e := restart_lbdFields s coins
    simp only [lbdFields, Prod.mk.injEq] at e
    obtain ⟨_, e2, e3, e4, e5⟩ := e
    refine ⟨⟨?_, ?_, ?_⟩, ?_, ?_⟩
    · rw [e2]; rfl
    · rw [e4]; simp
    · rw [e5]; exact hslow
    · rw [e3]; rfl
    · intro i hi
      simp at hi
  | other s2 _ hf ih => exact lbdInv_congr hf ih

end Solver

end EasySAT

namespace EasySAT

namespace Solver

/-- C22: in every state reached from `alloc_memory` by calls of `analyze` that
return 0, calls of `restart` and steps that leave the LBD bookkeeping alone,
`lbd_queue_size` is `min n 50` and `fast_lbd_sum` is the sum of the last
`min n 50` LBDs output by `analyze`, where `n` counts the calls of `analyze`
since the most recent restart (or since the initialisation), and
`slow_lbd_sum` is the sum of `min lbd 50` over all calls of `analyze` since
the initialisation. -/
theorem lbd_queue_sums (all cur : List Int) (s : Solver) (h : LbdRun all cur s) :
    LbdSums all cur s :=
  (lbdRun_inv h).1

set_option maxRecDepth 100000 in
/-- C22 instance: the first conflict after the initialisation, analysed with
LBD 1, leaves one entry in the queue and both sums at 1; a restart then
empties the queue and keeps the slow sum. -/
theorem lbd_queue_sums_witness :
    (LbdRun [1] [1] analyzedState ∧ LbdSums [1] [1] analyzedState) ∧
    analyzedState.lbd_queue_size = 1 ∧ analyzedState.fast_lbd_sum = 1 ∧
    analyzedState.slow_lbd_sum = 1 ∧
    (restart analyzedState exampleCoins).1.lbd_queue_size = 0 ∧
    (restart analyzedState exampleCoins).1.slow_lbd_sum = 1 := by
  have h : (analyze analysisState 1).map (fun r => (r.1, r.2.2.1)) = some (0, 1) := by
    with_unfolding_all decide
  cases hr : analyze analysisState 1 with
  | none => rw [hr] at h; simp at h
  | some r =>
    obtain ⟨res, bt, lbd, s2⟩ := r
    rw [hr] at h
    simp only [Option.map_some', Option.some.injEq, Prod.mk.injEq] at h
    have hs : analyzedState = s2 := by
      unfold analyzedState
      rw [hr]
    rw [h.1, h.2] at hr
    have run : LbdRun [1] [1] analyzedState := by
      rw [hs]
      exact LbdRun.analyzed 1 bt 1 s2 (LbdRun.other analysisState (LbdRun.start init) rfl) hr
    have sums := lbd_queue_sums [1] [1] analyzedState run
    have sums2 := lbd_queue_sums [1] [] _ (LbdRun.restarted exampleCoins run)
    refine ⟨⟨run, sums⟩, sums.1, ?_, ?_, sums2.1, ?_⟩
    · rw [sums.2.1]; simp
    · rw [sums.2.2]; simp
    · rw [sums2.2.2]; simp

end Solver

end EasySAT

namespace EasySAT

namespace Solver

theorem litAt_of_db {s s2 : Solver} (cref : Nat)
    (h : s2.clause_DB.getD cref default = s.clause_DB.getD cref default) (x : Nat) :
    litAt s2 cref x = litAt s cref x := by
  unfold litAt
  rw [h]

/-- The fields that a step writing only the clause database and the watch
lists leaves alone. -/
theorem step_fields {s s2 : Solver}
    (he : s2 = { s with clause_DB := s2.clause_DB, watches := s2.watches }) :
    s2.value = s.value ∧ s2.trail = s.trail ∧ s2.level = s.level ∧
    s2.pos_in_trail = s.pos_in_trail ∧ s2.propagated = s.propagated ∧ s2.reason = s.reason ∧
    s2.vars = s.vars := by
  have e1 := congrArg Solver.value he
  have e2 := congrArg Solver.trail he
  have e3 := congrArg Solver.level he
  have e4 := congrArg Solver.pos_in_trail he
  have e5 := congrArg Solver.propagated he
  have e6 := congrArg Solver.reason he
  have e7 := congrArg Solver.vars he
  exact ⟨e1, e2, e3, e4, e5, e6, e7⟩

theorem stepFrame_getD {p : Int} {s s2 : Solver} {cref : Nat} (hf : StepFrame p s s2 cref)
    (c : Nat) (hc : c ≠ cref) : s2.clause_DB.getD c default = s.clause_DB.getD c default := by
  rw [hf.hdb]
  exact getD_set_ne _ _ _ _ _ (Ne.symm hc)

theorem stepFrame_length {p : Int} {s s2 : Solver} {cref : Nat} (hf : StepFrame p s s2 cref) :
    s2.clause_DB.length = s.clause_DB.length := by
  rw [hf.hdb, List.length_set]

/-- A step of the watch loop that writes only the clause of the watcher read
and watch lists keeps the invariant of the assignment. -/
theorem core_step {f : Nat} {p : Int} {s s2 : Solver} {cref : Nat} (hc : Core f s)
    (hf : StepFrame p s s2 cref)
    (he : s2 = { s with clause_DB := s2.clause_DB, watches := s2.watches })
    (ht : LitsTyped s2) : Core f s2 := by
  obtain ⟨hval, htrail, hlevel, hpos, hprop, _, _⟩ := step_fields he
  have hlen := stepFrame_length hf
  refine ⟨ht, ?_, ?_, ?_, ?_, ?_, ?_, ?_, ?_⟩
  · rw [hval]; exact hc.valRange
  · unfold TrailConsistent; rw [htrail, hval, hlevel, hpos]; exact hc.cons
  · rw [hval, htrail]; exact hc.onTrail
  · rw [htrail]; exact hc.nodup
  · rw [hpos]; exact hc.sorted
  · rw [hpos]; exact hc.tableLe
  · rw [hprop, htrail]; exact hc.fLe
  · intro c x hcl hx hv hmem
    rw [hval] at hv
    rw [htrail] at hmem
    rw [hlen] at hcl
    rw [hval, hlevel]
    by_cases hcc : c = cref
    · subst hcc
      rcases hf.hwatched x hx with ⟨y, hy, e⟩ | hne
      · rw [e] at hv hmem ⊢
        obtain ⟨m, hm, hm1, hm2⟩ := hc.sound c y hcl hy hv hmem
        exact ⟨m, (hf.hperm.mem_iff).2 hm, hm1, hm2⟩
      · exact absurd hv hne
    · have hsame := stepFrame_getD hf c hcc
      rw [litAt_of_db c hsame] at hv hmem ⊢
      rw [hsame]
      exact hc.sound c x hcl hx hv hmem

/-- An assigned variable is not the variable of an unassigned literal. -/
theorem var_ne_of_assigned {value : Nat → Int} {l m : Int} (hl : value l.natAbs = 0)
    (hm : value m.natAbs ≠ 0) : m.natAbs ≠ l.natAbs := by
  intro e
  rw [e] at hm
  exact hm hl

theorem trail_var_assigned_cons {s : Solver} (hc : TrailConsistent s) (i : Nat)
    (hi : i < s.trail.length) : s.value (s.trail.getD i 0).natAbs ≠ 0 := by
  rw [(hc i hi).1]
  rcases litSign_cases (s.trail.getD i 0) with h | h <;> rw [h] <;> decide

theorem trail_var_assigned {f : Nat} {s : Solver} (hc : Core f s) (i : Nat)
    (hi : i < s.trail.length) : s.value (s.trail.getD i 0).natAbs ≠ 0 :=
  trail_var_assigned_cons hc.cons i hi

/-- Assigning an unassigned nonzero literal at the current decision level
keeps the invariant of the assignment. -/
theorem core_assign {f : Nat} {s : Solver} (hc : Core f s) (l : Int) (lvl : Nat) (r : Int)
    (hl0 : l ≠ 0) (hv : s.value l.natAbs = 0) (hlvl : lvl = s.pos_in_trail.length) :
    Core f (assign s l lvl r) := by
  have hlen : (s.trail ++ [l]).length = s.trail.length + 1 := by simp
  have hold : ∀ i, i < s.trail.length → (s.trail ++ [l]).getD i 0 = s.trail.getD i 0 :=
    fun i hi => getD_append_left _ _ _ _ hi
  have hnew : (s.trail ++ [l]).getD s.trail.length 0 = l := by
    rw [getD_append_right _ _ _ _ (le_refl _), Nat.sub_self]
    rfl
  have hne : ∀ i, i < s.trail.length → (s.trail.getD i 0).natAbs ≠ l.natAbs :=
    fun i hi => var_ne_of_assigned hv (trail_var_assigned hc i hi)
  refine ⟨?_, ?_, ?_, ?_, ?_, hc.sorted, hc.tableLe, ?_, ?_⟩
  · refine ⟨?_, hc.typed.2⟩
    intro m hm
    have hm2 : m ∈ s.trail ++ [l] := hm
    rw [List.mem_append] at hm2
    rcases hm2 with h | h
    · exact hc.typed.1 m h
    · have : m = l := by simpa using h
      rw [this]
      exact hl0
  · intro v
    show Function.update s.value l.natAbs (litSign l) v = 0 ∨
      Function.update s.value l.natAbs (litSign l) v = 1 ∨
      Function.update s.value l.natAbs (litSign l) v = -1
    by_cases hvl : v = l.natAbs
    · rw [hvl, Function.update_same]
      exact Or.inr (litSign_cases l)
    · rw [Function.update_noteq hvl]
      exact hc.valRange v
  · intro i hi
    have hi2 : i < s.trail.length + 1 := by rw [← hlen]; exact hi
    show Function.update s.value l.natAbs (litSign l) ((s.trail ++ [l]).getD i 0).natAbs =
        litSign ((s.trail ++ [l]).getD i 0) ∧
      Function.update s.level l.natAbs lvl ((s.trail ++ [l]).getD i 0).natAbs =
        s.pos_in_trail.countP (fun b => Nat.ble b i)
    by_cases hil : i < s.trail.length
    · rw [hold i hil, Function.update_noteq (hne i hil), Function.update_noteq (hne i hil)]
      exact hc.cons i hil
    · have : i = s.trail.length := by omega
      rw [this, hnew, Function.update_same, Function.update_same, hlvl]
      refine ⟨rfl, ?_⟩
      symm
      rw [List.countP_eq_length]
      intro b hb
      obtain ⟨a, ha, e⟩ := List.mem_iff_getElem.1 hb
      have h1 := hc.tableLe a ha
      rw [List.getD_eq_getElem _ _ ha, e] at h1
      have h2 := hc.fLe
      simp only [Nat.ble_eq]
      omega
  · intro v hvne
    have hvne2 : Function.update s.value l.natAbs (litSign l) v ≠ 0 := hvne
    show ∃ i, i < (s.trail ++ [l]).length ∧ ((s.trail ++ [l]).getD i 0).natAbs = v
    by_cases hvl : v = l.natAbs
    · exact ⟨s.trail.length, by omega, by rw [hnew, hvl]⟩
    · rw [Function.update_noteq hvl] at hvne2
      obtain ⟨i, hi, e⟩ := hc.onTrail v hvne2
      exact ⟨i, by omega, by rw [hold i hi]; exact e⟩
  · intro i k hi hk
    have hi2 : i < s.trail.length + 1 := by rw [← hlen]; exact hi
    have hk2 : k < s.trail.length + 1 := by rw [← hlen]; exact hk
    show ((s.trail ++ [l]).getD i 0).natAbs = ((s.trail ++ [l]).getD k 0).natAbs → i = k
    intro e
    by_cases hil : i < s.trail.length
    · by_cases hkl : k < s.trail.length
      · rw [hold i hil, hold k hkl] at e
        exact hc.nodup i k hil hkl e
      · have : k = s.trail.length := by omega
        rw [this, hnew, hold i hil] at e
        exact absurd e (hne i hil)
    · have hie : i = s.trail.length := by omega
      by_cases hkl : k < s.trail.length
      · rw [hie, hnew, hold k hkl] at e
        exact absurd e.symm (hne k hkl)
      · omega
  · have := hc.fLe
    refine ⟨this.1, ?_⟩
    show s.propagated ≤ (s.trail ++ [l]).length
    omega
  · intro c x hcl hx hvf hmem
    have hvf2 : litValue (Function.update s.value l.natAbs (litSign l)) (litAt s c x) = -1 := hvf
    have hmem2 : -(litAt s c x) ∈ (s.trail ++ [l]).take f := hmem
    have hfl : f ≤ s.trail.length := by have := hc.fLe; omega
    rw [List.take_append_of_le_length hfl] at hmem2
    have hon : -(litAt s c x) ∈ s.trail := List.mem_of_mem_take hmem2
    obtain ⟨t, ht, et⟩ := (mem_iff_getD _ _).1 hon
    have hvar : (litAt s c x).natAbs ≠ l.natAbs := by
      have := hne t ht
      rw [et, Int.natAbs_neg] at this
      exact this
    rw [litValue_update_other _ _ _ _ hvar] at hvf2
    obtain ⟨m, hm, hm1, hm2⟩ := hc.sound c x hcl hx hvf2 hmem2
    have hmvar : m.natAbs ≠ l.natAbs :=
      var_ne_of_assigned hv (value_ne_zero_of_lit (Or.inl hm1))
    refine ⟨m, hm, ?_, ?_⟩
    · show litValue (Function.update s.value l.natAbs (litSign l)) m = 1
      rw [litValue_update_other _ _ _ _ hmvar]
      exact hm1
    · show Function.update s.level l.natAbs lvl m.natAbs ≤
        Function.update s.level l.natAbs lvl (litAt s c x).natAbs
      rw [Function.update_noteq hmvar, Function.update_noteq hvar]
      exact hm2

end Solver

end EasySAT

namespace EasySAT

namespace Solver

theorem stepFrame_mem {p : Int} {s s2 : Solver} {cref : Nat} (hf : StepFrame p s s2 cref)
    (c : Nat) (m : Int) :
    m ∈ (s2.clause_DB.getD c default).lit ↔ m ∈ (s.clause_DB.getD c default).lit := by
  by_cases hcc : c = cref
  · rw [hcc]
    exact hf.hperm.mem_iff
  · rw [stepFrame_getD hf c hcc]

/-- A step of the watch loop that writes only the clause of the watcher read
and watch lists keeps the reasons: the clause it permutes is not the reason of
a trail literal. -/
theorem reasons_step {f : Nat} {p : Int} {s s2 : Solver} {cref : Nat} (hr : Reasons s)
    (hc : Core f s) (hf : StepFrame p s s2 cref)
    (he : s2 = { s with clause_DB := s2.clause_DB, watches := s2.watches }) : Reasons s2 := by
  obtain ⟨hval, htrail, hlevel, hpos, hprop, hreason, _⟩ := step_fields he
  have hlen := stepFrame_length hf
  intro j hj hnp hlv
  rw [htrail] at hj
  rw [hpos] at hnp
  rw [hlevel, htrail] at hlv
  obtain ⟨c0, e1, e2, e3, e4⟩ := hr j hj hnp hlv
  have hs : s2.clause_DB.getD c0 default = s.clause_DB.getD c0 default := by
    by_cases hcc : c0 = cref
    · rcases hf.hsame with h | h
      · rw [hcc]; exact h
      · exfalso
        apply h
        rw [← hcc, e3]
        exact trailTrue_of_cons hc.cons _ (getD_mem _ _ hj)
    · exact stepFrame_getD hf c0 hcc
  unfold ReasonAt
  rw [hreason, htrail, hlen]
  refine ⟨c0, e1, e2, ?_, ?_⟩
  · rw [litAt_of_db c0 hs]; exact e3
  · intro k hk1 hk2
    rw [hs] at hk2
    rw [litAt_of_db c0 hs]
    exact e4 k hk1 hk2

/-- Assigning an unassigned literal keeps the reasons, when the reason given
is a stored clause with the literal at position 0 and false literals
elsewhere. -/
theorem reasons_assign {s : Solver} (hr : Reasons s) (hc : TrailConsistent s) (l : Int)
    (lvl : Nat) (r : Int) (hv : s.value l.natAbs = 0)
    (hnew : (∀ b, b ∈ s.pos_in_trail → b ≠ s.trail.length) → 0 < lvl →
      ∃ cref : Nat, r = (cref : Int) ∧ cref < s.clause_DB.length ∧ litAt s cref 0 = l ∧
        ∀ k, 1 ≤ k → k < (s.clause_DB.getD cref default).lit.length →
          ∃ i, i < s.trail.length ∧ s.trail.getD i 0 = -(litAt s cref k)) :
    Reasons (assign s l lvl r) := by
  have hlen : (s.trail ++ [l]).length = s.trail.length + 1 := by simp
  have hold : ∀ i, i < s.trail.length → (s.trail ++ [l]).getD i 0 = s.trail.getD i 0 :=
    fun i hi => getD_append_left _ _ _ _ hi
  have hnewl : (s.trail ++ [l]).getD s.trail.length 0 = l := by
    rw [getD_append_right _ _ _ _ (le_refl _), Nat.sub_self]
    rfl
  have hne : ∀ i, i < s.trail.length → (s.trail.getD i 0).natAbs ≠ l.natAbs :=
    fun i hi => var_ne_of_assigned hv (trail_var_assigned_cons hc i hi)
  intro j hj hnp hlv
  have hj2 : j < s.trail.length + 1 := by rw [← hlen]; exact hj
  have hnp2 : ∀ b, b ∈ s.pos_in_trail → b ≠ j := hnp
  have hlv2 : 0 < Function.update s.level l.natAbs lvl ((s.trail ++ [l]).getD j 0).natAbs := hlv
  show ∃ cref : Nat,
    Function.update s.reason l.natAbs r ((s.trail ++ [l]).getD j 0).natAbs = (cref : Int) ∧
    cref < s.clause_DB.length ∧ litAt s cref 0 = (s.trail ++ [l]).getD j 0 ∧
    ∀ k, 1 ≤ k → k < (s.clause_DB.getD cref default).lit.length →
      ∃ i, i < j ∧ (s.trail ++ [l]).getD i 0 = -(litAt s cref k)
  by_cases hjl : j < s.trail.length
  · rw [hold j hjl] at hlv2 ⊢
    rw [Function.update_noteq (hne j hjl)] at hlv2 ⊢
    obtain ⟨c0, e1, e2, e3, e4⟩ := hr j hjl hnp2 hlv2
    refine ⟨c0, e1, e2, e3, ?_⟩
    intro k hk1 hk2
    obtain ⟨i, hi, e⟩ := e4 k hk1 hk2
    exact ⟨i, hi, by rw [hold i (by omega)]; exact e⟩
  · have hje : j = s.trail.length := by omega
    rw [hje] at hnp2 hlv2 ⊢
    rw [hnewl] at hlv2 ⊢
    rw [Function.update_same] at hlv2 ⊢
    obtain ⟨c0, e1, e2, e3, e4⟩ := hnew hnp2 hlv2
    refine ⟨c0, e1, e2, e3, ?_⟩
    intro k hk1 hk2
    obtain ⟨i, hi, e⟩ := e4 k hk1 hk2
    exact ⟨i, hi, by rw [hold i hi]; exact e⟩

/-- A step of the watch loop that writes only the clause of the watcher read
and watch lists keeps the literals in range. -/
theorem ranged_step {p : Int} {s s2 : Solver} {cref : Nat} (hr : Ranged s)
    (hf : StepFrame p s s2 cref)
    (he : s2 = { s with clause_DB := s2.clause_DB, watches := s2.watches }) : Ranged s2 := by
  obtain ⟨hval, _, _, _, _, _, hvars⟩ := step_fields he
  have hlen := stepFrame_length hf
  unfold Ranged IsVar
  rw [hval, hvars, hlen]
  refine ⟨hr.1, ?_⟩
  intro c hc l hl
  exact hr.2 c hc l ((stepFrame_mem hf c l).1 hl)

/-- Assigning a literal of a variable in range keeps the literals in range. -/
theorem ranged_assign {s : Solver} (hr : Ranged s) (l : Int) (lvl : Nat) (r : Int)
    (hl : IsVar s l.natAbs) : Ranged (assign s l lvl r) := by
  refine ⟨?_, hr.2⟩
  intro v hv
  have hv2 : Function.update s.value l.natAbs (litSign l) v ≠ 0 := hv
  show IsVar s v
  by_cases hvl : v = l.natAbs
  · rw [hvl]; exact hl
  · rw [Function.update_noteq hvl] at hv2
    exact hr.1 v hv2

/-- A true literal stays true when an unassigned literal is assigned. -/
theorem true_after_assign {value : Nat → Int} {l m : Int} (hv : value l.natAbs = 0)
    (hm : litValue value m = 1) :
    litValue (Function.update value l.natAbs (litSign l)) m = 1 := by
  rw [litValue_update_other _ _ _ _ (var_ne_of_assigned hv (value_ne_zero_of_lit (Or.inl hm)))]
  exact hm

/-- The trail literal being propagated is at the current decision level. -/
theorem ginv_level {p : Int} {i j n : Nat} {s : Solver} (hinv : GInv p i j n s) :
    s.level p.natAbs = s.pos_in_trail.length := by
  have h1 := hinv.hprop
  have h2 := hinv.core.fLe
  rw [← hinv.hp]
  exact level_eq_table hinv.core.cons _ (by omega) hinv.core.tableLe

end Solver

end EasySAT

namespace EasySAT

namespace Solver

theorem ginv_keep {p : Int} {i j n : Nat} {s s2 : Solver} {cref : Nat}
    (hinv : GInv p i j (n + 1) s) (hw2 : WInv p (i + 1) (j + 1) n s2)
    (hf : StepFrame p s s2 cref) (hk : KeepStep p j s s2 cref) :
    GInv p (i + 1) (j + 1) n s2 := by
  obtain ⟨he, ⟨w0, hw0, hws⟩, m0, hm0, hm0v⟩ := hk
  obtain ⟨hval, htrail, hlevel, hpos, hprop, hreason, _⟩ := step_fields he
  have hjl : j < (s.watches p).length := by
    have := hinv.winv.hlen; have := hinv.winv.hji; omega
  refine ⟨hw2, ?_, ?_, ?_, reasons_step hinv.reasons hinv.core hf he,
    ranged_step hinv.ranged hf he, ?_⟩
  · rw [hprop]; exact hinv.hprop
  · rw [hprop, htrail]; exact hinv.hp
  · rw [hprop]; exact core_step hinv.core hf he hw2.typed
  · intro w hw
    rw [hws, take_set_succ _ _ _ hjl, List.mem_append] at hw
    rw [hval]
    rcases hw with h | h
    · obtain ⟨m, hm, hmv⟩ := hinv.kept w h
      exact ⟨m, (stepFrame_mem hf _ m).2 hm, hmv⟩
    · have : w = w0 := by simpa using h
      rw [this, hw0]
      exact ⟨m0, hm0, hm0v⟩

theorem ginv_move {p : Int} {i j n : Nat} {s s2 : Solver} {cref : Nat}
    (hinv : GInv p i j (n + 1) s) (hw2 : WInv p (i + 1) j n s2)
    (hf : StepFrame p s s2 cref) (hk : MoveStep p s s2) :
    GInv p (i + 1) j n s2 := by
  obtain ⟨he, hws⟩ := hk
  obtain ⟨hval, htrail, hlevel, hpos, hprop, hreason, _⟩ := step_fields he
  refine ⟨hw2, ?_, ?_, ?_, reasons_step hinv.reasons hinv.core hf he,
    ranged_step hinv.ranged hf he, ?_⟩
  · rw [hprop]; exact hinv.hprop
  · rw [hprop, htrail]; exact hinv.hp
  · rw [hprop]; exact core_step hinv.core hf he hw2.typed
  · intro w hw
    rw [hws] at hw
    rw [hval]
    obtain ⟨m, hm, hmv⟩ := hinv.kept w hw
    exact ⟨m, (stepFrame_mem hf _ m).2 hm, hmv⟩

theorem ginv_unit {p : Int} {i j n : Nat} {s s2 : Solver} {cref : Nat}
    (hinv : GInv p i j (n + 1) s) (hw2 : WInv p (i + 1) (j + 1) n s2)
    (hf : StepFrame p s s2 cref) (hk : UnitStep p j s s2 cref) :
    GInv p (i + 1) (j + 1) n s2 := by
  obtain ⟨he, ⟨w0, hw0, hws⟩, hn1, hn2, h1p, hfalse⟩ := hk
  have hjl : j < (s.watches p).length := by
    have := hinv.winv.hlen; have := hinv.winv.hji; omega
  have hlen := stepFrame_length hf
  have hcl : cref < s2.clause_DB.length := by rw [hlen]; exact hf.hcref
  have hty2 := hw2.typed.2 cref hcl
  have hl0 : litAt s2 cref 0 ≠ 0 := hty2.2 0 (by omega)
  have hv0 : s.value (litAt s2 cref 0).natAbs = 0 :=
    litValue_zero_of (hinv.core.valRange _) hn1 hn2
  -- the state before the assignment
  have hf1 : StepFrame p s { s with clause_DB := s2.clause_DB, watches := s2.watches } cref :=
    ⟨hf.hcref, hf.hdb, hf.hperm, hf.hlbd, hf.hnegp, hf.hsame, hf.hwatched⟩
  have hty1 : LitsTyped { s with clause_DB := s2.clause_DB, watches := s2.watches } :=
    ⟨hinv.core.typed.1, hw2.typed.2⟩
  have hc1 : Core (s.propagated - 1) { s with clause_DB := s2.clause_DB, watches := s2.watches } :=
    core_step hinv.core hf1 rfl hty1
  have hr1 : Reasons { s with clause_DB := s2.clause_DB, watches := s2.watches } :=
    reasons_step hinv.reasons hinv.core hf1 rfl
  have hc2 := core_assign hc1 (litAt s2 cref 0) (s.level p.natAbs) (cref : Int) hl0 hv0
    (ginv_level hinv)
  have hr2 := reasons_assign hr1 hc1.cons (litAt s2 cref 0) (s.level p.natAbs) (cref : Int) hv0
    (by
      intro _ _
      refine ⟨cref, rfl, hcl, rfl, ?_⟩
      intro k hk1 hk2
      have hfk := hfalse k hk1 hk2
      have hon := false_on_trail hinv.core (litAt s2 cref k) (hty2.2 k hk2) hfk
      obtain ⟨t, ht, et⟩ := (mem_iff_getD _ _).1 hon
      exact ⟨t, ht, et⟩)
  rw [← he] at hc2 hr2
  have hprop : s2.propagated = s.propagated := by
    have e := congrArg Solver.propagated he
    exact e
  have htrail : s2.trail = s.trail ++ [litAt s2 cref 0] := by
    have e := congrArg Solver.trail he
    exact e
  have hval : s2.value = Function.update s.value (litAt s2 cref 0).natAbs
      (litSign (litAt s2 cref 0)) := by
    have e := congrArg Solver.value he
    exact e
  have hrg1 : Ranged { s with clause_DB := s2.clause_DB, watches := s2.watches } :=
    ranged_step hinv.ranged hf1 rfl
  have hrg2 := ranged_assign hrg1 (litAt s2 cref 0) (s.level p.natAbs) (cref : Int)
    (hrg1.2 cref hcl _ (getD_mem (s2.clause_DB.getD cref default).lit 0 (by omega)))
  rw [← he] at hrg2
  refine ⟨hw2, ?_, ?_, ?_, hr2, hrg2, ?_⟩
  · rw [hprop]; exact hinv.hprop
  · rw [hprop, htrail, getD_append_left _ _ _ _ (by
      have := hinv.hprop; have := hinv.core.fLe; omega)]
    exact hinv.hp
  · rw [hprop]; exact hc2
  · intro w hw
    rw [hws, take_set_succ _ _ _ hjl, List.mem_append] at hw
    rw [hval]
    rcases hw with h | h
    · obtain ⟨m, hm, hmv⟩ := hinv.kept w h
      exact ⟨m, (stepFrame_mem hf _ m).2 hm, true_after_assign hv0 hmv⟩
    · have : w = w0 := by simpa using h
      rw [this, hw0]
      refine ⟨litAt s2 cref 0, ?_, litValue_update_self _ _⟩
      exact getD_mem _ 0 (by omega)

theorem take_mem_of_lt (l : List Int) (f t : Nat) (ht : t < l.length) (htf : t < f) :
    l.getD t 0 ∈ l.take f := by
  rw [mem_iff_getD]
  refine ⟨t, ?_, getD_take l f t 0 htf⟩
  rw [List.length_take]
  omega

theorem ginv_conflict {p : Int} {i j n : Nat} {s s2 : Solver} {cref : Nat}
    (hinv : GInv p i j (n + 1) s) (hw2 : WReady s2) (hf : StepFrame p s s2 cref)
    (he : s2 = { s with clause_DB := s2.clause_DB, watches := s2.watches })
    (hall : AllFalse s2 cref) : Conflict s2 cref := by
  obtain ⟨hval, htrail, hlevel, hpos, hprop, hreason, _⟩ := step_fields he
  have hlen := stepFrame_length hf
  have hcl : cref < s2.clause_DB.length := by rw [hlen]; exact hf.hcref
  have hc2 : Core (s2.propagated - 1) s2 := by
    rw [hprop]; exact core_step hinv.core hf he hw2.2.2
  have hp1 : 1 ≤ s2.propagated := by rw [hprop]; exact hinv.hprop
  refine ⟨⟨hp1, hc2, hw2.1⟩, reasons_step hinv.reasons hinv.core hf he,
    ranged_step hinv.ranged hf he, hcl, hall, ?_⟩
  have hty2 := hw2.2.2.2 cref hcl
  have h0 := hall 0 (by omega)
  have hon := false_on_trail hc2 (litAt s2 cref 0) (hty2.2 0 (by omega)) h0
  obtain ⟨t, ht, et⟩ := (mem_iff_getD _ _).1 hon
  by_cases htf : t < s2.propagated - 1
  · exfalso
    have hmem : -(litAt s2 cref 0) ∈ s2.trail.take (s2.propagated - 1) := by
      rw [← et]
      exact take_mem_of_lt _ _ _ ht htf
    obtain ⟨m, hm, hm1, _⟩ := hc2.sound cref 0 hcl (by omega) h0 hmem
    obtain ⟨k, hk, ek⟩ := (mem_iff_getD _ _).1 hm
    have := hall k hk
    rw [ek, hm1] at this
    omega
  · have := level_eq_table hc2.cons t ht (fun a ha => by
      have := hc2.tableLe a ha
      omega)
    rw [et, Int.natAbs_neg] at this
    exact this

/-- One iteration of the watch loop keeps the invariants of the assignment
and the reasons, and a conflict it reports is at the current decision
level. -/
theorem watchStep_gpost {p : Int} {i j n : Nat} {s : Solver} (hinv : GInv p i j (n + 1) s) :
    GPost p i n (watchStep p n i j s) := by
  have hw := watchStep_wpost hinv.winv
  cases hstep : watchStep p n i j s with
  | next j2 s2 =>
    rw [hstep] at hw
    obtain ⟨hw2, cref, hf, hcase⟩ := hw
    show GInv p (i + 1) j2 n s2
    rcases hcase with ⟨hj, hk⟩ | ⟨hj, hk⟩ | ⟨hj, hk⟩
    · rw [hj] at hw2 ⊢
      exact ginv_keep hinv hw2 hf hk
    · rw [hj] at hw2 ⊢
      exact ginv_move hinv hw2 hf hk
    · rw [hj] at hw2 ⊢
      exact ginv_unit hinv hw2 hf hk
  | conflict cref s2 =>
    rw [hstep] at hw
    obtain ⟨hw2, hf, he, hall⟩ := hw
    exact ginv_conflict hinv hw2 hf he hall

end Solver

end EasySAT

namespace EasySAT

namespace Solver

theorem core_setWatch {f : Nat} {s : Solver} (hc : Core f s) (p : Int) (ws : List Watcher) :
    Core f (setWatch s p ws) :=
  ⟨hc.typed, hc.valRange, hc.cons, hc.onTrail, hc.nodup, hc.sorted, hc.tableLe, hc.fLe, hc.sound⟩

theorem take_succ_mem (l : List Int) (f : Nat) (x : Int) (hf : f < l.length)
    (h : x ∈ l.take (f + 1)) : x ∈ l.take f ∨ x = l.getD f 0 := by
  rw [List.take_succ, List.getElem?_eq_getElem hf, List.mem_append] at h
  rcases h with h | h
  · exact Or.inl h
  · right
    rw [List.getD_eq_getElem _ _ hf]
    simpa using h

/-- The frontier moves past the literal `p` once every clause that watches
`-p` holds a true literal. -/
theorem core_advance {s : Solver} {p : Int} (hc : Core (s.propagated - 1) s)
    (hprop : 1 ≤ s.propagated) (hp : s.trail.getD (s.propagated - 1) 0 = p)
    (hcov : ∀ c x, c < s.clause_DB.length → x < 2 → litAt s c x = -p →
      ∃ m, m ∈ (s.clause_DB.getD c default).lit ∧ litValue s.value m = 1) :
    Core s.propagated s := by
  have hfl := hc.fLe
  refine ⟨hc.typed, hc.valRange, hc.cons, hc.onTrail, hc.nodup, hc.sorted, ?_,
    ⟨le_refl _, hfl.2⟩, ?_⟩
  · intro a ha
    have := hc.tableLe a ha
    omega
  · intro c x hcl hx hv hmem
    have hsucc : s.propagated = s.propagated - 1 + 1 := by omega
    rw [hsucc] at hmem
    rcases take_succ_mem _ _ _ (by omega) hmem with h | h
    · exact hc.sound c x hcl hx hv h
    · rw [hp] at h
      have hlit : litAt s c x = -p := by omega
      obtain ⟨m, hm, hmv⟩ := hcov c x hcl hx hlit
      refine ⟨m, hm, hmv, ?_⟩
      have hlv : s.level (litAt s c x).natAbs = s.pos_in_trail.length := by
        rw [hlit, Int.natAbs_neg, ← hp]
        exact level_eq_table hc.cons _ (by omega) hc.tableLe
      rw [hlv]
      exact level_le_of_assigned hc _ (value_ne_zero_of_lit (Or.inl hmv))

theorem npos_of_litAt (s : Solver) (c x : Nat) (p : Int) (hx : x < 2) (h : litAt s c x = -p) :
    1 ≤ npos (s.clause_DB.getD c default) p := by
  unfold npos
  unfold litAt at h
  have : x = 0 ∨ x = 1 := by omega
  rcases this with e | e
  · rw [e] at h
    rw [if_pos h]
    omega
  · rw [e] at h
    rw [if_pos h]
    omega

/-- The watch loop keeps the invariants; when it runs to its end, every
clause that watches `-p` holds a true literal and the frontier moves past
`p`. -/
theorem propagateWatches_gpost (p : Int) :
    ∀ (n i j : Nat) (s : Solver), GInv p i j n s → GLoopPost (propagateWatches p n i j s) := by
  intro n
  induction n with
  | zero =>
    intro i j s hinv
    have hwr := (propagateWatches_wready p 0 i j s hinv.winv).1
    unfold propagateWatches at hwr ⊢
    show Steady (setWatch s p (resize (s.watches p) j default)) ∧
      Reasons (setWatch s p (resize (s.watches p) j default)) ∧
      Ranged (setWatch s p (resize (s.watches p) j default))
    refine ⟨⟨core_setWatch ?_ _ _, hwr.1⟩, hinv.reasons, hinv.ranged⟩
    apply core_advance hinv.core hinv.hprop hinv.hp
    intro c x hcl hx hlit
    have hcnt := hinv.winv.cntP c hcl
    have hil : i = (s.watches p).length := by have := hinv.winv.hlen; omega
    have hdrop : (s.watches p).drop i = [] := by
      rw [hil]
      exact List.drop_length _
    have h0 : countIdx c [] = 0 := rfl
    rw [hdrop, h0] at hcnt
    have hn := npos_of_litAt s c x p hx hlit
    obtain ⟨w, hw, ew⟩ := (countIdx_pos_iff c _).1 (by omega : 1 ≤ countIdx c ((s.watches p).take j))
    obtain ⟨m, hm, hmv⟩ := hinv.kept w hw
    rw [ew] at hm
    exact ⟨m, hm, hmv⟩
  | succ n ih =>
    intro i j s hinv
    have hstep := watchStep_gpost hinv
    unfold propagateWatches
    cases hws : watchStep p n i j s with
    | next j2 s2 =>
      rw [hws] at hstep
      exact ih _ _ _ hstep
    | conflict cref s2 =>
      rw [hws] at hstep
      exact hstep

/-- The method `propagate` keeps the invariants of the assignment, of the
watch lists and of the reasons: when it returns -1 everything on the trail
has been propagated, and when it returns a clause, that clause is falsified
and its first literal is at the current decision level. -/
theorem propagate_gpost :
    ∀ (fuel : Nat) (s : Solver) (r : Int) (s2 : Solver), Steady s → Reasons s → Ranged s →
      propagate fuel s = some (r, s2) → GPropagatePost r s2 := by
  intro fuel
  induction fuel with
  | zero =>
    intro s r s2 hst hr hrg hrun
    unfold propagate at hrun
    split_ifs at hrun with hlt
    simp only [Option.some.injEq, Prod.mk.injEq] at hrun
    rw [← hrun.1, ← hrun.2]
    have := hst.1.fLe
    exact ⟨fun _ => ⟨hst, hr, hrg, by omega⟩, fun h => absurd rfl h⟩
  | succ fuel ih =>
    intro s r s2 hst hr hrg hrun
    unfold propagate at hrun
    by_cases hlt : s.propagated < s.trail.length
    · rw [if_pos hlt] at hrun
      dsimp only at hrun
      have hpm : s.trail.getD s.propagated 0 ∈ s.trail := getD_mem _ _ hlt
      have hwready : WReady s := ⟨hst.2, trailTrue_of_cons hst.1.cons, hst.1.typed⟩
      have hg : GInv (s.trail.getD s.propagated 0) 0 0
          (s.watches (s.trail.getD s.propagated 0)).length
          { s with propagated := s.propagated + 1 } := by
        refine ⟨winv_start hwready _ hpm _, Nat.le_add_left _ _, rfl, ?_, hr, hrg, ?_⟩
        · exact ⟨hst.1.typed, hst.1.valRange, hst.1.cons, hst.1.onTrail, hst.1.nodup,
            hst.1.sorted, hst.1.tableLe, ⟨Nat.le_succ _, hlt⟩, hst.1.sound⟩
        · intro w hw
          simp at hw
      have hpost := propagateWatches_gpost _ _ _ _ _ hg
      generalize propagateWatches (s.trail.getD s.propagated 0)
        (s.watches (s.trail.getD s.propagated 0)).length 0 0
        { s with propagated := s.propagated + 1 } = res at hrun hpost
      obtain ⟨o, s3⟩ := res
      cases o with
      | none => exact ih s3 r s2 hpost.1 hpost.2.1 hpost.2.2 hrun
      | some cref =>
        simp only [Option.some.injEq, Prod.mk.injEq] at hrun
        rw [← hrun.1, ← hrun.2]
        refine ⟨fun h => ?_, fun _ => ⟨cref, rfl, hpost⟩⟩
        exfalso
        omega
    · rw [if_neg hlt] at hrun
      simp only [Option.some.injEq, Prod.mk.injEq] at hrun
      rw [← hrun.1, ← hrun.2]
      have := hst.1.fLe
      exact ⟨fun _ => ⟨hst, hr, hrg, by omega⟩, fun h => absurd rfl h⟩

end Solver

end EasySAT

namespace EasySAT

namespace Solver

theorem countBelow_congr (P Q : Nat → Bool) :
    ∀ n, (∀ i, i < n → P i = Q i) → countBelow P n = countBelow Q n := by
  intro n
  induction n with
  | zero => intro _; rfl
  | succ n ih =>
    intro h
    unfold countBelow
    rw [ih (fun i hi => h i (by omega)), h n (by omega)]

theorem countBelow_flip (P Q : Nat → Bool) (i0 : Nat) (hP : P i0 = false) (hQ : Q i0 = true) :
    ∀ n, i0 < n → (∀ i, i < n → i ≠ i0 → P i = Q i) → countBelow Q n = countBelow P n + 1 := by
  intro n
  induction n with
  | zero => intro h; omega
  | succ n ih =>
    intro hlt h
    unfold countBelow
    by_cases hn : i0 = n
    · rw [← hn, hP, hQ, countBelow_congr Q P i0 (fun i hi => (h i (by omega) (by omega)).symm)]
      simp
    · rw [ih (by omega) (fun i hi hne => h i (by omega) hne), h n (by omega) (Ne.symm hn)]
      omega

theorem countBelow_pos (P : Nat → Bool) :
    ∀ n, 0 < countBelow P n → ∃ i, i < n ∧ P i = true := by
  intro n
  induction n with
  | zero => intro h; exact absurd h (Nat.lt_irrefl 0)
  | succ n ih =>
    intro h
    unfold countBelow at h
    by_cases hp : P n = true
    · exact ⟨n, by omega, hp⟩
    · rw [if_neg hp] at h
      obtain ⟨i, hi, e⟩ := ih h
      exact ⟨i, by omega, e⟩

theorem countBelow_none (P : Nat → Bool) :
    ∀ n, (∀ i, i < n → P i = false) → countBelow P n = 0 := by
  intro n
  induction n with
  | zero => intro _; rfl
  | succ n ih =>
    intro h
    unfold countBelow
    rw [ih (fun i hi => h i (by omega)), h n (by omega)]
    simp

/-- No index from `a` up to `n` counts: the count below `n` is the count
below `a`. -/
theorem countBelow_above (P : Nat → Bool) (a : Nat) :
    ∀ n, a ≤ n → (∀ i, a ≤ i → i < n → P i = false) → countBelow P n = countBelow P a := by
  intro n
  induction n with
  | zero =>
    intro h _
    have : a = 0 := by omega
    rw [this]
  | succ n ih =>
    intro hle h
    by_cases ha : a = n + 1
    · rw [ha]
    · have e : countBelow P (n + 1) = countBelow P n + (if P n then 1 else 0) := rfl
      rw [e, h n (by omega) (by omega), ih (by omega) (fun i h1 h2 => h i h1 (by omega))]
      simp

theorem pending_iff (s : Solver) (H i : Nat) :
    pending s H i = true ↔
      s.mark (s.trail.getD i 0).natAbs = s.time_stamp ∧
        ¬ (s.level (s.trail.getD i 0).natAbs < H) := by
  unfold pending
  exact decide_eq_true_iff

theorem pending_false_iff (s : Solver) (H i : Nat) :
    pending s H i = false ↔
      ¬ (s.mark (s.trail.getD i 0).natAbs = s.time_stamp ∧
        ¬ (s.level (s.trail.getD i 0).natAbs < H)) := by
  unfold pending
  exact decide_eq_false_iff_not

/-- The backward scan of `analyze` stops at the highest position below `n`
that passes its test, when there is one. -/
theorem findResolve_spec (s : Solver) (H : Nat) :
    ∀ n, (∃ i, i < n ∧ pending s H i = true) →
      ∃ n2, findResolve s H n = some (s.trail.getD n2 0, n2) ∧ n2 < n ∧
        pending s H n2 = true ∧ ∀ i, n2 < i → i < n → pending s H i = false := by
  intro n
  induction n with
  | zero =>
    rintro ⟨i, hi, _⟩
    omega
  | succ n ih =>
    rintro ⟨i, hi, hp⟩
    unfold findResolve
    by_cases hn : pending s H n = true
    · rw [if_pos ((pending_iff s H n).1 hn)]
      exact ⟨n, rfl, by omega, hn, fun k h1 h2 => by omega⟩
    · rw [if_neg (fun h => hn ((pending_iff s H n).2 h))]
      have hin : i < n := by
        by_contra hge
        have : i = n := by omega
        rw [this] at hp
        exact hn hp
      obtain ⟨n2, e, hlt, hp2, hab⟩ := ih ⟨i, hin, hp⟩
      refine ⟨n2, e, by omega, hp2, ?_⟩
      intro k h1 h2
      by_cases hk : k = n
      · rw [hk]
        exact Bool.eq_false_iff.2 hn
      · exact hab k h1 (by omega)

end Solver

end EasySAT

namespace EasySAT

namespace Solver

theorem hFrame_trail {s s2 : Solver} (h : HFrame s s2) : s2.trail = s.trail := by
  have e := congrArg Solver.trail (h : keepHeuristic s2 s = s)
  exact e

theorem aFrame_trail {s s2 : Solver} (h : AFrame s s2) : s2.trail = s.trail := by
  have e := congrArg Solver.trail (h : keepSearch s2 s = s)
  exact e

theorem aFrame_clause_DB {s s2 : Solver} (h : AFrame s s2) : s2.clause_DB = s.clause_DB := by
  have e := congrArg Solver.clause_DB (h : keepSearch s2 s = s)
  exact e

theorem aFrame_reason {s s2 : Solver} (h : AFrame s s2) : s2.reason = s.reason := by
  have e := congrArg Solver.reason (h : keepSearch s2 s = s)
  exact e

theorem aFrame_pos {s s2 : Solver} (h : AFrame s s2) : s2.pos_in_trail = s.pos_in_trail := by
  have e := congrArg Solver.pos_in_trail (h : keepSearch s2 s = s)
  exact e

/-- The test of the scan after the statement `mark[v] = t`, in terms of the
state before it. -/
theorem pending_setMark (s : Solver) (v t H i : Nat) :
    pending (setMark s v t) H i = true ↔
      (if (s.trail.getD i 0).natAbs = v then t else s.mark (s.trail.getD i 0).natAbs) =
        s.time_stamp ∧ ¬ (s.level (s.trail.getD i 0).natAbs < H) := by
  rw [pending_iff]
  show Function.update s.mark v t (s.trail.getD i 0).natAbs = s.time_stamp ∧
    ¬ (s.level (s.trail.getD i 0).natAbs < H) ↔ _
  rw [Function.update_apply]

theorem pending_congr {s s2 : Solver} (hm : s2.mark = s.mark) (ht : s2.trail = s.trail)
    (hts : s2.time_stamp = s.time_stamp) (hl : s2.level = s.level) (H i : Nat) :
    pending s2 H i = pending s H i := by
  unfold pending
  rw [hm, ht, hts, hl]

set_option maxRecDepth 4000 in
/-- One literal of the clause loop of `analyze`, for a false literal whose
negation sits on the trail below the scan position, keeps the invariant of the
resolution loop; positions that pass the test of the scan go on passing it,
and the variable of the literal is marked afterwards if its level is above
0. -/
theorem analyzeLit_ainv {f : Nat} {s0 : Solver} {H n : Nat} (hc : Core f s0)
    (st : Solver × List Nat × Int) (lit : Int) (i0 : Nat) (hi0 : i0 < n)
    (e0 : s0.trail.getD i0 0 = -lit) (hinv : AInv s0 H n st.2.2 st.1) :
    AInv s0 H n (analyzeLit H st lit).2.2 (analyzeLit H st lit).1 ∧
    (∀ i, pending st.1 H i = true → pending (analyzeLit H st lit).1 H i = true) ∧
    (0 < s0.level lit.natAbs →
      (analyzeLit H st lit).1.mark lit.natAbs = (analyzeLit H st lit).1.time_stamp) := by
  have hlev := aFrame_level hinv.frame
  have htr := aFrame_trail hinv.frame
  have hvar : (s0.trail.getD i0 0).natAbs = lit.natAbs := by rw [e0, Int.natAbs_neg]
  have hi0l : i0 < s0.trail.length := by have := hinv.hn; omega
  unfold analyzeLit
  by_cases hcond : st.1.mark lit.natAbs ≠ st.1.time_stamp ∧ st.1.level lit.natAbs > 0
  · rw [if_pos hcond]
    have hb := bump_var_frame st.1 lit.natAbs (1 / 2)
    generalize bump_var st.1 lit.natAbs (1 / 2) = s1 at hb ⊢
    have hm1 := hFrame_mark hb
    have hts1 := hFrame_time_stamp hb
    have hl1 := hFrame_level hb
    have ht1 := hFrame_trail hb
    have hle1 := hFrame_learnt hb
    have hfr : AFrame s0 (setMark s1 lit.natAbs s1.time_stamp) :=
      aFrame_trans hinv.frame (aFrame_trans (aFrame_of_hFrame hb) (setMark_frame _ _ _))
    -- the test of the scan after the mark, position by position
    have hpend : ∀ i, pending (setMark s1 lit.natAbs s1.time_stamp) H i = true ↔
        (pending st.1 H i = true ∨
          ((st.1.trail.getD i 0).natAbs = lit.natAbs ∧
            ¬ (st.1.level (st.1.trail.getD i 0).natAbs < H))) := by
      intro i
      rw [pending_setMark, pending_iff, ht1, hm1, hl1, hts1]
      by_cases hv : (st.1.trail.getD i 0).natAbs = lit.natAbs
      · rw [if_pos hv]
        constructor
        · intro h
          exact Or.inr ⟨hv, h.2⟩
        · rintro (h | h)
          · exact ⟨rfl, h.2⟩
          · exact ⟨rfl, h.2⟩
      · rw [if_neg hv]
        constructor
        · intro h
          exact Or.inl h
        · rintro (h | h)
          · exact h
          · exact absurd h.1 hv
    have hother : ∀ i, i < s0.trail.length → i ≠ i0 →
        pending st.1 H i = pending (setMark s1 lit.natAbs s1.time_stamp) H i := by
      intro i hi hne
      have hv : (st.1.trail.getD i 0).natAbs ≠ lit.natAbs := by
        rw [htr, ← hvar]
        intro e
        exact hne (hc.nodup i i0 hi hi0l e)
      rw [Bool.eq_iff_iff, hpend]
      constructor
      · intro h
        exact Or.inl h
      · rintro (h | h)
        · exact h
        · exact absurd h.1 hv
    have hbefore : pending st.1 H i0 = false := by
      rw [pending_false_iff, htr, hvar]
      intro h
      exact hcond.1 h.1
    have hpers : ∀ i, pending st.1 H i = true →
        pending (setMark s1 lit.natAbs s1.time_stamp) H i = true :=
      fun i h => (hpend i).2 (Or.inl h)
    have hmarked : (setMark s1 lit.natAbs s1.time_stamp).mark lit.natAbs =
        (setMark s1 lit.natAbs s1.time_stamp).time_stamp := by
      show Function.update s1.mark lit.natAbs s1.time_stamp lit.natAbs = s1.time_stamp
      rw [Function.update_same]
    have hstamp : 1 ≤ (setMark s1 lit.natAbs s1.time_stamp).time_stamp := by
      show 1 ≤ s1.time_stamp
      rw [hts1]
      exact hinv.stamp
    have hlearnt : (setMark s1 lit.natAbs s1.time_stamp).learnt = st.1.learnt := hle1
    dsimp only
    by_cases hhigh : (setMark s1 lit.natAbs s1.time_stamp).level lit.natAbs ≥ H
    · rw [if_pos hhigh]
      have hhigh2 : ¬ (st.1.level lit.natAbs < H) := by
        have : (setMark s1 lit.natAbs s1.time_stamp).level = st.1.level := hl1
        rw [this] at hhigh
        omega
      refine ⟨⟨hfr, hstamp, hinv.hn, ?_, ?_, ?_, ?_⟩, hpers, fun _ => hmarked⟩
      · show st.2.2 + 1 = _
        rw [countBelow_flip (pending st.1 H) _ i0 hbefore
          ((hpend i0).2 (Or.inr ⟨by rw [htr, hvar], by rw [htr, hvar]; exact hhigh2⟩)) n hi0
          (fun i hi hne => hother i (by have := hinv.hn; omega) hne), hinv.count]
        push_cast
        rfl
      · intro i h1 h2
        rw [← hother i h2 (by omega)]
        exact hinv.above i h1 h2
      · rw [hlearnt]
        exact hinv.learntNe
      · rw [hlearnt]
        exact hinv.learntTail
    · rw [if_neg hhigh]
      have hlow : st.1.level lit.natAbs < H := by
        have : (setMark s1 lit.natAbs s1.time_stamp).level = st.1.level := hl1
        rw [this] at hhigh
        omega
      have hsame : ∀ i, i < s0.trail.length →
          pending (setMark s1 lit.natAbs s1.time_stamp) H i = pending st.1 H i := by
        intro i hi
        by_cases hne : i = i0
        · rw [hne, hbefore, ← Bool.not_eq_true, hpend, hbefore]
          rintro (h | h)
          · exact absurd h (by decide)
          · apply h.2
            rw [htr, hvar]
            exact hlow
        · exact (hother i hi hne).symm
      refine ⟨⟨hfr, hstamp, hinv.hn, ?_, ?_, ?_, ?_⟩, hpers, fun _ => hmarked⟩
      · show st.2.2 = ((countBelow (pending (setMark s1 lit.natAbs s1.time_stamp) H) n : Nat) : Int)
        rw [countBelow_congr _ (pending st.1 H) n
          (fun i hi => hsame i (by have := hinv.hn; omega))]
        exact hinv.count
      · intro i h1 h2
        show pending (setMark s1 lit.natAbs s1.time_stamp) H i = false
        rw [hsame i h2]
        exact hinv.above i h1 h2
      · show (setMark s1 lit.natAbs s1.time_stamp).learnt ++ [lit] ≠ []
        simp
      · intro l hl
        have hl2 : l ∈ ((setMark s1 lit.natAbs s1.time_stamp).learnt ++ [lit]).tail := hl
        rw [hlearnt, List.tail_append_of_ne_nil hinv.learntNe, List.mem_append] at hl2
        rcases hl2 with h | h
        · exact hinv.learntTail l h
        · have : l = lit := by simpa using h
          rw [this]
          refine ⟨?_, ?_, ?_⟩
          · rw [← e0]
            exact getD_mem _ _ hi0l
          · rw [← hlev]
            exact hcond.2
          · rw [← hlev]
            exact hlow
  · rw [if_neg hcond]
    refine ⟨hinv, fun _ h => h, ?_⟩
    intro hpos
    rw [← hlev] at hpos
    by_contra hne
    exact hcond ⟨hne, hpos⟩

end Solver

end EasySAT

namespace EasySAT

namespace Solver

/-- The clause loop of `analyze` over false literals whose negations sit on
the trail below the scan position keeps the invariant of the resolution loop;
positions that pass the test of the scan go on passing it, and a literal of
the list at a level not below `H` leaves a position that passes it. -/
theorem foldl_analyzeLit_ainv {f : Nat} {s0 : Solver} {H n : Nat} (hc : Core f s0) :
    ∀ (lits : List Int) (st : Solver × List Nat × Int),
      (∀ l, l ∈ lits → ∃ i, i < n ∧ s0.trail.getD i 0 = -l) → AInv s0 H n st.2.2 st.1 →
      AInv s0 H n (lits.foldl (analyzeLit H) st).2.2 (lits.foldl (analyzeLit H) st).1 ∧
      (∀ i, pending st.1 H i = true → pending (lits.foldl (analyzeLit H) st).1 H i = true) ∧
      (∀ l, l ∈ lits → 0 < s0.level l.natAbs → ¬ (s0.level l.natAbs < H) →
        ∃ i, i < n ∧ pending (lits.foldl (analyzeLit H) st).1 H i = true) := by
  intro lits
  induction lits with
  | nil =>
    intro st _ hinv
    exact ⟨hinv, fun _ h => h, fun l hl => absurd hl (List.not_mem_nil l)⟩
  | cons a ls ih =>
    intro st hon hinv
    obtain ⟨i0, hi0, e0⟩ := hon a (List.mem_cons_self a ls)
    obtain ⟨h1, h2, h3⟩ := analyzeLit_ainv hc st a i0 hi0 e0 hinv
    obtain ⟨k1, k2, k3⟩ := ih (analyzeLit H st a) (fun l hl => hon l (List.mem_cons_of_mem a hl)) h1
    rw [List.foldl_cons]
    refine ⟨k1, fun i h => k2 i (h2 i h), ?_⟩
    intro l hl hpos hhigh
    rcases List.mem_cons.1 hl with e | hmem
    · rw [e] at hpos hhigh
      refine ⟨i0, hi0, k2 i0 ?_⟩
      rw [pending_iff, aFrame_trail h1.frame, aFrame_level h1.frame, e0, Int.natAbs_neg]
      exact ⟨h3 hpos, hhigh⟩
    · exact k3 l hmem hpos hhigh

theorem mem_drop_getD (l : List Int) (d : Nat) (x : Int) (h : x ∈ l.drop d) :
    ∃ k, d ≤ k ∧ k < l.length ∧ l.getD k 0 = x := by
  obtain ⟨t, ht, e⟩ := (mem_iff_getD _ _).1 h
  rw [List.length_drop] at ht
  refine ⟨d + t, by omega, by omega, ?_⟩
  rw [← e, List.getD_eq_getElem?_getD, List.getD_eq_getElem?_getD, List.getElem?_drop]

/-- The resolution loop of `analyze` returns: started on a valid clause whose
literals to visit are false with their negations below the scan position, and
with a position left for the scan to stop at, it needs no more rounds than
there are trail positions, the scan never runs below position 0, and every
clause it continues with is the reason of an implied literal. -/
theorem analyzeLoop_total {f : Nat} {s0 : Solver} {H : Nat} (hc : Core f s0) (hr : Reasons s0)
    (hH : H = s0.pos_in_trail.length) (hH0 : 0 < H) :
    ∀ (fuel : Nat) (conflict resolve_lit : Int) (n : Nat) (ct : Int) (bump : List Nat)
      (s : Solver), n < fuel → AInv s0 H n ct s →
      0 ≤ conflict → conflict.toNat < s0.clause_DB.length →
      (∀ l, l ∈ ((s0.clause_DB.getD conflict.toNat default).lit.drop
          (if resolve_lit = 0 then 0 else 1)) → ∃ i, i < n ∧ s0.trail.getD i 0 = -l) →
      ((∃ i, i < n ∧ pending s H i = true) ∨
        ∃ l, l ∈ ((s0.clause_DB.getD conflict.toNat default).lit.drop
          (if resolve_lit = 0 then 0 else 1)) ∧ 0 < s0.level l.natAbs ∧
            ¬ (s0.level l.natAbs < H)) →
      ∃ r, analyzeLoop H fuel conflict resolve_lit n ct bump s = some r ∧ APost s0 H r := by
  intro fuel
  induction fuel with
  | zero =>
    intro conflict resolve_lit n ct bump s hlt
    omega
  | succ fuel ih =>
    intro conflict resolve_lit n ct bump s hlt hinv hc0 hcl hon hex
    have hdb := aFrame_clause_DB hinv.frame
    unfold analyzeLoop
    rw [if_neg (by rw [hdb]; omega)]
    obtain ⟨h1, h2, h3⟩ := foldl_analyzeLit_ainv hc
      ((s.clause_DB.getD conflict.toNat default).lit.drop (if resolve_lit = 0 then 0 else 1))
      (s, bump, ct) (by rw [hdb]; exact hon) hinv
    have hst : analyzeClause H s conflict.toNat resolve_lit bump ct =
        ((s.clause_DB.getD conflict.toNat default).lit.drop
          (if resolve_lit = 0 then 0 else 1)).foldl (analyzeLit H) (s, bump, ct) := rfl
    rw [← hst] at h1 h2 h3
    generalize analyzeClause H s conflict.toNat resolve_lit bump ct = st at h1 h2 h3 ⊢
    have hex2 : ∃ i, i < n ∧ pending st.1 H i = true := by
      rcases hex with ⟨i, hi, hp⟩ | ⟨l, hl, hpos, hhigh⟩
      · exact ⟨i, hi, h2 i hp⟩
      · exact h3 l (by rw [hdb]; exact hl) hpos hhigh
    obtain ⟨n2, hfind, hn2, hp2, hab⟩ := findResolve_spec st.1 H n hex2
    rw [hfind]
    dsimp only
    have htr := aFrame_trail h1.frame
    have hlev := aFrame_level h1.frame
    have hn2l : n2 < s0.trail.length := by have := h1.hn; omega
    have hp2' := (pending_iff st.1 H n2).1 hp2
    have hlit0 : st.1.trail.getD n2 0 ≠ 0 := by
      rw [htr]
      exact hc.typed.1 _ (getD_mem _ _ hn2l)
    -- the state after the mark of the resolved literal is cleared
    have hts : st.1.time_stamp ≠ 0 := by have := h1.stamp; omega
    have hun : ∀ i, i < s0.trail.length →
        pending (setMark st.1 (st.1.trail.getD n2 0).natAbs 0) H i =
          (if i = n2 then false else pending st.1 H i) := by
      intro i hi
      by_cases hin : i = n2
      · rw [if_pos hin, hin, ← Bool.not_eq_true, pending_setMark, if_pos rfl]
        intro h
        exact hts h.1.symm
      · rw [if_neg hin, Bool.eq_iff_iff, pending_setMark, pending_iff, if_neg]
        rw [htr]
        intro e
        exact hin (hc.nodup i n2 hi hn2l e)
    have hinv2 : AInv s0 H n2 (st.2.2 - 1) (setMark st.1 (st.1.trail.getD n2 0).natAbs 0) := by
      refine ⟨aFrame_trans h1.frame (setMark_frame _ _ _), h1.stamp, by omega, ?_, ?_,
        h1.learntNe, h1.learntTail⟩
      · rw [h1.count, countBelow_above (pending st.1 H) (n2 + 1) n (by omega)
          (fun i hi1 hi2 => hab i (by omega) hi2)]
        have e : countBelow (pending st.1 H) (n2 + 1) =
          countBelow (pending st.1 H) n2 + (if pending st.1 H n2 then 1 else 0) := rfl
        rw [e, if_pos hp2, countBelow_congr (pending (setMark st.1 _ 0) H) (pending st.1 H) n2
          (fun i hi => by rw [hun i (by omega), if_neg (by omega)])]
        push_cast
        ring
      · intro i hi1 hi2
        rw [hun i hi2]
        by_cases hin : i = n2
        · rw [if_pos hin]
        · rw [if_neg hin]
          by_cases hi3 : i < n
          · exact hab i (by omega) hi3
          · exact h1.above i (by omega) hi2
    have hlevel : s0.level (st.1.trail.getD n2 0).natAbs = H := by
      have hle := level_le_table hc.cons n2 hn2l
      have hge := hp2'.2
      rw [hlev, htr] at hge
      rw [htr]
      omega
    by_cases hgo : st.2.2 - 1 > 0
    · rw [if_pos hgo]
      have hcnt := hinv2.count
      have hpos : 0 < countBelow (pending (setMark st.1 (st.1.trail.getD n2 0).natAbs 0) H) n2 := by
        omega
      obtain ⟨i, hi, hpi⟩ := countBelow_pos _ _ hpos
      have hpi2 : pending st.1 H i = true := by
        rw [hun i (by omega), if_neg (by omega)] at hpi
        exact hpi
      have hpi3 := (pending_iff st.1 H i).1 hpi2
      have hil : i < s0.trail.length := by omega
      -- the literal resolved is implied
      have hlvi : s0.level (s0.trail.getD i 0).natAbs = s0.pos_in_trail.length := by
        have hle := level_le_table hc.cons i hil
        have hge := hpi3.2
        rw [hlev, htr] at hge
        omega
      have hnotpos : ∀ b, b ∈ s0.pos_in_trail → b ≠ n2 := by
        intro b hb
        rw [(hc.cons i hil).2] at hlvi
        have hall := (List.countP_eq_length.1 hlvi) b hb
        simp only [Nat.ble_eq] at hall
        omega
      have hpos0 : 0 < s0.level (s0.trail.getD n2 0).natAbs := by
        rw [← htr, hlevel]
        exact hH0
      obtain ⟨cref, e1, e2, e3, e4⟩ := hr n2 hn2l hnotpos hpos0
      have hreason : (setMark st.1 (st.1.trail.getD n2 0).natAbs 0).reason = s0.reason :=
        aFrame_reason hinv2.frame
      have hconf : st.1.reason (st.1.trail.getD n2 0).natAbs = (cref : Int) := by
        have : st.1.reason = s0.reason := aFrame_reason h1.frame
        rw [this, htr]
        exact e1
      rw [hconf]
      apply ih (cref : Int) (st.1.trail.getD n2 0) n2 (st.2.2 - 1) st.2.1 _ (by omega) hinv2
        (by omega) (by simpa using e2)
      · intro l hl
        rw [if_neg hlit0] at hl
        have hcr : ((cref : Int)).toNat = cref := by simp
        rw [hcr] at hl
        obtain ⟨k, hk1, hk2, ek⟩ := mem_drop_getD _ _ _ hl
        obtain ⟨t, ht, et⟩ := e4 k hk1 hk2
        refine ⟨t, ht, ?_⟩
        rw [et]
        unfold litAt
        rw [ek]
      · exact Or.inl ⟨i, hi, hpi⟩
    · rw [if_neg hgo]
      refine ⟨_, rfl, ⟨hinv2.frame, ?_, hlevel, hinv2.learntNe, hinv2.learntTail⟩⟩
      show st.1.trail.getD n2 0 ∈ s0.trail
      rw [htr]
      exact getD_mem _ _ hn2l

end Solver

end EasySAT

namespace EasySAT

namespace Solver

/-- The loop that looks for the learnt literal of greatest level returns an
index whose level is not below that of the index it starts with nor below
that of any index it visits. -/
theorem foldl_maxIdStep_max (s : Solver) :
    ∀ (l : List Nat) (m : Nat),
      s.level (s.learnt.getD m 0).natAbs ≤
        s.level (s.learnt.getD (l.foldl (maxIdStep s) m) 0).natAbs ∧
      ∀ i, i ∈ l → s.level (s.learnt.getD i 0).natAbs ≤
        s.level (s.learnt.getD (l.foldl (maxIdStep s) m) 0).natAbs := by
  intro l
  induction l with
  | nil => intro m; exact ⟨le_refl _, fun i hi => absurd hi (List.not_mem_nil i)⟩
  | cons a l ih =>
    intro m
    rw [List.foldl_cons]
    obtain ⟨h1, h2⟩ := ih (maxIdStep s m a)
    have hstep : s.level (s.learnt.getD m 0).natAbs ≤
          s.level (s.learnt.getD (maxIdStep s m a) 0).natAbs ∧
        s.level (s.learnt.getD a 0).natAbs ≤
          s.level (s.learnt.getD (maxIdStep s m a) 0).natAbs := by
      unfold maxIdStep
      split_ifs with h
      · exact ⟨by omega, le_refl _⟩
      · exact ⟨le_refl _, by omega⟩
    refine ⟨le_trans hstep.1 h1, ?_⟩
    intro i hi
    rcases List.mem_cons.1 hi with e | hmem
    · rw [e]
      exact le_trans hstep.2 h1
    · exact h2 i hmem

theorem maxId_ge (s : Solver) : 1 ≤ maxId s := by
  unfold maxId
  apply foldl_maxIdStep_ge s _ 1 (le_refl _)
  intro i hi
  obtain ⟨k, hk, e⟩ := List.mem_iff_getElem.1 hi
  rw [List.getElem_drop, List.getElem_range] at e
  omega

theorem maxId_max (s : Solver) (i : Nat) (h1 : 1 ≤ i) (h2 : i < s.learnt.length) :
    s.level (s.learnt.getD i 0).natAbs ≤ s.level (s.learnt.getD (maxId s) 0).natAbs := by
  unfold maxId
  obtain ⟨a, b⟩ := foldl_maxIdStep_max s ((List.range s.learnt.length).drop 2) 1
  by_cases hi : i = 1
  · rw [hi]
    exact a
  · apply b
    have : i = ((List.range s.learnt.length).drop 2).getD (i - 2) 0 := by
      rw [List.getD_eq_getElem?_getD, List.getElem?_drop, List.getElem?_range (by omega)]
      simp
      omega
    rw [this]
    rw [List.getD_eq_getElem _ _ (by rw [List.length_drop, List.length_range]; omega)]
    exact List.getElem_mem _

theorem tail_mem_getD (l : List Int) (x : Int) :
    x ∈ l.tail ↔ ∃ k, 1 ≤ k ∧ k < l.length ∧ l.getD k 0 = x := by
  rw [← List.drop_one]
  constructor
  · exact mem_drop_getD l 1 x
  · rintro ⟨k, hk1, hk2, e⟩
    rw [mem_iff_getD]
    refine ⟨k - 1, by rw [List.length_drop]; omega, ?_⟩
    rw [← e, List.getD_eq_getElem?_getD, List.getD_eq_getElem?_getD, List.getElem?_drop]
    congr 2
    omega

/-- The choice of the backtrack level: with one learnt literal the level is
0 and nothing changes; otherwise the first literal stays, the second literal
is one of greatest level among the others, the level returned is its level,
and the others are the same literals as before. -/
theorem chooseLevel_spec (s : Solver) (hne : s.learnt ≠ []) :
    (chooseLevel s).2.learnt.length = s.learnt.length ∧
    (chooseLevel s).2.learnt.getD 0 0 = s.learnt.getD 0 0 ∧
    (∀ l, l ∈ (chooseLevel s).2.learnt.tail → l ∈ s.learnt.tail) ∧
    (s.learnt.length = 1 → (chooseLevel s).1 = 0) ∧
    (2 ≤ s.learnt.length →
      (chooseLevel s).1 = s.level ((chooseLevel s).2.learnt.getD 1 0).natAbs ∧
      ∀ l, l ∈ s.learnt.tail → s.level l.natAbs ≤ (chooseLevel s).1) := by
  have hlen0 : 1 ≤ s.learnt.length := by
    rcases hl : s.learnt with _ | ⟨a, t⟩
    · exact absurd hl hne
    · simp
  unfold chooseLevel
  by_cases h1 : s.learnt.length = 1
  · rw [if_pos h1]
    exact ⟨rfl, rfl, fun l h => h, fun _ => rfl, fun h => by omega⟩
  · rw [if_neg h1]
    have hM := maxId_lt s (by omega)
    have hM1 := maxId_ge s
    have hlen : ((s.learnt.set (maxId s) (s.learnt.getD 1 0)).set 1
        (s.learnt.getD (maxId s) 0)).length = s.learnt.length := by
      rw [List.length_set, List.length_set]
    have hget : ∀ k, ((s.learnt.set (maxId s) (s.learnt.getD 1 0)).set 1
        (s.learnt.getD (maxId s) 0)).getD k 0 =
          if k = 1 then s.learnt.getD (maxId s) 0
          else if k = maxId s then s.learnt.getD 1 0 else s.learnt.getD k 0 := by
      intro k
      rw [getD_set, getD_set, List.length_set]
      by_cases hk1 : k = 1
      · rw [hk1, if_pos ⟨rfl, by omega⟩, if_pos rfl]
      · rw [if_neg (fun h => hk1 h.1.symm), if_neg hk1]
        by_cases hkM : k = maxId s
        · rw [hkM, if_pos ⟨rfl, hM⟩, if_pos rfl]
        · rw [if_neg (fun h => hkM h.1.symm), if_neg hkM]
    refine ⟨hlen, ?_, ?_, fun h => absurd h h1, fun _ => ⟨?_, ?_⟩⟩
    · show ((s.learnt.set (maxId s) (s.learnt.getD 1 0)).set 1
        (s.learnt.getD (maxId s) 0)).getD 0 0 = _
      rw [hget, if_neg (by omega), if_neg (by omega)]
    · intro l hl
      have hl2 : l ∈ ((s.learnt.set (maxId s) (s.learnt.getD 1 0)).set 1
        (s.learnt.getD (maxId s) 0)).tail := hl
      rw [tail_mem_getD] at hl2 ⊢
      obtain ⟨k, hk1, hk2, e⟩ := hl2
      rw [hlen] at hk2
      rw [hget] at e
      by_cases hk : k = 1
      · rw [if_pos hk] at e
        exact ⟨maxId s, hM1, hM, e⟩
      · rw [if_neg hk] at e
        by_cases hkM : k = maxId s
        · rw [if_pos hkM] at e
          exact ⟨1, le_refl _, by omega, e⟩
        · rw [if_neg hkM] at e
          exact ⟨k, hk1, hk2, e⟩
    · show s.level (s.learnt.getD (maxId s) 0).natAbs =
        s.level (((s.learnt.set (maxId s) (s.learnt.getD 1 0)).set 1
          (s.learnt.getD (maxId s) 0)).getD 1 0).natAbs
      rw [hget, if_pos rfl]
    · intro l hl
      obtain ⟨k, hk1, hk2, e⟩ := (tail_mem_getD _ _).1 hl
      rw [← e]
      exact maxId_max s k hk1 hk2

theorem foldl_lbdStep_marksOld :
    ∀ (lits : List Int) (st : Solver × Int), MarksOld st.1 →
      MarksOld (lits.foldl lbdStep st).1 ∧
        (lits.foldl lbdStep st).1.time_stamp = st.1.time_stamp := by
  intro lits
  induction lits with
  | nil => intro st h; exact ⟨h, rfl⟩
  | cons a l ih =>
    intro st h
    rw [List.foldl_cons]
    have hstep : MarksOld (lbdStep st a).1 ∧ (lbdStep st a).1.time_stamp = st.1.time_stamp := by
      unfold lbdStep
      split_ifs
      · exact ⟨setMark_old h _ _ (le_refl _), rfl⟩
      · exact ⟨h, rfl⟩
    obtain ⟨h1, h2⟩ := ih _ hstep.1
    exact ⟨h1, by rw [h2, hstep.2]⟩

/-- The marks and the time stamp, the pair that `MarksOld` reads. -/
theorem marksOld_congr {s s2 : Solver} (hm : s2.mark = s.mark) (ht : s2.time_stamp = s.time_stamp)
    (h : MarksOld s) : MarksOld s2 := by
  intro v
  rw [hm, ht]
  exact h v

theorem pushLbd_marks (s : Solver) (lbd : Int) :
    (pushLbd s lbd).mark = s.mark ∧ (pushLbd s lbd).time_stamp = s.time_stamp ∧
    (pushLbd s lbd).level = s.level := by
  unfold pushLbd
  dsimp only
  split_ifs <;> exact ⟨rfl, rfl, rfl⟩

theorem chooseLevel_marks (s : Solver) :
    (chooseLevel s).2.mark = s.mark ∧ (chooseLevel s).2.time_stamp = s.time_stamp := by
  unfold chooseLevel
  split_ifs <;> exact ⟨rfl, rfl⟩

end Solver

end EasySAT

namespace EasySAT

namespace Solver

theorem set_zero_tail (l : List Int) (x : Int) : (l.set 0 x).tail = l.tail := by
  cases l <;> rfl

theorem set_zero_getD (l : List Int) (x : Int) (h : l ≠ []) : (l.set 0 x).getD 0 0 = x := by
  cases l with
  | nil => exact absurd rfl h
  | cons a t => rfl

theorem length_pos_of_ne {l : List Int} (h : l ≠ []) : 1 ≤ l.length := by
  cases l with
  | nil => exact absurd rfl h
  | cons a t => simp

/-- The part of `analyze` behind the resolution loop, after a loop that ended
as `APost` says: the learnt clause and the backtrack level are as `Analyzed`
says. -/
theorem finishAnalyze_analyzed {s0 s3 : Solver} {H : Nat} (resolve_lit : Int) (bump : List Nat)
    (hpost : APost s0 H (resolve_lit, bump, s3)) (hH : H = s0.pos_in_trail.length)
    (hH0 : 0 < H) (hm : MarksOld s3) :
    Analyzed s0 (finishAnalyze s3 resolve_lit bump).1 (finishAnalyze s3 resolve_lit bump).2.2 := by
  have hfr0 : AFrame s0 s3 := hpost.frame
  have hne3 : s3.learnt ≠ [] := hpost.learntNe
  have htail3 := hpost.learntTail
  have hon3 : resolve_lit ∈ s0.trail := hpost.onTrail
  have hlv3 : s0.level resolve_lit.natAbs = H := hpost.level
  have hspec := (finishAnalyze_spec s3 resolve_lit bump).1
  have hm0 : MarksOld (closeLearnt s3 resolve_lit) := by
    intro v
    have := hm v
    show s3.mark v ≤ s3.time_stamp + 1
    omega
  obtain ⟨_, a2, a3⟩ := lbdStep_fold (closeLearnt s3 resolve_lit).learnt (closeLearnt s3 resolve_lit) 0
  obtain ⟨a4, _⟩ := foldl_lbdStep_marksOld (closeLearnt s3 resolve_lit).learnt
    (closeLearnt s3 resolve_lit, 0) hm0
  unfold finishAnalyze at hspec ⊢
  generalize List.foldl lbdStep (closeLearnt s3 resolve_lit, 0) (closeLearnt s3 resolve_lit).learnt = r
    at a2 a3 a4 hspec
  obtain ⟨b1, b2⟩ := pushLbd_frame r.1 r.2
  obtain ⟨b3, b4, b5⟩ := pushLbd_marks r.1 r.2
  generalize pushLbd r.1 r.2 = s5 at b1 b2 b3 b4 b5 hspec
  have hl5 : s5.learnt = s3.learnt.set 0 (-resolve_lit) := by rw [b2, a3]; rfl
  have hne5 : s5.learnt ≠ [] := by
    rw [hl5]
    apply List.ne_nil_of_length_pos
    rw [List.length_set]
    exact length_pos_of_ne hne3
  have hlevel5 : s5.level = s0.level := by
    rw [b5, aFrame_level a2]
    show s3.level = s0.level
    exact aFrame_level hfr0
  obtain ⟨c1, c2, c3, c4, c5⟩ := chooseLevel_spec s5 hne5
  obtain ⟨c6, c7⟩ := chooseLevel_marks s5
  generalize chooseLevel s5 = ch at c1 c2 c3 c4 c5 c6 c7 hspec
  have d1 := foldl_bumpStep_frame ch.1 bump ch.2
  generalize List.foldl (bumpStep ch.1) ch.2 bump = s6 at d1 hspec
  have hl6 := hFrame_learnt d1
  have hm6 : MarksOld s6 := by
    apply marksOld_of_hFrame d1
    apply marksOld_congr c6 c7
    exact marksOld_congr b3 b4 a4
  have htail5 : ∀ l, l ∈ s5.learnt.tail →
      -l ∈ s0.trail ∧ 0 < s0.level l.natAbs ∧ s0.level l.natAbs < H := by
    intro l hl
    rw [hl5, set_zero_tail] at hl
    exact htail3 l hl
  show Analyzed s0 ch.1 s6
  refine ⟨aFrame_trans hfr0 hspec, hm6, ?_, ?_, ?_, ?_, ?_, ?_, ?_⟩
  · rw [hl6]
    apply List.ne_nil_of_length_pos
    rw [c1]
    exact length_pos_of_ne hne5
  · rw [hl6, c2, hl5, set_zero_getD _ _ hne3, neg_neg]
    exact hon3
  · rw [hl6, c2, hl5, set_zero_getD _ _ hne3, Int.natAbs_neg, hlv3, hH]
  · intro l hl
    rw [hl6] at hl
    have hl5t := c3 l hl
    obtain ⟨h1, h2, _⟩ := htail5 l hl5t
    refine ⟨h1, h2, ?_⟩
    have hlen2 : 2 ≤ s5.learnt.length := by
      obtain ⟨k, hk1, hk2, _⟩ := (tail_mem_getD _ _).1 hl5t
      omega
    have := (c5 hlen2).2 l hl5t
    rw [hlevel5] at this
    exact this
  · by_cases h1 : s5.learnt.length = 1
    · rw [c4 h1, ← hH]
      exact hH0
    · have hlen2 : 2 ≤ s5.learnt.length := by have := length_pos_of_ne hne5; omega
      rw [(c5 hlen2).1, hlevel5, ← hH]
      have hmem : ch.2.learnt.getD 1 0 ∈ ch.2.learnt.tail :=
        (tail_mem_getD _ _).2 ⟨1, le_refl _, by rw [c1]; omega, rfl⟩
      exact (htail5 _ (c3 _ hmem)).2.2
  · intro h1
    rw [hl6, c1] at h1
    exact c4 h1
  · intro h2
    rw [hl6, c1] at h2
    rw [hl6, (c5 h2).1, hlevel5]

/-- The method `analyze`, called on the conflict that `propagate` returned at
a decision level above 0, returns 0: the resolution loop ends without leaving
the trail or the clause database, and the learnt clause and the backtrack
level are as `Analyzed` says. -/
theorem analyze_spec {s : Solver} {cref : Nat} (hconf : Conflict s cref) (hm : MarksOld s)
    (hlv : 0 < s.pos_in_trail.length) :
    ∃ (bt : Nat) (lbd : Int) (s2 : Solver),
      analyze s cref = some (0, bt, lbd, s2) ∧ Analyzed s bt s2 := by
  have hc := hconf.stopped.2.1
  have hty := hc.typed.2 cref hconf.hcref
  have hH : conflictLevel s cref = s.pos_in_trail.length := hconf.top
  have hH0 : 0 < conflictLevel s cref := by rw [hH]; exact hlv
  have hm1 : MarksOld { startAnalyze s with learnt := [0] } := by
    intro v
    have := hm v
    show s.mark v ≤ s.time_stamp + 1
    omega
  have hinv : AInv s (conflictLevel s cref) s.trail.length 0
      { startAnalyze s with learnt := [0] } := by
    refine ⟨rfl, Nat.le_add_left _ _, le_refl _, ?_, ?_, ?_, ?_⟩
    · rw [countBelow_none]
      · rfl
      · intro i _
        rw [pending_false_iff]
        intro h
        have h1 : s.mark (s.trail.getD i 0).natAbs = s.time_stamp + 1 := h.1
        have := hm (s.trail.getD i 0).natAbs
        omega
    · intro i h1 h2
      omega
    · show ([0] : List Int) ≠ []
      simp
    · intro l hl
      have : l ∈ ([0] : List Int).tail := hl
      simp at this
  have hon : ∀ l, l ∈ ((s.clause_DB.getD ((cref : Int)).toNat default).lit.drop
      (if (0 : Int) = 0 then 0 else 1)) → ∃ i, i < s.trail.length ∧ s.trail.getD i 0 = -l := by
    intro l hl
    rw [if_pos rfl, List.drop_zero] at hl
    have hcr : ((cref : Int)).toNat = cref := by simp
    rw [hcr] at hl
    obtain ⟨k, hk, ek⟩ := (mem_iff_getD _ _).1 hl
    have hf := hconf.allFalse k hk
    rw [ek] at hf
    have hl0 : l ≠ 0 := by rw [← ek]; exact hty.2 k hk
    exact (mem_iff_getD _ _).1 (false_on_trail hc l hl0 hf)
  obtain ⟨r, hrun, hpost⟩ := analyzeLoop_total hc hconf.reasons hH hH0 (s.trail.length + 1)
    (cref : Int) 0 s.trail.length 0 [] _ (Nat.lt_succ_self _) hinv (by omega)
    (by simpa using hconf.hcref) hon
    (Or.inr ⟨litAt s cref 0, by
      rw [if_pos rfl, List.drop_zero]
      have hcr : ((cref : Int)).toNat = cref := by simp
      rw [hcr]
      exact getD_mem _ 0 (by omega), hH0, lt_irrefl _⟩)
  obtain ⟨resolve_lit, bump, s3⟩ := r
  have hm3 : MarksOld s3 := (analyzeLoop_frame _ _ _ _ _ _ _ _ _ hrun).2.2 hm1
  refine ⟨(finishAnalyze s3 resolve_lit bump).1, (finishAnalyze s3 resolve_lit bump).2.1,
    (finishAnalyze s3 resolve_lit bump).2.2, ?_, finishAnalyze_analyzed resolve_lit bump hpost hH hH0 hm3⟩
  unfold analyze
  rw [if_neg (by omega), hrun]

end Solver

end EasySAT

namespace EasySAT

namespace Solver

/-- The invariant of the assignment reads only the value, the trail, the
levels, the decision-level table, `propagated` and the clause database. -/
theorem core_congr {f : Nat} {s s2 : Solver} (hv : s2.value = s.value) (ht : s2.trail = s.trail)
    (hl : s2.level = s.level) (hp : s2.pos_in_trail = s.pos_in_trail)
    (hpr : s2.propagated = s.propagated) (hdb : s2.clause_DB = s.clause_DB) (hc : Core f s) :
    Core f s2 := by
  refine ⟨?_, ?_, ?_, ?_, ?_, ?_, ?_, ?_, ?_⟩
  · unfold LitsTyped; rw [ht, hdb]; exact hc.typed
  · rw [hv]; exact hc.valRange
  · unfold TrailConsistent; rw [ht, hv, hl, hp]; exact hc.cons
  · rw [hv, ht]; exact hc.onTrail
  · rw [ht]; exact hc.nodup
  · rw [hp]; exact hc.sorted
  · rw [hp]; exact hc.tableLe
  · rw [hpr, ht]; exact hc.fLe
  · unfold litAt; rw [hdb, hv, ht, hl]; exact hc.sound

theorem reasons_congr {s s2 : Solver} (ht : s2.trail = s.trail) (hl : s2.level = s.level)
    (hp : s2.pos_in_trail = s.pos_in_trail) (hr : s2.reason = s.reason)
    (hdb : s2.clause_DB = s.clause_DB) (h : Reasons s) : Reasons s2 := by
  unfold Reasons ReasonAt litAt
  rw [ht, hl, hp, hr, hdb]
  exact h

theorem ranged_congr {s s2 : Solver} (hv : s2.value = s.value) (hvars : s2.vars = s.vars)
    (hdb : s2.clause_DB = s.clause_DB) (h : Ranged s) : Ranged s2 := by
  unfold Ranged IsVar
  rw [hv, hvars, hdb]
  exact h

theorem heapInv_congr {s s2 : Solver} (hh : s2.vsids = s.vsids) (hvars : s2.vars = s.vars)
    (hv : s2.value = s.value) (hs : s2.saved = s.saved) (hb : s2.local_best = s.local_best)
    (h : HeapInv s) : HeapInv s2 := by
  unfold HeapInv HeapComplete PhaseTyped IsVar
  rw [hh, hvars, hv, hs, hb]
  exact h

theorem heapVars_congr {s s2 : Solver} (hh : s2.vsids = s.vsids) (hvars : s2.vars = s.vars)
    (h : HeapVars s) : HeapVars s2 := by
  unfold HeapVars IsVar
  rw [hh, hvars]
  exact h

theorem steady_congr {s s2 : Solver} (hv : s2.value = s.value) (ht : s2.trail = s.trail)
    (hl : s2.level = s.level) (hp : s2.pos_in_trail = s.pos_in_trail)
    (hpr : s2.propagated = s.propagated) (hdb : s2.clause_DB = s.clause_DB)
    (hw : s2.watches = s.watches) (h : Steady s) : Steady s2 := by
  unfold Steady
  rw [hpr, hw, hdb]
  exact ⟨core_congr hv ht hl hp hpr hdb h.1, h.2⟩

/-- A quantity that the writes of the watch lists, of the clauses, of
`propagated` and the assignments leave alone is left alone by `propagate`. -/
theorem propagate_preserves {α : Type} (f : Solver → α)
    (hw : ∀ s p ws, f (setWatch s p ws) = f s) (hc : ∀ s c cl, f (setClause s c cl) = f s)
    (ha : ∀ s l lvl r, f (assign s l lvl r) = f s)
    (hp : ∀ (s : Solver) (k : Nat), f { s with propagated := k } = f s) :
    ∀ (fuel : Nat) (s : Solver) (r : Int) (s2 : Solver),
      propagate fuel s = some (r, s2) → f s2 = f s := by
  have hstep : ∀ p n i j s,
      match watchStep p n i j s with
      | WatchStep.next _ s2 => f s2 = f s
      | WatchStep.conflict _ s2 => f s2 = f s := by
    intro p n i j s
    unfold watchStep
    dsimp only
    split_ifs
    · exact hw _ _ _
    · exact (hw _ _ _).trans (hc _ _ _)
    · exact (hw _ _ _).trans ((hc _ _ _).trans (hc _ _ _))
    · exact (hw _ _ _).trans ((hw _ _ _).trans (hc _ _ _))
    · exact (ha _ _ _ _).trans ((hw _ _ _).trans (hc _ _ _))
  have hloop : ∀ p n i j s, f (propagateWatches p n i j s).2 = f s := by
    intro p n
    induction n with
    | zero => intro i j s; exact hw _ _ _
    | succ n ih =>
      intro i j s
      have h1 := hstep p n i j s
      unfold propagateWatches
      generalize watchStep p n i j s = r at h1
      cases r with
      | next j2 s2 => exact (ih _ _ _).trans h1
      | conflict cref s2 => exact h1
  intro fuel
  induction fuel with
  | zero =>
    intro s r s2 hrun
    unfold propagate at hrun
    split_ifs at hrun
    simp only [Option.some.injEq, Prod.mk.injEq] at hrun
    rw [← hrun.2]
  | succ fuel ih =>
    intro s r s2 hrun
    unfold propagate at hrun
    split_ifs at hrun with hlt
    · dsimp only at hrun
      have hpost := hloop (s.trail.getD s.propagated 0)
        (s.watches (s.trail.getD s.propagated 0)).length 0 0
        { s with propagated := s.propagated + 1 }
      generalize propagateWatches (s.trail.getD s.propagated 0)
        (s.watches (s.trail.getD s.propagated 0)).length 0 0
        { s with propagated := s.propagated + 1 } = res at hrun hpost
      rcases res with ⟨_ | cref, s3⟩
      · rw [ih s3 r s2 hrun, hpost, hp]
      · simp only [Option.some.injEq, Prod.mk.injEq] at hrun
        rw [← hrun.2, hpost, hp]
    · simp only [Option.some.injEq, Prod.mk.injEq] at hrun
      rw [← hrun.2]

/-- The method `propagate` keeps the invariant of the loop of `solve`: when
it returns -1 the invariant holds with everything propagated, and when it
returns a clause the state is a conflict state. -/
theorem inv_propagate {s : Solver} (hi : Inv s) (fuel : Nat) (r : Int) (s2 : Solver)
    (hrun : propagate fuel s = some (r, s2)) :
    (r = -1 → Inv s2 ∧ s2.propagated = s2.trail.length) ∧
    (r ≠ -1 → ∃ cref : Nat, r = (cref : Int) ∧ ConflictInv s2 cref) := by
  obtain ⟨h1, h2⟩ := propagate_gpost fuel s r s2 hi.steady hi.reasons hi.ranged hrun
  have hwready : WReady s := ⟨hi.steady.2, trailTrue_of_cons hi.steady.1.cons, hi.steady.1.typed⟩
  have hsame := (propagate_wready fuel s r s2 hwready hrun).2
  have hm : MarksOld s2 := by
    have e := propagate_preserves (fun s => (s.mark, s.time_stamp)) (fun _ _ _ => rfl)
      (fun _ _ _ => rfl) (fun _ _ _ _ => rfl) (fun _ _ => rfl) fuel s r s2 hrun
    simp only [Prod.mk.injEq] at e
    exact marksOld_congr e.1 e.2 hi.marks
  have hg := propagate_grows fuel s r s2 hrun
  have hheap : HeapInv s2 := heapInv_grows hg hi.heap
  have hhv : HeapVars s2 := heapVars_congr hg.1 hg.2.1 hi.heapVars
  have ho : s2.origin_clauses ≤ s2.clause_DB.length := by
    have e := propagate_preserves (fun s => s.origin_clauses) (fun _ _ _ => rfl)
      (fun _ _ _ => rfl) (fun _ _ _ _ => rfl) (fun _ _ => rfl) fuel s r s2 hrun
    have e2 : s2.origin_clauses = s.origin_clauses := e
    rw [e2, hsame.1]
    exact hi.origin
  constructor
  · intro hr
    obtain ⟨a, b, c, d⟩ := h1 hr
    exact ⟨⟨a, b, c, hm, hheap, hhv, ho⟩, d⟩
  · intro hr
    obtain ⟨cref, e, hc⟩ := h2 hr
    exact ⟨cref, e, ⟨hc, hm, hheap, hhv, ho⟩⟩

end Solver

end EasySAT

namespace EasySAT

namespace Solver

theorem tableSorted_of_core {f : Nat} {s : Solver} (hc : Core f s) : TableSorted s := by
  refine ⟨hc.sorted, ?_⟩
  intro i hi
  have := hc.tableLe i hi
  have := hc.fLe
  omega

/-- The values after `backtrack(L)`: the variables of the trail literals
removed are unassigned, and every other variable keeps its value. -/
theorem backtrack_value (s : Solver) (L : Nat) (hL : L < s.pos_in_trail.length)
    (hB : s.pos_in_trail.getD L 0 ≤ s.trail.length) :
    (∀ w, (∃ i, s.pos_in_trail.getD L 0 ≤ i ∧ i < s.trail.length ∧
        (s.trail.getD i 0).natAbs = w) → (backtrack s L).value w = 0) ∧
    (∀ w, (∀ i, s.pos_in_trail.getD L 0 ≤ i → i < s.trail.length →
        (s.trail.getD i 0).natAbs ≠ w) → (backtrack s L).value w = s.value w) := by
  rw [backtrack_unfold s L hL]
  obtain ⟨h1, h2⟩ := backtrackLoop_spec (s.pos_in_trail.getD L 0)
    (s.trail.length - s.pos_in_trail.getD L 0) s
  have e : s.pos_in_trail.getD L 0 + (s.trail.length - s.pos_in_trail.getD L 0) =
      s.trail.length := by omega
  rw [e] at h1 h2
  exact ⟨fun w hw => (h1 w hw).1, fun w hw => (h2 w hw).1⟩

theorem count_take_of_sorted (t : List Nat) (L i : Nat)
    (hs : ∀ a b, a ≤ b → b < t.length → t.getD a 0 ≤ t.getD b 0) (hb : i < t.getD L 0) :
    (t.take L).countP (fun b => Nat.ble b i) = t.countP (fun b => Nat.ble b i) := by
  have h1 : (t.drop L).countP (fun b => Nat.ble b i) = 0 := by
    rw [List.countP_eq_zero]
    intro a ha
    rw [List.mem_drop_iff_getElem] at ha
    obtain ⟨k, hk, e⟩ := ha
    have := hs L (L + k) (by omega) (by omega)
    rw [List.getD_eq_getElem _ _ (by omega : L + k < t.length), e] at this
    simp only [Nat.ble_eq]
    omega
  have h2 : t.countP (fun b => Nat.ble b i) =
      (t.take L).countP (fun b => Nat.ble b i) + (t.drop L).countP (fun b => Nat.ble b i) := by
    rw [← List.countP_append, List.take_append_drop]
  rw [h2, h1, Nat.add_zero]

/-- What `backtrack(L)` does to the trail, to the table, to `propagated` and
to the values, below the current decision level. -/
theorem backtrack_shape {f : Nat} {s : Solver} (hc : Core f s) (L : Nat)
    (hL : L < s.pos_in_trail.length) :
    (backtrack s L).trail = s.trail.take (s.pos_in_trail.getD L 0) ∧
    (backtrack s L).pos_in_trail = s.pos_in_trail.take L ∧
    (backtrack s L).propagated = s.pos_in_trail.getD L 0 ∧
    s.pos_in_trail.getD L 0 ≤ s.trail.length ∧
    (∀ i, i < s.trail.length →
      (s.pos_in_trail.getD L 0 ≤ i ↔ L < s.level (s.trail.getD i 0).natAbs)) ∧
    (∀ w, (backtrack s L).value w = 0 ∨ (backtrack s L).value w = s.value w) ∧
    (∀ i, i < s.pos_in_trail.getD L 0 →
      (backtrack s L).value (s.trail.getD i 0).natAbs = s.value (s.trail.getD i 0).natAbs) ∧
    (∀ i, s.pos_in_trail.getD L 0 ≤ i → i < s.trail.length →
      (backtrack s L).value (s.trail.getD i 0).natAbs = 0) := by
  have hsort := tableSorted_of_core hc
  have hB : s.pos_in_trail.getD L 0 ≤ s.trail.length := hsort.2 L hL
  obtain ⟨c1, c2, c3, c4, c5, c6, c7, c8⟩ := (backtrack_effect s L hc.cons hsort).2 hL
  obtain ⟨v1, v2⟩ := backtrack_value s L hL hB
  refine ⟨c1, c4, c3, hB, c6, ?_, ?_, ?_⟩
  · intro w
    by_cases hw : ∃ i, s.pos_in_trail.getD L 0 ≤ i ∧ i < s.trail.length ∧
        (s.trail.getD i 0).natAbs = w
    · exact Or.inl (v1 w hw)
    · right
      apply v2 w
      intro i h1 h2 h3
      exact hw ⟨i, h1, h2, h3⟩
  · intro i hi
    exact (c8 i hi (by omega)).1
  · intro i h1 h2
    exact (c7 i h1 h2).1

/-- The method `backtrack(L)`, below the current decision level, keeps the
invariant of the assignment, with the frontier at the end of the trail it
leaves. -/
theorem core_backtrack {f : Nat} {s : Solver} (hc : Core f s) (L : Nat)
    (hL : L < s.pos_in_trail.length) :
    Core (s.pos_in_trail.getD L 0) (backtrack s L) := by
  obtain ⟨e1, e2, e3, hB, hiff, hv, hkeep, hgone⟩ := backtrack_shape hc L hL
  obtain ⟨f1, _, f3, _, f5, _, _⟩ := backtrack_frame s L
  have hlenT : (s.trail.take (s.pos_in_trail.getD L 0)).length = s.pos_in_trail.getD L 0 := by
    rw [List.length_take]; omega
  have hgetT : ∀ i, i < s.pos_in_trail.getD L 0 →
      (s.trail.take (s.pos_in_trail.getD L 0)).getD i 0 = s.trail.getD i 0 :=
    fun i hi => getD_take _ _ _ _ hi
  have hBf : s.pos_in_trail.getD L 0 ≤ f := hc.tableLe L hL
  refine ⟨?_, ?_, ?_, ?_, ?_, ?_, ?_, ?_, ?_⟩
  · unfold LitsTyped
    rw [e1, f1]
    exact ⟨fun l hl => hc.typed.1 l (List.mem_of_mem_take hl), hc.typed.2⟩
  · intro w
    rcases hv w with h | h
    · exact Or.inl h
    · rw [h]; exact hc.valRange w
  · intro i hi
    rw [e1, hlenT] at hi
    rw [e1, hgetT i hi, hkeep i hi, f5, e2,
      count_take_of_sorted _ L i hc.sorted hi]
    exact hc.cons i (by omega)
  · intro w hw
    rcases hv w with h | h
    · exact absurd h hw
    · rw [h] at hw
      obtain ⟨i, hi, e⟩ := hc.onTrail w hw
      have hiB : i < s.pos_in_trail.getD L 0 := by
        by_contra hge
        have := hgone i (by omega) hi
        rw [e, h] at this
        exact hw this
      exact ⟨i, by rw [e1, hlenT]; exact hiB, by rw [e1, hgetT i hiB]; exact e⟩
  · intro i k hi hk e
    rw [e1, hlenT] at hi hk
    rw [e1, hgetT i hi, hgetT k hk] at e
    exact hc.nodup i k (by omega) (by omega) e
  · intro a b hab hb
    rw [e2, List.length_take] at hb
    rw [e2, getD_take _ _ _ _ (by omega), getD_take _ _ _ _ (by omega)]
    exact hc.sorted a b hab (by omega)
  · intro a ha
    rw [e2, List.length_take] at ha
    rw [e2, getD_take _ _ _ _ (by omega)]
    exact hc.sorted a L (by omega) hL
  · rw [e3, e1, hlenT]
    exact ⟨le_refl _, le_refl _⟩
  · intro c x hcl hx hval hmem
    have hlit : litAt (backtrack s L) c x = litAt s c x := by unfold litAt; rw [f1]
    rw [hlit] at hval hmem ⊢
    rw [f1] at hcl ⊢
    rw [f5]
    rw [e1, List.take_take, min_self] at hmem
    have hval0 : litValue s.value (litAt s c x) = -1 := by
      rw [litValue_eq] at hval ⊢
      rcases hv (litAt s c x).natAbs with h | h
      · rw [h] at hval
        simp at hval
      · rw [h] at hval
        exact hval
    have hmemf : -(litAt s c x) ∈ s.trail.take f := by
      obtain ⟨t, ht, et⟩ := (mem_iff_getD _ _).1 hmem
      rw [hlenT] at ht
      rw [hgetT t ht] at et
      rw [← et]
      exact take_mem_of_lt _ _ _ (by omega) (by omega)
    obtain ⟨m, hm, hm1, hm2⟩ := hc.sound c x hcl hx hval0 hmemf
    refine ⟨m, hm, ?_, hm2⟩
    -- the true literal is at a level that the backtrack keeps
    obtain ⟨t, ht, et⟩ := (mem_iff_getD _ _).1 hmem
    rw [hlenT] at ht
    rw [hgetT t ht] at et
    have hllit : s.level (litAt s c x).natAbs ≤ L := by
      have h1 := (hiff t (by omega)).not.1 (by omega)
      rw [et, Int.natAbs_neg] at h1
      omega
    have hm0 : m ≠ 0 := by
      intro e
      rw [e] at hm1
      have : litValue s.value 0 = - s.value 0 := by rw [litValue_eq]; simp
      rw [this] at hm1
      have h0 := hc.onTrail 0 (by omega)
      obtain ⟨i, hi, ei⟩ := h0
      have := hc.typed.1 _ (getD_mem _ _ hi)
      omega
    obtain ⟨k, hk, ek⟩ := (mem_iff_getD _ _).1 (true_on_trail hc m hm0 hm1)
    have hkB : k < s.pos_in_trail.getD L 0 := by
      by_contra hge
      have := (hiff k hk).1 (by omega)
      rw [ek] at this
      omega
    have := hkeep k hkB
    rw [ek] at this
    rw [litValue_eq, this, ← litValue_eq]
    exact hm1

end Solver

end EasySAT

namespace EasySAT

namespace Solver

theorem inv_base {s : Solver} (h : Inv s) : Base s.propagated s :=
  ⟨h.steady.1, h.steady.2, h.reasons, h.ranged, h.marks, h.heap, h.heapVars, h.origin⟩

theorem base_inv {s : Solver} (h : Base s.propagated s) : Inv s :=
  ⟨⟨h.core, h.wok⟩, h.reasons, h.ranged, h.marks, h.heap, h.heapVars, h.origin⟩

theorem conflictInv_base {s : Solver} {cref : Nat} (h : ConflictInv s cref) :
    Base (s.propagated - 1) s :=
  ⟨h.conflict.stopped.2.1, h.conflict.stopped.2.2, h.conflict.reasons, h.conflict.ranged,
    h.marks, h.heap, h.heapVars, h.origin⟩

/-- The variable of a trail literal is a variable `1..vars`. -/
theorem trail_isVar {f : Nat} {s : Solver} (hc : Core f s) (hr : Ranged s) (i : Nat)
    (hi : i < s.trail.length) : IsVar s (s.trail.getD i 0).natAbs :=
  hr.1 _ (trail_var_assigned hc i hi)

theorem heapVars_unassign (s : Solver) (lit : Int) (hi : HeapInv s) (hv : HeapVars s)
    (hl : IsVar s lit.natAbs) : HeapVars (unassign s lit) := by
  have hvars : (unassign s lit).vars = s.vars := (unassign_frame s lit).2.2.2.2.2.2.2.1
  intro w hw
  unfold IsVar
  rw [hvars]
  unfold unassign at hw
  dsimp only at hw
  split_ifs at hw with h
  · exact hv w hw
  · have hmem := (Heap.insert_posOK (GreaterActivity s.activity) hi.1 lit.natAbs
      (by simpa using h)).2 w
    rcases hmem.1 hw with e | e
    · rw [e]; exact hl
    · exact hv w e

theorem heapVars_backtrackLoop (bound : Nat) :
    ∀ (n : Nat) (s : Solver), HeapInv s → HeapVars s →
      (∀ i, bound ≤ i → i < bound + n → IsVar s (s.trail.getD i 0).natAbs) →
      HeapVars (backtrackLoop bound n s) := by
  intro n
  induction n with
  | zero => intro s _ h _; exact h
  | succ n ih =>
    intro s hi hv hl
    unfold backtrackLoop
    have hfr := unassign_frame s (s.trail.getD (bound + n) 0)
    apply ih _ (heapInv_unassign s _ hi)
      (heapVars_unassign s _ hi hv (hl (bound + n) (by omega) (by omega)))
    intro i h1 h2
    unfold IsVar
    rw [hfr.1, hfr.2.2.2.2.2.2.2.1]
    exact hl i h1 (by omega)

theorem heapVars_backtrack {f : Nat} {s : Solver} (hc : Core f s) (hr : Ranged s)
    (hi : HeapInv s) (hv : HeapVars s) (L : Nat) : HeapVars (backtrack s L) := by
  unfold backtrack
  split_ifs with h
  · exact hv
  · have hB := (tableSorted_of_core hc).2 L (by omega)
    have := heapVars_backtrackLoop (s.pos_in_trail.getD L 0)
      (s.trail.length - s.pos_in_trail.getD L 0) s hi hv
      (fun i h1 h2 => trail_isVar hc hr i (by omega))
    exact heapVars_congr rfl rfl this

theorem bFrame_fields {s s2 : Solver} (h : BFrame s s2) :
    s2.mark = s.mark ∧ s2.time_stamp = s.time_stamp ∧ s2.learnt = s.learnt ∧
    s2.local_best = s.local_best := by
  have e1 := congrArg Solver.mark h
  have e2 := congrArg Solver.time_stamp h
  have e3 := congrArg Solver.learnt h
  have e4 := congrArg Solver.local_best h
  exact ⟨e1, e2, e3, e4⟩

/-- The method `backtrack(L)`, below the current decision level, keeps the
reasons: it removes trail literals and leaves the others where they were. -/
theorem reasons_backtrack {f : Nat} {s : Solver} (hc : Core f s) (hr : Reasons s) (L : Nat)
    (hL : L < s.pos_in_trail.length) : Reasons (backtrack s L) := by
  obtain ⟨e1, e2, e3, hB, hiff, hv, hkeep, hgone⟩ := backtrack_shape hc L hL
  obtain ⟨f1, _, f3, _, f5, f6, _⟩ := backtrack_frame s L
  have hlenT : (s.trail.take (s.pos_in_trail.getD L 0)).length = s.pos_in_trail.getD L 0 := by
    rw [List.length_take]; omega
  have hgetT : ∀ i, i < s.pos_in_trail.getD L 0 →
      (s.trail.take (s.pos_in_trail.getD L 0)).getD i 0 = s.trail.getD i 0 :=
    fun i hi => getD_take _ _ _ _ hi
  intro j hj hnp hlv
  rw [e1, hlenT] at hj
  rw [e2] at hnp
  rw [f5, e1, hgetT j hj] at hlv
  have hnp2 : ∀ b, b ∈ s.pos_in_trail → b ≠ j := by
    intro b hb
    obtain ⟨a, ha, ea⟩ := List.mem_iff_getElem.1 hb
    by_cases haL : a < L
    · apply hnp b
      rw [List.mem_take_iff_getElem]
      exact ⟨a, by simp only [lt_inf_iff]; exact ⟨haL, ha⟩, ea⟩
    · have := hc.sorted L a (by omega) ha
      rw [List.getD_eq_getElem _ _ ha, ea] at this
      omega
  obtain ⟨c0, r1, r2, r3, r4⟩ := hr j (by omega) hnp2 hlv
  unfold ReasonAt litAt
  rw [f6, e1, f1, hgetT j hj]
  refine ⟨c0, r1, r2, r3, ?_⟩
  intro k hk1 hk2
  obtain ⟨i, hi, ei⟩ := r4 k hk1 hk2
  exact ⟨i, hi, by rw [hgetT i (by omega)]; exact ei⟩

/-- The method `backtrack(L)`, below the current decision level, keeps the
invariants of the solver, with the frontier at the end of the trail it
leaves. -/
theorem base_backtrack {f : Nat} {s : Solver} (h : Base f s) (L : Nat)
    (hL : L < s.pos_in_trail.length) : Base (backtrack s L).propagated (backtrack s L) := by
  obtain ⟨e1, e2, e3, hB, hiff, hv, hkeep, hgone⟩ := backtrack_shape h.core L hL
  obtain ⟨f1, f2, f3, f4, f5, f6, _⟩ := backtrack_frame s L
  obtain ⟨g1, g2, _, _⟩ := bFrame_fields (backtrack_bFrame s L)
  refine ⟨?_, ?_, reasons_backtrack h.core h.reasons L hL, ?_, marksOld_congr g1 g2 h.marks,
    heapInv_backtrack s L h.heap, heapVars_backtrack h.core h.ranged h.heap h.heapVars L, ?_⟩
  · rw [e3]
    exact core_backtrack h.core L hL
  · rw [f3, f1]
    exact h.wok
  · unfold Ranged IsVar
    rw [f4, f1]
    refine ⟨?_, h.ranged.2⟩
    intro w hw
    rcases hv w with e | e
    · exact absurd e hw
    · rw [e] at hw
      exact h.ranged.1 w hw
  · rw [f2, f1]
    exact h.origin

/-- The method `backtrack` keeps the invariant of the loop of `solve`. -/
theorem inv_backtrack {s : Solver} (h : Inv s) (L : Nat) : Inv (backtrack s L) := by
  by_cases hL : L < s.pos_in_trail.length
  · exact base_inv (base_backtrack (inv_base h) L hL)
  · have : backtrack s L = s := by
      unfold backtrack
      rw [if_pos (by omega)]
    rw [this]
    exact h

end Solver

end EasySAT

namespace EasySAT

namespace Solver

/-- The invariants of the solver read only the fields of `searchFields` and
the typing of the saved and local-best phases. -/
theorem base_congr {f : Nat} {s s2 : Solver} (he : searchFields s2 = searchFields s)
    (hs : ∀ v, s2.saved v = 0 ∨ s2.saved v = 1 ∨ s2.saved v = -1)
    (hb : ∀ v, s2.local_best v = 0 ∨ s2.local_best v = 1 ∨ s2.local_best v = -1)
    (h : Base f s) : Base f s2 := by
  simp only [searchFields, Prod.mk.injEq] at he
  obtain ⟨e1, e2, e3, e4, e5, e6, e7, e8, e9, e10, e11, e12, e13⟩ := he
  refine ⟨core_congr e1 e2 e3 e4 e5 e6 h.core, by rw [e7, e6]; exact h.wok,
    reasons_congr e2 e3 e4 e8 e6 h.reasons, ranged_congr e1 e9 e6 h.ranged,
    marksOld_congr e10 e11 h.marks, ?_, heapVars_congr e12 e9 h.heapVars,
    by rw [e13, e6]; exact h.origin⟩
  obtain ⟨hp, hc, ht1, _, _⟩ := h.heap
  refine ⟨by rw [e12]; exact hp, ?_, by rw [e1]; exact ht1, hs, hb⟩
  unfold HeapComplete IsVar
  rw [e9, e1, e12]
  exact hc

theorem inv_congr {s s2 : Solver} (he : searchFields s2 = searchFields s)
    (hs : ∀ v, s2.saved v = 0 ∨ s2.saved v = 1 ∨ s2.saved v = -1)
    (hb : ∀ v, s2.local_best v = 0 ∨ s2.local_best v = 1 ∨ s2.local_best v = -1)
    (h : Inv s) : Inv s2 := by
  have hp : s2.propagated = s.propagated := by
    simp only [searchFields, Prod.mk.injEq] at he
    exact he.2.2.2.2.1
  apply base_inv
  rw [hp]
  exact base_congr he hs hb (inv_base h)

theorem neg_typed {x : Int} (h : x = 0 ∨ x = 1 ∨ x = -1) : -x = 0 ∨ -x = 1 ∨ -x = -1 := by
  omega

/-- Writing saved phases that are signs or zero keeps the invariant of the
loop of `solve`. -/
theorem inv_saved {s : Solver} (h : Inv s) (g : Nat → Int)
    (hg : ∀ v, g v = 0 ∨ g v = 1 ∨ g v = -1) : Inv { s with saved := g } := by
  have e : searchFields { s with saved := g } = searchFields s := rfl
  exact inv_congr e hg h.heap.2.2.2.2 h

/-- The method `restart` keeps the invariant of the loop of `solve`. -/
theorem inv_restart {s : Solver} (h : Inv s) (coins : Nat → Nat) : Inv (restart s coins).1 := by
  have e1 : searchFields { s with fast_lbd_sum := 0, lbd_queue_size := 0, lbd_queue_pos := 0 } =
      searchFields s := rfl
  have h1 : Inv { s with fast_lbd_sum := 0, lbd_queue_size := 0, lbd_queue_pos := 0 } :=
    inv_congr e1 h.heap.2.2.2.1 h.heap.2.2.2.2 h
  have h2 := inv_backtrack h1 0
  unfold restart
  dsimp only
  generalize backtrack { s with fast_lbd_sum := 0, lbd_queue_size := 0, lbd_queue_pos := 0 } 0 = s2
    at h2
  have hs := h2.heap.2.2.2.1
  have hb := h2.heap.2.2.2.2
  split_ifs
  · apply inv_saved h2
    intro v
    dsimp only
    split_ifs
    · exact hb v
    · exact hs v
  · apply inv_saved h2
    intro v
    dsimp only
    split_ifs
    · exact neg_typed (hb v)
    · exact hs v
  · apply inv_saved h2
    intro v
    dsimp only
    split_ifs
    · exact Or.inr (Or.inl rfl)
    · exact Or.inr (Or.inr rfl)
    · exact hs v
  · exact h2

/-- The method `rephase` keeps the invariant of the loop of `solve`. -/
theorem inv_rephase {s : Solver} (h : Inv s) : Inv (rephase s) := by
  have e : searchFields (rephase s) = searchFields s := rfl
  exact inv_congr e h.heap.2.2.2.1 h.heap.2.2.2.2 h

end Solver

end EasySAT

namespace EasySAT

namespace Solver

/-- The selection loop of `decide` on a heap of variables: the heap left
holds variables only, and the variable selected is a variable `1..vars`. -/
theorem decideLoop_vars :
    ∀ (fuel : Nat) (next : Int) (s : Solver) (res : Option Int) (s2 : Solver),
      decideLoop fuel next s = some (res, s2) →
      Heap.PosOK s.vsids → HeapVars s → (next = -1 ∨ IsVar s next.toNat) →
      HeapVars s2 ∧ ∀ nx, res = some nx → IsVar s nx.toNat := by
  intro fuel
  induction fuel with
  | zero =>
    intro next s res s2 h hp hv hnext
    rw [decideLoop_unfold] at h
    by_cases hc : next = -1 ∨ litValue s.value next ≠ 0
    · rw [if_pos hc] at h
      by_cases he : s.vsids.empty = true
      · rw [if_pos he] at h
        simp only [Option.some.injEq, Prod.mk.injEq] at h
        rw [← h.1, ← h.2]
        exact ⟨hv, fun nx hnx => by simp at hnx⟩
      · rw [if_neg he] at h
        simp at h
    · rw [if_neg hc] at h
      simp only [Option.some.injEq, Prod.mk.injEq] at h
      rw [← h.1, ← h.2]
      push_neg at hc
      refine ⟨hv, fun nx hnx => ?_⟩
      simp only [Option.some.injEq] at hnx
      rw [← hnx]
      rcases hnext with e | e
      · exact absurd e hc.1
      · exact e
  | succ fuel ih =>
    intro next s res s2 h hp hv hnext
    rw [decideLoop_unfold] at h
    by_cases hc : next = -1 ∨ litValue s.value next ≠ 0
    · rw [if_pos hc] at h
      by_cases he : s.vsids.empty = true
      · rw [if_pos he] at h
        simp only [Option.some.injEq, Prod.mk.injEq] at h
        rw [← h.1, ← h.2]
        exact ⟨hv, fun nx hnx => by simp at hnx⟩
      · rw [if_neg he] at h
        dsimp only at h
        have hne : s.vsids.heap ≠ [] := by
          intro e
          apply he
          unfold Heap.empty
          rw [e]
          rfl
        obtain ⟨_, hin, hp2, hm2⟩ := Heap.pop_posOK (GreaterActivity s.activity) hp hne
        have hv2 : HeapVars { s with vsids := (Heap.pop (GreaterActivity s.activity) s.vsids).2 } :=
          fun w hw => hv w ((hm2 w).1 hw).1
        have hnx : IsVar { s with vsids := (Heap.pop (GreaterActivity s.activity) s.vsids).2 }
            (((Heap.pop (GreaterActivity s.activity) s.vsids).1 : Int)).toNat := by
          rw [Int.toNat_ofNat]
          exact hv _ hin
        have hres := ih _ _ res s2 h hp2 hv2 (Or.inr hnx)
        exact hres
    · rw [if_neg hc] at h
      simp only [Option.some.injEq, Prod.mk.injEq] at h
      rw [← h.1, ← h.2]
      push_neg at hc
      refine ⟨hv, fun nx hnx => ?_⟩
      simp only [Option.some.injEq] at hnx
      rw [← hnx]
      rcases hnext with e | e
      · exact absurd e hc.1
      · exact e

/-- Opening a decision level in a state with everything propagated keeps the
invariant of the assignment, with the frontier at the end of the trail. -/
theorem core_push {s : Solver} (hc : Core s.propagated s) (hq : s.propagated = s.trail.length) :
    Core s.propagated { s with pos_in_trail := s.pos_in_trail ++ [s.trail.length] } := by
  have hget : ∀ a, a < s.pos_in_trail.length →
      (s.pos_in_trail ++ [s.trail.length]).getD a 0 = s.pos_in_trail.getD a 0 :=
    fun a ha => getD_append_left _ _ _ _ ha
  have hlast : (s.pos_in_trail ++ [s.trail.length]).getD s.pos_in_trail.length 0 =
      s.trail.length := by
    rw [getD_append_right _ _ _ _ (le_refl _), Nat.sub_self]
    rfl
  have hlen : (s.pos_in_trail ++ [s.trail.length]).length = s.pos_in_trail.length + 1 := by simp
  refine ⟨hc.typed, hc.valRange, ?_, hc.onTrail, hc.nodup, ?_, ?_, hc.fLe, hc.sound⟩
  · intro i hi
    have hi2 : i < s.trail.length := hi
    refine ⟨(hc.cons i hi2).1, ?_⟩
    show s.level (s.trail.getD i 0).natAbs =
      (s.pos_in_trail ++ [s.trail.length]).countP (fun b => Nat.ble b i)
    rw [List.countP_append, (hc.cons i hi2).2]
    have : ([s.trail.length].countP fun b => Nat.ble b i) = 0 := by
      rw [List.countP_eq_zero]
      intro b hb
      have : b = s.trail.length := by simpa using hb
      simp only [Nat.ble_eq]
      omega
    rw [this]
    rfl
  · intro a b hab hb
    have hb2 : b < s.pos_in_trail.length + 1 := by rw [← hlen]; exact hb
    show (s.pos_in_trail ++ [s.trail.length]).getD a 0 ≤
      (s.pos_in_trail ++ [s.trail.length]).getD b 0
    by_cases hbl : b < s.pos_in_trail.length
    · rw [hget a (by omega), hget b hbl]
      exact hc.sorted a b hab hbl
    · have hbe : b = s.pos_in_trail.length := by omega
      rw [hbe, hlast]
      by_cases hal : a < s.pos_in_trail.length
      · rw [hget a hal]
        have := hc.tableLe a hal
        omega
      · have hae : a = s.pos_in_trail.length := by omega
        rw [hae, hlast]
  · intro a ha
    have ha2 : a < s.pos_in_trail.length + 1 := by rw [← hlen]; exact ha
    show (s.pos_in_trail ++ [s.trail.length]).getD a 0 ≤ s.propagated
    by_cases hal : a < s.pos_in_trail.length
    · rw [hget a hal]
      exact hc.tableLe a hal
    · have hae : a = s.pos_in_trail.length := by omega
      rw [hae, hlast]
      omega

/-- Opening a decision level keeps the reasons. -/
theorem reasons_push {s : Solver} (hr : Reasons s) (k : Nat) :
    Reasons { s with pos_in_trail := s.pos_in_trail ++ [k] } := by
  intro j hj hnp hlv2
  exact hr j hj (fun b hb => hnp b (List.mem_append_left _ hb)) hlv2

end Solver

end EasySAT

namespace EasySAT

namespace Solver

/-- The method `decide`, when it returns 0 in a state with everything
propagated, keeps the invariant of the loop of `solve`. -/
theorem inv_decide {s : Solver} (h : Inv s) (hq : s.propagated = s.trail.length) (s2 : Solver)
    (hd : decide s = some (0, s2)) : Inv s2 := by
  have hheap2 := (heapInv_decide s 0 s2 hd h.heap).1
  unfold decide at hd
  cases hl : decideLoop s.vsids.heap.length (-1) s with
  | none => rw [hl] at hd; simp at hd
  | some x =>
    obtain ⟨res, s1⟩ := x
    obtain ⟨a1, a2, _, a4⟩ := decideLoop_heap _ _ s res s1 hl h.heap.1 (Or.inl rfl)
      (fun v hv hval => Or.inl (h.heap.2.1 v hv hval))
    obtain ⟨b1, b2⟩ := decideLoop_vars _ _ s res s1 hl h.heap.1 h.heapVars (Or.inl rfl)
    rw [hl] at hd
    cases res with
    | none =>
      simp only [Option.some.injEq, Prod.mk.injEq] at hd
      omega
    | some next =>
      obtain ⟨c1, c2, _⟩ := a4 next rfl
      have hvar := b2 next rfl
      have hs2 := congrArg Prod.snd (Option.some.inj hd)
      dsimp only at hs2
      have e1 : s1.value = s.value := by rw [a1]
      have e2 : s1.trail = s.trail := by rw [a1]
      have e3 : s1.level = s.level := by rw [a1]
      have e4 : s1.pos_in_trail = s.pos_in_trail := by rw [a1]
      have e5 : s1.propagated = s.propagated := by rw [a1]
      have e6 : s1.clause_DB = s.clause_DB := by rw [a1]
      have e7 : s1.watches = s.watches := by rw [a1]
      have e8 : s1.reason = s.reason := by rw [a1]
      have e9 : s1.vars = s.vars := by rw [a1]
      have e10 : s1.mark = s.mark := by rw [a1]
      have e11 : s1.time_stamp = s.time_stamp := by rw [a1]
      have e12 : s1.origin_clauses = s.origin_clauses := by rw [a1]
      have e13 : s1.saved = s.saved := by rw [a1]
      have hcore1 : Core s1.propagated s1 := by
        rw [e5]
        exact core_congr e1 e2 e3 e4 e5 e6 h.steady.1
      have hcorem := core_push hcore1 (by rw [e5, e2]; exact hq)
      have hreasm : Reasons { s1 with pos_in_trail := s1.pos_in_trail ++ [s1.trail.length] } :=
        reasons_push (reasons_congr e2 e3 e4 e8 e6 h.reasons) _
      have hrangm : Ranged { s1 with pos_in_trail := s1.pos_in_trail ++ [s1.trail.length] } :=
        ranged_congr e1 e9 e6 h.ranged
      generalize hn2 : (if s1.saved next.toNat ≠ 0 then next * s1.saved next.toNat
        else next) = next2 at hs2
      have habs : next2.natAbs = next.toNat := by
        rw [← hn2]
        have hnat : next.natAbs = next.toNat := by omega
        split_ifs with hs
        · have hsg : s1.saved next.toNat = 1 ∨ s1.saved next.toNat = -1 := by
            have := h.heap.2.2.2.1 next.toNat
            rw [← e13] at this
            rcases this with h0 | h0 | h0
            · exact absurd h0 hs
            · exact Or.inl h0
            · exact Or.inr h0
          rw [natAbs_mul_sign next _ hsg, hnat]
        · exact hnat
      have hn0 : next2 ≠ 0 := by
        intro e
        rw [e] at habs
        have := hvar.1
        simp at habs
        omega
      have hval0 : s1.value next2.natAbs = 0 := by
        rw [habs, e1]
        have hpos : next > 0 := by have := hvar.1; omega
        unfold litValue at c2
        rw [if_pos hpos] at c2
        exact c2
      have hcore2 := core_assign hcorem next2 (s1.pos_in_trail ++ [s1.trail.length]).length (-1)
        hn0 hval0 rfl
      have hreas2 := reasons_assign hreasm hcorem.cons next2
        (s1.pos_in_trail ++ [s1.trail.length]).length (-1) hval0 (by
          intro hno _
          exfalso
          exact hno s1.trail.length (List.mem_append_right _ (List.mem_singleton_self _)) rfl)
      have hrang2 := ranged_assign hrangm next2 (s1.pos_in_trail ++ [s1.trail.length]).length (-1)
        (by
          rw [habs]
          unfold IsVar at hvar ⊢
          exact ⟨hvar.1, by show (next.toNat : Int) ≤ s1.vars; rw [e9]; exact hvar.2⟩)
      rw [← hs2]
      refine ⟨⟨hcore2, ?_⟩, hreas2, hrang2, ?_, ?_, ?_, ?_⟩
      · show WatchOK s1.watches s1.clause_DB
        rw [e7, e6]
        exact h.steady.2
      · exact marksOld_congr e10 e11 h.marks
      · rw [hs2]
        exact hheap2
      · exact b1
      · show s1.origin_clauses ≤ s1.clause_DB.length
        rw [e12, e6]
        exact h.origin

end Solver

end EasySAT

namespace EasySAT

namespace Solver

theorem aFrame_fields {s s2 : Solver} (h : AFrame s s2) :
    s2.propagated = s.propagated ∧ s2.watches = s.watches ∧
    s2.origin_clauses = s.origin_clauses := by
  have e1 := congrArg Solver.propagated (h : keepSearch s2 s = s)
  have e2 := congrArg Solver.watches (h : keepSearch s2 s = s)
  have e3 := congrArg Solver.origin_clauses (h : keepSearch s2 s = s)
  exact ⟨e1, e2, e3⟩

/-- A call of `analyze` that returns 0 in a conflict state keeps the
invariants of the solver, and leaves a learnt clause and a backtrack level as
`Analyzed` says. -/
theorem base_analyze {s : Solver} {cref : Nat} (h : ConflictInv s cref)
    (hlv : 0 < s.pos_in_trail.length) (res : Int) (bt : Nat) (lbd : Int) (s2 : Solver)
    (ha : analyze s cref = some (res, bt, lbd, s2)) :
    res = 0 ∧ Base (s2.propagated - 1) s2 ∧ Analyzed s bt s2 := by
  obtain ⟨bt0, lbd0, s20, e, han⟩ := analyze_spec h.conflict h.marks hlv
  rw [e] at ha
  simp only [Option.some.injEq, Prod.mk.injEq] at ha
  obtain ⟨h1, h2, _, h4⟩ := ha
  rw [h2, h4] at han e
  obtain ⟨hf, hs⟩ := analyze_frame s cref 0 bt lbd0 s2 e
  obtain ⟨f1, f2, f3⟩ := aFrame_fields hf
  have hb := conflictInv_base h
  refine ⟨h1.symm, ⟨?_, ?_, ?_, ?_, han.marks, heapInv_analyze s cref 0 bt lbd0 s2 e h.heap,
    ?_, ?_⟩, han⟩
  · rw [f1]
    exact core_congr (aFrame_value hf) (aFrame_trail hf) (aFrame_level hf) (aFrame_pos hf) f1
      (aFrame_clause_DB hf) hb.core
  · rw [f2, aFrame_clause_DB hf]
    exact hb.wok
  · exact reasons_congr (aFrame_trail hf) (aFrame_level hf) (aFrame_pos hf) (aFrame_reason hf)
      (aFrame_clause_DB hf) hb.reasons
  · exact ranged_congr (aFrame_value hf) (aFrame_vars hf) (aFrame_clause_DB hf) hb.ranged
  · intro v hv
    unfold IsVar
    rw [aFrame_vars hf]
    have := (hs h.heap.1).2 v
    rw [this] at hv
    exact h.heapVars v hv
  · rw [f3, aFrame_clause_DB hf]
    exact hb.origin

theorem append_getD_old (db : List Clause) (cl : Clause) (c : Nat) (h : c < db.length) :
    (db ++ [cl]).getD c default = db.getD c default :=
  getD_append_left _ _ _ _ h

theorem append_getD_new (db : List Clause) (cl : Clause) :
    (db ++ [cl]).getD db.length default = cl := by
  rw [getD_append_right _ _ _ _ (le_refl _), Nat.sub_self]
  rfl

/-- Appending a clause of two nonzero literals or more, whose false watched
literals found before the frontier come with a true literal of the clause at
the same level or below, keeps the invariant of the assignment. -/
theorem core_append {f : Nat} {s : Solver} (hc : Core f s) (cl : Clause)
    (w : Int → List Watcher) (hlen : 2 ≤ cl.lit.length) (hnz : ∀ l, l ∈ cl.lit → l ≠ 0)
    (hsound : ∀ x, x < 2 → litValue s.value (cl.lit.getD x 0) = -1 →
      -(cl.lit.getD x 0) ∈ s.trail.take f →
      ∃ m, m ∈ cl.lit ∧ litValue s.value m = 1 ∧
        s.level m.natAbs ≤ s.level (cl.lit.getD x 0).natAbs) :
    Core f { s with clause_DB := s.clause_DB ++ [cl], watches := w } := by
  have hlenDB : (s.clause_DB ++ [cl]).length = s.clause_DB.length + 1 := by simp
  refine ⟨⟨hc.typed.1, ?_⟩, hc.valRange, hc.cons, hc.onTrail, hc.nodup, hc.sorted, hc.tableLe,
    hc.fLe, ?_⟩
  · intro c hcl
    have hcl2 : c < s.clause_DB.length + 1 := by rw [← hlenDB]; exact hcl
    show 2 ≤ ((s.clause_DB ++ [cl]).getD c default).lit.length ∧
      ∀ k, k < ((s.clause_DB ++ [cl]).getD c default).lit.length →
        ((s.clause_DB ++ [cl]).getD c default).lit.getD k 0 ≠ 0
    by_cases hold : c < s.clause_DB.length
    · rw [append_getD_old _ _ _ hold]
      exact hc.typed.2 c hold
    · have : c = s.clause_DB.length := by omega
      rw [this, append_getD_new]
      exact ⟨hlen, fun k hk => hnz _ (getD_mem _ _ hk)⟩
  · intro c x hcl hx hv hmem
    have hcl2 : c < s.clause_DB.length + 1 := by rw [← hlenDB]; exact hcl
    have hv2 : litValue s.value (((s.clause_DB ++ [cl]).getD c default).lit.getD x 0) = -1 := hv
    have hmem2 : -(((s.clause_DB ++ [cl]).getD c default).lit.getD x 0) ∈ s.trail.take f := hmem
    show ∃ m, m ∈ ((s.clause_DB ++ [cl]).getD c default).lit ∧ litValue s.value m = 1 ∧
      s.level m.natAbs ≤ s.level (((s.clause_DB ++ [cl]).getD c default).lit.getD x 0).natAbs
    by_cases hold : c < s.clause_DB.length
    · rw [append_getD_old _ _ _ hold] at hv2 hmem2 ⊢
      exact hc.sound c x hold hx hv2 hmem2
    · have : c = s.clause_DB.length := by omega
      rw [this, append_getD_new] at hv2 hmem2 ⊢
      exact hsound x hx hv2 hmem2

/-- Appending a clause keeps the reasons. -/
theorem reasons_append {s : Solver} (hr : Reasons s) (cl : Clause) (w : Int → List Watcher) :
    Reasons { s with clause_DB := s.clause_DB ++ [cl], watches := w } := by
  intro j hj hnp hlv
  obtain ⟨c0, e1, e2, e3, e4⟩ := hr j hj hnp hlv
  have hg : (s.clause_DB ++ [cl]).getD c0 default = s.clause_DB.getD c0 default :=
    append_getD_old _ _ _ e2
  refine ⟨c0, e1, ?_, ?_, ?_⟩
  · show c0 < (s.clause_DB ++ [cl]).length
    rw [List.length_append]
    omega
  · show ((s.clause_DB ++ [cl]).getD c0 default).lit.getD 0 0 = _
    rw [hg]
    exact e3
  · intro k hk1 hk2
    have hk3 : k < ((s.clause_DB ++ [cl]).getD c0 default).lit.length := hk2
    rw [hg] at hk3
    obtain ⟨i, hi, ei⟩ := e4 k hk1 hk3
    refine ⟨i, hi, ?_⟩
    show s.trail.getD i 0 = -(((s.clause_DB ++ [cl]).getD c0 default).lit.getD k 0)
    rw [hg]
    exact ei

/-- Appending a clause of literals in range keeps the literals in range. -/
theorem ranged_append {s : Solver} (hr : Ranged s) (cl : Clause) (w : Int → List Watcher)
    (hcl : ∀ l, l ∈ cl.lit → IsVar s l.natAbs) :
    Ranged { s with clause_DB := s.clause_DB ++ [cl], watches := w } := by
  refine ⟨hr.1, ?_⟩
  intro c hc l hl
  have hc2 : c < (s.clause_DB ++ [cl]).length := hc
  rw [List.length_append] at hc2
  have hl2 : l ∈ ((s.clause_DB ++ [cl]).getD c default).lit := hl
  show IsVar s l.natAbs
  by_cases hold : c < s.clause_DB.length
  · rw [append_getD_old _ _ _ hold] at hl2
    exact hr.2 c hold l hl2
  · have : c = s.clause_DB.length := by simp at hc2; omega
    rw [this, append_getD_new] at hl2
    exact hcl l hl2

/-- The watch lists fit a clause database with other LBDs and the same
literals. -/
theorem watchOK_lits {wf : Int → List Watcher} {db db2 : List Clause} (h : WatchOK wf db)
    (hlen : db2.length = db.length)
    (hl : ∀ c, (db2.getD c default).lit = (db.getD c default).lit) : WatchOK wf db2 := by
  unfold WatchOK npos
  rw [hlen]
  refine ⟨?_, ?_⟩
  · intro q w hw
    rw [hl]
    exact h.1 q w hw
  · intro q c hc
    rw [hl]
    exact h.2 q c hc

theorem setLbd_add_clause (s : Solver) (c : List Int) (lbd : Int) :
    setLbd (add_clause s c).2 (add_clause s c).1 lbd =
      { s with clause_DB := s.clause_DB ++ [⟨lbd, c⟩], watches := (add_clause s c).2.watches } := by
  have e : ((s.clause_DB ++ [(⟨0, c⟩ : Clause)]).set s.clause_DB.length
      { (s.clause_DB ++ [(⟨0, c⟩ : Clause)]).getD s.clause_DB.length default with lbd := lbd }) =
      s.clause_DB ++ [⟨lbd, c⟩] := by
    rw [append_getD_new]
    simp
  unfold setLbd add_clause
  dsimp only
  rw [e]

end Solver

end EasySAT

namespace EasySAT

namespace Solver

theorem getD_beyond (db : List Clause) (i : Nat) (h : db.length ≤ i) :
    db.getD i default = default := by
  rw [List.getD_eq_getElem?_getD, List.getElem?_eq_none h]
  rfl

theorem append_lits (db : List Clause) (a b : Clause) (h : a.lit = b.lit) (i : Nat) :
    ((db ++ [a]).getD i default).lit = ((db ++ [b]).getD i default).lit := by
  by_cases h1 : i < db.length
  · rw [append_getD_old _ _ _ h1, append_getD_old _ _ _ h1]
  · by_cases h2 : i = db.length
    · rw [h2, append_getD_new, append_getD_new, h]
    · rw [getD_beyond _ _ (by rw [List.length_append]; simp; omega),
        getD_beyond _ _ (by rw [List.length_append]; simp; omega)]

/-- The assignment of the first literal of the learnt clause after the
backtrack, with the clause installed when it has two literals or more, keeps
the invariant of the loop of `solve`: the first literal is unassigned, the
others are false, and the second is at the level backtracked to. -/
theorem inv_assert {s3 : Solver} (h3 : Base s3.propagated s3) (bt : Nat)
    (hbt : bt = s3.pos_in_trail.length) (hne : s3.learnt ≠ [])
    (h0 : s3.learnt.getD 0 0 ≠ 0) (hv0 : s3.value (s3.learnt.getD 0 0).natAbs = 0)
    (hr0 : IsVar s3 (s3.learnt.getD 0 0).natAbs)
    (htail : ∀ l, l ∈ s3.learnt.tail → l ≠ 0 ∧ IsVar s3 l.natAbs ∧
      ∃ i, i < s3.trail.length ∧ s3.trail.getD i 0 = -l)
    (hsec : 2 ≤ s3.learnt.length → s3.level (s3.learnt.getD 1 0).natAbs = bt)
    (hsingle : s3.learnt.length = 1 → bt = 0) (lbd : Int) :
    Inv (if s3.learnt.length = 1 then assign s3 (s3.learnt.getD 0 0) 0 (-1)
      else assign (setLbd (add_clause s3 s3.learnt).2 (add_clause s3 s3.learnt).1 lbd)
        (s3.learnt.getD 0 0) bt ((add_clause s3 s3.learnt).1 : Int)) := by
  have hlen1 := length_pos_of_ne hne
  by_cases h1 : s3.learnt.length = 1
  · rw [if_pos h1]
    have hb0 : (0 : Nat) = s3.pos_in_trail.length := by rw [← hbt]; exact (hsingle h1).symm
    refine ⟨⟨core_assign h3.core _ 0 (-1) h0 hv0 hb0, h3.wok⟩,
      reasons_assign h3.reasons h3.core.cons _ 0 (-1) hv0 (fun _ h => absurd h (lt_irrefl 0)),
      ranged_assign h3.ranged _ 0 (-1) hr0, h3.marks,
      heapInv_grows (grows_assign s3 _ 0 (-1)) h3.heap, h3.heapVars, h3.origin⟩
  · rw [if_neg h1, setLbd_add_clause]
    have hlen2 : 2 ≤ s3.learnt.length := by omega
    have hmem1 : s3.learnt.getD 1 0 ∈ s3.learnt.tail :=
      (tail_mem_getD _ _).2 ⟨1, le_refl _, by omega, rfl⟩
    have hall : ∀ l, l ∈ s3.learnt → l ≠ 0 ∧ IsVar s3 l.natAbs := by
      intro l hl
      obtain ⟨k, hk, ek⟩ := (mem_iff_getD _ _).1 hl
      by_cases hk0 : k = 0
      · rw [← ek, hk0]
        exact ⟨h0, hr0⟩
      · have := htail l ((tail_mem_getD _ _).2 ⟨k, by omega, hk, ek⟩)
        exact ⟨this.1, this.2.1⟩
    have hwok : WatchOK (add_clause s3 s3.learnt).2.watches
        (s3.clause_DB ++ [(⟨lbd, s3.learnt⟩ : Clause)]) :=
      watchOK_lits (add_clause_watchOK s3 s3.learnt h3.wok hlen2)
        (by
          show (s3.clause_DB ++ [(⟨lbd, s3.learnt⟩ : Clause)]).length =
            (s3.clause_DB ++ [(⟨0, s3.learnt⟩ : Clause)]).length
          rw [List.length_append, List.length_append]
          rfl)
        (fun c => append_lits s3.clause_DB ⟨lbd, s3.learnt⟩ ⟨0, s3.learnt⟩ rfl c)
    generalize (add_clause s3 s3.learnt).2.watches = W at hwok ⊢
    have hid : (add_clause s3 s3.learnt).1 = s3.clause_DB.length := rfl
    rw [hid]
    -- the assignment first, the clause afterwards
    have hca := core_assign h3.core (s3.learnt.getD 0 0) bt (s3.clause_DB.length : Int) h0 hv0 hbt
    have hcore := core_append hca ⟨lbd, s3.learnt⟩ W hlen2 (fun l hl => (hall l hl).1) (by
      intro x hx hval hmem
      have hval2 : litValue (Function.update s3.value (s3.learnt.getD 0 0).natAbs
        (litSign (s3.learnt.getD 0 0))) (s3.learnt.getD x 0) = -1 := hval
      refine ⟨s3.learnt.getD 0 0, getD_mem s3.learnt 0 (by omega), litValue_update_self _ _, ?_⟩
      show Function.update s3.level (s3.learnt.getD 0 0).natAbs bt (s3.learnt.getD 0 0).natAbs ≤
        Function.update s3.level (s3.learnt.getD 0 0).natAbs bt (s3.learnt.getD x 0).natAbs
      have hx1 : x = 1 := by
        by_contra hne1
        have hx0 : x = 0 := by omega
        rw [hx0, litValue_update_self] at hval2
        omega
      rw [hx1, Function.update_same]
      obtain ⟨_, _, i, hi, ei⟩ := htail _ hmem1
      have hvar : (s3.learnt.getD 1 0).natAbs ≠ (s3.learnt.getD 0 0).natAbs := by
        have := var_ne_of_assigned hv0 (trail_var_assigned h3.core i hi)
        rw [ei, Int.natAbs_neg] at this
        exact this
      rw [Function.update_noteq hvar, hsec hlen2])
    have hreas := reasons_assign
      (reasons_append h3.reasons ⟨lbd, s3.learnt⟩ W) h3.core.cons (s3.learnt.getD 0 0) bt
      (s3.clause_DB.length : Int) hv0 (by
        intro _ _
        refine ⟨s3.clause_DB.length, rfl, ?_, ?_, ?_⟩
        · show s3.clause_DB.length < (s3.clause_DB ++ [(⟨lbd, s3.learnt⟩ : Clause)]).length
          rw [List.length_append]
          simp
        · show ((s3.clause_DB ++ [(⟨lbd, s3.learnt⟩ : Clause)]).getD s3.clause_DB.length
            default).lit.getD 0 0 = _
          rw [append_getD_new]
        · intro k hk1 hk2
          have hk3 : k < ((s3.clause_DB ++ [(⟨lbd, s3.learnt⟩ : Clause)]).getD
            s3.clause_DB.length default).lit.length := hk2
          rw [append_getD_new] at hk3
          obtain ⟨_, _, i, hi, ei⟩ := htail _ ((tail_mem_getD _ _).2 ⟨k, hk1, hk3, rfl⟩)
          refine ⟨i, hi, ?_⟩
          show s3.trail.getD i 0 = -(((s3.clause_DB ++ [(⟨lbd, s3.learnt⟩ : Clause)]).getD
            s3.clause_DB.length default).lit.getD k 0)
          rw [append_getD_new]
          exact ei)
    have hrang := ranged_assign
      (ranged_append h3.ranged ⟨lbd, s3.learnt⟩ W (fun l hl => (hall l hl).2))
      (s3.learnt.getD 0 0) bt (s3.clause_DB.length : Int) hr0
    refine ⟨⟨hcore, hwok⟩, hreas, hrang, h3.marks, ?_, h3.heapVars, ?_⟩
    · exact heapInv_grows (grows_assign _ _ bt _)
        (heapInv_grows ⟨rfl, rfl, rfl, rfl, fun _ => Or.inl rfl⟩ h3.heap)
    · show s3.origin_clauses ≤ (s3.clause_DB ++ [(⟨lbd, s3.learnt⟩ : Clause)]).length
      rw [List.length_append]
      have := h3.origin
      omega

theorem analyzed_self {s1 : Solver} {bt : Nat} {s2 : Solver} (h : Analyzed s1 bt s2) :
    Analyzed s2 bt s2 := by
  have e1 := aFrame_trail h.frame
  have e2 := aFrame_level h.frame
  have e3 := aFrame_pos h.frame
  refine ⟨aFrame_refl s2, h.marks, h.learntNe, ?_, ?_, ?_, ?_, h.single, ?_⟩
  · rw [e1]; exact h.firstOn
  · rw [e2, e3]; exact h.firstTop
  · rw [e1, e2]; exact h.tail
  · rw [e3]; exact h.below
  · rw [e2]; exact h.second

/-- The updates of the counters, of the activity increment, and of the
threshold and the local-best phases that end the conflict branch of `solve`
keep the invariant of the loop of `solve`. -/
theorem inv_count {s4 : Solver} (h : Inv s4) :
    Inv (
      let s5 : Solver :=
        { s4 with
          var_inc := s4.var_inc * (1 / (4 / 5)),
          restarts := s4.restarts + 1, conflicts := s4.conflicts + 1,
          rephases := s4.rephases + 1, reduces := s4.reduces + 1 }
      if (s5.trail.length : Int) > s5.threshold then
        { s5 with
          threshold := (s5.trail.length : Int),
          local_best := fun i =>
            if 1 ≤ (i : Int) ∧ (i : Int) ≤ s5.vars then s5.value i else s5.local_best i }
      else s5) := by
  dsimp only
  split_ifs
  · refine inv_congr ?_ h.heap.2.2.2.1 ?_ h
    · rfl
    · intro v
      dsimp only
      split_ifs
      · exact h.heap.2.2.1 v
      · exact h.heap.2.2.2.2 v
  · refine inv_congr ?_ h.heap.2.2.2.1 h.heap.2.2.2.2 h
    rfl

/-- The conflict branch of `solve` after a call of `analyze` that returned 0
keeps the invariant of the loop of `solve`. -/
theorem inv_learn {f : Nat} {s : Solver} {bt : Nat} (hb : Base f s) (han : Analyzed s bt s)
    (lbd : Int) : Inv (learnAndAssign s bt lbd) := by
  have hL : bt < s.pos_in_trail.length := han.below
  obtain ⟨e1, e2, e3, hB, hiff, hv, hkeep, hgone⟩ := backtrack_shape hb.core bt hL
  have h3 := base_backtrack hb bt hL
  obtain ⟨_, _, _, f4, f5, _, _⟩ := backtrack_frame s bt
  obtain ⟨_, _, g3, _⟩ := bFrame_fields (backtrack_bFrame s bt)
  have hlenT : (backtrack s bt).trail.length = s.pos_in_trail.getD bt 0 := by
    rw [e1, List.length_take]; omega
  have hvars : ∀ v, IsVar (backtrack s bt) v ↔ IsVar s v := by
    intro v; unfold IsVar; rw [f4]
  -- the first learnt literal
  obtain ⟨i0, hi0, ei0⟩ := (mem_iff_getD _ _).1 han.firstOn
  have hvar0 : (s.trail.getD i0 0).natAbs = (s.learnt.getD 0 0).natAbs := by
    rw [ei0, Int.natAbs_neg]
  have h0 : s.learnt.getD 0 0 ≠ 0 := by
    have := hb.core.typed.1 _ han.firstOn
    omega
  have hv0 : (backtrack s bt).value (s.learnt.getD 0 0).natAbs = 0 := by
    rw [← hvar0]
    apply hgone i0 _ hi0
    apply (hiff i0 hi0).2
    rw [hvar0, han.firstTop]
    exact hL
  have hr0 : IsVar s (s.learnt.getD 0 0).natAbs := by
    rw [← hvar0]
    exact trail_isVar hb.core hb.ranged i0 hi0
  -- the other learnt literals
  have htail : ∀ l, l ∈ s.learnt.tail → l ≠ 0 ∧ IsVar s l.natAbs ∧
      ∃ i, i < (backtrack s bt).trail.length ∧ (backtrack s bt).trail.getD i 0 = -l := by
    intro l hl
    obtain ⟨hon, _, hle⟩ := han.tail l hl
    obtain ⟨i, hi, ei⟩ := (mem_iff_getD _ _).1 hon
    have hvar : (s.trail.getD i 0).natAbs = l.natAbs := by rw [ei, Int.natAbs_neg]
    have hiB : i < s.pos_in_trail.getD bt 0 := by
      by_contra hge
      have := (hiff i hi).1 (by omega)
      rw [hvar] at this
      omega
    refine ⟨?_, ?_, i, by rw [hlenT]; exact hiB, ?_⟩
    · have := hb.core.typed.1 _ hon
      omega
    · rw [← hvar]
      exact trail_isVar hb.core hb.ranged i hi
    · rw [e1, getD_take _ _ _ _ hiB]
      exact ei
  have hpos : bt = (backtrack s bt).pos_in_trail.length := by
    rw [e2, List.length_take]
    omega
  have h4 := inv_assert h3 bt hpos (by rw [g3]; exact han.learntNe) (by rw [g3]; exact h0)
    (by rw [g3]; exact hv0) (by rw [g3, hvars]; exact hr0)
    (by
      rw [g3]
      intro l hl
      obtain ⟨a, b, c⟩ := htail l hl
      exact ⟨a, (hvars _).2 b, c⟩)
    (by rw [g3, f5]; exact han.second) (by rw [g3]; exact han.single) lbd
  exact inv_count h4

end Solver

end EasySAT

namespace EasySAT

namespace Solver

/-- The fields that `reduce` leaves as `backtrack(0)` left them. -/
theorem reduce_fields (s : Solver) (coins : Nat → Nat) :
    (reduce s coins).1.value = (backtrack s 0).value ∧
    (reduce s coins).1.trail = (backtrack s 0).trail ∧
    (reduce s coins).1.level = (backtrack s 0).level ∧
    (reduce s coins).1.pos_in_trail = (backtrack s 0).pos_in_trail ∧
    (reduce s coins).1.propagated = (backtrack s 0).propagated ∧
    (reduce s coins).1.reason = (backtrack s 0).reason ∧
    (reduce s coins).1.vars = (backtrack s 0).vars ∧
    (reduce s coins).1.mark = (backtrack s 0).mark ∧
    (reduce s coins).1.time_stamp = (backtrack s 0).time_stamp ∧
    (reduce s coins).1.vsids = (backtrack s 0).vsids ∧
    (reduce s coins).1.saved = (backtrack s 0).saved ∧
    (reduce s coins).1.local_best = (backtrack s 0).local_best ∧
    (reduce s coins).1.origin_clauses = (backtrack s 0).origin_clauses := by
  have hf := reduceLoop_frame ((backtrack s 0).clause_DB.length - (backtrack s 0).origin_clauses)
    (backtrack s 0).origin_clauses (backtrack s 0).origin_clauses coins
    { backtrack s 0 with
      reduces := 0, reduce_limit := (backtrack s 0).reduce_limit + 512,
      reduce_map := resize (backtrack s 0).reduce_map (backtrack s 0).clause_DB.length 0 }
  unfold RFrame at hf
  have e1 := congrArg Solver.value hf
  have e2 := congrArg Solver.trail hf
  have e3 := congrArg Solver.level hf
  have e4 := congrArg Solver.pos_in_trail hf
  have e5 := congrArg Solver.propagated hf
  have e6 := congrArg Solver.reason hf
  have e7 := congrArg Solver.vars hf
  have e8 := congrArg Solver.mark hf
  have e9 := congrArg Solver.time_stamp hf
  have e10 := congrArg Solver.vsids hf
  have e11 := congrArg Solver.saved hf
  have e12 := congrArg Solver.local_best hf
  have e13 := congrArg Solver.origin_clauses hf
  exact ⟨e1, e2, e3, e4, e5, e6, e7, e8, e9, e10, e11, e12, e13⟩

/-- The invariant of the assignment holds for a clause database made of
clauses of the present one. -/
theorem core_sub {f : Nat} {s s2 : Solver} (hv : s2.value = s.value) (ht : s2.trail = s.trail)
    (hl : s2.level = s.level) (hp : s2.pos_in_trail = s.pos_in_trail)
    (hpr : s2.propagated = s.propagated)
    (hsub : ∀ c, c < s2.clause_DB.length → ∃ c0, c0 < s.clause_DB.length ∧
      s2.clause_DB.getD c default = s.clause_DB.getD c0 default)
    (hc : Core f s) : Core f s2 := by
  refine ⟨⟨?_, ?_⟩, ?_, ?_, ?_, ?_, ?_, ?_, ?_, ?_⟩
  · rw [ht]; exact hc.typed.1
  · intro c hcl
    obtain ⟨c0, h0, e⟩ := hsub c hcl
    rw [e]
    exact hc.typed.2 c0 h0
  · rw [hv]; exact hc.valRange
  · unfold TrailConsistent; rw [ht, hv, hl, hp]; exact hc.cons
  · rw [hv, ht]; exact hc.onTrail
  · rw [ht]; exact hc.nodup
  · rw [hp]; exact hc.sorted
  · rw [hp]; exact hc.tableLe
  · rw [hpr, ht]; exact hc.fLe
  · intro c x hcl hx hval hmem
    obtain ⟨c0, h0, e⟩ := hsub c hcl
    have hlit : litAt s2 c x = litAt s c0 x := by unfold litAt; rw [e]
    rw [hlit, hv] at hval
    rw [hlit, ht] at hmem
    rw [hlit, e, hv, hl]
    exact hc.sound c0 x h0 hx hval hmem

/-- Watch lists that fit a database of clauses in range hold no watcher for a
literal out of range. -/
theorem watchRange_of_ranged {s : Solver} (hw : WatchOK s.watches s.clause_DB)
    (ht : LitsTyped s) (hr : Ranged s) : WatchRange s := by
  intro q hq
  rw [List.eq_nil_iff_forall_not_mem]
  intro w hwm
  apply hq
  obtain ⟨hlt, _⟩ := hw.1 q w hwm
  have hcnt := hw.2 q w.idx_clause hlt
  have h1 : 1 ≤ countIdx w.idx_clause (s.watches q) := (countIdx_pos_iff _ _).2 ⟨w, hwm, rfl⟩
  have hty := ht.2 w.idx_clause hlt
  have hmem : -q ∈ (s.clause_DB.getD w.idx_clause default).lit := by
    have hn : 1 ≤ npos (s.clause_DB.getD w.idx_clause default) q := by omega
    unfold npos at hn
    by_cases h0 : (s.clause_DB.getD w.idx_clause default).lit.getD 0 0 = -q
    · rw [← h0]
      exact getD_mem _ 0 (by omega)
    · rw [if_neg h0] at hn
      by_cases h1 : (s.clause_DB.getD w.idx_clause default).lit.getD 1 0 = -q
      · rw [← h1]
        exact getD_mem _ 1 (by omega)
      · rw [if_neg h1] at hn
        omega
  have hv := hr.2 w.idx_clause hlt (-q) hmem
  unfold IsVar at hv
  rw [Int.natAbs_neg] at hv
  omega

/-- The method `reduce` keeps the invariant of the loop of `solve`. -/
theorem inv_reduce {s : Solver} (h : Inv s) (coins : Nat → Nat) : Inv (reduce s coins).1 := by
  have h1 := inv_backtrack h 0
  obtain ⟨e1, e2, e3, e4, e5, e6, e7, e8, e9, e10, e11, e12, e13⟩ := reduce_fields s coins
  obtain ⟨f1, f2, f3, _⟩ := backtrack_frame s 0
  have hspec := (reduce_effect s coins h.origin).2
  have hpos : (backtrack s 0).pos_in_trail = [] := by
    by_cases hL : 0 < s.pos_in_trail.length
    · rw [(backtrack_shape h.steady.1 0 hL).2.1]
      rfl
    · have : backtrack s 0 = s := by
        unfold backtrack
        rw [if_pos (by omega)]
      rw [this]
      exact List.length_eq_zero.1 (by omega)
  have hsub : ∀ c, c < (reduce s coins).1.clause_DB.length → ∃ c0,
      c0 < (backtrack s 0).clause_DB.length ∧
      (reduce s coins).1.clause_DB.getD c default = (backtrack s 0).clause_DB.getD c0 default := by
    intro c hc
    rw [f1]
    have hmem : (reduce s coins).1.clause_DB.getD c default ∈ s.clause_DB := by
      rw [List.getD_eq_getElem _ _ hc]
      have := List.getElem_mem hc
      generalize (reduce s coins).1.clause_DB[c] = cl at this ⊢
      rw [hspec.1, List.mem_append] at this
      rcases this with hm | hm
      · exact List.mem_of_mem_take hm
      · exact List.mem_of_mem_drop (hspec.2.1.subset hm)
    obtain ⟨c0, h0, e⟩ := List.mem_iff_getElem.1 hmem
    exact ⟨c0, h0, by rw [List.getD_eq_getElem _ _ h0]; exact e.symm⟩
  have hcore : Core (reduce s coins).1.propagated (reduce s coins).1 := by
    rw [e5]
    exact core_sub e1 e2 e3 e4 e5 hsub h1.steady.1
  refine ⟨⟨hcore, ?_⟩, ?_, ?_, marksOld_congr e8 e9 h1.marks, ?_,
    heapVars_congr e10 e7 h1.heapVars, ?_⟩
  · exact reduce_watchOK s coins h.steady.2 h.origin
      (watchRange_of_ranged h.steady.2 h.steady.1.typed h.ranged)
  · intro j hj _ hlv
    exfalso
    rw [(hcore.cons j hj).2, e4, hpos] at hlv
    simp at hlv
  · refine ⟨?_, ?_⟩
    · intro v hv
      unfold IsVar
      rw [e7]
      rw [e1] at hv
      exact h1.ranged.1 v hv
    · intro c hc l hl
      obtain ⟨c0, h0, e⟩ := hsub c hc
      rw [e] at hl
      unfold IsVar
      rw [e7]
      exact h1.ranged.2 c0 h0 l hl
  · obtain ⟨hp, hc, ht1, ht2, ht3⟩ := h1.heap
    refine ⟨by rw [e10]; exact hp, ?_, by rw [e1]; exact ht1, by rw [e11]; exact ht2,
      by rw [e12]; exact ht3⟩
    unfold HeapComplete IsVar
    rw [e7, e1, e10]
    exact hc
  · rw [e13, f2, hspec.1, List.length_append, List.length_take]
    have := h.origin
    omega

end Solver

end EasySAT

namespace EasySAT

namespace Solver

/-- While `parse` reads the clauses of a well-formed input the invariants of
the solver hold with nothing propagated and no decision level open. -/
theorem loading_base {s : Solver} (h : Loading s) :
    Base 0 s ∧ s.propagated = 0 ∧ s.pos_in_trail = [] := by
  induction h with
  | start V C =>
    refine ⟨⟨?_, ?_, ?_, ?_, ?_, ?_, ?_, ?_⟩, rfl, rfl⟩
    · refine ⟨⟨?_, ?_⟩, fun _ => Or.inl rfl, ?_, ?_, ?_, ?_, ?_, ⟨le_refl _, le_refl _⟩, ?_⟩
      · intro l hl
        exact absurd hl (List.not_mem_nil l)
      · intro c hc
        exact absurd hc (Nat.not_lt_zero _)
      · intro i hi
        exact absurd hi (Nat.not_lt_zero _)
      · intro v hv
        exact absurd rfl hv
      · intro i k hi
        exact absurd hi (Nat.not_lt_zero _)
      · intro a b _ hb
        exact absurd hb (Nat.not_lt_zero _)
      · intro a ha
        exact absurd ha (Nat.not_lt_zero _)
      · intro c x hc
        exact absurd hc (Nat.not_lt_zero _)
    · refine ⟨?_, ?_⟩
      · intro q w hw
        exact absurd hw (List.not_mem_nil w)
      · intro q c hc
        exact absurd hc (Nat.not_lt_zero _)
    · intro j hj
      exact absurd hj (Nat.not_lt_zero _)
    · refine ⟨?_, ?_⟩
      · intro v hv
        exact absurd rfl hv
      · intro c hc
        exact absurd hc (Nat.not_lt_zero _)
    · intro v
      exact le_refl _
    · exact heapInv_alloc _ rfl
    · intro v hv
      obtain ⟨_, hm⟩ := allocLoop_spec (GreaterActivity (fun _ => (0 : ℚ))) V.toNat 1 ⟨[], []⟩
        posOK_empty (by
          intro v hv
          rw [Heap.inHeap_iff] at hv
          exact absurd hv.1 (Nat.not_lt_zero _))
      have hv2 : (allocLoop (GreaterActivity (fun _ => (0 : ℚ))) V.toNat 1 ⟨[], []⟩).inHeap v =
          true := hv
      rcases (hm v).1 hv2 with e | e
      · rw [Heap.inHeap_iff] at e
        exact absurd e.1 (Nat.not_lt_zero _)
      · refine ⟨e.1, ?_⟩
        show (v : Int) ≤ V
        omega
    · exact le_refl _
  | @unit s l _ hl0 hvar hval ih =>
    obtain ⟨hb, hp, hpos⟩ := ih
    have hv0 : s.value l.natAbs = 0 := by
      rw [litValue_eq] at hval
      split_ifs at hval <;> omega
    refine ⟨⟨core_assign hb.core l 0 (-1) hl0 hv0 (by rw [hpos]; rfl), hb.wok,
      reasons_assign hb.reasons hb.core.cons l 0 (-1) hv0 (fun _ h => absurd h (lt_irrefl 0)),
      ranged_assign hb.ranged l 0 (-1) hvar, hb.marks,
      heapInv_grows (grows_assign s l 0 (-1)) hb.heap, hb.heapVars, hb.origin⟩, hp, hpos⟩
  | @clause s c _ hlen hlits ih =>
    obtain ⟨hb, hp, hpos⟩ := ih
    refine ⟨⟨?_, add_clause_watchOK s c hb.wok hlen, ?_, ?_, hb.marks, ?_, hb.heapVars, ?_⟩,
      hp, hpos⟩
    · exact core_append hb.core ⟨0, c⟩ _ hlen (fun l hl => (hlits l hl).1) (by
        intro x _ _ hmem
        rw [List.take_zero] at hmem
        exact absurd hmem (List.not_mem_nil _))
    · exact reasons_append hb.reasons ⟨0, c⟩ _
    · exact ranged_append hb.ranged ⟨0, c⟩ _ (fun l hl => (hlits l hl).2)
    · exact heapInv_grows ⟨rfl, rfl, rfl, rfl, fun _ => Or.inl rfl⟩ hb.heap
    · show s.origin_clauses ≤ (s.clause_DB ++ [(⟨0, c⟩ : Clause)]).length
      rw [List.length_append]
      have := hb.origin
      omega

/-- In a conflict state in which `analyze` returns 0, a decision level is
open. -/
theorem level_pos_of_analyze {s : Solver} {cref : Nat} (hc : Conflict s cref) (bt : Nat)
    (lbd : Int) (s2 : Solver) (ha : analyze s cref = some (0, bt, lbd, s2)) :
    0 < s.pos_in_trail.length := by
  by_contra h0
  have hH : conflictLevel s cref = 0 := by
    have : conflictLevel s cref = s.pos_in_trail.length := hc.top
    omega
  unfold analyze at ha
  rw [if_pos hH] at ha
  simp at ha

/-- The invariant of the loop of `solve` holds in every state of a run on a
well-formed input in which `propagate` is called. -/
theorem reach_inv {s : Solver} (h : Reach s) : Inv s := by
  induction h with
  | @loaded s hl =>
    obtain ⟨hb, hp, _⟩ := loading_base hl
    refine ⟨⟨?_, hb.wok⟩, hb.reasons, hb.ranged, hb.marks, hb.heap, hb.heapVars, le_refl _⟩
    have hc : Core s.propagated s := by rw [hp]; exact hb.core
    exact ⟨hc.typed, hc.valRange, hc.cons, hc.onTrail, hc.nodup, hc.sorted, hc.tableLe, hc.fLe,
      hc.sound⟩
  | quiet fuel s1 _ hrun ih => exact ((inv_propagate ih fuel (-1) s1 hrun).1 rfl).1
  | learnt fuel r s1 bt lbd s2 _ hrun hne ha ih =>
    obtain ⟨cref, e, hci⟩ := (inv_propagate ih fuel r s1 hrun).2 hne
    have hcr : r.toNat = cref := by rw [e]; simp
    rw [hcr] at ha
    have hlv := level_pos_of_analyze hci.conflict bt lbd s2 ha
    obtain ⟨_, hb, han⟩ := base_analyze hci hlv 0 bt lbd s2 ha
    exact inv_learn hb (analyzed_self han) lbd
  | reduced coins _ ih => exact inv_reduce ih coins
  | restarted coins _ ih => exact inv_restart ih coins
  | rephased _ ih => exact inv_rephase ih
  | decided s2 _ hq hd ih => exact inv_decide ih hq s2 hd

theorem loadedExample_reach : Reach loadedExample :=
  Reach.loaded (Loading.clause [-1, -2] (Loading.clause [-1, 2] (Loading.start 2 2) (by decide)
    (by
      intro l hl
      have : l = -1 ∨ l = 2 := by simpa using hl
      rcases this with e | e <;> rw [e] <;> exact ⟨by decide, by decide, by decide⟩))
    (by decide)
    (by
      intro l hl
      have : l = -1 ∨ l = -2 := by simpa using hl
      rcases this with e | e <;> rw [e] <;> exact ⟨by decide, by decide, by decide⟩))

set_option maxRecDepth 100000 in
theorem decidedExample_reach : Reach decidedExample := by
  have hd : (decide loadedExample).map (fun x => x.1) = some 0 := by
    with_unfolding_all decide
  cases hdec : decide loadedExample with
  | none => rw [hdec] at hd; simp at hd
  | some x =>
    obtain ⟨code, s2⟩ := x
    rw [hdec] at hd
    simp only [Option.map_some', Option.some.injEq] at hd
    have hs : decidedExample = s2 := by
      unfold decidedExample
      rw [hdec]
    rw [hd] at hdec
    rw [hs]
    exact Reach.decided s2 loadedExample_reach rfl hdec

end Solver

end EasySAT

namespace EasySAT

namespace Solver

/-- Writing saved phases that are signs or zero keeps the invariant of the
decision heap. -/
theorem heapInv_saved {s : Solver} (h : HeapInv s) (g : Nat → Int)
    (hg : ∀ v, g v = 0 ∨ g v = 1 ∨ g v = -1) : HeapInv { s with saved := g } :=
  ⟨h.1, h.2.1, h.2.2.1, hg, h.2.2.2.2⟩

/-- The method `restart` keeps the invariant of the decision heap. -/
theorem heapInv_restart (s : Solver) (coins : Nat → Nat) (h : HeapInv s) :
    HeapInv (restart s coins).1 := by
  have h1 : HeapInv { s with fast_lbd_sum := 0, lbd_queue_size := 0, lbd_queue_pos := 0 } :=
    ⟨h.1, h.2.1, h.2.2⟩
  have h2 := heapInv_backtrack _ 0 h1
  unfold restart
  dsimp only
  generalize backtrack { s with fast_lbd_sum := 0, lbd_queue_size := 0, lbd_queue_pos := 0 } 0 = s2
    at h2
  have hs := h2.2.2.2.1
  have hb := h2.2.2.2.2
  split_ifs
  · apply heapInv_saved h2
    intro v
    dsimp only
    split_ifs
    · exact hb v
    · exact hs v
  · apply heapInv_saved h2
    intro v
    dsimp only
    split_ifs
    · exact neg_typed (hb v)
    · exact hs v
  · apply heapInv_saved h2
    intro v
    dsimp only
    split_ifs
    · exact Or.inr (Or.inl rfl)
    · exact Or.inr (Or.inr rfl)
    · exact hs v
  · exact h2

/-- The method `reduce` keeps the invariant of the decision heap. -/
theorem heapInv_reduce (s : Solver) (coins : Nat → Nat) (h : HeapInv s) :
    HeapInv (reduce s coins).1 := by
  obtain ⟨e1, _, _, _, _, _, e7, _, _, e10, e11, e12, _⟩ := reduce_fields s coins
  obtain ⟨hp, hc, ht1, ht2, ht3⟩ := heapInv_backtrack s 0 h
  refine ⟨by rw [e10]; exact hp, ?_, by rw [e1]; exact ht1, by rw [e11]; exact ht2,
    by rw [e12]; exact ht3⟩
  unfold HeapComplete IsVar
  rw [e7, e1, e10]
  exact hc

/-- The conflict branch of `solve` keeps the invariant of the decision
heap. -/
theorem heapInv_learn (s : Solver) (bt : Nat) (lbd : Int) (h : HeapInv s) :
    HeapInv (learnAndAssign s bt lbd) := by
  have h3 := heapInv_backtrack s bt h
  unfold learnAndAssign
  dsimp only
  generalize backtrack s bt = s3 at h3
  have h4 : HeapInv (if s3.learnt.length = 1 then assign s3 (s3.learnt.getD 0 0) 0 (-1)
      else assign (setLbd (add_clause s3 s3.learnt).2 (add_clause s3 s3.learnt).1 lbd)
        (s3.learnt.getD 0 0) bt ((add_clause s3 s3.learnt).1 : Int)) := by
    split_ifs
    · exact heapInv_grows (grows_assign _ _ _ _) h3
    · apply heapInv_grows (grows_assign _ _ _ _)
      exact heapInv_grows ⟨rfl, rfl, rfl, rfl, fun _ => Or.inl rfl⟩ h3
  generalize (if s3.learnt.length = 1 then assign s3 (s3.learnt.getD 0 0) 0 (-1)
      else assign (setLbd (add_clause s3 s3.learnt).2 (add_clause s3 s3.learnt).1 lbd)
        (s3.learnt.getD 0 0) bt ((add_clause s3 s3.learnt).1 : Int)) = s4 at h4
  obtain ⟨hp, hc, ht1, ht2, ht3⟩ := h4
  split_ifs
  · refine ⟨hp, hc, ht1, ht2, ?_⟩
    intro v
    dsimp only
    split_ifs
    · exact ht1 v
    · exact ht3 v
  · exact ⟨hp, hc, ht1, ht2, ht3⟩

/-- The invariant of the decision heap holds in every state reachable from
`alloc_memory` by the operations of the driver. -/
theorem heapReach_inv {s : Solver} (h : HeapReach s) : HeapInv s := by
  induction h with
  | alloc s0 h0 => exact heapInv_alloc s0 h0
  | assigned lit l cref _ ih => exact heapInv_grows (grows_assign _ lit l cref) ih
  | added c _ ih => exact heapInv_grows ⟨rfl, rfl, rfl, rfl, fun _ => Or.inl rfl⟩ ih
  | propagated fuel r s2 _ hrun ih => exact heapInv_grows (propagate_grows fuel _ r s2 hrun) ih
  | analyzed conflict res bt lbd s2 _ ha ih => exact heapInv_analyze _ conflict res bt lbd s2 ha ih
  | backtracked L _ ih => exact heapInv_backtrack _ L ih
  | decided r s2 _ hd ih => exact (heapInv_decide _ r s2 hd ih).1
  | restarted coins _ ih => exact heapInv_restart _ coins ih
  | reduced coins _ ih => exact heapInv_reduce _ coins ih
  | rephased _ ih => exact ⟨ih.1, ih.2.1, ih.2.2⟩
  | learnt bt lbd _ ih => exact heapInv_learn _ bt lbd ih

end Solver

end EasySAT

namespace EasySAT

namespace Solver

/-- C18: heap completeness holds in every state reachable from `alloc_memory`
(called on a solver whose heap is still empty) through `assign`, `add_clause`,
`propagate`, `analyze`, `backtrack`, `decide`, `restart`, `reduce`, `rephase`
and the conflict branch of `solve`: every unassigned variable `1..vars` is in
the heap, and `decide` returns 10 only when every variable is assigned. -/
theorem heap_complete_reachable (s : Solver) (h : HeapReach s) : HeapClaim s :=
  ⟨(heapReach_inv h).2.1, fun s2 hd => (heapInv_decide s 10 s2 hd (heapReach_inv h)).2 rfl⟩

/-- C18 instance: the state with two variables right after `alloc_memory`,
and the state after `backtrack(0)` follows an assignment of variable 1 in
it. -/
theorem heap_complete_reachable_witness :
    HeapReach (backtrack (assign freshState 1 1 (-1)) 0) ∧
    HeapClaim (backtrack (assign freshState 1 1 (-1)) 0) :=
  ⟨HeapReach.backtracked 0 (HeapReach.assigned 1 1 (-1) (HeapReach.alloc _ rfl)),
    heap_complete_reachable _
      (HeapReach.backtracked 0 (HeapReach.assigned 1 1 (-1) (HeapReach.alloc _ rfl)))⟩

end Solver

end EasySAT

namespace EasySAT

namespace Solver

end Solver

end EasySAT

namespace EasySAT

namespace Solver

end Solver

end EasySAT

namespace EasySAT

namespace Solver

/-- The state in which `parse` returns 0 on `twoHeaderInput`: the trail is
`1, 2` while variable 1 is unassigned, and variable 2 has the reason clause
`2 -1`. -/
theorem twoHeader_state :
    ∃ s : Solver, parse 10 twoHeaderInput = some (ParseResult.ret 0 s) ∧
      s.trail = [1, 2] ∧ s.pos_in_trail = [] ∧ s.value 1 = 0 ∧ s.value 2 = 1 ∧
      s.level 1 = 0 ∧ s.level 2 = 0 ∧ s.reason 2 = 0 ∧
      s.clause_DB.map Clause.lit = [[2, -1]] := by
  have h : (parse 10 twoHeaderInput).map ParseResult.summary =
      some [[0], [1, 2], [], [0, 1, 0], [0, 0], [0, 0], [2, -1]] := by
    decide
  cases hp : parse 10 twoHeaderInput with
  | none => rw [hp] at h; simp at h
  | some x =>
    rw [hp] at h
    cases x with
    | exit st => simp [ParseResult.summary] at h
    | ret code s =>
      simp only [Option.map_some', ParseResult.summary, Option.some.injEq, List.cons_append,
        List.nil_append, List.cons.injEq, and_true, List.map_eq_nil_iff] at h
      obtain ⟨h1, h2, h3, ⟨h4, h5, _⟩, ⟨h6, h7⟩, ⟨_, h8⟩, h9⟩ := h
      rw [h1]
      exact ⟨s, rfl, h2, h3, h4, h5, Int.ofNat_eq_zero.1 h6, Int.ofNat_eq_zero.1 h7, h8, h9⟩

theorem cons_of_fields {s s2 : Solver} (e1 : s2.value = s.value) (e2 : s2.trail = s.trail)
    (e3 : s2.level = s.level) (e4 : s2.pos_in_trail = s.pos_in_trail)
    (h : TrailConsistent s) : TrailConsistent s2 := by
  unfold TrailConsistent
  rw [e1, e2, e3, e4]
  exact h

/-- What the search knows in the state `analyze` returns 0 in: the invariants
of the solver, for the learnt clause and backtrack level it leaves. -/
theorem reach_analyzed {s : Solver} (hr : Reach s) (fuel : Nat) (r : Int) (s1 : Solver)
    (bt : Nat) (lbd : Int) (s2 : Solver) (hrun : propagate fuel s = some (r, s1))
    (hne : r ≠ -1) (ha : analyze s1 r.toNat = some (0, bt, lbd, s2)) :
    Base (s2.propagated - 1) s2 ∧ Analyzed s2 bt s2 := by
  obtain ⟨cref, e, hci⟩ := (inv_propagate (reach_inv hr) fuel r s1 hrun).2 hne
  have hcr : r.toNat = cref := by rw [e]; simp
  rw [hcr] at ha
  have hlv := level_pos_of_analyze hci.conflict bt lbd s2 ha
  obtain ⟨_, hb, han⟩ := base_analyze hci hlv 0 bt lbd s2 ha
  exact ⟨hb, analyzed_self han⟩

/-- Trail consistency holds in every state between the operations of the
driver in a run on a well-formed input. -/
theorem visited_cons {s : Solver} (h : Visited s) : TrailConsistent s := by
  induction h with
  | loading hl => exact (loading_base hl).1.core.cons
  | head hr => exact (reach_inv hr).steady.1.cons
  | propagated fuel r s1 hr hrun =>
    obtain ⟨h1, h2⟩ := inv_propagate (reach_inv hr) fuel r s1 hrun
    by_cases hne : r = -1
    · exact (h1 hne).1.steady.1.cons
    · obtain ⟨cref, _, hci⟩ := h2 hne
      exact hci.conflict.stopped.2.1.cons
  | analyzed fuel r s1 code bt lbd s2 hr hrun hne ha =>
    obtain ⟨cref, _, hci⟩ := (inv_propagate (reach_inv hr) fuel r s1 hrun).2 hne
    obtain ⟨hf, _⟩ := analyze_frame s1 r.toNat code bt lbd s2 ha
    exact cons_of_fields (aFrame_value hf) (aFrame_trail hf) (aFrame_level hf) (aFrame_pos hf)
      hci.conflict.stopped.2.1.cons
  | backtracked fuel r s1 bt lbd s2 hr hrun hne ha =>
    obtain ⟨hb, han⟩ := reach_analyzed hr fuel r s1 bt lbd s2 hrun hne ha
    exact (base_backtrack hb bt han.below).core.cons
  | added fuel r s1 bt lbd s2 hr hrun hne ha _ =>
    obtain ⟨hb, han⟩ := reach_analyzed hr fuel r s1 bt lbd s2 hrun hne ha
    exact cons_of_fields rfl rfl rfl rfl (base_backtrack hb bt han.below).core.cons
  | model s2 hr _ hd =>
    have hi := reach_inv hr
    unfold decide at hd
    cases hl : decideLoop _ (-1) _ with
    | none => rw [hl] at hd; simp at hd
    | some x =>
      obtain ⟨res, t⟩ := x
      obtain ⟨a1, _⟩ := decideLoop_heap _ _ _ res t hl hi.heap.1 (Or.inl rfl)
        (fun v hv hval => Or.inl (hi.heap.2.1 v hv hval))
      rw [hl] at hd
      cases res with
      | none =>
        simp only [Option.some.injEq, Prod.mk.injEq] at hd
        rw [← hd.2, a1]
        exact hi.steady.1.cons
      | some next =>
        simp at hd

end Solver

end EasySAT

namespace EasySAT

namespace Solver

/-- With everything propagated, a stored clause with a false watched literal
holds a true literal. -/
theorem true_of_false_watch {s : Solver} (hc : Core s.trail.length s) (cref x : Nat)
    (hcref : cref < s.clause_DB.length) (hx : x < 2)
    (hv : litValue s.value (litAt s cref x) = -1) :
    ∃ k, k < (s.clause_DB.getD cref default).lit.length ∧
      litValue s.value (litAt s cref k) = 1 := by
  have hty := hc.typed.2 cref hcref
  have h0 : litAt s cref x ≠ 0 := hty.2 x (by omega)
  have hon := false_on_trail hc _ h0 hv
  rw [← List.take_length (l := s.trail)] at hon
  obtain ⟨m, hm, hmv, _⟩ := hc.sound cref x hcref hx hv hon
  obtain ⟨k, hk, e⟩ := (mem_iff_getD _ _).1 hm
  refine ⟨k, hk, ?_⟩
  unfold litAt
  rw [e]
  exact hmv

/-- The value of a literal is a sign or zero. -/
theorem litValue_cases {f : Nat} {s : Solver} (hc : Core f s) (l : Int) :
    litValue s.value l = 0 ∨ litValue s.value l = 1 ∨ litValue s.value l = -1 := by
  rw [litValue_eq]
  have := hc.valRange l.natAbs
  split_ifs <;> omega

/-- With everything propagated no stored clause is falsified, none is unit,
and the watched literals are sound. -/
theorem quiet_of_core {s : Solver} (hc : Core s.trail.length s) : Quiet s ∧ WatchSound s := by
  refine ⟨fun cref hcref => ⟨?_, ?_⟩, fun cref hcref => ⟨?_, ?_⟩⟩
  · intro hf
    have hlen := (hc.typed.2 cref hcref).1
    obtain ⟨k, hk, hv⟩ := true_of_false_watch hc cref 0 hcref (by omega) (hf 0 (by omega))
    have := hf k hk
    omega
  · rintro ⟨k, hk, hk0, hrest⟩
    have hlen := (hc.typed.2 cref hcref).1
    by_cases e : k = 0
    · obtain ⟨t, ht, hv⟩ := true_of_false_watch hc cref 1 hcref (by omega)
        (hrest 1 (by omega) (by omega))
      by_cases et : t = k
      · rw [et] at hv; omega
      · have := hrest t ht et
        omega
    · obtain ⟨t, ht, hv⟩ := true_of_false_watch hc cref 0 hcref (by omega)
        (hrest 0 (by omega) (fun h => e h.symm))
      by_cases et : t = k
      · rw [et] at hv; omega
      · have := hrest t ht et
        omega
  · intro x hx hv
    exact true_of_false_watch hc cref x hcref hx hv
  · intro h0 h1
    rcases litValue_cases hc (litAt s cref 0) with a | a | a
    · rcases litValue_cases hc (litAt s cref 1) with b | b | b
      · exact Or.inl ⟨a, b⟩
      · exact absurd b h1
      · right
        obtain ⟨k, hk, hv⟩ := true_of_false_watch hc cref 1 hcref (by omega) b
        refine ⟨k, ?_, hk, hv⟩
        by_contra hlt
        have : k = 0 ∨ k = 1 := by omega
        rcases this with e | e <;> rw [e] at hv <;> omega
    · exact absurd a h0
    · right
      obtain ⟨k, hk, hv⟩ := true_of_false_watch hc cref 0 hcref (by omega) a
      refine ⟨k, ?_, hk, hv⟩
      by_contra hlt
      have : k = 0 ∨ k = 1 := by omega
      rcases this with e | e
      · rw [e] at hv; omega
      · rw [e] at hv; exact h1 hv

/-- In a clause without a repeated literal, unit by literals is unit by
positions. -/
theorem isUnit_of_unitClause {s : Solver} {cref : Nat}
    (hnd : (s.clause_DB.getD cref default).lit.Nodup) (h : UnitClause s cref) :
    IsUnit s cref := by
  obtain ⟨l, hl, hv, hrest⟩ := h
  obtain ⟨k, hk, ek⟩ := (mem_iff_getD _ _).1 hl
  refine ⟨k, hk, by unfold litAt; rw [ek]; exact hv, ?_⟩
  intro m hm hne
  apply hrest _ (getD_mem _ m hm)
  intro e
  apply hne
  rw [← ek, List.getD_eq_getElem _ _ hm, List.getD_eq_getElem _ _ hk] at e
  exact (List.Nodup.getElem_inj_iff hnd).1 e

/-- With everything propagated the state is as `QuietSound` says. -/
theorem quietSound_of_core {s : Solver} (hc : Core s.trail.length s) : QuietSound s :=
  fun cref hcref =>
    ⟨((quiet_of_core hc).1 cref hcref).1, ((quiet_of_core hc).1 cref hcref).2,
      fun hnd hu => ((quiet_of_core hc).1 cref hcref).2 (isUnit_of_unitClause hnd hu)⟩

/-- A stored clause with a false watched literal whose negation has been
propagated holds a true literal. -/
theorem watchSoundAt_of_core {s : Solver} (hc : Core s.propagated s) : WatchSoundAt s := by
  intro cref hcref x hx hv hmem
  obtain ⟨m, hm, hmv, _⟩ := hc.sound cref x hcref hx hv hmem
  obtain ⟨k, hk, e⟩ := (mem_iff_getD _ _).1 hm
  refine ⟨k, hk, ?_⟩
  unfold litAt
  rw [e]
  exact hmv

/-- In a run on a well-formed input, the state in which `propagate` returns
-1 has everything propagated. -/
theorem core_of_quiet_run {s : Solver} (hr : Reach s) (fuel : Nat) (s1 : Solver)
    (hrun : propagate fuel s = some (-1, s1)) : Core s1.trail.length s1 := by
  obtain ⟨hi, hp⟩ := (inv_propagate (reach_inv hr) fuel (-1) s1 hrun).1 rfl
  have := hi.steady.1
  rw [hp] at this
  exact this

end Solver

end EasySAT

namespace EasySAT

namespace Solver

theorem db_of_map {db : List Clause} {c : List Int} (h : db.map Clause.lit = [c]) :
    db.length = 1 ∧ (db.getD 0 default).lit = c := by
  cases db with
  | nil => simp at h
  | cons a t =>
    simp only [List.map_cons, List.cons.injEq, List.map_eq_nil_iff] at h
    obtain ⟨h1, h2⟩ := h
    subst h2
    exact ⟨rfl, h1⟩

/-- The state in which `parse` returns 0 on `unwatchedInput`: both variables
are false and the clause `1 2` is stored. -/
theorem unwatched_state :
    ∃ s : Solver, parse 10 unwatchedInput = some (ParseResult.ret 0 s) ∧
      s.value 1 = -1 ∧ s.value 2 = -1 ∧ s.clause_DB.map Clause.lit = [[1, 2]] := by
  have h : (parse 10 unwatchedInput).map ParseResult.summary =
      some [[0], [-1, -2], [], [-1, -1, 0], [0, 0], [-1, -1], [1, 2]] := by
    decide
  cases hp : parse 10 unwatchedInput with
  | none => rw [hp] at h; simp at h
  | some x =>
    rw [hp] at h
    cases x with
    | exit st => simp [ParseResult.summary] at h
    | ret code s =>
      simp only [Option.map_some', ParseResult.summary, Option.some.injEq, List.cons_append,
        List.nil_append, List.cons.injEq, and_true, List.map_eq_nil_iff] at h
      obtain ⟨h1, _, _, ⟨h4, h5, _⟩, _, _, h9⟩ := h
      rw [h1]
      exact ⟨s, rfl, h4, h5, h9⟩

/-- The state in which `parse` returns 0 on `ternaryInput`: no variable is
assigned and the clause `1 2 3` is stored. -/
theorem ternary_state :
    ∃ s : Solver, parse 10 ternaryInput = some (ParseResult.ret 0 s) ∧
      s.value 1 = 0 ∧ s.value 2 = 0 ∧ s.value 3 = 0 ∧
      s.clause_DB.map Clause.lit = [[1, 2, 3]] := by
  have h : (parse 10 ternaryInput).map ParseResult.summary =
      some [[0], [], [], [0, 0, 0], [0, 0], [0, 0], [1, 2, 3]] := by
    decide
  cases hp : parse 10 ternaryInput with
  | none => rw [hp] at h; simp at h
  | some x =>
    rw [hp] at h
    cases x with
    | exit st => simp [ParseResult.summary] at h
    | ret code s =>
      simp only [Option.map_some', ParseResult.summary, Option.some.injEq, List.cons_append,
        List.nil_append, List.cons.injEq, and_true, List.map_eq_nil_iff] at h
      obtain ⟨h1, _, _, ⟨h4, h5, h6⟩, _, _, h9⟩ := h
      rw [h1]
      exact ⟨s, rfl, h4, h5, h6, h9⟩

/-- C16 (counterexample): on an input with a second header line after the unit
clause `1`, `parse` returns 0 in a state whose trail holds the literal `1`
while variable 1 is unassigned: trail consistency fails. -/
theorem trail_two_headers_counterexample :
    ∃ s : Solver, parse 10 twoHeaderInput = some (ParseResult.ret 0 s) ∧
      ¬ TrailConsistent s := by
  obtain ⟨s, hp, ht, _, hv, _⟩ := twoHeader_state
  refine ⟨s, hp, fun hc => ?_⟩
  have h := (hc 0 (by rw [ht]; decide)).1
  rw [ht] at h
  have h2 : s.value 1 = 1 := h
  omega

/-- C16: in a run on a well-formed input trail consistency holds in every
state between the operations of the driver: for the literal `l` at position
`i` of the trail, `value[|l|]` is the sign of `l` and `level[|l|]` is the
number of entries of the decision-level table that are at most `i`. -/
theorem trail_consistent_visited (s : Solver) (h : Visited s) : TrailConsistent s :=
  visited_cons h

/-- C16 instance: the state after the clauses `-1 2` and `-1 -2` and the
first decision. -/
theorem trail_consistent_visited_witness :
    Visited decidedExample ∧ TrailConsistent decidedExample :=
  ⟨Visited.head decidedExample_reach,
    trail_consistent_visited decidedExample (Visited.head decidedExample_reach)⟩

/-- The state in which `parse` returns 0 on `repeatedInput`: variable 1 is
false, variable 2 is unassigned, and the clause is stored as `2 2 1`. -/
theorem repeated_state :
    ∃ s : Solver, parse 10 repeatedInput = some (ParseResult.ret 0 s) ∧
      s.value 1 = -1 ∧ s.value 2 = 0 ∧ s.clause_DB.map Clause.lit = [[2, 2, 1]] := by
  have h : (parse 10 repeatedInput).map ParseResult.summary =
      some [[0], [-1], [], [-1, 0, 0], [0, 0], [-1, 0], [2, 2, 1]] := by
    decide
  cases hp : parse 10 repeatedInput with
  | none => rw [hp] at h; simp at h
  | some x =>
    rw [hp] at h
    cases x with
    | exit st => simp [ParseResult.summary] at h
    | ret code s =>
      simp only [Option.map_some', ParseResult.summary, Option.some.injEq, List.cons_append,
        List.nil_append, List.cons.injEq, and_true, List.map_eq_nil_iff] at h
      obtain ⟨h1, _, _, ⟨h4, h5, _⟩, _, _, h9⟩ := h
      rw [h1]
      exact ⟨s, rfl, h4, h5, h9⟩

theorem chainExample_reach : Reach chainExample :=
  Reach.loaded (Loading.clause [-1, 2]
    (Loading.unit 1 (Loading.start 2 1) (by decide) ⟨by decide, by decide⟩ (by decide)) (by decide)
    (by
      intro l hl
      have : l = -1 ∨ l = 2 := by simpa using hl
      rcases this with e | e <;> rw [e] <;> exact ⟨by decide, by decide, by decide⟩))

set_option maxRecDepth 100000 in
/-- On `chainExample` the method `propagate` implies the literal `2` from the
clause `-1 2`, which it leaves as `2 -1`, and returns -1. -/
theorem chainExample_run :
    ∃ s1 : Solver, propagate 5 chainExample = some (-1, s1) ∧
      watchSummary s1 = [[1, 2], [1, 1, 0], [Int.ofNat 2], [2, -1]] := by
  have hp : (propagate 5 chainExample).map (fun x => (x.1, watchSummary x.2)) =
      some (-1, [[1, 2], [1, 1, 0], [Int.ofNat 2], [2, -1]]) := by
    with_unfolding_all decide
  cases hrun : propagate 5 chainExample with
  | none => rw [hrun] at hp; simp at hp
  | some x =>
    obtain ⟨r, s1⟩ := x
    rw [hrun] at hp
    simp only [Option.map_some', Option.some.injEq, Prod.mk.injEq] at hp
    obtain ⟨h1, h2⟩ := hp
    rw [h1]
    exact ⟨s1, rfl, h2⟩

set_option maxRecDepth 100000 in
/-- The state after the first decision on the clauses `-1 2` and `-1 -2`: the
literal `1` is on the trail and variable 2 is unassigned. -/
theorem decidedExample_summary :
    watchSummary decidedExample = [[1], [1, 0, 0], [Int.ofNat 0], [-1, 2], [-1, -2]] := by
  with_unfolding_all decide

/-- The fields of a state with the given summary. -/
theorem of_watchSummary {s : Solver} {t : List Int} {a b c : Int} {n : Nat}
    {db : List (List Int)} (h : watchSummary s = [t, [a, b, c], [Int.ofNat n]] ++ db) :
    s.trail = t ∧ s.value 1 = a ∧ s.value 2 = b ∧ s.value 3 = c ∧ s.propagated = n ∧
      s.clause_DB.map Clause.lit = db := by
  unfold watchSummary at h
  simp only [List.cons_append, List.nil_append, List.cons.injEq, and_true, Int.ofNat_eq_coe,
    Nat.cast_inj] at h
  obtain ⟨h1, ⟨h2, h3, h4⟩, h5, h6⟩ := h
  exact ⟨h1, h2, h3, h4, h5, h6⟩

set_option maxRecDepth 100000 in
/-- On `decidedExample` the method `propagate` implies the literal `2` and
stops on the clause 1, which it leaves as `-2 -1`, with the literal `1`
propagated. -/
theorem decidedExample_run :
    ∃ (r : Int) (s1 : Solver), propagate 5 decidedExample = some (r, s1) ∧
      watchSummary s1 = [[1, 2], [1, 1, 0], [Int.ofNat 1], [2, -1], [-2, -1]] := by
  have hp : (propagate 5 decidedExample).map (fun x => watchSummary x.2) =
      some [[1, 2], [1, 1, 0], [Int.ofNat 1], [2, -1], [-2, -1]] := by
    decide!
  cases hrun : propagate 5 decidedExample with
  | none => rw [hrun] at hp; simp at hp
  | some x =>
    obtain ⟨r, s1⟩ := x
    rw [hrun] at hp
    simp only [Option.map_some', Option.some.injEq] at hp
    exact ⟨r, s1, rfl, hp⟩

theorem db_of_map_two {db : List Clause} {c d : List Int} (h : db.map Clause.lit = [c, d]) :
    db.length = 2 ∧ (db.getD 0 default).lit = c ∧ (db.getD 1 default).lit = d := by
  cases db with
  | nil => simp at h
  | cons a t =>
    cases t with
    | nil => simp at h
    | cons b u =>
      simp only [List.map_cons, List.cons.injEq, List.map_eq_nil_iff] at h
      obtain ⟨h1, h2, h3⟩ := h
      subst h3
      exact ⟨rfl, h1, h2⟩

/-- C3 (counterexample): two inputs on which the call of `propagate` that ends
`parse` returns -1 (`parse` returns 0) in a state that is not as claimed.  On
an input with a second header line between the clause `1 2` and the unit
clauses `-1` and `-2`, the stored clause `1 2` is falsified.  On the
well-formed input with the clauses `-1` and `1 2 2`, the stored clause
`2 2 1` is unit: its literal `2` is unassigned and its other literal `1` is
false. -/
theorem quiet_counterexample :
    (∃ s : Solver, parse 10 unwatchedInput = some (ParseResult.ret 0 s) ∧
      Falsified s 0 ∧ ¬ QuietClaim s) ∧
    (∃ s : Solver, parse 10 repeatedInput = some (ParseResult.ret 0 s) ∧
      UnitClause s 0 ∧ ¬ QuietClaim s) := by
  constructor
  · obtain ⟨s, hp, h1, h2, hdb⟩ := unwatched_state
    obtain ⟨hlen, hlit⟩ := db_of_map hdb
    have hf : Falsified s 0 := by
      intro k hk
      rw [hlit] at hk
      unfold litAt
      rw [hlit]
      have : k = 0 ∨ k = 1 := by
        simp only [List.length_cons, List.length_nil] at hk
        omega
      rcases this with e | e
      · rw [e]
        show litValue s.value 1 = -1
        rw [litValue_eq]
        simp [h1]
      · rw [e]
        show litValue s.value 2 = -1
        rw [litValue_eq]
        simp [h2]
    exact ⟨s, hp, hf, fun hq => (hq 0 (by omega)).1 hf⟩
  · obtain ⟨s, hp, h1, h2, hdb⟩ := repeated_state
    obtain ⟨hlen, hlit⟩ := db_of_map hdb
    have hu : UnitClause s 0 := by
      refine ⟨2, by rw [hlit]; decide, by rw [litValue_eq]; simp [h2], ?_⟩
      intro m hm hne
      rw [hlit] at hm
      have : m = 2 ∨ m = 1 := by simpa using hm
      rcases this with e | e
      · exact absurd e hne
      · rw [e, litValue_eq]
        simp [h1]
    exact ⟨s, hp, hu, fun hq => (hq 0 (by omega)).2 hu⟩

/-- C3: in a run on a well-formed input, when `propagate` returns -1 no
stored clause is falsified, no stored clause has exactly one unassigned
literal position with false literals at all its other positions, and so no
stored clause without a repeated literal is unit. -/
theorem propagate_quiet (s : Solver) (hr : Reach s) (fuel : Nat) (s1 : Solver)
    (hrun : propagate fuel s = some (-1, s1)) : QuietSound s1 :=
  quietSound_of_core (core_of_quiet_run hr fuel s1 hrun)

/-- C3 instance: after the clauses `1` and `-1 2`, `propagate` implies the
literal `2` and returns -1; the clause `2 -1` then holds the true literal
`2`. -/
theorem propagate_quiet_witness :
    Reach chainExample ∧
    ∃ s1 : Solver, propagate 5 chainExample = some (-1, s1) ∧
      watchSummary s1 = [[1, 2], [1, 1, 0], [Int.ofNat 2], [2, -1]] ∧ QuietSound s1 := by
  obtain ⟨s1, hrun, hsum⟩ := chainExample_run
  exact ⟨chainExample_reach, s1, hrun, hsum,
    propagate_quiet chainExample chainExample_reach 5 s1 hrun⟩

/-- C19 (counterexample): three states between the operations of a run on a
well-formed input.  After `parse` returned 0 on the single clause `1 2 3` no
variable is assigned: neither watched literal is true, and the literal at
position 2 is not false, so the conclusion claimed fails.  After the first
decision on the clauses `-1 2` and `-1 -2`, before `propagate` runs, the
watched literal `-1` of the clause `-1 2` is false and the clause holds no
true literal, so the watched literals tell nothing about a trail literal that
is not propagated yet.  After the call of `propagate` that follows, which
returns the conflict clause `-2 -1`, that clause has the false watched literal
`-1`, whose negation is propagated, and no true literal, so watch soundness
fails between `propagate` and `analyze` even for the propagated literals. -/
theorem watch_sound_counterexample :
    (∃ s : Solver, parse 10 ternaryInput = some (ParseResult.ret 0 s) ∧
      ¬ WatchSoundClaim s) ∧
    (Reach decidedExample ∧ litValue decidedExample.value (litAt decidedExample 0 0) = -1 ∧
      ¬ WatchSound decidedExample) ∧
    (∃ (r : Int) (s1 : Solver), propagate 5 decidedExample = some (r, s1) ∧ Visited s1 ∧
      ¬ WatchSoundAt s1) := by
  refine ⟨?_, ?_, ?_⟩
  · obtain ⟨s, hp, h1, h2, h3, hdb⟩ := ternary_state
    obtain ⟨hlen, hlit⟩ := db_of_map hdb
    refine ⟨s, hp, fun hq => ?_⟩
    have e0 : litAt s 0 0 = 1 := by unfold litAt; rw [hlit]; rfl
    have e1 : litAt s 0 1 = 2 := by unfold litAt; rw [hlit]; rfl
    have e2 : litAt s 0 2 = 3 := by unfold litAt; rw [hlit]; rfl
    have v1 : litValue s.value 1 = 0 := by rw [litValue_eq]; simp [h1]
    have v2 : litValue s.value 2 = 0 := by rw [litValue_eq]; simp [h2]
    have v3 : litValue s.value 3 = 0 := by rw [litValue_eq]; simp [h3]
    have h := hq 0 (by omega) (by rw [hlit]; decide) (by rw [e0, v1]; decide)
      (by rw [e1, v2]; decide) 2 (le_refl 2) (by rw [hlit]; decide)
    rw [e2, v3] at h
    omega
  · have hs : watchSummary decidedExample =
        [[1], [1, 0, 0], [Int.ofNat 0]] ++ [[-1, 2], [-1, -2]] := decidedExample_summary
    obtain ⟨_, h1, h2, _, _, hdb⟩ := of_watchSummary hs
    obtain ⟨hlen, hlit, _⟩ := db_of_map_two hdb
    have e0 : litAt decidedExample 0 0 = -1 := by unfold litAt; rw [hlit]; rfl
    have e1 : litAt decidedExample 0 1 = 2 := by unfold litAt; rw [hlit]; rfl
    have v0 : litValue decidedExample.value (-1) = -1 := by rw [litValue_eq]; simp [h1]
    have v1 : litValue decidedExample.value 2 = 0 := by rw [litValue_eq]; simp [h2]
    refine ⟨decidedExample_reach, by rw [e0]; exact v0, fun hq => ?_⟩
    obtain ⟨k, hk, hv⟩ := (hq 0 (by omega)).1 0 (by decide) (by rw [e0]; exact v0)
    rw [hlit] at hk
    have : k = 0 ∨ k = 1 := by
      simp only [List.length_cons, List.length_nil] at hk
      omega
    rcases this with e | e
    · rw [e, e0, v0] at hv
      omega
    · rw [e, e1, v1] at hv
      omega
  · obtain ⟨r, s1, hrun, hsum⟩ := decidedExample_run
    have hs : watchSummary s1 = [[1, 2], [1, 1, 0], [Int.ofNat 1]] ++ [[2, -1], [-2, -1]] := hsum
    obtain ⟨ht, h1, h2, _, hpr, hdb⟩ := of_watchSummary hs
    obtain ⟨hlen, _, hlit⟩ := db_of_map_two hdb
    have e0 : litAt s1 1 0 = -2 := by unfold litAt; rw [hlit]; rfl
    have e1 : litAt s1 1 1 = -1 := by unfold litAt; rw [hlit]; rfl
    have v0 : litValue s1.value (-2) = -1 := by rw [litValue_eq]; simp [h2]
    have v1 : litValue s1.value (-1) = -1 := by rw [litValue_eq]; simp [h1]
    refine ⟨r, s1, hrun, Visited.propagated 5 r s1 decidedExample_reach hrun, fun hq => ?_⟩
    obtain ⟨k, hk, hv⟩ := hq 1 (by omega) 1 (by decide) (by rw [e1]; exact v1)
      (by rw [e1, ht, hpr]; decide)
    rw [hlit] at hk
    have : k = 0 ∨ k = 1 := by
      simp only [List.length_cons, List.length_nil] at hk
      omega
    rcases this with e | e
    · rw [e, e0, v0] at hv
      omega
    · rw [e, e1, v1] at hv
      omega

/-- C19: in a run on a well-formed input, in every state in which the driver
calls `propagate`, every stored clause with a false watched literal whose
negation is among the first `propagated` literals of the trail holds a true
literal; and in such a state in which `propagate` has returned -1
(`propagated` is the length of the trail), every stored clause with a false
watched literal holds a true literal, so that if neither watched literal is
true, both are unassigned or a literal from position 2 on is true. -/
theorem watch_sound_reachable (s : Solver) (hr : Reach s) :
    WatchSoundAt s ∧ (s.propagated = s.trail.length → WatchSound s) := by
  have hc := (reach_inv hr).steady.1
  refine ⟨watchSoundAt_of_core hc, fun hq => ?_⟩
  rw [hq] at hc
  exact (quiet_of_core hc).2

/-- C19 instance: after the clauses `1` and `-1 2`, `propagate` implies the
literal `2` and returns -1 with both trail literals propagated; the watched
literal `-1` of the clause `2 -1` is false, and the clause holds the true
literal `2`. -/
theorem watch_sound_reachable_witness :
    ∃ s1 : Solver, propagate 5 chainExample = some (-1, s1) ∧ Reach s1 ∧
      s1.propagated = s1.trail.length ∧
      litValue s1.value (litAt s1 0 1) = -1 ∧ litValue s1.value (litAt s1 0 0) = 1 ∧
      WatchSoundAt s1 ∧ (s1.propagated = s1.trail.length → WatchSound s1) := by
  obtain ⟨s1, hrun, hsum⟩ := chainExample_run
  have hs : watchSummary s1 = [[1, 2], [1, 1, 0], [Int.ofNat 2]] ++ [[2, -1]] := hsum
  obtain ⟨ht, h1, h2, _, hpr, hdb⟩ := of_watchSummary hs
  obtain ⟨_, hlit⟩ := db_of_map hdb
  have e0 : litAt s1 0 0 = 2 := by unfold litAt; rw [hlit]; rfl
  have e1 : litAt s1 0 1 = -1 := by unfold litAt; rw [hlit]; rfl
  refine ⟨s1, hrun, Reach.quiet 5 s1 chainExample_reach hrun, by rw [hpr, ht]; rfl, ?_, ?_,
    watch_sound_reachable s1 (Reach.quiet 5 s1 chainExample_reach hrun)⟩
  · rw [e1, litValue_eq]
    simp [h1]
  · rw [e0, litValue_eq]
    simp [h2]

end Solver

end EasySAT

namespace EasySAT

namespace Solver

end Solver

end EasySAT

namespace EasySAT

namespace Solver

end Solver

end EasySAT

namespace EasySAT

namespace Solver

end Solver

end EasySAT

namespace EasySAT

namespace Solver

end Solver

end EasySAT

namespace EasySAT

namespace Solver

end Solver

end EasySAT

namespace EasySAT

namespace Solver

end Solver

end EasySAT

namespace EasySAT

namespace Solver

end Solver

end EasySAT

namespace EasySAT

namespace Solver

end Solver

end EasySAT

namespace EasySAT

namespace Solver

end Solver

end EasySAT

